import Mathlib

/-!
# Distributed calculator: expression compiler, task store and rollup

A shallow embedding of the Go sources under `internal/calculator`,
`internal/store`, `internal/handler` and `cmd/agent`, followed by theorems
about them.

Conventions of the embedding:

* A Go `string` is a Lean `String`; every operation goes through its list of
  characters (`String.data`).  Where the source indexes a string by byte, the
  doc comment of the definition explains the character-level reading.
* A Go `error` is the message string; `Except String α` is a result with an
  error.
* `float64`, the Unicode digit table and the process environment are not part
  of the repository: they are the fields of `Lib`, and every definition that
  needs them takes a `Lib`.
* Stacks that the source keeps in slices with the top at the end are lists
  with the top at the head.
* The database tables are lists of rows in insertion order.
-/

namespace Calc

/-! ## Platform -/

/-- The parts of the Go runtime and standard library the program relies on:
`float64` with its four operations and the comparison with zero,
`strconv.ParseFloat(s, 64)`, the table of decimal digits above U+00FF that
`unicode.IsDigit` consults, and `os.Getenv`. -/
structure Lib where
  /-- The type `float64`. -/
  F : Type
  /-- The constant `0`. -/
  zero : F
  /-- The sum `a + b`. -/
  add : F → F → F
  /-- The difference `a - b`. -/
  sub : F → F → F
  /-- The product `a * b`. -/
  mul : F → F → F
  /-- The quotient `a / b`. -/
  div : F → F → F
  /-- The test `x == 0`. -/
  eqZero : F → Bool
  /-- The call `strconv.ParseFloat(s, 64)`: the value, or the error message. -/
  ParseFloat : String → Except String F
  /-- Membership in the range table `unicode.Digit` for code points above U+00FF. -/
  isNd : Char → Bool
  /-- The call `os.Getenv(key)`. -/
  Getenv : String → String

/-! ## Strings -/

deriving instance DecidableEq for Except

/-- The test `unicode.IsDigit(r)`: up to U+00FF it is `'0' <= r && r <= '9'`,
above it is a lookup in the table of decimal digits. -/
def unicodeIsDigit (L : Lib) (r : Char) : Bool :=
  if r.toNat ≤ 255 then decide (48 ≤ r.toNat ∧ r.toNat ≤ 57) else L.isNd r

/-- The test `unicode.IsSpace(r)`. -/
def unicodeIsSpace (r : Char) : Bool :=
  let n := r.toNat
  decide (n = 9 ∨ n = 10 ∨ n = 11 ∨ n = 12 ∨ n = 13 ∨ n = 32 ∨ n = 133 ∨ n = 160 ∨
    n = 5760 ∨ (8192 ≤ n ∧ n ≤ 8202) ∨ n = 8232 ∨ n = 8233 ∨ n = 8239 ∨ n = 8287 ∨
    n = 12288)

/-- The call `strings.HasPrefix(s, p)`. -/
def stringsHasPrefix (s p : String) : Bool :=
  p.data.isPrefixOf s.data

/-- The call `strings.TrimPrefix(s, p)`. -/
def stringsTrimPrefix (s p : String) : String :=
  if stringsHasPrefix s p then String.mk (s.data.drop p.data.length) else s

/-- The call `strings.TrimSpace(s)`. -/
def stringsTrimSpace (s : String) : String :=
  String.mk ((s.data.dropWhile unicodeIsSpace).reverse.dropWhile unicodeIsSpace).reverse

/-- The loop of `strings.FieldsFunc`: `cur` is the field being read. -/
def fieldsLoop (f : Char → Bool) : List Char → List Char → List String
  | [], cur => if cur = [] then [] else [String.mk cur]
  | c :: cs, cur =>
    if f c then
      if cur = [] then fieldsLoop f cs [] else String.mk cur :: fieldsLoop f cs []
    else fieldsLoop f cs (cur ++ [c])

/-- The call `strings.FieldsFunc(s, f)`: the maximal runs of characters not
satisfying `f`. -/
def stringsFieldsFunc (s : String) (f : Char → Bool) : List String :=
  fieldsLoop f s.data []

/-- The number of bytes of the UTF-8 encoding of the characters `cs`. -/
def byteLen (cs : List Char) : Nat :=
  (cs.map Char.utf8Size).sum

/-! ## Tokenizer (`parser.go`) -/

/-- The type `tokenType`. -/
inductive tokenType where
  | number
  | operator
  | leftParen
  | rightParen
  deriving DecidableEq

/-- The type `token`. -/
structure token where
  value : String
  type_ : tokenType
  deriving DecidableEq

/-- The condition `unicode.IsDigit(rune(expression[i+1])) || expression[i+1] == '.'`
guarded by `i != len(expression)-1`, where `i` is the byte offset of `ch` and
`rest` the characters after it.  When `ch` takes one byte, `expression[i+1]` is
the first byte of the next character: it is a digit or a dot exactly when that
character is an ASCII digit or a dot (the first byte of a longer character is
at least 0xC2).  When `ch` takes several bytes, `expression[i+1]` is one of its
continuation bytes (0x80 to 0xBF), never a digit or a dot. -/
def nextIsDigitOrDot (ch : Char) (rest : List Char) : Bool :=
  if ch.utf8Size = 1 then
    match rest with
    | [] => false
    | c :: _ => decide (48 ≤ c.toNat ∧ c.toNat ≤ 57) || c == '.'
  else false

/-- The `for i, ch := range expression` loop of `tokenize`: `tokens`,
`current` and `parenCount` are the local variables of the source. -/
def tokenizeLoop (L : Lib) :
    List Char → List token → List Char → Int → Except String (List token × Int)
  | [], tokens, _, parenCount => .ok (tokens, parenCount)
  | ch :: rest, tokens, current, parenCount =>
    if unicodeIsDigit L ch || ch == '.' then
      if nextIsDigitOrDot ch rest then
        tokenizeLoop L rest tokens (current ++ [ch]) parenCount
      else
        tokenizeLoop L rest (tokens ++ [⟨String.mk (current ++ [ch]), .number⟩]) [] parenCount
    else if ch == '+' || ch == '-' || ch == '*' || ch == '/' then
      if current.length > 0 then
        tokenizeLoop L rest
          (tokens ++ [⟨String.mk current, .number⟩] ++ [⟨String.singleton ch, .operator⟩])
          [] parenCount
      else
        tokenizeLoop L rest (tokens ++ [⟨String.singleton ch, .operator⟩]) current parenCount
    else if ch == '(' then
      tokenizeLoop L rest (tokens ++ [⟨"(", .leftParen⟩]) current (parenCount + 1)
    else if ch == ')' then
      let tokens1 :=
        if current.length > 0 then tokens ++ [⟨String.mk current, .number⟩] else tokens
      let current1 := if current.length > 0 then [] else current
      if parenCount - 1 < 0 then .error "unbalanced parentheses"
      else tokenizeLoop L rest (tokens1 ++ [⟨")", .rightParen⟩]) current1 (parenCount - 1)
    else tokenizeLoop L rest tokens current parenCount

/-- The function `tokenize`. -/
def tokenize (L : Lib) (expression : String) : Except String (List token) :=
  match tokenizeLoop L expression.data [] [] 0 with
  | .error e => .error e
  | .ok (tokens, parenCount) =>
    if parenCount ≠ 0 then .error "unbalanced parentheses" else .ok tokens

/-! ## Parser (`parser.go`, `tree.go`) -/

/-- The type `Node`; `nil` is the nil pointer. -/
inductive Node where
  | nil : Node
  | mk (Value : String) (Left Right : Node) (TaskID : String) (Priority : Int) : Node
  deriving DecidableEq

/-- The function `precedence`. -/
def precedence (op : String) : Int :=
  if op = "+" ∨ op = "-" then 1
  else if op = "*" ∨ op = "/" then 2
  else 0

/-- The body shared by the three reduction loops of `buildExpressionTree`:
takes the two topmost nodes of the output and pushes the node of `op`. -/
def reduceTop (op : String) : List Node → Except String (List Node)
  | right :: left :: rest => .ok (Node.mk op left right "" (precedence op) :: rest)
  | _ => .error "invalid expression"

/-- A reduction loop of `buildExpressionTree`: while the operator stack is not
empty and its top satisfies `cond`, pop it and reduce. -/
def popOperators (cond : String → Bool) :
    List String → List Node → Except String (List String × List Node)
  | [], outputQueue => .ok ([], outputQueue)
  | op :: operatorStack, outputQueue =>
    if cond op then
      match reduceTop op outputQueue with
      | .error e => .error e
      | .ok outputQueue1 => popOperators cond operatorStack outputQueue1
    else .ok (op :: operatorStack, outputQueue)

/-- One iteration of the `for _, t := range tokens` loop of
`buildExpressionTree`. -/
def buildStep (t : token) (operatorStack : List String) (outputQueue : List Node) :
    Except String (List String × List Node) :=
  match t.type_ with
  | .number => .ok (operatorStack, Node.mk t.value .nil .nil "" 0 :: outputQueue)
  | .operator =>
    match popOperators (fun top => decide (precedence top ≥ precedence t.value) && top != "(")
        operatorStack outputQueue with
    | .error e => .error e
    | .ok (operatorStack1, outputQueue1) => .ok (t.value :: operatorStack1, outputQueue1)
  | .leftParen => .ok (t.value :: operatorStack, outputQueue)
  | .rightParen =>
    match popOperators (fun top => top != "(") operatorStack outputQueue with
    | .error e => .error e
    | .ok ([], _) => .error "unbalanced parentheses"
    | .ok (_ :: operatorStack1, outputQueue1) => .ok (operatorStack1, outputQueue1)

/-- The `for _, t := range tokens` loop of `buildExpressionTree`. -/
def buildLoop : List token → List String → List Node → Except String (List String × List Node)
  | [], operatorStack, outputQueue => .ok (operatorStack, outputQueue)
  | t :: ts, operatorStack, outputQueue =>
    match buildStep t operatorStack outputQueue with
    | .error e => .error e
    | .ok (operatorStack1, outputQueue1) => buildLoop ts operatorStack1 outputQueue1

/-- The function `buildExpressionTree`. -/
def buildExpressionTree (tokens : List token) : Except String Node :=
  match buildLoop tokens [] [] with
  | .error e => .error e
  | .ok (operatorStack, outputQueue) =>
    match popOperators (fun _ => true) operatorStack outputQueue with
    | .error e => .error e
    | .ok (_, [n]) => .ok n
    | .ok (_, _) => .error "invalid expression"

/-! ## Validator (`validator.go`) -/

/-- The function `isOperator`. -/
def isOperator (s : String) : Bool :=
  s == "+" || s == "-" || s == "*" || s == "/"

/-- The first loop of `ValidateExpression`: the byte offset and the character
of the first character that is neither a digit nor one of `+ - * / . ( )`. -/
def findInvalidChar (L : Lib) : List Char → Nat → Option (Nat × Char)
  | [], _ => none
  | ch :: rest, i =>
    if !unicodeIsDigit L ch && ch != '+' && ch != '-' && ch != '*' && ch != '/' && ch != '.' &&
        ch != '(' && ch != ')' then some (i, ch)
    else findInvalidChar L rest (i + ch.utf8Size)

/-- The second loop of `ValidateExpression`, which compares the bytes `expr[i]`
and `expr[i+1]`: the offset of the first pair of adjacent operator bytes.  A
byte below 0x80 is always a whole character, so the pairs of adjacent operator
bytes are the pairs of adjacent operator characters. -/
def findConsecutiveOperators : List Char → Nat → Option Nat
  | [], _ => none
  | [_], _ => none
  | c1 :: c2 :: rest, i =>
    if isOperator (String.singleton c1) && isOperator (String.singleton c2) then some i
    else findConsecutiveOperators (c2 :: rest) (i + c1.utf8Size)

/-- The third loop of `ValidateExpression`: the final `openCount`, or `none`
when it becomes negative on the way. -/
def countParens : List Char → Int → Option Int
  | [], openCount => some openCount
  | ch :: rest, openCount =>
    if ch == '(' then countParens rest (openCount + 1)
    else if ch == ')' then
      if openCount - 1 < 0 then none else countParens rest (openCount - 1)
    else countParens rest openCount

/-- The last loop of `ValidateExpression`, over the fields of the string. -/
def checkOperands (L : Lib) : List String → Except String Unit
  | [] => .ok ()
  | tok :: rest =>
    let tok1 := stringsTrimSpace tok
    if tok1 = "" then checkOperands L rest
    else
      match L.ParseFloat tok1 with
      | .error _ => .error ("invalid operand: " ++ tok1)
      | .ok _ => checkOperands L rest

/-- The function `ValidateExpression`. -/
def ValidateExpression (L : Lib) (expr : String) : Except String Unit :=
  if expr.data.length = 0 then .error "expression cannot be empty"
  else
    match findInvalidChar L expr.data 0 with
    | some (i, ch) =>
      .error ("invalid character at position " ++ toString i ++ ": " ++ String.singleton ch)
    | none =>
      match findConsecutiveOperators expr.data 0 with
      | some i => .error ("consecutive operators at position " ++ toString i)
      | none =>
        match countParens expr.data 0 with
        | none => .error "mismatched parentheses"
        | some openCount =>
          if openCount ≠ 0 then .error "mismatched parentheses"
          else
            checkOperands L (stringsFieldsFunc expr (fun r =>
              r == '+' || r == '-' || r == '*' || r == '/' || r == '(' || r == ')'))

/-! ## Task compiler (`tree.go`) -/

/-- The type `store.Task`. -/
structure Task (L : Lib) where
  ID : String
  ExpressionID : String
  Arg1 : String
  Arg2 : String
  Operator : String
  OperationTime : Int
  Result : L.F
  Completed : Bool
  UserID : String

/-- The function `generateTaskID`; `uuid k` is the text of the `k`-th
identifier drawn from `uuid.New()`. -/
def generateTaskID (uuid : Nat → String) (k : Nat) : String :=
  "task-" ++ uuid k

/-- The function `getNodeReference`. -/
def getNodeReference : Node → String
  | .nil => ""
  | .mk Value _ _ TaskID _ => if isOperator Value then "task:" ++ TaskID else Value

/-- The digits of a decimal numeral, most significant first; `none` when a
character is not an ASCII digit. -/
def decimalValue : List Char → Nat → Option Nat
  | [], n => some n
  | ch :: rest, n =>
    if 48 ≤ ch.toNat ∧ ch.toNat ≤ 57 then decimalValue rest (n * 10 + (ch.toNat - 48)) else none

/-- The call `strconv.Atoi(s)` on a 64-bit platform, `none` when it returns an
error: an optional sign, then at least one digit and only digits, and a value
in the range of `int`. -/
def strconvAtoi (s : String) : Option Int :=
  let neg := s.data.head? = some '-'
  let digits := if s.data.head? = some '-' ∨ s.data.head? = some '+' then s.data.tail else s.data
  if digits = [] then none
  else
    match decimalValue digits 0 with
    | none => none
    | some n =>
      if neg then (if n ≤ 2 ^ 63 then some (-(n : Int)) else none)
      else (if n < 2 ^ 63 then some (n : Int) else none)

/-- The function `getOperationTime`. -/
def getOperationTime (L : Lib) (op : String) : Int :=
  if op = "+" ∨ op = "-" ∨ op = "*" ∨ op = "/" then
    let envVar :=
      if op = "+" then L.Getenv "TIME_ADDITION_MS"
      else if op = "-" then L.Getenv "TIME_SUBTRACTION_MS"
      else if op = "*" then L.Getenv "TIME_MULTIPLICATIONS_MS"
      else L.Getenv "TIME_DIVISIONS_MS"
    match strconvAtoi envVar with
    | none =>
      if op = "+" ∨ op = "-" then 100
      else if op = "*" then 200
      else if op = "/" then 300
      else 0
    | some t => t
  else 0

/-- The function `createTasksFromTree`.  The source writes the new identifier
into `node.TaskID` and draws identifiers from `uuid.New()`: here the function
takes the number `k` of identifiers drawn so far and returns the tree after the
writes, the task list and the new count.  The error result of the source is
always nil. -/
def createTasksFromTree (L : Lib) (uuid : Nat → String) (exprID : String) :
    Node → Nat → Node × List (Task L) × Nat
  | .nil, k => (.nil, [], k)
  | .mk Value Left Right TaskID Priority, k =>
    match createTasksFromTree L uuid exprID Left k with
    | (Left1, leftTasks, k1) =>
      match createTasksFromTree L uuid exprID Right k1 with
      | (Right1, rightTasks, k2) =>
        if isOperator Value then
          let taskID := generateTaskID uuid k2
          (.mk Value Left1 Right1 taskID Priority,
            leftTasks ++ rightTasks ++
              [{ ID := taskID, ExpressionID := exprID, Arg1 := getNodeReference Left1,
                 Arg2 := getNodeReference Right1, Operator := Value,
                 OperationTime := getOperationTime L Value, Result := L.zero,
                 Completed := false, UserID := "" }],
            k2 + 1)
        else (.mk Value Left1 Right1 TaskID Priority, leftTasks ++ rightTasks, k2)

/-! ## Aggregator (`aggregator.go`) -/

/-- A pointer of the graph that `getRootNode` builds: nil, a fresh leaf
`&Node{Value: v}`, or the node stored in the map `nodes` under a task
identifier. -/
inductive Ptr where
  | null : Ptr
  | leaf (Value : String) : Ptr
  | task (id : String) : Ptr
  deriving DecidableEq

/-- A node of the graph that `getRootNode` builds: the fields of `Node` with
pointers for the children. -/
structure GraphNode where
  Value : String
  TaskID : String
  Left : Ptr
  Right : Ptr
  deriving DecidableEq

/-- A Go map with string keys: the binding of a key is its first occurrence
in the list, and an assignment puts the new binding in front. -/
abbrev GoMap (α : Type) := List (String × α)

/-- The map lookup `m[key]` with its presence flag. -/
def GoMap.get {α : Type} (m : GoMap α) (key : String) : Option α :=
  match m with
  | [] => none
  | (k, v) :: rest => if k = key then some v else GoMap.get rest key

/-- The assignment `m[key] = v`. -/
def GoMap.set {α : Type} (m : GoMap α) (key : String) (v : α) : GoMap α :=
  (key, v) :: m

/-- The child pointer that `getRootNode` stores for the operand `arg`. -/
def childPtr (nodes : GoMap GraphNode) (arg : String) : Ptr :=
  if stringsHasPrefix arg "task:" then
    match nodes.get (stringsTrimPrefix arg "task:") with
    | none => .null
    | some _ => .task (stringsTrimPrefix arg "task:")
  else .leaf arg

/-- The first loop of `getRootNode`. -/
def createNodes {L : Lib} : List (Task L) → GoMap GraphNode → GoMap GraphNode
  | [], nodes => nodes
  | t :: ts, nodes =>
    createNodes ts (nodes.set t.ID
      { Value := t.Operator, TaskID := t.ID, Left := .null, Right := .null })

/-- The second loop of `getRootNode`. -/
def linkNodes {L : Lib} : List (Task L) → GoMap GraphNode → GoMap GraphNode
  | [], nodes => nodes
  | t :: ts, nodes =>
    match nodes.get t.ID with
    | none => linkNodes ts nodes
    | some n =>
      linkNodes ts (nodes.set t.ID
        { n with Left := childPtr nodes t.Arg1, Right := childPtr nodes t.Arg2 })

/-- The function `getRootNode`: the graph and the pointer to its root. -/
def getRootNode {L : Lib} (tasks : List (Task L)) : Except String (GoMap GraphNode × Ptr) :=
  let nodes := linkNodes tasks (createNodes tasks [])
  match tasks.getLast? with
  | none => .error "no tasks to aggregate"
  | some last =>
    match nodes.get last.ID with
    | none => .ok (nodes, .null)
    | some _ => .ok (nodes, .task last.ID)

/-- The node a pointer points to. -/
def deref (nodes : GoMap GraphNode) : Ptr → Option GraphNode
  | .null => none
  | .leaf Value => some { Value := Value, TaskID := "", Left := .null, Right := .null }
  | .task id => nodes.get id

/-- The function `evaluateWithResults` on the graph `nodes`.  The recursion of
the source follows pointers and has no bound; here each call uses one unit of
`fuel`, and `none` is a recursion that needs more. -/
def evaluateWithResults (L : Lib) (nodes : GoMap GraphNode) (results : GoMap L.F) :
    Nat → Ptr → Option (Except String L.F)
  | 0, _ => none
  | fuel + 1, p =>
    match deref nodes p with
    | none => some (.error "empty node")
    | some n =>
      if !isOperator n.Value then
        match results.get n.TaskID with
        | some val => some (.ok val)
        | none => some (L.ParseFloat n.Value)
      else
        match evaluateWithResults L nodes results fuel n.Left with
        | none => none
        | some (.error e) => some (.error e)
        | some (.ok left) =>
          match evaluateWithResults L nodes results fuel n.Right with
          | none => none
          | some (.error e) => some (.error e)
          | some (.ok right) =>
            if n.Value = "+" then some (.ok (L.add left right))
            else if n.Value = "-" then some (.ok (L.sub left right))
            else if n.Value = "*" then some (.ok (L.mul left right))
            else if n.Value = "/" then
              if L.eqZero right then some (.error "division by zero")
              else some (.ok (L.div left right))
            else some (.error ("unknown operator " ++ n.Value))

/-- The first loop of `AggregateResults`. -/
def collectResults {L : Lib} : List (Task L) → GoMap L.F → Except String (GoMap L.F)
  | [], results => .ok results
  | task :: rest, results =>
    if !task.Completed then .error ("task " ++ task.ID ++ " is not completed yet")
    else collectResults rest (results.set task.ID task.Result)

/-- The function `AggregateResults`.  A call chain of `evaluateWithResults`
that ends visits no task node twice and leaves the task nodes at most for a
leaf and then for its nil child, so it is at most two longer than the task
list: with this fuel `none` is a recursion that never ends. -/
def AggregateResults (L : Lib) (tasks : List (Task L)) : Option (Except String L.F) :=
  match collectResults tasks [] with
  | .error e => some (.error e)
  | .ok results =>
    match getRootNode tasks with
    | .error e => some (.error e)
    | .ok (nodes, root) => evaluateWithResults L nodes results (tasks.length + 2) root

/-! ## Store (`task_store.go`, `expression_store.go`, `wrapper.go`)

The tables `expressions` and `tasks` of `createTables`, each a list of rows in
insertion order; a `SELECT` without `ORDER BY` reads the rows in that order.
Both tables have `id TEXT PRIMARY KEY`: an insert of an identifier that is
already in the table fails.  Failures of the database itself are not part of
the model. -/

/-- A row of the table `expressions`; `result` is `none` for NULL and
`created_at` is the position of the time stamp in the order of time stamps. -/
structure ExpressionRow (L : Lib) where
  id : String
  user_id : String
  expression : String
  status : String
  result : Option L.F
  created_at : Int

/-- A row of the table `tasks`; `result` is `none` for NULL. -/
structure TaskRow (L : Lib) where
  id : String
  expression_id : String
  user_id : String
  arg1 : String
  arg2 : String
  operator : String
  operation_time : Int
  result : Option L.F
  completed : Bool

/-- The database. -/
structure Store (L : Lib) where
  expressions : List (ExpressionRow L)
  tasks : List (TaskRow L)

/-- The database after `createTables`. -/
def Store.empty (L : Lib) : Store L :=
  { expressions := [], tasks := [] }

/-- The constraint `PRIMARY KEY` of both tables. -/
def Store.keysUnique {L : Lib} (s : Store L) : Prop :=
  (s.expressions.map (fun e => e.id)).Nodup ∧ (s.tasks.map (fun t => t.id)).Nodup

/-- The type `store.Expression`. -/
structure Expression (L : Lib) where
  ID : String
  Expression : String
  Status : String
  Result : L.F
  CreatedAt : Int

/-- The SQL function `COALESCE(result, 0)`. -/
def coalesce {L : Lib} (r : Option L.F) : L.F :=
  match r with
  | none => L.zero
  | some x => x

/-- The inserts of `RegisterTasks`, in the order of the list; the error of the
first insert that fails. -/
def insertTasks {L : Lib} (exprID userID : String) :
    List (Task L) → List (TaskRow L) → Except String (List (TaskRow L))
  | [], rows => .ok rows
  | task :: rest, rows =>
    if rows.any (fun r => r.id = task.ID) then
      .error ("failed to insert task " ++ task.ID ++ ": UNIQUE constraint failed: tasks.id")
    else
      insertTasks exprID userID rest
        (rows ++ [{ id := task.ID, expression_id := exprID, user_id := userID,
                    arg1 := task.Arg1, arg2 := task.Arg2, operator := task.Operator,
                    operation_time := task.OperationTime, result := none,
                    completed := task.Completed }])

/-- The function `RegisterTasks`: one transaction, rolled back when an insert
fails. -/
def RegisterTasks {L : Lib} (s : Store L) (exprID userID : String) (tasks : List (Task L)) :
    Except String Unit × Store L :=
  match insertTasks exprID userID tasks s.tasks with
  | .error e => (.error e, s)
  | .ok rows => (.ok (), { s with tasks := rows })

/-- The `rows.Scan` of `GetTasksByExpression`. -/
def TaskRow.scan {L : Lib} (r : TaskRow L) : Task L :=
  { ID := r.id, ExpressionID := r.expression_id, UserID := r.user_id, Arg1 := r.arg1,
    Arg2 := r.arg2, Operator := r.operator, OperationTime := r.operation_time,
    Result := coalesce r.result, Completed := r.completed }

/-- The `Scan` of `GetTask` and `GetNextExecutableTask`, whose queries do not
select `user_id`. -/
def TaskRow.scanNoUser {L : Lib} (r : TaskRow L) : Task L :=
  { ID := r.id, ExpressionID := r.expression_id, UserID := "", Arg1 := r.arg1,
    Arg2 := r.arg2, Operator := r.operator, OperationTime := r.operation_time,
    Result := coalesce r.result, Completed := r.completed }

/-- The function `GetTasksByExpression`. -/
def GetTasksByExpression {L : Lib} (s : Store L) (exprID userID : String) : List (Task L) :=
  (s.tasks.filter (fun r => r.expression_id = exprID ∧ r.user_id = userID)).map TaskRow.scan

/-- The function `isTaskReference`: `len(arg) > 5 && arg[:5] == "task:"`, the
length being in bytes. -/
def isTaskReference (arg : String) : Bool :=
  decide (byteLen arg.data > 5) && arg.data.take 5 == "task:".data

/-- The function `isTaskCompleted`. -/
def isTaskCompleted (taskID : String) (completedTasks : GoMap Bool) : Bool :=
  match completedTasks.get taskID with
  | none => false
  | some b => b

/-- The first loop of `GetExecutableTasks`. -/
def completedMap {L : Lib} : List (Task L) → GoMap Bool → GoMap Bool
  | [], completedTasks => completedTasks
  | task :: rest, completedTasks =>
    if task.Completed then completedMap rest (completedTasks.set task.ID true)
    else completedMap rest completedTasks

/-- The slice `arg[5:]`. -/
def dropFive (arg : String) : String :=
  String.mk (arg.data.drop 5)

/-- The function `GetExecutableTasks`. -/
def GetExecutableTasks {L : Lib} (s : Store L) (exprID userID : String) : List (Task L) :=
  let tasks := GetTasksByExpression s exprID userID
  let completedTasks := completedMap tasks []
  tasks.filter (fun task =>
    !task.Completed &&
    ((!isTaskReference task.Arg1 || isTaskCompleted (dropFive task.Arg1) completedTasks) &&
     (!isTaskReference task.Arg2 || isTaskCompleted (dropFive task.Arg2) completedTasks)))

/-- The `WHERE` clause of the query of `GetNextExecutableTask`. -/
def nextExecutableWhere {L : Lib} (s : Store L) (t : TaskRow L) : Bool :=
  t.completed == false &&
  !(s.tasks.any (fun t2 => t2.completed == false && decide ("task:" ++ t2.id = t.arg1))) &&
  !(s.tasks.any (fun t2 => t2.completed == false && decide ("task:" ++ t2.id = t.arg2)))

/-- The function `GetNextExecutableTask`. -/
def GetNextExecutableTask {L : Lib} (s : Store L) : Option (Task L) :=
  (s.tasks.find? (nextExecutableWhere s)).map TaskRow.scanNoUser

/-- The function `GetTask`. -/
def GetTask {L : Lib} (s : Store L) (taskID : String) : Option (Task L) :=
  (s.tasks.find? (fun r => r.id = taskID)).map TaskRow.scanNoUser

/-- The function `CompleteTask`. -/
def CompleteTask {L : Lib} (s : Store L) (taskID : String) (result : L.F) : Store L :=
  { s with tasks := s.tasks.map (fun r =>
      if r.id = taskID then { r with completed := true, result := some result } else r) }

/-- The function `CountIncompleteTasks`. -/
def CountIncompleteTasks {L : Lib} (s : Store L) (exprID : String) : Nat :=
  (s.tasks.filter (fun r => r.expression_id = exprID ∧ r.completed = false)).length

/-- The function `UpdateExpressionStatus`; the error is that of an update
that affects no row. -/
def UpdateExpressionStatus {L : Lib} (s : Store L) (exprID status : String) (result : L.F) :
    Except String Unit × Store L :=
  if s.expressions.any (fun e => e.id = exprID) then
    (.ok (), { s with expressions := s.expressions.map (fun e =>
        if e.id = exprID then { e with status := status, result := some result } else e) })
  else (.error ("UpdateExpressionStatus: no rows affected for exprID=" ++ exprID), s)

/-- The function `GetUsersWithPendingExpressions`. -/
def GetUsersWithPendingExpressions {L : Lib} (s : Store L) : List String :=
  ((s.expressions.filter (fun e => e.status = "pending")).map (fun e => e.user_id)).dedup

/-- The `rows.Scan` of `ListExpressions` and `GetExpression`. -/
def ExpressionRow.scan {L : Lib} (e : ExpressionRow L) : Expression L :=
  { ID := e.id, Expression := e.expression, Status := e.status, Result := coalesce e.result,
    CreatedAt := e.created_at }

/-- The function `ListExpressions`: the rows of the user, latest first. -/
def ListExpressions {L : Lib} (s : Store L) (userID : String) : List (Expression L) :=
  ((s.expressions.filter (fun e => e.user_id = userID)).insertionSort
    (fun a b => a.created_at ≥ b.created_at)).map ExpressionRow.scan

/-- The function `GetExpression`. -/
def GetExpression {L : Lib} (s : Store L) (id : String) : Option (Expression L) :=
  (s.expressions.find? (fun e => e.id = id)).map ExpressionRow.scan

/-- The function `NewExpression`; `now` is the value of `time.Now().UnixNano()`
that names the expression and `createdAt` the time stamp of the row. -/
def NewExpression {L : Lib} (s : Store L) (exprText userID : String) (now createdAt : Int) :
    Except String (Expression L) × Store L :=
  let id := "expr-" ++ toString now
  if s.expressions.any (fun e => e.id = id) then
    (.error "failed to insert expression: UNIQUE constraint failed: expressions.id", s)
  else
    (.ok { ID := id, Expression := exprText, Status := "pending", Result := L.zero,
           CreatedAt := createdAt },
     { s with expressions := s.expressions ++
        [{ id := id, user_id := userID, expression := exprText, status := "pending",
           result := none, created_at := createdAt }] })

/-! ## Submission (`calculator.go`) -/

/-- The call `strings.ReplaceAll(exprStr, " ", "")`. -/
def removeSpaces (exprStr : String) : String :=
  String.mk (exprStr.data.filter (fun c => c != ' '))

/-- The function `ProcessExpression`: the returned expression or error, and
the database afterwards.  `now` and `createdAt` are the two readings of the
clock in `NewExpression`, `uuid` the identifiers drawn by `generateTaskID`. -/
def ProcessExpression (L : Lib) (s : Store L) (exprStr userID : String) (now createdAt : Int)
    (uuid : Nat → String) : Except String (Expression L) × Store L :=
  let exprStr1 := removeSpaces exprStr
  match ValidateExpression L exprStr1 with
  | .error e => (.error e, s)
  | .ok _ =>
    match tokenize L exprStr1 with
    | .error e => (.error e, s)
    | .ok tokens =>
      match buildExpressionTree tokens with
      | .error e => (.error e, s)
      | .ok tree =>
        match NewExpression s exprStr1 userID now createdAt with
        | (.error e, s1) => (.error ("failed to create expression record: " ++ e), s1)
        | (.ok expr, s1) =>
          match RegisterTasks s1 expr.ID userID (createTasksFromTree L uuid expr.ID tree 0).2.1 with
          | (.error e, s2) => (.error ("failed to register tasks: " ++ e), s2)
          | (.ok _, s2) => (.ok expr, s2)

/-! ## Task handlers (`task_handler.go`) -/

/-- The function `handlePostTaskResult` on a decoded request: the database
afterwards and the status code of the response. -/
def handlePostTaskResult {L : Lib} (s : Store L) (ID : String) (Result : L.F) : Store L × Nat :=
  match GetTask s ID with
  | none => (s, 404)
  | some task =>
    let s1 := CompleteTask s ID Result
    let exprID := task.ExpressionID
    let remaining := CountIncompleteTasks s1 exprID
    if remaining = 0 then ((UpdateExpressionStatus s1 exprID "completed" Result).2, 200)
    else ((UpdateExpressionStatus s1 exprID "in_progress" L.zero).2, 200)

/-- The body of the loop of `ProcessUserTasks` for one expression of the
list read at the start; `none` when `AggregateResults` does not return. -/
def processUserExpression (L : Lib) (s : Store L) (userID : String) (expr : Expression L) :
    Option (Store L) :=
  if expr.Status ≠ "pending" ∧ expr.Status ≠ "in_progress" then some s
  else
    let executableTasks := GetExecutableTasks s expr.ID userID
    if executableTasks.length = 0 then
      let incomplete := CountIncompleteTasks s expr.ID
      if incomplete = 0 then
        let tasks := GetTasksByExpression s expr.ID userID
        match AggregateResults L tasks with
        | none => none
        | some (.error _) => some s
        | some (.ok result) => some (UpdateExpressionStatus s expr.ID "completed" result).2
      else some s
    else if expr.Status = "pending" then
      some (UpdateExpressionStatus s expr.ID "in_progress" L.zero).2
    else some s

/-- The loop of `ProcessUserTasks`. -/
def processUserLoop (L : Lib) (userID : String) : List (Expression L) → Store L → Option (Store L)
  | [], s => some s
  | expr :: rest, s =>
    match processUserExpression L s userID expr with
    | none => none
    | some s1 => processUserLoop L userID rest s1

/-- The function `ProcessUserTasks`. -/
def ProcessUserTasks (L : Lib) (s : Store L) (userID : String) : Option (Store L) :=
  processUserLoop L userID (ListExpressions s userID) s

/-- The loop of `ProcessPendingTasks`. -/
def processPendingLoop (L : Lib) : List String → Store L → Option (Store L)
  | [], s => some s
  | userID :: rest, s =>
    match ProcessUserTasks L s userID with
    | none => none
    | some s1 => processPendingLoop L rest s1

/-- The function `ProcessPendingTasks`, one run of the periodic sweep. -/
def ProcessPendingTasks (L : Lib) (s : Store L) : Option (Store L) :=
  processPendingLoop L (GetUsersWithPendingExpressions s) s

/-- The function `HandleInternalTaskByID`: the result in the response, `none`
for the status 404. -/
def HandleInternalTaskByID {L : Lib} (s : Store L) (id : String) : Option L.F :=
  match GetTask s id with
  | none => none
  | some task => if task.Completed then some task.Result else none

/-! ## Agent (`cmd/agent/main.go`) -/

/-- The function `calculate`. -/
def calculate (L : Lib) (op : String) (a b : L.F) : Except String L.F :=
  if op = "+" then .ok (L.add a b)
  else if op = "-" then .ok (L.sub a b)
  else if op = "*" then .ok (L.mul a b)
  else if op = "/" then
    if L.eqZero b then .error "division by zero" else .ok (L.div a b)
  else .error ("unknown operator: " ++ op)

/-- The function `resolveArgument`, the request of `fetchTaskResultWithRetry`
being answered by `HandleInternalTaskByID` on the database `s`; the message of
the error leaves out the text of the last transport error. -/
def resolveArgument (L : Lib) (s : Store L) (arg : String) : Except String L.F :=
  if stringsHasPrefix arg "task:" then
    match HandleInternalTaskByID s (stringsTrimPrefix arg "task:") with
    | none => .error ("max retries for task " ++ stringsTrimPrefix arg "task:")
    | some r => .ok r
  else L.ParseFloat arg

/-- The function `processTask`. -/
def processTask (L : Lib) (s : Store L) (task : Task L) : Except String L.F :=
  match resolveArgument L s task.Arg1 with
  | .error e => .error ("arg1: " ++ e)
  | .ok arg1 =>
    match resolveArgument L s task.Arg2 with
    | .error e => .error ("arg2: " ++ e)
    | .ok arg2 => calculate L task.Operator arg1 arg2

/-! ## The orchestrator as a state machine -/

/-- The requests and events that change the database, each handled
atomically. -/
inductive Action (L : Lib) where
  | submit (exprStr userID : String) (now createdAt : Int) (uuid : Nat → String) : Action L
  | report (ID : String) (Result : L.F) : Action L
  | sweep : Action L

/-- The database after an action; `none` when the handler does not return. -/
def step (L : Lib) (s : Store L) : Action L → Option (Store L)
  | .submit exprStr userID now createdAt uuid =>
    some (ProcessExpression L s exprStr userID now createdAt uuid).2
  | .report ID Result => some (handlePostTaskResult s ID Result).1
  | .sweep => ProcessPendingTasks L s

/-- The database after a sequence of actions. -/
def run (L : Lib) : Store L → List (Action L) → Option (Store L)
  | s, [] => some s
  | s, a :: rest =>
    match step L s a with
    | none => none
    | some s1 => run L s1 rest

/-- The states the orchestrator reaches from the empty database. -/
def Reachable (L : Lib) (s : Store L) : Prop :=
  ∃ actions : List (Action L), run L (Store.empty L) actions = some s

/-! ## A platform for evaluation -/

/-- The decimal literals of `Lib.exact`: digits with at most one dot and at
least one digit, read as an exact rational. -/
def exactParseFloat (s : String) : Except String ℚ :=
  let intPart := s.data.takeWhile (fun c => c != '.')
  let frac := (s.data.dropWhile (fun c => c != '.')).tail
  if intPart = [] ∧ frac = [] then
    .error ("strconv.ParseFloat: parsing \"" ++ s ++ "\": invalid syntax")
  else
    match decimalValue (intPart ++ frac) 0 with
    | none => .error ("strconv.ParseFloat: parsing \"" ++ s ++ "\": invalid syntax")
    | some n => .ok ((n : ℚ) / 10 ^ frac.length)

/-- A platform on which the definitions can be evaluated: exact rational
arithmetic stands for `float64` (the two agree as long as every value met is a
`float64`, as with the small integers used below), no code point above U+00FF
counts as a digit, and no environment variable is set. -/
@[reducible] def Lib.exact : Lib :=
  { F := ℚ
    zero := 0
    add := fun a b => a + b
    sub := fun a b => a - b
    mul := fun a b => a * b
    div := fun a b => a / b
    eqZero := fun x => decide (x = 0)
    ParseFloat := exactParseFloat
    isNd := fun _ => false
    Getenv := fun _ => "" }

/-- A source of identifiers for evaluation: the `k`-th is `k` letters `u`. -/
def unaryUuid (k : Nat) : String :=
  String.mk (List.replicate k 'u')

/-! ## Vocabulary of the statements -/

/-- The front end of `ProcessExpression` up to the task list, without the
database: `ValidateExpression`, `tokenize`, `buildExpressionTree` and
`createTasksFromTree` for the expression identifier `exprID`. -/
def compile (L : Lib) (uuid : Nat → String) (exprID expr : String) :
    Except String (List (Task L)) :=
  match ValidateExpression L expr with
  | .error e => .error e
  | .ok _ =>
    match tokenize L expr with
    | .error e => .error e
    | .ok tokens =>
      match buildExpressionTree tokens with
      | .error e => .error e
      | .ok tree => .ok (createTasksFromTree L uuid exprID tree 0).2.1

/-- The task list with every task marked completed. -/
def markCompleted {L : Lib} (tasks : List (Task L)) : List (Task L) :=
  tasks.map (fun t => { t with Completed := true })

/-- A numeric literal of the expression language: a non-empty string of ASCII
digits and dots. -/
def isLiteral (a : String) : Prop :=
  a.data ≠ [] ∧ ∀ c ∈ a.data, (48 ≤ c.toNat ∧ c.toNat ≤ 57) ∨ c = '.'

/-- The characters `+ - * /`. -/
def isOperatorChar (c : Char) : Bool :=
  c == '+' || c == '-' || c == '*' || c == '/'

/-- The number of nodes of a tree whose `Value` is an operator. -/
def Node.operatorCount : Node → Nat
  | .nil => 0
  | .mk Value Left Right _ _ =>
    (if isOperator Value then 1 else 0) + Left.operatorCount + Right.operatorCount

/-- No node of the tree other than the operator nodes has a `Value` that
starts with `task:`. -/
def Node.plainLeaves : Node → Bool
  | .nil => true
  | .mk Value Left Right _ _ =>
    (isOperator Value || !stringsHasPrefix Value "task:") && Left.plainLeaves &&
      Right.plainLeaves

/-- The references of a task list name tasks of `pre` or earlier tasks of the
list itself. -/
def RefsResolve {L : Lib} (exprID : String) (pre0 tasks : List (Task L)) : Prop :=
  ∀ pre t post, tasks = pre ++ t :: post → ∀ id,
    (t.Arg1 = "task:" ++ id ∨ t.Arg2 = "task:" ++ id) →
      ∃ t1 ∈ pre0 ++ pre, t1.ID = id ∧ t1.ExpressionID = exprID

/-- The database after the submission of `1+2*3` by the user `alice` to the
empty database, the clock reading 1 and the identifiers being those of
`unaryUuid`. -/
def Store.sample : Store Lib.exact :=
  (ProcessExpression Lib.exact (Store.empty Lib.exact) "1+2*3" "alice" 1 1 unaryUuid).2

/-- The invariant of the database that the three kinds of action keep: the
primary keys are unique, every task belongs to an expression of the table, and
every task of a completed expression is completed. -/
def Store.Inv {L : Lib} (s : Store L) : Prop :=
  s.keysUnique ∧
  (∀ r ∈ s.tasks, ∃ e ∈ s.expressions, e.id = r.expression_id) ∧
  (∀ e ∈ s.expressions, e.status = "completed" →
    ∀ r ∈ s.tasks, r.expression_id = e.id → r.completed = true)

/-- Every expression that is completed in `s` is completed in `s1`. -/
def Store.CompletedStay {L : Lib} (s s1 : Store L) : Prop :=
  ∀ e ∈ s.expressions, e.status = "completed" →
    ∃ e1 ∈ s1.expressions, e1.id = e.id ∧ e1.status = "completed"

/-- The status of the expression `id`, as `GetExpression` reads it. -/
def statusOf {L : Lib} (s : Store L) (id : String) : Option String :=
  (GetExpression s id).map (fun e => e.Status)

/-- The database after the submission of `1+2` by the user `alice` to the empty
database and the report of the value 3 for its only task. -/
def Store.done : Store Lib.exact :=
  (handlePostTaskResult
    (ProcessExpression Lib.exact (Store.empty Lib.exact) "1+2" "alice" 1 1 unaryUuid).2
    "task-" 3).1

/-- The front end followed by the aggregator on the task list with every task
marked completed. -/
def evaluate (L : Lib) (uuid : Nat → String) (exprID expr : String) :
    Option (Except String L.F) :=
  match compile L uuid exprID expr with
  | .error e => some (.error e)
  | .ok tasks => AggregateResults L (markCompleted tasks)

/-- The text of a number token: a non-empty string of digits and dots. -/
def isNumberText (L : Lib) (v : String) : Prop :=
  v.data ≠ [] ∧ ∀ c ∈ v.data, unicodeIsDigit L c = true ∨ c = '.'

/-- The tokens that `tokenize` produces: a number token holds digits and dots,
an operator token one of `+ - * /`, a parenthesis token its parenthesis. -/
def token.WellFormed (L : Lib) (t : token) : Prop :=
  match t.type_ with
  | .number => isNumberText L t.value
  | .operator => isOperator t.value = true
  | .leftParen => t.value = "("
  | .rightParen => t.value = ")"

/-- The number of tokens of a type. -/
def countType (ty : tokenType) (tokens : List token) : Nat :=
  (tokens.filter (fun t => t.type_ = ty)).length

/-- The trees that `buildExpressionTree` builds from the tokens of `tokenize`:
a leaf holds the text of a number token and has no child, every other node
holds an operator and has two such trees as children. -/
def Node.WellFormed (L : Lib) : Node → Prop
  | .nil => False
  | .mk Value Left Right _ _ =>
    (isOperator Value = true ∧ Left.WellFormed L ∧ Right.WellFormed L) ∨
    (isNumberText L Value ∧ Left = .nil ∧ Right = .nil)

/-- The entries of the operator stack of `buildExpressionTree`: operators and
opening parentheses. -/
def stackOK (operatorStack : List String) : Prop :=
  ∀ op ∈ operatorStack, isOperator op = true ∨ op = "("

/-- The number of operators on the operator stack. -/
def opsIn (operatorStack : List String) : Nat :=
  (operatorStack.filter (fun op => isOperator op)).length

/-- The number of opening parentheses on the operator stack. -/
def parensIn (operatorStack : List String) : Nat :=
  (operatorStack.filter (fun op => op = "(")).length

/-- The number of operator nodes in the trees of the output stack. -/
def nodesIn (outputQueue : List Node) : Nat :=
  (outputQueue.map Node.operatorCount).sum

/-- The characters of a numeric literal: ASCII digits and dots. -/
def LitChars (cs : List Char) : Prop :=
  ∀ c ∈ cs, (48 ≤ c.toNat ∧ c.toNat ≤ 57) ∨ c = '.'

/-- The task `t2` has the operand `task:<id>` for the identifier of `t`. -/
def Refers {L : Lib} (t2 t : Task L) : Prop :=
  t2.Arg1 = "task:" ++ t.ID ∨ t2.Arg2 = "task:" ++ t.ID

/-- Every operand of a task of the list is the text of a number token or
`task:<id>` for a task of `pre0` or an earlier task of the list. -/
def ArgsOK (L : Lib) (pre0 tasks : List (Task L)) : Prop :=
  ∀ pre t post, tasks = pre ++ t :: post → ∀ arg, (arg = t.Arg1 ∨ arg = t.Arg2) →
    isNumberText L arg ∨ ∃ t1 ∈ pre0 ++ pre, arg = "task:" ++ t1.ID

/-- Every task of the list is referred to by a later task of the list or by a
task of `later`. -/
def RefdIn {L : Lib} (tasks later : List (Task L)) : Prop :=
  ∀ pre t post, tasks = pre ++ t :: post → ∃ t2 ∈ post ++ later, Refers t2 t

/-- The graph that `getRootNode` builds for a task list. -/
def graphOf {L : Lib} (tasks : List (Task L)) : GoMap GraphNode :=
  linkNodes tasks (createNodes tasks [])

/-- The aggregator gives the value `v` for the node of the task `t` of the list
`ts`, with any fuel beyond the position of `t` and any map of results without
the empty key. -/
def EvaluatesTo (L : Lib) (ts : List (Task L)) (t : Task L) (v : L.F) : Prop :=
  ∀ pre post, ts = pre ++ t :: post → ∀ (results : GoMap L.F) (fuel : Nat),
    results.get "" = none → pre.length + 2 ≤ fuel →
    evaluateWithResults L (graphOf ts) results fuel (.task t.ID) = some (.ok v)

/-- The operand `arg` of a task that stands after `pre` has the value `l`: it is
a number that parses to `l`, or a reference to a task of `pre` for which the
aggregator gives `l`. -/
def OperandValue (L : Lib) (ts pre : List (Task L)) (arg : String) (l : L.F) : Prop :=
  (isNumberText L arg ∧ L.ParseFloat arg = .ok l) ∨
    ∃ t1 ∈ pre, arg = "task:" ++ t1.ID ∧ EvaluatesTo L ts t1 l

/-- The row of the task `t` of the expression `exprID` of the user `userID`
when `vals` holds the results reported so far. -/
def rowWith {L : Lib} (exprID userID : String) (vals : GoMap L.F) (t : Task L) : TaskRow L :=
  { id := t.ID, expression_id := exprID, user_id := userID, arg1 := t.Arg1, arg2 := t.Arg2,
    operator := t.Operator, operation_time := t.OperationTime, result := vals.get t.ID,
    completed := (vals.get t.ID).isSome }

/-- The database `s` holds the tasks `ts` of the expression `exprID` with the
results `vals` reported so far, each being the value the aggregator gives. -/
def Sim (L : Lib) (ts : List (Task L)) (exprID userID : String) (s : Store L)
    (vals : GoMap L.F) : Prop :=
  s.Inv ∧
  s.tasks.filter (fun r => r.expression_id = exprID) = ts.map (rowWith exprID userID vals) ∧
  (∀ t ∈ ts, ∀ v, vals.get t.ID = some v → EvaluatesTo L ts t v)

/-- The reports of the tasks named in `order`, one at a time and in that order,
each with the value the agent's `processTask` computes on the database of that
moment; `none` when a task does not exist or `processTask` fails. -/
def reportAll (L : Lib) : Store L → List String → Option (Store L)
  | s, [] => some s
  | s, id :: rest =>
    match GetTask s id with
    | none => none
    | some task =>
      match processTask L s task with
      | .error _ => none
      | .ok v => reportAll L (handlePostTaskResult s id v).1 rest

/-- The number of `(` minus the number of `)` among the characters. -/
def parenDepth (cs : List Char) : Int :=
  (cs.count '(' : Int) - (cs.count ')' : Int)

/-- The parentheses of a string are unbalanced: some prefix has more `)` than
`(`, or the whole string has unequal numbers of `(` and `)`. -/
def Unbalanced (cs : List Char) : Prop :=
  (∃ n, (cs.take n).count '(' < (cs.take n).count ')') ∨ cs.count '(' ≠ cs.count ')'

/-- The tokens of a string of the expression language: a number token holds a
run of ASCII digits and dots, an operator token one of the characters
`+ - * /`, a parenthesis token its parenthesis. -/
def token.Plain (t : token) : Prop :=
  match t.type_ with
  | .number => t.value.data ≠ [] ∧ LitChars t.value.data
  | .operator => ∃ c, isOperatorChar c = true ∧ t.value = String.singleton c
  | .leftParen => t.value = "("
  | .rightParen => t.value = ")"

/-- A character of the expression language: one of `0-9 + - * / . ( )`. -/
def isExpressionChar (c : Char) : Bool :=
  decide (48 ≤ c.toNat ∧ c.toNat ≤ 57) || c == '+' || c == '-' || c == '*' || c == '/' ||
    c == '.' || c == '(' || c == ')'

/-- An operator or a parenthesis: the characters that separate the operands. -/
def isSeparator (r : Char) : Bool :=
  r == '+' || r == '-' || r == '*' || r == '/' || r == '(' || r == ')'

/-- The maximal substrings between operators and parentheses: the pieces into
which the operators and parentheses split the string, the empty ones left
out. -/
def operandsOf (cs : List Char) : List (List Char) :=
  (cs.splitOnP isSeparator).filter (fun f => decide (f ≠ []))

/-- The pointers that `evaluateWithResults`, started at `root`, reaches when no
error stops it: `root` itself and the two children of every node it reaches
whose `Value` is an operator. -/
inductive InTree (nodes : GoMap GraphNode) (root : Ptr) : Ptr → Prop where
  | root : InTree nodes root root
  | left (p : Ptr) (n : GraphNode) : InTree nodes root p → deref nodes p = some n →
      isOperator n.Value = true → InTree nodes root n.Left
  | right (p : Ptr) (n : GraphNode) : InTree nodes root p → deref nodes p = some n →
      isOperator n.Value = true → InTree nodes root n.Right

/-- No task of the list has an operand `task:<id>` for its own identifier or
for the identifier of a later task of the list. -/
def RefsBackward {L : Lib} (tasks : List (Task L)) : Prop :=
  ∀ pre t post, tasks = pre ++ t :: post → ∀ t1 ∈ t :: post,
    t.Arg1 ≠ "task:" ++ t1.ID ∧ t.Arg2 ≠ "task:" ++ t1.ID

/-- The test of `RefsBackward` by a pass over the list. -/
def refsBackwardCheck {L : Lib} : List (Task L) → Bool
  | [] => true
  | t :: post =>
    (t :: post).all (fun t1 =>
      decide (t.Arg1 ≠ "task:" ++ t1.ID) && decide (t.Arg2 ≠ "task:" ++ t1.ID)) &&
    refsBackwardCheck post

/-- The completed tasks of `2+6/(1-1)`, with the results an agent reports for
the tasks of `-` and `+`; the task of `/` cannot be computed, its result is a
value reported all the same. -/
def divisionTasks : List (Task Lib.exact) :=
  [{ ID := "a", ExpressionID := "e", Arg1 := "1", Arg2 := "1", Operator := "-",
     OperationTime := 100, Result := 0, Completed := true, UserID := "u" },
   { ID := "b", ExpressionID := "e", Arg1 := "6", Arg2 := "task:a", Operator := "/",
     OperationTime := 300, Result := 6, Completed := true, UserID := "u" },
   { ID := "c", ExpressionID := "e", Arg1 := "2", Arg2 := "task:b", Operator := "+",
     OperationTime := 100, Result := 8, Completed := true, UserID := "u" }]

/-- No task of the table has an operand `task:<id>` for its own identifier or
for the identifier of a later row of the table. -/
def Store.refsBackward {L : Lib} (s : Store L) : Prop :=
  RefsBackward (s.tasks.map TaskRow.scan)

/-- The row of the expression `e` after `processUserExpression` has handled it
for the owner of the row, the tasks being those of `s`. -/
def sweepRow (L : Lib) (s : Store L) (e : ExpressionRow L) : ExpressionRow L :=
  if e.status ≠ "pending" ∧ e.status ≠ "in_progress" then e
  else if (GetExecutableTasks s e.id e.user_id).length = 0 then
    if CountIncompleteTasks s e.id = 0 then
      match AggregateResults L (GetTasksByExpression s e.id e.user_id) with
      | some (.ok result) => { e with status := "completed", result := some result }
      | _ => e
    else e
  else if e.status = "pending" then { e with status := "in_progress", result := some L.zero }
  else e

/-- The database `s` after the sweep has handled the expressions whose
identifiers are in `done`. -/
def sweptStore (L : Lib) (s : Store L) (done : List String) : Store L :=
  { s with expressions := s.expressions.map (fun e =>
      if e.id ∈ done then sweepRow L s e else e) }

/-- The database `Store.sample` with both tasks of the expression `1+2*3`
completed, with the results 6 and 7, and the expression still `pending`: the
state between the completion of the last task and the rollup that follows
it. -/
def Store.unrolled : Store Lib.exact :=
  CompleteTask (CompleteTask Store.sample "task-" 6) "task-u" 7

/-- The database `Store.unrolled` with the expression `in_progress`, as it is
left when the rollup of the report for the task of `*`, which counted one
incomplete task, writes its status after the report for the task of `+` has
been handled. -/
def Store.stalled : Store Lib.exact :=
  (UpdateExpressionStatus Store.unrolled "expr-1" "in_progress" 0).2

/-- The database after the submission of `6/0` by the user `alice` to the empty
database and the completion of its only task with the result 0, the expression
being `pending`. -/
def Store.divided : Store Lib.exact :=
  CompleteTask
    (ProcessExpression Lib.exact (Store.empty Lib.exact) "6/0" "alice" 1 1 unaryUuid).2
    "task-" 0

/-- A database whose only task is completed and has itself as its first
operand, its expression being `pending`. -/
def Store.cyclic : Store Lib.exact :=
  { expressions := [{ id := "expr-1", user_id := "alice", expression := "1+1",
                      status := "pending", result := none, created_at := 1 }],
    tasks := [{ id := "a", expression_id := "expr-1", user_id := "alice", arg1 := "task:a",
                arg2 := "1", operator := "+", operation_time := 100, result := some 2,
                completed := true }] }

/-- Every operand of a task row is the text of a number token or `task:<id>`
for an earlier row of the table. -/
def Store.refsEarlier (L : Lib) (s : Store L) : Prop :=
  ∀ pre r post, s.tasks = pre ++ r :: post → ∀ arg, (arg = r.arg1 ∨ arg = r.arg2) →
    isNumberText L arg ∨ ∃ r1 ∈ pre, arg = "task:" ++ r1.id

/-- The function `HandleTaskByID` on a `GET` request that passed
`AuthMiddleware`: `userID` is the value `getUserIDFromContext` reads, `id` the
task identifier in the path.  The result is the status code and, for the status
200, the result in the response. -/
def HandleTaskByID {L : Lib} (s : Store L) (userID id : String) : Nat × Option L.F :=
  if userID = "" then (401, none)
  else
    match GetTask s id with
    | none => (404, none)
    | some task =>
      if task.UserID ≠ userID then (403, none)
      else if !task.Completed then (404, none)
      else (200, some task.Result)

/-- The sequences of token types of the well-formed infix expressions: a
number, two expressions around an operator, an expression in parentheses. -/
inductive InfixForm : List tokenType → Prop where
  | number : InfixForm [.number]
  | binary (l r : List tokenType) : InfixForm l → InfixForm r →
      InfixForm (l ++ .operator :: r)
  | parens (e : List tokenType) : InfixForm e → InfixForm (.leftParen :: e ++ [.rightParen])

/-- The values of the leaves of a tree from left to right, a leaf being a node
without children. -/
def Node.leaves : Node → List String
  | .nil => []
  | .mk Value Left Right _ _ =>
    if Left = .nil ∧ Right = .nil then [Value] else Left.leaves ++ Right.leaves

/-- The leaves of the trees of the output stack of `buildExpressionTree`, from
the bottom of the stack to its top. -/
def leavesIn (outputQueue : List Node) : List String :=
  (outputQueue.reverse.map Node.leaves).flatten

/-- The texts of the number tokens of a token list, in order. -/
def numberTexts (tokens : List token) : List String :=
  (tokens.filter (fun t => t.type_ = .number)).map (fun t => t.value)

/-- Every node of the tree is a leaf, without children, or has an operator
(`+ - * /`) as `Value` and two children that are not nil and are such trees
themselves. -/
def Node.Proper : Node → Prop
  | .nil => False
  | .mk Value Left Right _ _ =>
    (Left = .nil ∧ Right = .nil) ∨
    (isOperator Value = true ∧ Left ≠ .nil ∧ Right ≠ .nil ∧ Left.Proper ∧ Right.Proper)

/-- The number of parentheses open after the tokens, starting from `d`; `none`
when a closing parenthesis has no opening one before it. -/
def tokenDepth : List token → Int → Option Int
  | [], d => some d
  | t :: rest, d =>
    match t.type_ with
    | .leftParen => tokenDepth rest (d + 1)
    | .rightParen => if d - 1 < 0 then none else tokenDepth rest (d - 1)
    | _ => tokenDepth rest d

/-- Two tasks with the same `ID`, `Arg1`, `Arg2` and `Operator`. -/
def SameWork {L : Lib} (a b : Task L) : Prop :=
  a.ID = b.ID ∧ a.Arg1 = b.Arg1 ∧ a.Arg2 = b.Arg2 ∧ a.Operator = b.Operator

/-- The tree that starts at the pointer `p` of the graph that `getRootNode`
builds, with the fields `Value`, `Left`, `Right` and `TaskID` of its nodes;
`getRootNode` leaves `Priority` zero everywhere.  Each node uses one unit of
`fuel`, and `none` is a path that needs more. -/
def treeAt (nodes : GoMap GraphNode) : Nat → Ptr → Option Node
  | 0, _ => none
  | fuel + 1, p =>
    match deref nodes p with
    | none => some .nil
    | some n =>
      match treeAt nodes fuel n.Left, treeAt nodes fuel n.Right with
      | some l, some r => some (.mk n.Value l r n.TaskID 0)
      | _, _ => none

/-- The number of nodes on the longest path from the root to a leaf. -/
def Node.height : Node → Nat
  | .nil => 0
  | .mk _ Left Right _ _ => max Left.height Right.height + 1

/-- The shape of a tree and the `Value` of every node: the tree with the fields
`TaskID` and `Priority` cleared. -/
def Node.shape : Node → Node
  | .nil => .nil
  | .mk Value Left Right _ _ => .mk Value Left.shape Right.shape "" 0

/-- The expression `id` is in the table with the status `pending`, and no row
of the table `tasks` belongs to it. -/
def Store.idle {L : Lib} (s : Store L) (id : String) : Prop :=
  (∃ e ∈ s.expressions, e.id = id ∧ e.status = "pending") ∧
  ∀ r ∈ s.tasks, r.expression_id ≠ id

/-- The string `arg` is the reference of the child `child` of a node, the tasks
of the child being numbered from `k`: the empty string for the nil pointer, the
`Value` of a node that is no operator, and `task:<id>` for an operator node,
where `id` is the identifier of the task of that node, the last task of the list
that `createTasksFromTree` returns for the child. -/
def IsReference (L : Lib) (uuid : Nat → String) (exprID : String) (child : Node) (k : Nat)
    (arg : String) : Prop :=
  match child with
  | .nil => arg = ""
  | .mk Value Left Right TaskID Priority =>
    if isOperator Value then
      ∃ t : Task L,
        (createTasksFromTree L uuid exprID (.mk Value Left Right TaskID Priority) k).2.1.getLast?
          = some t ∧
        t.Operator = Value ∧ arg = "task:" ++ t.ID
    else arg = Value

/-! # Theorems -/

/-! ## Strings -/

theorem string_append_left_cancel (p a b : String) (h : p ++ a = p ++ b) : a = b := by
  have h1 : (p ++ a).data = (p ++ b).data := by rw [h]
  simp only [String.data_append] at h1
  exact String.ext (List.append_cancel_left h1)

theorem hasPrefix_append (p x : String) : stringsHasPrefix (p ++ x) p = true := by
  simp [stringsHasPrefix, String.data_append]

theorem trimPrefix_append (p x : String) : stringsTrimPrefix (p ++ x) p = x := by
  simp [stringsTrimPrefix, hasPrefix_append, String.data_append]

theorem hasPrefix_iff (s p : String) : stringsHasPrefix s p = true ↔ ∃ x, s = p ++ x := by
  constructor
  · intro h
    simp only [stringsHasPrefix, List.isPrefixOf_iff_prefix] at h
    obtain ⟨t, ht⟩ := h
    exact ⟨String.mk t, String.ext (by simp [String.data_append, ht])⟩
  · rintro ⟨x, rfl⟩
    exact hasPrefix_append p x

/-! ## Task compiler -/

theorem createTasksFromTree_nil (L : Lib) (uuid : Nat → String) (exprID : String) (k : Nat) :
    createTasksFromTree L uuid exprID .nil k = (.nil, [], k) := rfl

theorem createTasksFromTree_mk (L : Lib) (uuid : Nat → String) (exprID : String)
    (v : String) (l r : Node) (tid : String) (p : Int) (k : Nat) :
    createTasksFromTree L uuid exprID (.mk v l r tid p) k =
      if isOperator v then
        (.mk v (createTasksFromTree L uuid exprID l k).1
            (createTasksFromTree L uuid exprID r (createTasksFromTree L uuid exprID l k).2.2).1
            (generateTaskID uuid
              (createTasksFromTree L uuid exprID r (createTasksFromTree L uuid exprID l k).2.2).2.2) p,
          (createTasksFromTree L uuid exprID l k).2.1 ++
            (createTasksFromTree L uuid exprID r (createTasksFromTree L uuid exprID l k).2.2).2.1 ++
            [{ ID := generateTaskID uuid
                (createTasksFromTree L uuid exprID r (createTasksFromTree L uuid exprID l k).2.2).2.2,
               ExpressionID := exprID,
               Arg1 := getNodeReference (createTasksFromTree L uuid exprID l k).1,
               Arg2 := getNodeReference
                (createTasksFromTree L uuid exprID r (createTasksFromTree L uuid exprID l k).2.2).1,
               Operator := v, OperationTime := getOperationTime L v, Result := L.zero,
               Completed := false, UserID := "" }],
          (createTasksFromTree L uuid exprID r (createTasksFromTree L uuid exprID l k).2.2).2.2 + 1)
      else
        (.mk v (createTasksFromTree L uuid exprID l k).1
            (createTasksFromTree L uuid exprID r (createTasksFromTree L uuid exprID l k).2.2).1 tid p,
          (createTasksFromTree L uuid exprID l k).2.1 ++
            (createTasksFromTree L uuid exprID r (createTasksFromTree L uuid exprID l k).2.2).2.1,
          (createTasksFromTree L uuid exprID r (createTasksFromTree L uuid exprID l k).2.2).2.2) := by
  rfl

theorem tasks_mk (L : Lib) (uuid : Nat → String) (exprID : String)
    (v : String) (l r : Node) (tid : String) (p : Int) (k : Nat) :
    (createTasksFromTree L uuid exprID (.mk v l r tid p) k).2.1 =
      (createTasksFromTree L uuid exprID l k).2.1 ++
        (createTasksFromTree L uuid exprID r (createTasksFromTree L uuid exprID l k).2.2).2.1 ++
        (if isOperator v then
          [{ ID := generateTaskID uuid
                (createTasksFromTree L uuid exprID r (createTasksFromTree L uuid exprID l k).2.2).2.2,
             ExpressionID := exprID,
             Arg1 := getNodeReference (createTasksFromTree L uuid exprID l k).1,
             Arg2 := getNodeReference
                (createTasksFromTree L uuid exprID r (createTasksFromTree L uuid exprID l k).2.2).1,
             Operator := v, OperationTime := getOperationTime L v, Result := L.zero,
             Completed := false, UserID := "" }]
         else []) := by
  rw [createTasksFromTree_mk]
  split <;> simp

theorem next_mk (L : Lib) (uuid : Nat → String) (exprID : String)
    (v : String) (l r : Node) (tid : String) (p : Int) (k : Nat) :
    (createTasksFromTree L uuid exprID (.mk v l r tid p) k).2.2 =
      (createTasksFromTree L uuid exprID r (createTasksFromTree L uuid exprID l k).2.2).2.2 +
        (if isOperator v then 1 else 0) := by
  rw [createTasksFromTree_mk]
  split <;> simp

theorem tree_mk (L : Lib) (uuid : Nat → String) (exprID : String)
    (v : String) (l r : Node) (tid : String) (p : Int) (k : Nat) :
    (createTasksFromTree L uuid exprID (.mk v l r tid p) k).1 =
      .mk v (createTasksFromTree L uuid exprID l k).1
        (createTasksFromTree L uuid exprID r (createTasksFromTree L uuid exprID l k).2.2).1
        (if isOperator v then generateTaskID uuid
            (createTasksFromTree L uuid exprID r (createTasksFromTree L uuid exprID l k).2.2).2.2
          else tid) p := by
  rw [createTasksFromTree_mk]
  split <;> simp

theorem next_eq (L : Lib) (uuid : Nat → String) (exprID : String) (n : Node) :
    ∀ k, (createTasksFromTree L uuid exprID n k).2.2 = k + n.operatorCount := by
  induction n with
  | nil => intro k; rfl
  | mk v l r tid p ihl ihr =>
    intro k
    rw [next_mk, ihr, ihl]
    simp only [Node.operatorCount]
    omega

theorem tasks_length (L : Lib) (uuid : Nat → String) (exprID : String) (n : Node) :
    ∀ k, (createTasksFromTree L uuid exprID n k).2.1.length = n.operatorCount := by
  induction n with
  | nil => intro k; rfl
  | mk v l r tid p ihl ihr =>
    intro k
    rw [tasks_mk]
    simp only [List.length_append, ihl, ihr, Node.operatorCount]
    split <;> simp; omega

theorem range_split (k a b : Nat) :
    List.range' k (a + b) = List.range' k a ++ List.range' (k + a) b := by
  rw [Nat.add_comm a b, List.range'_append_1]

theorem tasks_ids (L : Lib) (uuid : Nat → String) (exprID : String) (n : Node) :
    ∀ k, (createTasksFromTree L uuid exprID n k).2.1.map (fun t => t.ID) =
      (List.range' k n.operatorCount).map (generateTaskID uuid) := by
  induction n with
  | nil => intro k; rfl
  | mk v l r tid p ihl ihr =>
    intro k
    rw [tasks_mk]
    simp only [List.map_append, ihl, ihr, next_eq, Node.operatorCount]
    by_cases hv : isOperator v = true
    · simp only [hv, if_true, List.map_cons, List.map_nil]
      have e1 : 1 + l.operatorCount + r.operatorCount
          = l.operatorCount + (r.operatorCount + 1) := by omega
      rw [e1, range_split, range_split]
      simp [List.range'_one, List.map_append, Nat.add_assoc]
    · simp only [hv, if_false, List.map_nil, List.append_nil, Bool.false_eq_true]
      rw [Nat.zero_add, range_split, List.map_append]

theorem tasks_expressionID (L : Lib) (uuid : Nat → String) (exprID : String) (n : Node) :
    ∀ k, ∀ t ∈ (createTasksFromTree L uuid exprID n k).2.1, t.ExpressionID = exprID := by
  induction n with
  | nil => intro k t ht; simp [createTasksFromTree] at ht
  | mk v l r tid p ihl ihr =>
    intro k t ht
    rw [tasks_mk] at ht
    simp only [List.mem_append] at ht
    rcases ht with (ht | ht) | ht
    · exact ihl _ _ ht
    · exact ihr _ _ ht
    · split at ht
      · simp only [List.mem_singleton] at ht
        rw [ht]
      · simp at ht

theorem generateTaskID_injective (uuid : Nat → String) (h : Function.Injective uuid) :
    Function.Injective (generateTaskID uuid) := by
  intro a b hab
  exact h (string_append_left_cancel _ _ _ hab)

theorem unaryUuid_injective : Function.Injective unaryUuid := by
  intro a b hab
  have h : (unaryUuid a).data.length = (unaryUuid b).data.length := by rw [hab]
  simpa [unaryUuid] using h

theorem tasks_ids_nodup (L : Lib) (uuid : Nat → String) (exprID : String) (n : Node) (k : Nat)
    (h : Function.Injective uuid) :
    ((createTasksFromTree L uuid exprID n k).2.1.map (fun t => t.ID)).Nodup := by
  rw [tasks_ids]
  exact (List.nodup_range' k n.operatorCount).map (generateTaskID_injective uuid h)

theorem task_ref_ne_empty (id : String) : "" ≠ "task:" ++ id := by
  intro h
  have h1 : ("" : String).data = ("task:" ++ id).data := by rw [← h]
  simp [String.data_append] at h1

/-- A reference to an operator child names the last task of the child. -/
theorem reference_names_task (L : Lib) (uuid : Nat → String) (exprID : String) (n : Node)
    (k : Nat) (id : String) (hp : n.plainLeaves = true)
    (h : getNodeReference (createTasksFromTree L uuid exprID n k).1 = "task:" ++ id) :
    ∃ t ∈ (createTasksFromTree L uuid exprID n k).2.1, t.ID = id ∧ t.ExpressionID = exprID := by
  cases n with
  | nil => exact absurd h (task_ref_ne_empty id)
  | mk v l r tid p =>
    rw [tree_mk] at h
    rw [tasks_mk]
    by_cases hv : isOperator v = true
    · simp only [getNodeReference, hv, if_true] at h
      have hid := string_append_left_cancel _ _ _ h
      simp only [hv, if_true]
      refine ⟨_, List.mem_append_right _ (List.mem_singleton_self _), ?_, ?_⟩
      · exact hid
      · rfl
    · simp only [getNodeReference, hv, if_false, Bool.false_eq_true] at h
      have hpre : stringsHasPrefix v "task:" = true := (hasPrefix_iff _ _).2 ⟨id, h⟩
      simp [Node.plainLeaves, hv, hpre] at hp

theorem RefsResolve_nil {L : Lib} (exprID : String) (pre0 : List (Task L)) :
    RefsResolve exprID pre0 [] := by
  intro pre t post h
  simp at h

theorem RefsResolve_append {L : Lib} (exprID : String) (pre0 a b : List (Task L))
    (ha : RefsResolve exprID pre0 a) (hb : RefsResolve exprID (pre0 ++ a) b) :
    RefsResolve exprID pre0 (a ++ b) := by
  intro pre t post h id hid
  rcases List.append_eq_append_iff.1 h with ⟨a1, h1, h2⟩ | ⟨c1, h1, h2⟩
  · obtain ⟨t1, ht1, hh⟩ := hb a1 t post h2 id hid
    exact ⟨t1, by rw [h1, ← List.append_assoc]; exact ht1, hh⟩
  · cases c1 with
    | nil =>
      simp only [List.nil_append] at h2
      simp only [List.append_nil] at h1
      obtain ⟨t1, ht1, hh⟩ := hb [] t post h2.symm id hid
      exact ⟨t1, by rw [← h1]; simpa using ht1, hh⟩
    | cons c cs =>
      simp only [List.cons_append, List.cons.injEq] at h2
      obtain ⟨rfl, _⟩ := h2
      exact ha pre t cs h1 id hid

theorem RefsResolve_mono {L : Lib} (exprID : String) (pre0 a : List (Task L))
    (ha : RefsResolve exprID [] a) : RefsResolve exprID pre0 a := by
  intro pre t post h id hid
  obtain ⟨t1, ht1, hh⟩ := ha pre t post h id hid
  exact ⟨t1, List.mem_append_right _ (by simpa using ht1), hh⟩

theorem tasks_refsResolve (L : Lib) (uuid : Nat → String) (exprID : String) (n : Node) :
    n.plainLeaves = true → ∀ k,
      RefsResolve exprID [] (createTasksFromTree L uuid exprID n k).2.1 := by
  induction n with
  | nil => intro _ k; exact RefsResolve_nil exprID []
  | mk v l r tid p ihl ihr =>
    intro hp k
    have hpl : l.plainLeaves = true := by
      simp only [Node.plainLeaves, Bool.and_eq_true] at hp; exact hp.1.2
    have hpr : r.plainLeaves = true := by
      simp only [Node.plainLeaves, Bool.and_eq_true] at hp; exact hp.2
    rw [tasks_mk]
    refine RefsResolve_append exprID [] _ _
      (RefsResolve_append exprID [] _ _ (ihl hpl k) (RefsResolve_mono exprID _ _ (ihr hpr _))) ?_
    split
    · intro pre t post h id hid
      have hpre : pre = [] := by
        cases pre with
        | nil => rfl
        | cons x xs => simp at h
      subst hpre
      simp only [List.nil_append, List.cons.injEq] at h
      obtain ⟨rfl, _⟩ := h
      simp only [List.nil_append, List.append_nil]
      rcases hid with hid | hid
      · obtain ⟨t1, ht1, hh⟩ := reference_names_task L uuid exprID l k id hpl hid
        exact ⟨t1, List.mem_append_left _ ht1, hh⟩
      · obtain ⟨t1, ht1, hh⟩ := reference_names_task L uuid exprID r _ id hpr hid
        exact ⟨t1, List.mem_append_right _ ht1, hh⟩
    · exact RefsResolve_nil exprID _

/-- For a tree in which no node other than the operator nodes has a `Value`
starting with `task:`, and identifiers drawn from `uuid.New()` that are
pairwise distinct, the tasks returned by `createTasksFromTree` have pairwise
distinct identifiers, every task carries the expression identifier, and every
operand `task:<id>` names the `ID` of a task that stands strictly earlier in the
list and carries the same expression identifier. -/
theorem references_earlier_of_plainLeaves (L : Lib) (uuid : Nat → String)
    (exprID : String) (tree : Node) (k : Nat)
    (hplain : tree.plainLeaves = true) (hdistinct : Function.Injective uuid) :
    ((createTasksFromTree L uuid exprID tree k).2.1.map (fun t => t.ID)).Nodup ∧
    ∀ pre t post, (createTasksFromTree L uuid exprID tree k).2.1 = pre ++ t :: post →
      t.ExpressionID = exprID ∧
      ∀ id, (t.Arg1 = "task:" ++ id ∨ t.Arg2 = "task:" ++ id) →
        ∃ t1 ∈ pre, t1.ID = id ∧ t1.ExpressionID = exprID := by
  refine ⟨tasks_ids_nodup L uuid exprID tree k hdistinct, ?_⟩
  intro pre t post h
  refine ⟨tasks_expressionID L uuid exprID tree k t (by rw [h]; simp), ?_⟩
  intro id hid
  simpa using tasks_refsResolve L uuid exprID tree hplain k pre t post h id hid

/-! ## Dependency resolver -/

theorem isTaskReference_eq (arg : String) (h : isTaskReference arg = true) :
    arg = "task:" ++ dropFive arg := by
  simp only [isTaskReference, Bool.and_eq_true, beq_iff_eq] at h
  apply String.ext
  simp only [String.data_append, dropFive]
  rw [← h.2, List.take_append_drop]

theorem dropFive_task (id : String) : dropFive ("task:" ++ id) = id := by
  apply String.ext
  simp [dropFive, String.data_append]

theorem GoMap.get_set {α : Type} (m : GoMap α) (key k : String) (v : α) :
    (m.set key v).get k = if key = k then some v else m.get k := by
  simp [GoMap.set, GoMap.get]

theorem completedMap_get {L : Lib} (tasks : List (Task L)) :
    ∀ (m : GoMap Bool) (id : String),
      isTaskCompleted id (completedMap tasks m) = true ↔
        (∃ t ∈ tasks, t.Completed = true ∧ t.ID = id) ∨ isTaskCompleted id m = true := by
  induction tasks with
  | nil => intro m id; simp [completedMap]
  | cons t ts ih =>
    intro m id
    by_cases hc : t.Completed = true
    · simp only [completedMap, hc, if_true, ih, List.mem_cons, exists_eq_or_imp, true_and]
      simp only [isTaskCompleted, GoMap.get_set]
      by_cases hid : t.ID = id
      · simp [hid]
      · simp [hid]
    · simp only [completedMap, hc, if_false, ih, List.mem_cons, exists_eq_or_imp,
        Bool.false_eq_true, false_and, false_or]

theorem isTaskCompleted_completedMap {L : Lib} (tasks : List (Task L)) (id : String) :
    isTaskCompleted id (completedMap tasks []) = true ↔
      ∃ t ∈ tasks, t.Completed = true ∧ t.ID = id := by
  rw [completedMap_get]
  simp [isTaskCompleted, GoMap.get]

theorem operand_ready_iff {L : Lib} (tasks : List (Task L)) (arg : String) :
    (!isTaskReference arg || isTaskCompleted (dropFive arg) (completedMap tasks [])) = true ↔
      (isTaskReference arg = false ∨
        ∃ t2 ∈ tasks, t2.Completed = true ∧ arg = "task:" ++ t2.ID) := by
  simp only [Bool.or_eq_true, Bool.not_eq_true', isTaskCompleted_completedMap]
  constructor
  · rintro (h | ⟨t2, h2, hc, hid⟩)
    · exact Or.inl h
    · by_cases href : isTaskReference arg = true
      · exact Or.inr ⟨t2, h2, hc, by rw [hid]; exact isTaskReference_eq arg href⟩
      · exact Or.inl (by simpa using href)
  · rintro (h | ⟨t2, h2, hc, hid⟩)
    · exact Or.inl h
    · exact Or.inr ⟨t2, h2, hc, by rw [hid, dropFive_task]⟩

theorem mem_GetTasksByExpression {L : Lib} (s : Store L) (exprID userID : String) (t : Task L) :
    t ∈ GetTasksByExpression s exprID userID ↔
      ∃ r ∈ s.tasks, r.expression_id = exprID ∧ r.user_id = userID ∧ t = r.scan := by
  simp only [GetTasksByExpression, List.mem_map, List.mem_filter, decide_eq_true_eq]
  constructor
  · rintro ⟨r, ⟨hr, h1, h2⟩, rfl⟩
    exact ⟨r, hr, h1, h2, rfl⟩
  · rintro ⟨r, hr, h1, h2, rfl⟩
    exact ⟨r, ⟨hr, h1, h2⟩, rfl⟩

theorem row_eq_of_id {L : Lib} (s : Store L) (hk : s.keysUnique) (r1 r2 : TaskRow L)
    (h1 : r1 ∈ s.tasks) (h2 : r2 ∈ s.tasks) (h : r1.id = r2.id) : r1 = r2 :=
  List.inj_on_of_nodup_map hk.2 h1 h2 h

theorem Store.sample_keysUnique : Store.sample.keysUnique := by
  unfold Store.keysUnique
  decide

theorem nextExecutableWhere_iff {L : Lib} (s : Store L) (r : TaskRow L) :
    nextExecutableWhere s r = true ↔
      r.completed = false ∧
      ∀ r2 ∈ s.tasks, (r.arg1 = "task:" ++ r2.id ∨ r.arg2 = "task:" ++ r2.id) →
        r2.completed = true := by
  simp only [nextExecutableWhere, Bool.and_eq_true, beq_iff_eq, Bool.not_eq_true',
    List.any_eq_false, decide_eq_true_eq, not_and]
  constructor
  · rintro ⟨⟨hc, h1⟩, h2⟩
    refine ⟨hc, ?_⟩
    intro r2 hr2 harg
    by_contra hn
    have hf : r2.completed = false := by simpa using hn
    rcases harg with harg | harg
    · exact h1 r2 hr2 hf harg.symm
    · exact h2 r2 hr2 hf harg.symm
  · rintro ⟨hc, h⟩
    refine ⟨⟨hc, ?_⟩, ?_⟩
    · intro r2 hr2 hf harg
      have := h r2 hr2 (Or.inl harg.symm)
      rw [hf] at this
      exact Bool.false_ne_true this
    · intro r2 hr2 hf harg
      have := h r2 hr2 (Or.inr harg.symm)
      rw [hf] at this
      exact Bool.false_ne_true this

/-- Claim C6. A task returned by `GetNextExecutableTask` is a task of the table that
is not completed and every task whose identifier one of its operands names as
`task:<id>` is completed; `GetNextExecutableTask` finds nothing exactly when no
task of the table, over all expressions and owners, is in that case.  When
every dependency reference of the table names a task of the table, each
dependency reference of the returned task names a completed task. -/
theorem GetNextExecutableTask_spec {L : Lib} (s : Store L) :
    (∀ t, GetNextExecutableTask s = some t →
      (∃ r ∈ s.tasks, t = r.scanNoUser) ∧ t.Completed = false ∧
      ∀ r ∈ s.tasks, (t.Arg1 = "task:" ++ r.id ∨ t.Arg2 = "task:" ++ r.id) →
        r.completed = true) ∧
    (GetNextExecutableTask s = none ↔
      ¬ ∃ r ∈ s.tasks, r.completed = false ∧
        ∀ r2 ∈ s.tasks, (r.arg1 = "task:" ++ r2.id ∨ r.arg2 = "task:" ++ r2.id) →
          r2.completed = true) ∧
    ((∀ r ∈ s.tasks, ∀ arg, (arg = r.arg1 ∨ arg = r.arg2) → isTaskReference arg = true →
        ∃ r2 ∈ s.tasks, arg = "task:" ++ r2.id) →
      ∀ t, GetNextExecutableTask s = some t →
        ∀ arg, (arg = t.Arg1 ∨ arg = t.Arg2) → isTaskReference arg = true →
          ∃ r2 ∈ s.tasks, arg = "task:" ++ r2.id ∧ r2.completed = true) := by
  have h1 : ∀ t, GetNextExecutableTask s = some t →
      ∃ r ∈ s.tasks, t = r.scanNoUser ∧ nextExecutableWhere s r = true := by
    intro t ht
    simp only [GetNextExecutableTask, Option.map_eq_some'] at ht
    obtain ⟨r, hr, rfl⟩ := ht
    exact ⟨r, List.mem_of_find?_eq_some hr, rfl, List.find?_some hr⟩
  refine ⟨?_, ?_, ?_⟩
  · intro t ht
    obtain ⟨r, hr, rfl, hw⟩ := h1 t ht
    obtain ⟨hc, hdeps⟩ := (nextExecutableWhere_iff s r).1 hw
    exact ⟨⟨r, hr, rfl⟩, hc, hdeps⟩
  · simp only [GetNextExecutableTask, Option.map_eq_none', List.find?_eq_none]
    constructor
    · rintro h ⟨r, hr, hc, hdeps⟩
      exact h r hr ((nextExecutableWhere_iff s r).2 ⟨hc, hdeps⟩)
    · intro h r hr hw
      exact h ⟨r, hr, (nextExecutableWhere_iff s r).1 hw⟩
  · intro hpresent t ht arg harg href
    obtain ⟨r, hr, rfl, hw⟩ := h1 t ht
    obtain ⟨_, hdeps⟩ := (nextExecutableWhere_iff s r).1 hw
    obtain ⟨r2, hr2, h2⟩ := hpresent r hr arg harg href
    refine ⟨r2, hr2, h2, hdeps r2 hr2 ?_⟩
    rcases harg with harg | harg
    · exact Or.inl (by rw [← h2, harg]; rfl)
    · exact Or.inr (by rw [← h2, harg]; rfl)

/-- The last part of C6 on the database `Store.sample`, in which every
dependency reference names a task of the table. -/
theorem GetNextExecutableTask_spec_witness :
    (∀ r ∈ Store.sample.tasks, ∀ arg, (arg = r.arg1 ∨ arg = r.arg2) →
        isTaskReference arg = true → ∃ r2 ∈ Store.sample.tasks, arg = "task:" ++ r2.id) ∧
    ∀ t, GetNextExecutableTask Store.sample = some t →
      ∀ arg, (arg = t.Arg1 ∨ arg = t.Arg2) → isTaskReference arg = true →
        ∃ r2 ∈ Store.sample.tasks, arg = "task:" ++ r2.id ∧ r2.completed = true :=
  have h : ∀ r ∈ Store.sample.tasks, ∀ arg, (arg = r.arg1 ∨ arg = r.arg2) →
      isTaskReference arg = true → ∃ r2 ∈ Store.sample.tasks, arg = "task:" ++ r2.id := by
    have h0 : ∀ r ∈ Store.sample.tasks,
        (isTaskReference r.arg1 = true → ∃ r2 ∈ Store.sample.tasks, r.arg1 = "task:" ++ r2.id) ∧
        (isTaskReference r.arg2 = true → ∃ r2 ∈ Store.sample.tasks, r.arg2 = "task:" ++ r2.id) := by
      decide
    intro r hr arg harg href
    rcases harg with rfl | rfl
    · exact (h0 r hr).1 href
    · exact (h0 r hr).2 href
  ⟨h, (GetNextExecutableTask_spec Store.sample).2.2 h⟩

/-! ## Store updates -/

theorem UpdateExpressionStatus_tasks {L : Lib} (s : Store L) (id st : String) (res : L.F) :
    (UpdateExpressionStatus s id st res).2.tasks = s.tasks := by
  unfold UpdateExpressionStatus
  split <;> rfl

theorem UpdateExpressionStatus_expressions {L : Lib} (s : Store L) (id st : String)
    (res : L.F) :
    (UpdateExpressionStatus s id st res).2.expressions =
      s.expressions.map (fun e =>
        if e.id = id then { e with status := st, result := some res } else e) := by
  unfold UpdateExpressionStatus
  split
  · rfl
  · rename_i h
    simp only [List.any_eq_true, decide_eq_true_eq, not_exists, not_and] at h
    symm
    calc s.expressions.map (fun e =>
            if e.id = id then { e with status := st, result := some res } else e)
        = s.expressions.map (fun e => e) :=
          List.map_congr_left (fun e he => by simp [h e he])
      _ = s.expressions := List.map_id' _

theorem UpdateExpressionStatus_ids {L : Lib} (s : Store L) (id st : String) (res : L.F) :
    (UpdateExpressionStatus s id st res).2.expressions.map (fun e => e.id)
      = s.expressions.map (fun e => e.id) := by
  rw [UpdateExpressionStatus_expressions, List.map_map]
  apply List.map_congr_left
  intro e _
  simp only [Function.comp]
  split <;> rfl

theorem CompleteTask_ids {L : Lib} (s : Store L) (tid : String) (res : L.F) :
    (CompleteTask s tid res).tasks.map (fun r => r.id) = s.tasks.map (fun r => r.id) := by
  simp only [CompleteTask, List.map_map]
  apply List.map_congr_left
  intro r _
  simp only [Function.comp]
  split <;> rfl

theorem mem_CompleteTask {L : Lib} (s : Store L) (tid : String) (res : L.F) (r1 : TaskRow L)
    (h : r1 ∈ (CompleteTask s tid res).tasks) :
    ∃ r ∈ s.tasks, r1.id = r.id ∧ r1.expression_id = r.expression_id ∧
      r1.user_id = r.user_id ∧ r1.arg1 = r.arg1 ∧ r1.arg2 = r.arg2 ∧
      r1.operator = r.operator ∧
      ((r.id = tid ∧ r1.completed = true ∧ r1.result = some res) ∨ (r.id ≠ tid ∧ r1 = r)) := by
  simp only [CompleteTask, List.mem_map] at h
  obtain ⟨r, hr, rfl⟩ := h
  refine ⟨r, hr, ?_⟩
  by_cases hid : r.id = tid
  · simp [hid]
  · simp [hid]

theorem Inv_CompleteTask {L : Lib} (s : Store L) (tid : String) (res : L.F) (h : s.Inv) :
    (CompleteTask s tid res).Inv := by
  obtain ⟨⟨hk1, hk2⟩, h2, h3⟩ := h
  refine ⟨⟨hk1, ?_⟩, ?_, ?_⟩
  · rw [CompleteTask_ids]; exact hk2
  · intro r1 hr1
    obtain ⟨r, hr, _, he, _⟩ := mem_CompleteTask s tid res r1 hr1
    rw [he]
    exact h2 r hr
  · intro e he hst r1 hr1 hre
    obtain ⟨r, hr, _, he1, _, _, _, _, hcase⟩ := mem_CompleteTask s tid res r1 hr1
    rcases hcase with ⟨_, hc, _⟩ | ⟨_, rfl⟩
    · exact hc
    · exact h3 e he hst r1 hr hre

theorem Inv_UpdateExpressionStatus {L : Lib} (s : Store L) (id st : String) (res : L.F)
    (h : s.Inv)
    (hdone : st = "completed" → ∀ r ∈ s.tasks, r.expression_id = id → r.completed = true) :
    (UpdateExpressionStatus s id st res).2.Inv := by
  obtain ⟨⟨hk1, hk2⟩, h2, h3⟩ := h
  have hmem : ∀ e1 ∈ (UpdateExpressionStatus s id st res).2.expressions,
      ∃ e ∈ s.expressions, e1.id = e.id ∧
        ((e.id = id ∧ e1.status = st) ∨ (e.id ≠ id ∧ e1 = e)) := by
    intro e1 he1
    rw [UpdateExpressionStatus_expressions, List.mem_map] at he1
    obtain ⟨e, he, rfl⟩ := he1
    refine ⟨e, he, ?_⟩
    by_cases hid : e.id = id
    · simp [hid]
    · simp [hid]
  refine ⟨⟨?_, ?_⟩, ?_, ?_⟩
  · rw [UpdateExpressionStatus_ids]; exact hk1
  · rw [UpdateExpressionStatus_tasks]; exact hk2
  · intro r hr
    rw [UpdateExpressionStatus_tasks] at hr
    obtain ⟨e, he, hid⟩ := h2 r hr
    have : e.id ∈ (UpdateExpressionStatus s id st res).2.expressions.map (fun e => e.id) := by
      rw [UpdateExpressionStatus_ids]; exact List.mem_map_of_mem _ he
    obtain ⟨e1, he1, hid1⟩ := List.mem_map.1 this
    exact ⟨e1, he1, by rw [hid1, hid]⟩
  · intro e1 he1 hst r hr hre
    rw [UpdateExpressionStatus_tasks] at hr
    obtain ⟨e, he, hid, hcase⟩ := hmem e1 he1
    rcases hcase with ⟨hid2, hst1⟩ | ⟨_, rfl⟩
    · exact hdone (by rw [← hst1, hst]) r hr (by rw [hre, hid, hid2])
    · exact h3 e1 he hst r hr hre

theorem CompletedStay_refl {L : Lib} (s : Store L) : s.CompletedStay s :=
  fun e he hst => ⟨e, he, rfl, hst⟩

theorem CompletedStay_trans {L : Lib} {s s1 s2 : Store L} (h1 : s.CompletedStay s1)
    (h2 : s1.CompletedStay s2) : s.CompletedStay s2 := by
  intro e he hst
  obtain ⟨e1, he1, hid1, hst1⟩ := h1 e he hst
  obtain ⟨e2, he2, hid2, hst2⟩ := h2 e1 he1 hst1
  exact ⟨e2, he2, by rw [hid2, hid1], hst2⟩

theorem CompletedStay_UpdateExpressionStatus {L : Lib} (s : Store L) (id st : String)
    (res : L.F)
    (hkeep : st ≠ "completed" → ∀ e ∈ s.expressions, e.id = id → e.status ≠ "completed") :
    s.CompletedStay (UpdateExpressionStatus s id st res).2 := by
  intro e he hst
  rw [UpdateExpressionStatus_expressions]
  refine ⟨_, List.mem_map_of_mem _ he, ?_, ?_⟩
  · split <;> rfl
  · by_cases hid : e.id = id
    · simp only [hid, if_true]
      by_contra hne
      exact hkeep hne e he hid hst
    · simp only [hid, if_false]
      exact hst

theorem CompletedStay_CompleteTask {L : Lib} (s : Store L) (tid : String) (res : L.F) :
    s.CompletedStay (CompleteTask s tid res) :=
  fun e he hst => ⟨e, he, rfl, hst⟩

theorem CountIncompleteTasks_eq_zero {L : Lib} (s : Store L) (id : String) :
    CountIncompleteTasks s id = 0 ↔
      ∀ r ∈ s.tasks, r.expression_id = id → r.completed = true := by
  simp only [CountIncompleteTasks, List.length_eq_zero, List.filter_eq_nil_iff,
    decide_eq_true_eq, not_and, Bool.not_eq_false]

/-- While a task of the expression is not completed, no row of the expression
is completed. -/
theorem not_completed_of_incomplete {L : Lib} (s : Store L) (h : s.Inv) (id : String)
    (r : TaskRow L) (hr : r ∈ s.tasks) (hid : r.expression_id = id) (hc : r.completed = false) :
    ∀ e ∈ s.expressions, e.id = id → e.status ≠ "completed" := by
  intro e he heid hst
  have := h.2.2 e he hst r hr (by rw [hid, heid])
  rw [hc] at this
  exact Bool.false_ne_true this

theorem insertTasks_ok {L : Lib} (exprID userID : String) (tasks : List (Task L)) :
    ∀ rows rows1, insertTasks exprID userID tasks rows = .ok rows1 →
      rows1 = rows ++ tasks.map (fun task =>
        { id := task.ID, expression_id := exprID, user_id := userID, arg1 := task.Arg1,
          arg2 := task.Arg2, operator := task.Operator, operation_time := task.OperationTime,
          result := none, completed := task.Completed }) ∧
      ((rows.map (fun r => r.id)).Nodup → (rows1.map (fun r => r.id)).Nodup) := by
  induction tasks with
  | nil =>
    intro rows rows1 h
    simp only [insertTasks, Except.ok.injEq] at h
    subst h
    simp
  | cons task rest ih =>
    intro rows rows1 h
    simp only [insertTasks] at h
    split at h
    · simp at h
    · rename_i hnot
      obtain ⟨h1, h2⟩ := ih _ _ h
      refine ⟨by rw [h1]; simp, ?_⟩
      intro hnd
      apply h2
      simp only [List.map_append, List.map_cons, List.map_nil]
      rw [List.nodup_append]
      refine ⟨hnd, List.nodup_singleton _, ?_⟩
      intro a ha hb
      simp only [List.mem_singleton] at hb
      subst hb
      apply hnot
      simp only [List.any_eq_true, decide_eq_true_eq]
      obtain ⟨r, hr, hid⟩ := List.mem_map.1 ha
      exact ⟨r, hr, hid⟩

theorem mem_GetExecutableTasks {L : Lib} (s : Store L) (exprID userID : String) (t : Task L)
    (h : t ∈ GetExecutableTasks s exprID userID) :
    t ∈ GetTasksByExpression s exprID userID ∧ t.Completed = false := by
  simp only [GetExecutableTasks, List.mem_filter, Bool.and_eq_true, Bool.not_eq_true'] at h
  exact ⟨h.1, h.2.1⟩

theorem Inv_handlePostTaskResult {L : Lib} (s : Store L) (ID : String) (Result : L.F)
    (h : s.Inv) :
    (handlePostTaskResult s ID Result).1.Inv ∧
      s.CompletedStay (handlePostTaskResult s ID Result).1 := by
  unfold handlePostTaskResult
  split
  · exact ⟨h, CompletedStay_refl s⟩
  · rename_i task _
    have h1 := Inv_CompleteTask s ID Result h
    simp only
    split
    · rename_i hzero
      refine ⟨Inv_UpdateExpressionStatus _ _ _ _ h1 ?_, ?_⟩
      · intro _
        exact (CountIncompleteTasks_eq_zero _ _).1 hzero
      · exact CompletedStay_trans (CompletedStay_CompleteTask s ID Result)
          (CompletedStay_UpdateExpressionStatus _ _ _ _ (fun hne => absurd rfl hne))
    · rename_i hnz
      have hex : ∃ r ∈ (CompleteTask s ID Result).tasks,
          r.expression_id = task.ExpressionID ∧ r.completed = false := by
        by_contra hcon
        apply hnz
        rw [CountIncompleteTasks_eq_zero]
        intro r hr hid
        by_contra hc
        exact hcon ⟨r, hr, hid, by simpa using hc⟩
      obtain ⟨r, hr, hid, hc⟩ := hex
      refine ⟨Inv_UpdateExpressionStatus _ _ _ _ h1 ?_, ?_⟩
      · intro habs
        exact absurd habs (by decide)
      · exact CompletedStay_trans (CompletedStay_CompleteTask s ID Result)
          (CompletedStay_UpdateExpressionStatus _ _ _ _
            (fun _ => not_completed_of_incomplete _ h1 _ r hr hid hc))

theorem Inv_processUserExpression {L : Lib} (s s1 : Store L) (userID : String)
    (expr : Expression L) (h : s.Inv) (hs : processUserExpression L s userID expr = some s1) :
    s1.Inv ∧ s.CompletedStay s1 := by
  unfold processUserExpression at hs
  split at hs
  · simp only [Option.some.injEq] at hs; subst hs
    exact ⟨h, CompletedStay_refl s⟩
  · simp only at hs
    split at hs
    · split at hs
      · rename_i hzero
        split at hs
        · simp at hs
        · simp only [Option.some.injEq] at hs; subst hs
          exact ⟨h, CompletedStay_refl s⟩
        · simp only [Option.some.injEq] at hs; subst hs
          refine ⟨Inv_UpdateExpressionStatus _ _ _ _ h ?_, ?_⟩
          · intro _
            exact (CountIncompleteTasks_eq_zero _ _).1 hzero
          · exact CompletedStay_UpdateExpressionStatus _ _ _ _ (fun hne => absurd rfl hne)
      · simp only [Option.some.injEq] at hs; subst hs
        exact ⟨h, CompletedStay_refl s⟩
    · rename_i hexec
      split at hs
      · simp only [Option.some.injEq] at hs; subst hs
        have hne : GetExecutableTasks s expr.ID userID ≠ [] := by
          intro hnil; apply hexec; rw [hnil]; rfl
        obtain ⟨t, ht⟩ := List.exists_mem_of_ne_nil _ hne
        obtain ⟨hmem, hc⟩ := mem_GetExecutableTasks s expr.ID userID t ht
        obtain ⟨r, hr, hid, _, rfl⟩ := (mem_GetTasksByExpression s _ _ t).1 hmem
        refine ⟨Inv_UpdateExpressionStatus _ _ _ _ h ?_, ?_⟩
        · intro habs
          exact absurd habs (by decide)
        · exact CompletedStay_UpdateExpressionStatus _ _ _ _
            (fun _ => not_completed_of_incomplete _ h _ r hr hid hc)
      · simp only [Option.some.injEq] at hs; subst hs
        exact ⟨h, CompletedStay_refl s⟩

theorem Inv_processUserLoop {L : Lib} (userID : String) (exprs : List (Expression L)) :
    ∀ s s1 : Store L, s.Inv → processUserLoop L userID exprs s = some s1 →
      s1.Inv ∧ s.CompletedStay s1 := by
  induction exprs with
  | nil =>
    intro s s1 h hs
    simp only [processUserLoop, Option.some.injEq] at hs; subst hs
    exact ⟨h, CompletedStay_refl s⟩
  | cons expr rest ih =>
    intro s s1 h hs
    simp only [processUserLoop] at hs
    split at hs
    · simp at hs
    · rename_i s2 hs2
      obtain ⟨h2, hm2⟩ := Inv_processUserExpression s s2 userID expr h hs2
      obtain ⟨h3, hm3⟩ := ih s2 s1 h2 hs
      exact ⟨h3, CompletedStay_trans hm2 hm3⟩

theorem Inv_processPendingLoop {L : Lib} (users : List String) :
    ∀ s s1 : Store L, s.Inv → processPendingLoop L users s = some s1 →
      s1.Inv ∧ s.CompletedStay s1 := by
  induction users with
  | nil =>
    intro s s1 h hs
    simp only [processPendingLoop, Option.some.injEq] at hs; subst hs
    exact ⟨h, CompletedStay_refl s⟩
  | cons userID rest ih =>
    intro s s1 h hs
    simp only [processPendingLoop] at hs
    split at hs
    · simp at hs
    · rename_i s2 hs2
      obtain ⟨h2, hm2⟩ := Inv_processUserLoop userID _ s s2 h hs2
      obtain ⟨h3, hm3⟩ := ih s2 s1 h2 hs
      exact ⟨h3, CompletedStay_trans hm2 hm3⟩

theorem NewExpression_cases {L : Lib} (s : Store L) (exprText userID : String)
    (now createdAt : Int) :
    ((NewExpression s exprText userID now createdAt).2 = s ∧
      ∃ e, (NewExpression s exprText userID now createdAt).1 = .error e) ∨
    ((∀ e ∈ s.expressions, e.id ≠ "expr-" ++ toString now) ∧
      (NewExpression s exprText userID now createdAt).1 =
        .ok { ID := "expr-" ++ toString now, Expression := exprText, Status := "pending",
              Result := L.zero, CreatedAt := createdAt } ∧
      (NewExpression s exprText userID now createdAt).2 =
        { s with expressions := s.expressions ++
          [{ id := "expr-" ++ toString now, user_id := userID, expression := exprText,
             status := "pending", result := none, created_at := createdAt }] }) := by
  unfold NewExpression
  simp only
  split
  · exact Or.inl ⟨rfl, _, rfl⟩
  · rename_i h
    simp only [List.any_eq_true, decide_eq_true_eq, not_exists, not_and] at h
    exact Or.inr ⟨h, rfl, rfl⟩

theorem Inv_addExpression {L : Lib} (s : Store L) (row : ExpressionRow L) (h : s.Inv)
    (hfresh : ∀ e ∈ s.expressions, e.id ≠ row.id) (hst : row.status ≠ "completed") :
    ({ s with expressions := s.expressions ++ [row] } : Store L).Inv ∧
      s.CompletedStay { s with expressions := s.expressions ++ [row] } := by
  obtain ⟨⟨hk1, hk2⟩, h2, h3⟩ := h
  refine ⟨⟨⟨?_, hk2⟩, ?_, ?_⟩, ?_⟩
  · simp only [List.map_append, List.map_cons, List.map_nil]
    rw [List.nodup_append]
    refine ⟨hk1, List.nodup_singleton _, ?_⟩
    intro a ha hb
    simp only [List.mem_singleton] at hb
    subst hb
    obtain ⟨e, he, hid⟩ := List.mem_map.1 ha
    exact hfresh e he hid
  · intro r hr
    obtain ⟨e, he, hid⟩ := h2 r hr
    exact ⟨e, List.mem_append_left _ he, hid⟩
  · intro e he hste r hr hre
    simp only [List.mem_append, List.mem_singleton] at he
    rcases he with he | rfl
    · exact h3 e he hste r hr hre
    · exact absurd hste hst
  · intro e he hste
    exact ⟨e, List.mem_append_left _ he, rfl, hste⟩

theorem Inv_RegisterTasks {L : Lib} (s : Store L) (exprID userID : String)
    (tasks : List (Task L)) (h : s.Inv)
    (hexpr : ∃ e ∈ s.expressions, e.id = exprID)
    (hpending : ∀ e ∈ s.expressions, e.id = exprID → e.status ≠ "completed") :
    (RegisterTasks s exprID userID tasks).2.Inv ∧
      s.CompletedStay (RegisterTasks s exprID userID tasks).2 := by
  unfold RegisterTasks
  split
  · exact ⟨h, CompletedStay_refl s⟩
  · rename_i rows hrows
    obtain ⟨hr1, hr2⟩ := insertTasks_ok exprID userID tasks _ _ hrows
    obtain ⟨⟨hk1, hk2⟩, h2, h3⟩ := h
    refine ⟨⟨⟨hk1, hr2 hk2⟩, ?_, ?_⟩, fun e he hste => ⟨e, he, rfl, hste⟩⟩
    · intro r hr
      simp only [hr1, List.mem_append, List.mem_map] at hr
      rcases hr with hr | ⟨t, _, rfl⟩
      · exact h2 r hr
      · exact hexpr
    · intro e he hste r hr hre
      simp only [hr1, List.mem_append, List.mem_map] at hr
      rcases hr with hr | ⟨t, _, rfl⟩
      · exact h3 e he hste r hr hre
      · exact absurd hste (hpending e he hre.symm)

theorem Inv_ProcessExpression {L : Lib} (s : Store L) (exprStr userID : String)
    (now createdAt : Int) (uuid : Nat → String) (h : s.Inv) :
    (ProcessExpression L s exprStr userID now createdAt uuid).2.Inv ∧
      s.CompletedStay (ProcessExpression L s exprStr userID now createdAt uuid).2 := by
  unfold ProcessExpression
  simp only
  split
  · exact ⟨h, CompletedStay_refl s⟩
  · split
    · exact ⟨h, CompletedStay_refl s⟩
    · split
      · exact ⟨h, CompletedStay_refl s⟩
      · rename_i tree _
        rcases NewExpression_cases s (removeSpaces exprStr) userID now createdAt with
          ⟨h1, e, h2⟩ | ⟨hfresh, h1, h2⟩
        · split
          · rename_i e1 s1 heq
            have : s1 = s := by rw [← h1, heq]
            subst this
            exact ⟨h, CompletedStay_refl _⟩
          · rename_i expr s1 heq
            rw [Prod.ext_iff] at heq
            simp only [h2] at heq
            exact absurd heq.1 (by simp)
        · split
          · rename_i e1 s1 heq
            rw [Prod.ext_iff] at heq
            simp only [h1] at heq
            exact absurd heq.1 (by simp)
          · rename_i expr s1 heq
            rw [Prod.ext_iff] at heq
            simp only [h1, h2, Except.ok.injEq] at heq
            obtain ⟨hexpr, hs1⟩ := heq
            obtain ⟨hinv1, hm1⟩ := Inv_addExpression s
              { id := "expr-" ++ toString now, user_id := userID,
                expression := removeSpaces exprStr, status := "pending", result := none,
                created_at := createdAt } h hfresh
              (by show "pending" ≠ "completed"; decide)
            rw [hs1] at hinv1 hm1
            have hid : expr.ID = "expr-" ++ toString now := by rw [← hexpr]
            have hreg := Inv_RegisterTasks s1 expr.ID userID
              (createTasksFromTree L uuid expr.ID tree 0).2.1 hinv1
              (by rw [← hs1, hid]; exact ⟨_, List.mem_append_right _ (List.mem_singleton_self _), rfl⟩)
              (by
                intro e he heid
                rw [← hs1] at he
                simp only [List.mem_append, List.mem_singleton] at he
                rcases he with he | rfl
                · exact absurd (heid.trans hid) (hfresh e he)
                · show "pending" ≠ "completed"; decide)
            split
            · rename_i e2 s2 heq2
              have : s2 = (RegisterTasks s1 expr.ID userID
                  (createTasksFromTree L uuid expr.ID tree 0).2.1).2 := by rw [heq2]
              rw [this]
              exact ⟨hreg.1, CompletedStay_trans hm1 hreg.2⟩
            · rename_i u2 s2 heq2
              have : s2 = (RegisterTasks s1 expr.ID userID
                  (createTasksFromTree L uuid expr.ID tree 0).2.1).2 := by rw [heq2]
              rw [this]
              exact ⟨hreg.1, CompletedStay_trans hm1 hreg.2⟩

/-! ## The state machine keeps the invariant -/

theorem Inv_empty (L : Lib) : (Store.empty L).Inv := by
  refine ⟨⟨?_, ?_⟩, ?_, ?_⟩ <;> simp [Store.empty]

theorem Inv_step {L : Lib} (s s1 : Store L) (a : Action L) (h : s.Inv)
    (hs : step L s a = some s1) : s1.Inv ∧ s.CompletedStay s1 := by
  cases a with
  | submit exprStr userID now createdAt uuid =>
    simp only [step, Option.some.injEq] at hs; subst hs
    exact Inv_ProcessExpression s exprStr userID now createdAt uuid h
  | report ID Result =>
    simp only [step, Option.some.injEq] at hs; subst hs
    exact Inv_handlePostTaskResult s ID Result h
  | sweep =>
    simp only [step, ProcessPendingTasks] at hs
    exact Inv_processPendingLoop _ s s1 h hs

theorem Inv_run {L : Lib} (actions : List (Action L)) :
    ∀ s s1 : Store L, s.Inv → run L s actions = some s1 → s1.Inv ∧ s.CompletedStay s1 := by
  induction actions with
  | nil =>
    intro s s1 h hs
    simp only [run, Option.some.injEq] at hs; subst hs
    exact ⟨h, CompletedStay_refl s⟩
  | cons a rest ih =>
    intro s s1 h hs
    simp only [run] at hs
    split at hs
    · simp at hs
    · rename_i s2 hs2
      obtain ⟨h2, hm2⟩ := Inv_step s s2 a h hs2
      obtain ⟨h3, hm3⟩ := ih s2 s1 h2 hs
      exact ⟨h3, CompletedStay_trans hm2 hm3⟩

theorem Inv_of_reachable {L : Lib} (s : Store L) (h : Reachable L s) : s.Inv := by
  obtain ⟨actions, hrun⟩ := h
  exact (Inv_run actions _ _ (Inv_empty L) hrun).1

theorem statusOf_eq_some {L : Lib} (s : Store L) (id st : String)
    (h : statusOf s id = some st) : ∃ e ∈ s.expressions, e.id = id ∧ e.status = st := by
  simp only [statusOf, GetExpression, Option.map_map, Option.map_eq_some'] at h
  obtain ⟨e, he, hst⟩ := h
  have := List.find?_some he
  exact ⟨e, List.mem_of_find?_eq_some he, by simpa using this, hst⟩

theorem find?_of_nodup_key {α : Type} (l : List α) (key : α → String)
    (hnd : (l.map key).Nodup) (a : α) (ha : a ∈ l) :
    l.find? (fun x => key x = key a) = some a := by
  induction l with
  | nil => simp at ha
  | cons x xs ih =>
    simp only [List.map_cons, List.nodup_cons] at hnd
    simp only [List.mem_cons] at ha
    by_cases hx : key x = key a
    · rcases ha with rfl | ha
      · simp
      · exact absurd (hx ▸ List.mem_map_of_mem key ha) hnd.1
    · rcases ha with rfl | ha
      · exact absurd rfl hx
      · simp only [List.find?_cons, hx, decide_False]
        exact ih hnd.2 ha

theorem statusOf_of_mem {L : Lib} (s : Store L) (hk : s.keysUnique) (e : ExpressionRow L)
    (he : e ∈ s.expressions) : statusOf s e.id = some e.status := by
  simp only [statusOf, GetExpression]
  rw [find?_of_nodup_key s.expressions (fun x => x.id) hk.1 e he]
  rfl

/-- Claim C7. In the state machine of submissions, result reports and sweeps, each
taken atomically and started on the empty database: once the status of an
expression is `completed`, it is `completed` after every further sequence of
steps, hence never again `pending` or `in_progress`. -/
theorem completed_is_final {L : Lib} (s s1 : Store L) (actions : List (Action L))
    (id : String) (hreach : Reachable L s) (hrun : run L s actions = some s1)
    (hdone : statusOf s id = some "completed") :
    statusOf s1 id = some "completed" ∧ statusOf s1 id ≠ some "pending" ∧
      statusOf s1 id ≠ some "in_progress" := by
  have hinv := Inv_of_reachable s hreach
  obtain ⟨hinv1, hstay⟩ := Inv_run actions s s1 hinv hrun
  obtain ⟨e, he, hid, hst⟩ := statusOf_eq_some s id _ hdone
  obtain ⟨e1, he1, hid1, hst1⟩ := hstay e he hst
  have h1 : statusOf s1 id = some "completed" := by
    rw [← hid, ← hid1, statusOf_of_mem s1 hinv1.1 e1 he1, hst1]
  rw [h1]
  exact ⟨rfl, by decide, by decide⟩

/-- The statement of C7 on the database `Store.done`, reached by a submission
and a report, and a second report for the same task. -/
theorem completed_is_final_witness :
    Reachable Lib.exact Store.done ∧
    run Lib.exact Store.done [.report "task-" 5]
      = some (handlePostTaskResult Store.done "task-" 5).1 ∧
    statusOf Store.done "expr-1" = some "completed" ∧
    statusOf (handlePostTaskResult Store.done "task-" 5).1 "expr-1" = some "completed" ∧
    statusOf (handlePostTaskResult Store.done "task-" 5).1 "expr-1" ≠ some "pending" ∧
    statusOf (handlePostTaskResult Store.done "task-" 5).1 "expr-1" ≠ some "in_progress" :=
  have h1 : Reachable Lib.exact Store.done :=
    ⟨[.submit "1+2" "alice" 1 1 unaryUuid, .report "task-" 3], rfl⟩
  have h2 : statusOf Store.done "expr-1" = some "completed" := by decide
  ⟨h1, rfl, h2, completed_is_final Store.done _ [.report "task-" 5] "expr-1" h1 rfl h2⟩

/-- Claim C8, at the failing input. After the submission of the single literal `42`
to the empty database and a sweep, the expression has no task that is not
completed, and its status is `pending`, not `completed`. -/
theorem literal_expression_stays_pending :
    (run Lib.exact (Store.empty Lib.exact)
        [.submit "42" "alice" 1 1 unaryUuid, .sweep]).map
      (fun s => (s.tasks.length, CountIncompleteTasks s "expr-1", statusOf s "expr-1"))
      = some (0, 0, some "pending") := by
  decide

/-- Claim C9, at the failing input. After the submission of `1+2*3`, the report of 6
for the task of `*`, the report of 7 for the root task of `+`, and a second
report of 6 for the task of `*`, the expression is `completed` with the stored
result 6, while the stored result of its root task is 7. -/
theorem repeated_report_overwrites_result :
    (run Lib.exact (Store.empty Lib.exact)
        [.submit "1+2*3" "alice" 1 1 unaryUuid, .report "task-" 6, .report "task-u" 7,
         .report "task-" 6]).map
      (fun s => (statusOf s "expr-1", (GetExpression s "expr-1").map (fun e => e.Result),
        ((createTasksFromTree Lib.exact unaryUuid "expr-1"
            (.mk "+" (.mk "1" .nil .nil "" 0)
              (.mk "*" (.mk "2" .nil .nil "" 0) (.mk "3" .nil .nil "" 0) "" 2) "" 1)
            0).2.1.getLast?).map (fun t => t.ID),
        (GetTask s "task-u").map (fun t => t.Result)))
      = some (some "completed", some 6, some "task-u", some 7) := by
  decide!

/-! ## Tokenizer -/

theorem countType_append (ty : tokenType) (a b : List token) :
    countType ty (a ++ b) = countType ty a + countType ty b := by
  simp [countType]

theorem countType_cons (ty : tokenType) (t : token) (b : List token) :
    countType ty (t :: b) = (if t.type_ = ty then 1 else 0) + countType ty b := by
  simp only [countType, List.filter_cons]
  split
  · rename_i h
    simp only [decide_eq_true_eq] at h
    simp [h]; omega
  · rename_i h
    simp only [decide_eq_true_eq] at h
    simp [h]

theorem countType_nil (ty : tokenType) : countType ty [] = 0 := rfl

theorem isOperatorChar_iff (c : Char) :
    isOperatorChar c = true ↔ c = '+' ∨ c = '-' ∨ c = '*' ∨ c = '/' := by
  simp [isOperatorChar, or_assoc]

theorem numChar_not_special (L : Lib) (c : Char)
    (h : unicodeIsDigit L c = true ∨ c = '.') :
    isOperatorChar c = false ∧ c ≠ '(' ∧ c ≠ ')' ∧ c ≠ 't' ∧ c ≠ ' ' := by
  have key : ∀ d : Char, d.toNat ≤ 255 → ¬ (48 ≤ d.toNat ∧ d.toNat ≤ 57) → d ≠ '.' → c ≠ d := by
    intro d hd1 hd2 hd3 hcd
    subst hcd
    rcases h with h | h
    · simp only [unicodeIsDigit, hd1, if_true, decide_eq_true_eq] at h
      exact hd2 h
    · exact hd3 h
  refine ⟨?_, key _ (by decide) (by decide) (by decide), key _ (by decide) (by decide) (by decide),
    key _ (by decide) (by decide) (by decide), key _ (by decide) (by decide) (by decide)⟩
  by_contra hop
  rw [Bool.not_eq_false, isOperatorChar_iff] at hop
  rcases hop with hop | hop | hop | hop
  · exact key _ (by decide) (by decide) (by decide) hop
  · exact key _ (by decide) (by decide) (by decide) hop
  · exact key _ (by decide) (by decide) (by decide) hop
  · exact key _ (by decide) (by decide) (by decide) hop

theorem wf_number (L : Lib) (cs : List Char) (hne : cs ≠ [])
    (h : ∀ c ∈ cs, unicodeIsDigit L c = true ∨ c = '.') :
    token.WellFormed L ⟨String.mk cs, .number⟩ :=
  ⟨hne, h⟩

theorem wf_operator (L : Lib) (ch : Char) (h : isOperatorChar ch = true) :
    token.WellFormed L ⟨String.singleton ch, .operator⟩ := by
  rw [isOperatorChar_iff] at h
  rcases h with rfl | rfl | rfl | rfl <;> (show isOperator _ = true) <;> decide

theorem tokenizeLoop_spec (L : Lib) (cs : List Char) :
    ∀ (tokens : List token) (current : List Char) (pc : Int) (tokens1 : List token) (pc1 : Int),
      (∀ c ∈ current, unicodeIsDigit L c = true ∨ c = '.') →
      tokenizeLoop L cs tokens current pc = .ok (tokens1, pc1) →
      ∃ new, tokens1 = tokens ++ new ∧ (∀ t ∈ new, t.WellFormed L) ∧
        countType .operator new = (cs.filter isOperatorChar).length ∧
        pc1 = pc + countType .leftParen new - countType .rightParen new := by
  induction cs with
  | nil =>
    intro tokens current pc tokens1 pc1 _ h
    simp only [tokenizeLoop, Except.ok.injEq, Prod.mk.injEq] at h
    obtain ⟨rfl, rfl⟩ := h
    exact ⟨[], by simp, by simp, rfl, by simp [countType_nil]⟩
  | cons ch rest ih =>
    intro tokens current pc tokens1 pc1 hcur h
    rw [tokenizeLoop] at h
    by_cases hd : (unicodeIsDigit L ch || ch == '.') = true
    · have hd1 : unicodeIsDigit L ch = true ∨ ch = '.' := by simpa using hd
      have hnop := (numChar_not_special L ch hd1).1
      have hcur1 : ∀ c ∈ current ++ [ch], unicodeIsDigit L c = true ∨ c = '.' := by
        intro c hc
        simp only [List.mem_append, List.mem_singleton] at hc
        rcases hc with hc | rfl
        · exact hcur c hc
        · exact hd1
      simp only [hd, if_true] at h
      split at h
      · obtain ⟨new, h1, h2, h3, h4⟩ := ih _ _ _ _ _ hcur1 h
        exact ⟨new, h1, h2, by simp [h3, List.filter_cons, hnop], h4⟩
      · obtain ⟨new, h1, h2, h3, h4⟩ := ih _ _ _ _ _ (by simp) h
        refine ⟨(⟨String.mk (current ++ [ch]), .number⟩ : token) :: new, by simp [h1], ?_, ?_, ?_⟩
        · intro t ht
          simp only [List.mem_cons] at ht
          rcases ht with rfl | ht
          · exact wf_number L _ (by simp) hcur1
          · exact h2 t ht
        · simp [countType_cons, h3, List.filter_cons, hnop]
        · simp [countType_cons, h4]
    · simp only [hd, if_false, Bool.false_eq_true] at h
      by_cases hop : (ch == '+' || ch == '-' || ch == '*' || ch == '/') = true
      · have hop1 : isOperatorChar ch = true := hop
        simp only [hop, if_true] at h
        split at h
        · rename_i hlen
          obtain ⟨new, h1, h2, h3, h4⟩ := ih _ _ _ _ _ (by simp) h
          refine ⟨(⟨String.mk current, .number⟩ : token) :: (⟨String.singleton ch, .operator⟩ : token) :: new, by simp [h1], ?_, ?_, ?_⟩
          · intro t ht
            simp only [List.mem_cons] at ht
            rcases ht with rfl | rfl | ht
            · exact wf_number L _ (by intro hnil; simp [hnil] at hlen) hcur
            · exact wf_operator L ch hop1
            · exact h2 t ht
          · simp [countType_cons, h3, List.filter_cons, hop1]; omega
          · simp [countType_cons, h4]
        · obtain ⟨new, h1, h2, h3, h4⟩ := ih _ _ _ _ _ hcur h
          refine ⟨(⟨String.singleton ch, .operator⟩ : token) :: new, by simp [h1], ?_, ?_, ?_⟩
          · intro t ht
            simp only [List.mem_cons] at ht
            rcases ht with rfl | ht
            · exact wf_operator L ch hop1
            · exact h2 t ht
          · simp [countType_cons, h3, List.filter_cons, hop1]; omega
          · simp [countType_cons, h4]
      · have hop1 : isOperatorChar ch = false := by
          simpa [isOperatorChar] using hop
        simp only [hop, if_false, Bool.false_eq_true] at h
        split at h
        · obtain ⟨new, h1, h2, h3, h4⟩ := ih _ _ _ _ _ hcur h
          refine ⟨(⟨"(", .leftParen⟩ : token) :: new, by simp [h1], ?_, ?_, ?_⟩
          · intro t ht
            simp only [List.mem_cons] at ht
            rcases ht with rfl | ht
            · rfl
            · exact h2 t ht
          · simp [countType_cons, h3, List.filter_cons, hop1]
          · simp [countType_cons, h4]; omega
        · split at h
          · split at h
            · simp at h
            · have hcur2 : ∀ c ∈ (if current.length > 0 then [] else current),
                  unicodeIsDigit L c = true ∨ c = '.' := by
                intro c hc
                split at hc
                · simp at hc
                · exact hcur c hc
              obtain ⟨new, h1, h2, h3, h4⟩ := ih _ _ _ _ _ hcur2 h
              by_cases hlen : current.length > 0
              · refine ⟨(⟨String.mk current, .number⟩ : token) :: (⟨")", .rightParen⟩ : token) :: new, by simp [h1, hlen], ?_, ?_, ?_⟩
                · intro t ht
                  simp only [List.mem_cons] at ht
                  rcases ht with rfl | rfl | ht
                  · exact wf_number L _ (by intro hnil; simp [hnil] at hlen) hcur
                  · rfl
                  · exact h2 t ht
                · simp [countType_cons, h3, List.filter_cons, hop1]
                · simp [countType_cons, h4]; omega
              · refine ⟨(⟨")", .rightParen⟩ : token) :: new, by simp [h1, hlen], ?_, ?_, ?_⟩
                · intro t ht
                  simp only [List.mem_cons] at ht
                  rcases ht with rfl | ht
                  · rfl
                  · exact h2 t ht
                · simp [countType_cons, h3, List.filter_cons, hop1]
                · simp [countType_cons, h4]; omega
          · obtain ⟨new, h1, h2, h3, h4⟩ := ih _ _ _ _ _ hcur h
            exact ⟨new, h1, h2, by simp [h3, List.filter_cons, hop1], h4⟩

theorem tokenize_spec (L : Lib) (expr : String) (tokens : List token)
    (h : tokenize L expr = .ok tokens) :
    (∀ t ∈ tokens, t.WellFormed L) ∧
    countType .operator tokens = (expr.data.filter isOperatorChar).length ∧
    countType .leftParen tokens = countType .rightParen tokens := by
  unfold tokenize at h
  split at h
  · simp at h
  · rename_i tokens1 pc1 hloop
    split at h
    · simp at h
    · rename_i hpc
      simp only [Except.ok.injEq] at h
      subst h
      obtain ⟨new, h1, h2, h3, h4⟩ := tokenizeLoop_spec L expr.data [] [] 0 _ _ (by simp) hloop
      simp only [List.nil_append] at h1
      subst h1
      refine ⟨h2, h3, ?_⟩
      simp only [ne_eq, Decidable.not_not] at hpc
      omega

/-! ## Parser -/

theorem isNumberText_not_operator (L : Lib) (v : String) (h : isNumberText L v) :
    isOperator v = false ∧ stringsHasPrefix v "task:" = false := by
  obtain ⟨hne, hall⟩ := h
  obtain ⟨c, cs, hv⟩ := List.exists_cons_of_ne_nil hne
  have hc := numChar_not_special L c (hall c (by rw [hv]; simp))
  constructor
  · by_contra hop
    rw [Bool.not_eq_false] at hop
    simp only [isOperator, Bool.or_eq_true, beq_iff_eq] at hop
    have h1 := hc.1
    rcases hop with ((hop | hop) | hop) | hop <;>
      · rw [hop] at hv
        simp only [String.data, List.cons.injEq] at hv
        obtain ⟨rfl, _⟩ := hv
        simp [isOperatorChar] at h1
  · by_contra hp
    rw [Bool.not_eq_false] at hp
    simp only [stringsHasPrefix, hv] at hp
    have : c = 't' := by
      have hp1 : ['t', 'a', 's', 'k', ':'].isPrefixOf (c :: cs) = true := hp
      simp only [List.isPrefixOf, Bool.and_eq_true, beq_iff_eq] at hp1
      exact hp1.1.symm
    exact hc.2.2.2.1 this

theorem opsIn_cons (op : String) (st : List String) :
    opsIn (op :: st) = (if isOperator op = true then 1 else 0) + opsIn st := by
  simp only [opsIn, List.filter_cons]
  split <;> simp; omega

theorem parensIn_cons (op : String) (st : List String) :
    parensIn (op :: st) = (if op = "(" then 1 else 0) + parensIn st := by
  simp only [parensIn, List.filter_cons, decide_eq_true_eq]
  split <;> simp; omega

theorem isOperator_ne_paren (op : String) (h : isOperator op = true) : op ≠ "(" := by
  intro hp
  subst hp
  exact absurd h (by decide)

theorem nodesIn_cons (n : Node) (out : List Node) :
    nodesIn (n :: out) = n.operatorCount + nodesIn out := by
  simp [nodesIn]

theorem reduceTop_spec (L : Lib) (op : String) (out out1 : List Node)
    (hop : isOperator op = true) (hwf : ∀ n ∈ out, n.WellFormed L)
    (h : reduceTop op out = .ok out1) :
    (∀ n ∈ out1, n.WellFormed L) ∧ nodesIn out1 = nodesIn out + 1 := by
  unfold reduceTop at h
  split at h
  · rename_i right left rest
    simp only [Except.ok.injEq] at h
    subst h
    constructor
    · intro n hn
      simp only [List.mem_cons] at hn
      rcases hn with rfl | hn
      · exact Or.inl ⟨hop, hwf _ (by simp), hwf _ (by simp)⟩
      · exact hwf n (by simp [hn])
    · simp only [nodesIn_cons, Node.operatorCount, hop, if_true]
      omega
  · simp at h

theorem popOperators_spec (L : Lib) (cond : String → Bool) (st : List String) :
    ∀ (out : List Node) (st1 : List String) (out1 : List Node),
      stackOK st → (∀ op ∈ st, cond op = true → isOperator op = true) →
      (∀ n ∈ out, n.WellFormed L) →
      popOperators cond st out = .ok (st1, out1) →
      stackOK st1 ∧ (∀ n ∈ out1, n.WellFormed L) ∧
        nodesIn out1 + opsIn st1 = nodesIn out + opsIn st ∧
        parensIn st1 = parensIn st ∧
        (st1 = [] ∨ ∃ top rest, st1 = top :: rest ∧ cond top = false) := by
  induction st with
  | nil =>
    intro out st1 out1 hst _ hwf h
    simp only [popOperators, Except.ok.injEq, Prod.mk.injEq] at h
    obtain ⟨rfl, rfl⟩ := h
    exact ⟨hst, hwf, rfl, rfl, Or.inl rfl⟩
  | cons op rest ih =>
    intro out st1 out1 hst hcond hwf h
    rw [popOperators] at h
    split at h
    · rename_i hc
      have hop : isOperator op = true := hcond op (by simp) hc
      split at h
      · simp at h
      · rename_i out2 hred
        obtain ⟨hwf2, hn2⟩ := reduceTop_spec L op out out2 hop hwf hred
        obtain ⟨a, b, c, d, e⟩ := ih out2 st1 out1
          (fun x hx => hst x (by simp [hx])) (fun x hx => hcond x (by simp [hx])) hwf2 h
        refine ⟨a, b, ?_, ?_, e⟩
        · rw [c, hn2, opsIn_cons]; simp only [hop, if_true]; omega
        · rw [d, parensIn_cons]; simp [isOperator_ne_paren op hop]
    · rename_i hc
      simp only [Except.ok.injEq, Prod.mk.injEq] at h
      obtain ⟨rfl, rfl⟩ := h
      exact ⟨hst, hwf, rfl, rfl, Or.inr ⟨op, rest, rfl, by simpa using hc⟩⟩

theorem buildStep_spec (L : Lib) (t : token) (st : List String) (out : List Node)
    (st1 : List String) (out1 : List Node)
    (ht : t.WellFormed L) (hst : stackOK st) (hwf : ∀ n ∈ out, n.WellFormed L)
    (h : buildStep t st out = .ok (st1, out1)) :
    stackOK st1 ∧ (∀ n ∈ out1, n.WellFormed L) ∧
      nodesIn out1 + opsIn st1 =
        nodesIn out + opsIn st + (if t.type_ = .operator then 1 else 0) ∧
      parensIn st1 + (if t.type_ = .rightParen then 1 else 0) =
        parensIn st + (if t.type_ = .leftParen then 1 else 0) := by
  unfold buildStep at h
  unfold token.WellFormed at ht
  split at h
  · rename_i hty
    simp only [hty] at ht
    simp only [Except.ok.injEq, Prod.mk.injEq] at h
    obtain ⟨rfl, rfl⟩ := h
    refine ⟨hst, ?_, ?_, ?_⟩
    · intro n hn
      simp only [List.mem_cons] at hn
      rcases hn with rfl | hn
      · exact Or.inr ⟨ht, rfl, rfl⟩
      · exact hwf n hn
    · simp [nodesIn_cons, Node.operatorCount, (isNumberText_not_operator L _ ht).1, hty]
    · simp [hty]
  · rename_i hty
    simp only [hty] at ht
    split at h
    · simp at h
    · rename_i st2 out2 hpop
      simp only [Except.ok.injEq, Prod.mk.injEq] at h
      obtain ⟨rfl, rfl⟩ := h
      obtain ⟨a, b, c, d, _⟩ := popOperators_spec L _ st out st2 out2 hst
        (by
          intro op hop hc
          simp only [Bool.and_eq_true, bne_iff_ne, ne_eq] at hc
          rcases hst op hop with h1 | h1
          · exact h1
          · exact absurd h1 hc.2) hwf hpop
      refine ⟨?_, b, ?_, ?_⟩
      · intro x hx
        simp only [List.mem_cons] at hx
        rcases hx with rfl | hx
        · exact Or.inl ht
        · exact a x hx
      · rw [opsIn_cons]; simp only [ht, if_true, hty]; omega
      · rw [parensIn_cons]; simp [isOperator_ne_paren _ ht, hty, d]
  · rename_i hty
    simp only [hty] at ht
    simp only [Except.ok.injEq, Prod.mk.injEq] at h
    obtain ⟨rfl, rfl⟩ := h
    refine ⟨?_, hwf, ?_, ?_⟩
    · intro x hx
      simp only [List.mem_cons] at hx
      rcases hx with rfl | hx
      · exact Or.inr ht
      · exact hst x hx
    · rw [opsIn_cons]; simp [ht, hty]; decide
    · rw [parensIn_cons]; simp [ht, hty]; omega
  · rename_i hty
    have hpopspec := popOperators_spec L (fun top => top != "(") st out
    split at h
    · simp at h
    · simp at h
    · rename_i top st2 out2 hpop
      simp only [Except.ok.injEq, Prod.mk.injEq] at h
      obtain ⟨rfl, rfl⟩ := h
      obtain ⟨a, b, c, d, e⟩ := hpopspec _ _ hst
        (by
          intro op hop hc
          simp only [bne_iff_ne, ne_eq] at hc
          rcases hst op hop with h1 | h1
          · exact h1
          · exact absurd h1 hc) hwf hpop
      have htop : top = "(" := by
        rcases e with e | ⟨top1, rest1, e1, e2⟩
        · simp at e
        · simp only [List.cons.injEq] at e1
          obtain ⟨rfl, _⟩ := e1
          simpa using e2
      subst htop
      refine ⟨fun x hx => a x (by simp [hx]), b, ?_, ?_⟩
      · have hnop : isOperator "(" = false := by decide
        rw [opsIn_cons, hnop] at c
        simp only [hty]
        simp only [Bool.false_eq_true, if_false, Nat.zero_add] at c
        simpa using c
      · rw [parensIn_cons] at d
        simp only [if_true] at d
        simp only [hty, if_true]
        simp
        omega

theorem buildLoop_spec (L : Lib) (ts : List token) :
    ∀ (st : List String) (out : List Node) (st1 : List String) (out1 : List Node),
      (∀ t ∈ ts, t.WellFormed L) → stackOK st → (∀ n ∈ out, n.WellFormed L) →
      buildLoop ts st out = .ok (st1, out1) →
      stackOK st1 ∧ (∀ n ∈ out1, n.WellFormed L) ∧
        nodesIn out1 + opsIn st1 = nodesIn out + opsIn st + countType .operator ts ∧
        parensIn st1 + countType .rightParen ts = parensIn st + countType .leftParen ts := by
  induction ts with
  | nil =>
    intro st out st1 out1 _ hst hwf h
    simp only [buildLoop, Except.ok.injEq, Prod.mk.injEq] at h
    obtain ⟨rfl, rfl⟩ := h
    exact ⟨hst, hwf, by simp [countType_nil], by simp [countType_nil]⟩
  | cons t rest ih =>
    intro st out st1 out1 hts hst hwf h
    rw [buildLoop] at h
    split at h
    · simp at h
    · rename_i st2 out2 hstep
      obtain ⟨a, b, c, d⟩ := buildStep_spec L t st out st2 out2 (hts t (by simp)) hst hwf hstep
      obtain ⟨a1, b1, c1, d1⟩ := ih st2 out2 st1 out1 (fun x hx => hts x (by simp [hx])) a b h
      refine ⟨a1, b1, ?_, ?_⟩
      · rw [countType_cons]; omega
      · rw [countType_cons, countType_cons]; omega

theorem buildExpressionTree_spec (L : Lib) (tokens : List token) (tree : Node)
    (hts : ∀ t ∈ tokens, t.WellFormed L)
    (hbal : countType .leftParen tokens = countType .rightParen tokens)
    (h : buildExpressionTree tokens = .ok tree) :
    tree.WellFormed L ∧ tree.operatorCount = countType .operator tokens := by
  unfold buildExpressionTree at h
  split at h
  · simp at h
  · rename_i st out hloop
    obtain ⟨a, b, c, d⟩ := buildLoop_spec L tokens [] [] st out hts
      (by intro x hx; simp at hx) (by intro x hx; simp at hx) hloop
    have hpar : parensIn st = 0 := by
      have : parensIn ([] : List String) = 0 := rfl
      omega
    have hops : ∀ op ∈ st, isOperator op = true := by
      intro op hop
      rcases a op hop with h1 | h1
      · exact h1
      · exfalso
        have : 0 < parensIn st := by
          unfold parensIn
          exact List.length_pos_of_mem (List.mem_filter.2 ⟨hop, by simpa using h1⟩)
        omega
    split at h
    · simp at h
    · rename_i st2 n hpop
      simp only [Except.ok.injEq] at h
      subst h
      obtain ⟨_, b2, c2, _, e2⟩ := popOperators_spec L (fun _ => true) st out st2 [n] a
        (fun op hop _ => hops op hop) b hpop
      have hst2 : st2 = [] := by
        rcases e2 with e2 | ⟨_, _, _, e3⟩
        · exact e2
        · simp at e3
      subst hst2
      refine ⟨b2 n (by simp), ?_⟩
      have h0 : nodesIn ([] : List Node) = 0 := rfl
      have h1 : opsIn ([] : List String) = 0 := rfl
      have h2 : nodesIn [n] = n.operatorCount := by simp [nodesIn]
      omega
    · simp at h

/-- Claim C2. For every string on which `ValidateExpression`, `tokenize` and
`buildExpressionTree` succeed, the list returned by `createTasksFromTree` on the
tree has exactly as many tasks as the string has operator characters
`+ - * /`. -/
theorem task_count_eq_operator_count (L : Lib) (uuid : Nat → String) (exprID : String)
    (k : Nat) (expr : String) (tokens : List token) (tree : Node)
    (hvalid : ValidateExpression L expr = .ok ())
    (htok : tokenize L expr = .ok tokens)
    (htree : buildExpressionTree tokens = .ok tree) :
    (createTasksFromTree L uuid exprID tree k).2.1.length
      = (expr.data.filter isOperatorChar).length := by
  have _ := hvalid
  obtain ⟨h1, h2, h3⟩ := tokenize_spec L expr tokens htok
  obtain ⟨_, h5⟩ := buildExpressionTree_spec L tokens tree h1 h3 htree
  rw [tasks_length, h5, h2]

/-- The statement of C2 on the string `1+2*3`, which the front end accepts. -/
theorem task_count_eq_operator_count_witness :
    ValidateExpression Lib.exact "1+2*3" = .ok () ∧
    tokenize Lib.exact "1+2*3" = .ok [⟨"1", .number⟩, ⟨"+", .operator⟩, ⟨"2", .number⟩,
      ⟨"*", .operator⟩, ⟨"3", .number⟩] ∧
    buildExpressionTree [⟨"1", .number⟩, ⟨"+", .operator⟩, ⟨"2", .number⟩,
      ⟨"*", .operator⟩, ⟨"3", .number⟩]
      = .ok (.mk "+" (.mk "1" .nil .nil "" 0)
          (.mk "*" (.mk "2" .nil .nil "" 0) (.mk "3" .nil .nil "" 0) "" 2) "" 1) ∧
    (createTasksFromTree Lib.exact unaryUuid "expr-1"
      (.mk "+" (.mk "1" .nil .nil "" 0)
        (.mk "*" (.mk "2" .nil .nil "" 0) (.mk "3" .nil .nil "" 0) "" 2) "" 1) 0).2.1.length
      = ("1+2*3".data.filter isOperatorChar).length :=
  have h1 : ValidateExpression Lib.exact "1+2*3" = .ok () := by decide!
  have h2 : tokenize Lib.exact "1+2*3" = .ok [⟨"1", .number⟩, ⟨"+", .operator⟩,
      ⟨"2", .number⟩, ⟨"*", .operator⟩, ⟨"3", .number⟩] := by decide
  have h3 : buildExpressionTree [⟨"1", .number⟩, ⟨"+", .operator⟩, ⟨"2", .number⟩,
      ⟨"*", .operator⟩, ⟨"3", .number⟩]
      = .ok (.mk "+" (.mk "1" .nil .nil "" 0)
          (.mk "*" (.mk "2" .nil .nil "" 0) (.mk "3" .nil .nil "" 0) "" 2) "" 1) := by decide
  ⟨h1, h2, h3, task_count_eq_operator_count Lib.exact unaryUuid "expr-1" 0 "1+2*3" _ _ h1 h2 h3⟩

/-! ## The two expressions of three literals -/

theorem aggregate_sum_of_product (L : Lib) (id0 id1 a b c e u0 u1 : String) (t0 t1 : Int)
    (r0 r1 x y z : L.F)
    (hid : id0 ≠ id1) (h0 : id0 ≠ "") (h1 : id1 ≠ "")
    (ha : isOperator a = false ∧ stringsHasPrefix a "task:" = false)
    (hb : isOperator b = false ∧ stringsHasPrefix b "task:" = false)
    (hc : isOperator c = false ∧ stringsHasPrefix c "task:" = false)
    (hx : L.ParseFloat a = .ok x) (hy : L.ParseFloat b = .ok y) (hz : L.ParseFloat c = .ok z) :
    AggregateResults L
      [{ ID := id0, ExpressionID := e, Arg1 := b, Arg2 := c, Operator := "*",
         OperationTime := t0, Result := r0, Completed := true, UserID := u0 },
       { ID := id1, ExpressionID := e, Arg1 := a, Arg2 := "task:" ++ id0, Operator := "+",
         OperationTime := t1, Result := r1, Completed := true, UserID := u1 }]
      = some (.ok (L.add x (L.mul y z))) := by
  have hid' : ¬ id1 = id0 := fun h => hid h.symm
  have h0' : ¬ id0 = "" := h0
  have h1' : ¬ id1 = "" := h1
  have hmul : isOperator "*" = true := by decide
  have hadd : isOperator "+" = true := by decide
  simp [AggregateResults, collectResults, getRootNode, linkNodes, createNodes, GoMap.get,
    GoMap.set, childPtr, evaluateWithResults, deref, hid, hid', h0', h1', ha, hb, hc, hx, hy, hz,
    hasPrefix_append, trimPrefix_append, hmul, hadd]

theorem utf8Size_ascii (c : Char) (h : c.toNat ≤ 127) : c.utf8Size = 1 := by
  have h1 : c.val ≤ 127 := by
    rw [UInt32.le_def]
    exact h
  simp [Char.utf8Size, h1]

theorem litChar_facts (L : Lib) (c : Char) (h : (48 ≤ c.toNat ∧ c.toNat ≤ 57) ∨ c = '.') :
    (unicodeIsDigit L c = true ∨ c = '.') ∧ c.utf8Size = 1 ∧ unicodeIsSpace c = false := by
  rcases h with h | rfl
  · refine ⟨Or.inl ?_, utf8Size_ascii c (by omega), ?_⟩
    · have : c.toNat ≤ 255 := by omega
      simp only [unicodeIsDigit, this, if_true, decide_eq_true_eq]
      exact h
    · simp only [unicodeIsSpace, decide_eq_false_iff_not]
      omega
  · exact ⟨Or.inr rfl, by decide, by decide⟩

theorem tokenizeLoop_literal (L : Lib) (a : List Char) :
    a ≠ [] → LitChars a → ∀ (rest : List Char) (tokens : List token) (cur : List Char) (pc : Int),
      (∀ d ∈ rest.head?, ¬ ((48 ≤ d.toNat ∧ d.toNat ≤ 57) ∨ d = '.')) →
      tokenizeLoop L (a ++ rest) tokens cur pc =
        tokenizeLoop L rest (tokens ++ [⟨String.mk (cur ++ a), .number⟩]) [] pc := by
  induction a with
  | nil => intro h; exact absurd rfl h
  | cons c a1 ih =>
    intro _ hlit rest tokens cur pc hrest
    obtain ⟨hd, hsize, _⟩ := litChar_facts L c (hlit c (by simp))
    have hd1 : (unicodeIsDigit L c || c == '.') = true := by simpa using hd
    rw [List.cons_append, tokenizeLoop]
    simp only [hd1, if_true]
    cases a1 with
    | nil =>
      have hnext : nextIsDigitOrDot c rest = false := by
        simp only [nextIsDigitOrDot, hsize, if_true]
        cases rest with
        | nil => rfl
        | cons d rest1 =>
          have := hrest d (by simp)
          simpa using this
      simp [hnext]
    | cons c1 a2 =>
      have hnext : nextIsDigitOrDot c (c1 :: a2 ++ rest) = true := by
        simp only [nextIsDigitOrDot, hsize, if_true, List.cons_append]
        have := hlit c1 (by simp)
        simpa using this
      simp only [hnext, if_true]
      rw [ih (by simp) (fun x hx => hlit x (by simp [hx])) rest tokens (cur ++ [c]) pc hrest]
      simp

theorem findInvalidChar_none (L : Lib) (cs : List Char) :
    ∀ i, (∀ c ∈ cs, (unicodeIsDigit L c = true ∨ c = '.') ∨ isOperatorChar c = true ∨
        c = '(' ∨ c = ')') →
      findInvalidChar L cs i = none := by
  induction cs with
  | nil => intro i _; rfl
  | cons c rest ih =>
    intro i h
    rw [findInvalidChar]
    have hc := h c (by simp)
    have hfalse : (!unicodeIsDigit L c && c != '+' && c != '-' && c != '*' && c != '/' &&
        c != '.' && c != '(' && c != ')') = false := by
      rcases hc with (hc | hc) | hc | hc | hc
      · simp [hc]
      · simp [hc]
      · rw [isOperatorChar_iff] at hc
        rcases hc with rfl | rfl | rfl | rfl <;> simp
      · simp [hc]
      · simp [hc]
    simp only [hfalse, Bool.false_eq_true, if_false]
    exact ih _ (fun x hx => h x (by simp [hx]))

theorem isOperator_singleton (c : Char) :
    isOperator (String.singleton c) = isOperatorChar c := by
  have key : ∀ d : Char, (String.singleton c == String.singleton d) = (c == d) := by
    intro d
    by_cases h : c = d
    · subst h; simp
    · have : String.singleton c ≠ String.singleton d := by
        intro hs
        apply h
        have := congrArg String.data hs
        simpa [String.singleton] using this
      simp [h, this]
  have e1 : ("+" : String) = String.singleton '+' := rfl
  have e2 : ("-" : String) = String.singleton '-' := rfl
  have e3 : ("*" : String) = String.singleton '*' := rfl
  have e4 : ("/" : String) = String.singleton '/' := rfl
  simp only [isOperator, isOperatorChar, e1, e2, e3, e4, key]

theorem findConsecutiveOperators_none (cs : List Char) :
    ∀ i, List.Chain' (fun x y => ¬ (isOperatorChar x = true ∧ isOperatorChar y = true)) cs →
      findConsecutiveOperators cs i = none := by
  induction cs with
  | nil => intro i _; rfl
  | cons c rest ih =>
    intro i h
    cases rest with
    | nil => rfl
    | cons d rest1 =>
      rw [List.chain'_cons] at h
      rw [findConsecutiveOperators]
      simp only [isOperator_singleton]
      have : (isOperatorChar c && isOperatorChar d) = false := by
        simpa using h.1
      simp only [this, Bool.false_eq_true, if_false]
      exact ih _ h.2

theorem countParens_skip (a : List Char) (ha : ∀ c ∈ a, c ≠ '(' ∧ c ≠ ')') :
    ∀ (rest : List Char) (n : Int), countParens (a ++ rest) n = countParens rest n := by
  induction a with
  | nil => intro rest n; rfl
  | cons c a1 ih =>
    intro rest n
    have hc := ha c (by simp)
    rw [List.cons_append, countParens]
    simp only [beq_iff_eq, hc.1, hc.2, if_false]
    exact ih (fun x hx => ha x (by simp [hx])) rest n

theorem fieldsLoop_skip (f : Char → Bool) (a : List Char) (ha : ∀ c ∈ a, f c = false) :
    ∀ (rest cur : List Char), fieldsLoop f (a ++ rest) cur = fieldsLoop f rest (cur ++ a) := by
  induction a with
  | nil => intro rest cur; simp
  | cons c a1 ih =>
    intro rest cur
    rw [List.cons_append, fieldsLoop]
    simp only [ha c (by simp), Bool.false_eq_true, if_false]
    rw [ih (fun x hx => ha x (by simp [hx]))]
    simp

theorem trimSpace_literal (a : String) (ha : LitChars a.data) : stringsTrimSpace a = a := by
  have hns : ∀ c ∈ a.data, unicodeIsSpace c = false := fun c hc =>
    ((litChar_facts (Lib.exact) c (ha c hc)).2.2)
  have h1 : ∀ l : List Char, (∀ c ∈ l, unicodeIsSpace c = false) →
      l.dropWhile unicodeIsSpace = l := by
    intro l hl
    cases l with
    | nil => rfl
    | cons c l1 => simp [List.dropWhile, hl c (by simp)]
  unfold stringsTrimSpace
  rw [h1 _ hns, h1 _ (by intro c hc; exact hns c (by simpa using hc)), List.reverse_reverse]

theorem isLiteral_facts (L : Lib) (a : String) (h : isLiteral a) :
    a.data ≠ [] ∧ LitChars a.data ∧ isNumberText L a ∧
    (∀ c ∈ a.data, isOperatorChar c = false ∧ c ≠ '(' ∧ c ≠ ')') := by
  refine ⟨h.1, h.2, ⟨h.1, fun c hc => (litChar_facts L c (h.2 c hc)).1⟩, ?_⟩
  intro c hc
  have := numChar_not_special L c (litChar_facts L c (h.2 c hc)).1
  exact ⟨this.1, this.2.1, this.2.2.1⟩

theorem literal_head_not_lit (d : Char) (rest : List Char)
    (hd : ¬ ((48 ≤ d.toNat ∧ d.toNat ≤ 57) ∨ d = '.')) :
    ∀ x ∈ (d :: rest).head?, ¬ ((48 ≤ x.toNat ∧ x.toNat ≤ 57) ∨ x = '.') := by
  intro x hx
  simp only [List.head?_cons, Option.mem_def, Option.some.injEq] at hx
  subst hx
  exact hd

theorem tokenizeLoop_operator (L : Lib) (ch : Char) (h : isOperatorChar ch = true)
    (rest : List Char) (tokens : List token) (pc : Int) :
    tokenizeLoop L (ch :: rest) tokens [] pc =
      tokenizeLoop L rest (tokens ++ [⟨String.singleton ch, .operator⟩]) [] pc := by
  rw [isOperatorChar_iff] at h
  rcases h with rfl | rfl | rfl | rfl <;>
    · rw [tokenizeLoop]
      simp [unicodeIsDigit]

theorem tokenizeLoop_leftParen (L : Lib) (rest : List Char) (tokens : List token) (pc : Int) :
    tokenizeLoop L ('(' :: rest) tokens [] pc =
      tokenizeLoop L rest (tokens ++ [⟨"(", .leftParen⟩]) [] (pc + 1) := by
  rw [tokenizeLoop]
  simp [unicodeIsDigit]

theorem tokenizeLoop_rightParen (L : Lib) (rest : List Char) (tokens : List token) (pc : Int)
    (h : 0 ≤ pc - 1) :
    tokenizeLoop L (')' :: rest) tokens [] pc =
      tokenizeLoop L rest (tokens ++ [⟨")", .rightParen⟩]) [] (pc - 1) := by
  rw [tokenizeLoop]
  have : ¬ (pc - 1 < 0) := by omega
  simp [unicodeIsDigit, this]

theorem tokenize_sum_product (L : Lib) (a b c : String)
    (ha : isLiteral a) (hb : isLiteral b) (hc : isLiteral c) :
    tokenize L (a ++ "+" ++ b ++ "*" ++ c) =
      .ok [⟨a, .number⟩, ⟨"+", .operator⟩, ⟨b, .number⟩, ⟨"*", .operator⟩, ⟨c, .number⟩] := by
  obtain ⟨ha1, ha2, _, _⟩ := isLiteral_facts L a ha
  obtain ⟨hb1, hb2, _, _⟩ := isLiteral_facts L b hb
  obtain ⟨hc1, hc2, _, _⟩ := isLiteral_facts L c hc
  have hdata : (a ++ "+" ++ b ++ "*" ++ c).data
      = a.data ++ ('+' :: (b.data ++ ('*' :: (c.data ++ [])))) := by
    simp [String.data_append]
  unfold tokenize
  rw [hdata,
    tokenizeLoop_literal L a.data ha1 ha2 _ _ _ _ (literal_head_not_lit _ _ (by decide)),
    tokenizeLoop_operator L '+' (by decide),
    tokenizeLoop_literal L b.data hb1 hb2 _ _ _ _ (literal_head_not_lit _ _ (by decide)),
    tokenizeLoop_operator L '*' (by decide),
    tokenizeLoop_literal L c.data hc1 hc2 _ _ _ _ (by simp)]
  simp [tokenizeLoop]
  exact ⟨rfl, rfl⟩

theorem tokenize_product_sum (L : Lib) (a b c : String)
    (ha : isLiteral a) (hb : isLiteral b) (hc : isLiteral c) :
    tokenize L ("(" ++ a ++ "+" ++ b ++ ")*" ++ c) =
      .ok [⟨"(", .leftParen⟩, ⟨a, .number⟩, ⟨"+", .operator⟩, ⟨b, .number⟩,
        ⟨")", .rightParen⟩, ⟨"*", .operator⟩, ⟨c, .number⟩] := by
  obtain ⟨ha1, ha2, _, _⟩ := isLiteral_facts L a ha
  obtain ⟨hb1, hb2, _, _⟩ := isLiteral_facts L b hb
  obtain ⟨hc1, hc2, _, _⟩ := isLiteral_facts L c hc
  have hdata : ("(" ++ a ++ "+" ++ b ++ ")*" ++ c).data
      = '(' :: (a.data ++ ('+' :: (b.data ++ (')' :: '*' :: (c.data ++ []))))) := by
    simp [String.data_append]
  unfold tokenize
  rw [hdata, tokenizeLoop_leftParen,
    tokenizeLoop_literal L a.data ha1 ha2 _ _ _ _ (literal_head_not_lit _ _ (by decide)),
    tokenizeLoop_operator L '+' (by decide),
    tokenizeLoop_literal L b.data hb1 hb2 _ _ _ _ (literal_head_not_lit _ _ (by decide)),
    tokenizeLoop_rightParen L _ _ _ (by decide),
    tokenizeLoop_operator L '*' (by decide),
    tokenizeLoop_literal L c.data hc1 hc2 _ _ _ _ (by simp)]
  simp [tokenizeLoop]
  exact ⟨rfl, rfl⟩

theorem chain_cons_nonop (c : Char) (rest : List Char) (hc : isOperatorChar c = false)
    (h : List.Chain' (fun x y => ¬ (isOperatorChar x = true ∧ isOperatorChar y = true)) rest) :
    List.Chain' (fun x y => ¬ (isOperatorChar x = true ∧ isOperatorChar y = true))
      (c :: rest) := by
  rw [List.chain'_cons']
  refine ⟨?_, h⟩
  intro y _ hxy
  rw [hc] at hxy
  exact Bool.false_ne_true hxy.1

theorem chain_nonop_append (a rest : List Char) (ha : ∀ c ∈ a, isOperatorChar c = false)
    (h : List.Chain' (fun x y => ¬ (isOperatorChar x = true ∧ isOperatorChar y = true)) rest) :
    List.Chain' (fun x y => ¬ (isOperatorChar x = true ∧ isOperatorChar y = true))
      (a ++ rest) := by
  induction a with
  | nil => exact h
  | cons c a1 ih =>
    exact chain_cons_nonop c _ (ha c (by simp)) (ih (fun x hx => ha x (by simp [hx])))

theorem chain_op_before_nonop (o : Char) (a rest : List Char) (hne : a ≠ [])
    (ha : ∀ c ∈ a, isOperatorChar c = false)
    (h : List.Chain' (fun x y => ¬ (isOperatorChar x = true ∧ isOperatorChar y = true)) rest) :
    List.Chain' (fun x y => ¬ (isOperatorChar x = true ∧ isOperatorChar y = true))
      (o :: (a ++ rest)) := by
  rw [List.chain'_cons']
  refine ⟨?_, chain_nonop_append a rest ha h⟩
  obtain ⟨d, a1, rfl⟩ := List.exists_cons_of_ne_nil hne
  intro y hy hxy
  simp only [List.cons_append, List.head?_cons, Option.mem_def, Option.some.injEq] at hy
  subst hy
  have hd := ha d (by simp)
  rw [hd] at hxy
  exact Bool.false_ne_true hxy.2

theorem checkOperands_literals (L : Lib) (args : List String)
    (h : ∀ a ∈ args, isLiteral a ∧ ∃ x, L.ParseFloat a = .ok x) :
    checkOperands L args = .ok () := by
  induction args with
  | nil => rfl
  | cons a rest ih =>
    obtain ⟨hlit, x, hx⟩ := h a (by simp)
    have hne : a ≠ "" := by
      intro he
      exact hlit.1 (by rw [he])
    rw [checkOperands]
    simp only [trimSpace_literal a hlit.2, hne, if_false, hx]
    exact ih (fun b hb => h b (by simp [hb]))

theorem validate_sum_product (L : Lib) (a b c : String) (x y z : L.F)
    (ha : isLiteral a) (hb : isLiteral b) (hc : isLiteral c)
    (hx : L.ParseFloat a = .ok x) (hy : L.ParseFloat b = .ok y) (hz : L.ParseFloat c = .ok z) :
    ValidateExpression L (a ++ "+" ++ b ++ "*" ++ c) = .ok () := by
  obtain ⟨ha1, ha2, ha3, ha4⟩ := isLiteral_facts L a ha
  obtain ⟨hb1, hb2, hb3, hb4⟩ := isLiteral_facts L b hb
  obtain ⟨hc1, hc2, hc3, hc4⟩ := isLiteral_facts L c hc
  have hdata : (a ++ "+" ++ b ++ "*" ++ c).data
      = a.data ++ ('+' :: (b.data ++ ('*' :: (c.data ++ [])))) := by
    simp [String.data_append]
  have hvalidchars : ∀ ch ∈ (a ++ "+" ++ b ++ "*" ++ c).data,
      (unicodeIsDigit L ch = true ∨ ch = '.') ∨ isOperatorChar ch = true ∨
        ch = '(' ∨ ch = ')' := by
    intro ch hch
    rw [hdata] at hch
    simp only [List.mem_append, List.mem_cons, List.not_mem_nil, or_false] at hch
    rcases hch with hch | rfl | hch | rfl | hch
    · exact Or.inl (ha3.2 ch hch)
    · exact Or.inr (Or.inl (by decide))
    · exact Or.inl (hb3.2 ch hch)
    · exact Or.inr (Or.inl (by decide))
    · exact Or.inl (hc3.2 ch hch)
  have hfields : stringsFieldsFunc (a ++ "+" ++ b ++ "*" ++ c) (fun r =>
      r == '+' || r == '-' || r == '*' || r == '/' || r == '(' || r == ')') = [a, b, c] := by
    have hsep : ∀ (s : String), isLiteral s → ∀ ch ∈ s.data,
        (ch == '+' || ch == '-' || ch == '*' || ch == '/' || ch == '(' || ch == ')') = false := by
      intro s hs ch hch
      obtain ⟨h1, h2, h3⟩ := (isLiteral_facts L s hs).2.2.2 ch hch
      simp only [isOperatorChar] at h1
      simp [h1, h2, h3]
    unfold stringsFieldsFunc
    rw [hdata, fieldsLoop_skip _ a.data (hsep a ha), fieldsLoop]
    simp only [List.nil_append, ha1, if_false]
    rw [fieldsLoop_skip _ b.data (hsep b hb), fieldsLoop]
    simp only [List.nil_append, hb1, if_false]
    rw [fieldsLoop_skip _ c.data (hsep c hc), fieldsLoop]
    simp [hc1]
  unfold ValidateExpression
  rw [hfields, findInvalidChar_none L _ 0 hvalidchars]
  have hlen : (a ++ "+" ++ b ++ "*" ++ c).data.length ≠ 0 := by
    rw [hdata]; simp
  have hcons : findConsecutiveOperators (a ++ "+" ++ b ++ "*" ++ c).data 0 = none := by
    apply findConsecutiveOperators_none
    rw [hdata]
    exact chain_nonop_append _ _ (fun ch hch => (ha4 ch hch).1)
      (chain_op_before_nonop _ _ _ hb1 (fun ch hch => (hb4 ch hch).1)
        (chain_op_before_nonop _ _ _ hc1 (fun ch hch => (hc4 ch hch).1) List.chain'_nil))
  have hpar : countParens (a ++ "+" ++ b ++ "*" ++ c).data 0 = some 0 := by
    rw [hdata, countParens_skip _ (fun ch hch => (ha4 ch hch).2), countParens]
    simp only [Char.reduceBEq, Bool.false_eq_true, if_false]
    rw [countParens_skip _ (fun ch hch => (hb4 ch hch).2), countParens]
    simp only [Char.reduceBEq, Bool.false_eq_true, if_false]
    rw [countParens_skip _ (fun ch hch => (hc4 ch hch).2)]
    rfl
  simp only [hlen, if_false, hcons, hpar, ne_eq, not_true_eq_false]
  exact checkOperands_literals L _ (by
    intro s hs
    simp only [List.mem_cons, List.not_mem_nil, or_false] at hs
    rcases hs with rfl | rfl | rfl
    · exact ⟨ha, x, hx⟩
    · exact ⟨hb, y, hy⟩
    · exact ⟨hc, z, hz⟩)

theorem validate_product_sum (L : Lib) (a b c : String) (x y z : L.F)
    (ha : isLiteral a) (hb : isLiteral b) (hc : isLiteral c)
    (hx : L.ParseFloat a = .ok x) (hy : L.ParseFloat b = .ok y) (hz : L.ParseFloat c = .ok z) :
    ValidateExpression L ("(" ++ a ++ "+" ++ b ++ ")*" ++ c) = .ok () := by
  obtain ⟨ha1, ha2, ha3, ha4⟩ := isLiteral_facts L a ha
  obtain ⟨hb1, hb2, hb3, hb4⟩ := isLiteral_facts L b hb
  obtain ⟨hc1, hc2, hc3, hc4⟩ := isLiteral_facts L c hc
  have hdata : ("(" ++ a ++ "+" ++ b ++ ")*" ++ c).data
      = '(' :: (a.data ++ ('+' :: (b.data ++ (')' :: '*' :: (c.data ++ []))))) := by
    simp [String.data_append]
  have hvalidchars : ∀ ch ∈ ("(" ++ a ++ "+" ++ b ++ ")*" ++ c).data,
      (unicodeIsDigit L ch = true ∨ ch = '.') ∨ isOperatorChar ch = true ∨
        ch = '(' ∨ ch = ')' := by
    intro ch hch
    rw [hdata] at hch
    simp only [List.mem_append, List.mem_cons, List.not_mem_nil, or_false] at hch
    rcases hch with rfl | hch | rfl | hch | rfl | rfl | hch
    · exact Or.inr (Or.inr (Or.inl rfl))
    · exact Or.inl (ha3.2 ch hch)
    · exact Or.inr (Or.inl (by decide))
    · exact Or.inl (hb3.2 ch hch)
    · exact Or.inr (Or.inr (Or.inr rfl))
    · exact Or.inr (Or.inl (by decide))
    · exact Or.inl (hc3.2 ch hch)
  have hfields : stringsFieldsFunc ("(" ++ a ++ "+" ++ b ++ ")*" ++ c) (fun r =>
      r == '+' || r == '-' || r == '*' || r == '/' || r == '(' || r == ')') = [a, b, c] := by
    have hsep : ∀ (s : String), isLiteral s → ∀ ch ∈ s.data,
        (ch == '+' || ch == '-' || ch == '*' || ch == '/' || ch == '(' || ch == ')') = false := by
      intro s hs ch hch
      obtain ⟨h1, h2, h3⟩ := (isLiteral_facts L s hs).2.2.2 ch hch
      simp only [isOperatorChar] at h1
      simp [h1, h2, h3]
    unfold stringsFieldsFunc
    rw [hdata, fieldsLoop]
    simp only [Char.reduceBEq, Bool.or_true, Bool.or_false, if_true]
    rw [fieldsLoop_skip _ a.data (hsep a ha), fieldsLoop]
    simp only [List.nil_append, ha1, if_false]
    rw [fieldsLoop_skip _ b.data (hsep b hb), fieldsLoop]
    simp only [List.nil_append, hb1, if_false]
    rw [fieldsLoop]
    simp only [Char.reduceBEq, Bool.or_true, Bool.or_false, if_true]
    rw [fieldsLoop_skip _ c.data (hsep c hc), fieldsLoop]
    simp [hc1]
  unfold ValidateExpression
  rw [hfields, findInvalidChar_none L _ 0 hvalidchars]
  have hlen : ("(" ++ a ++ "+" ++ b ++ ")*" ++ c).data.length ≠ 0 := by
    rw [hdata]; simp
  have hcons : findConsecutiveOperators ("(" ++ a ++ "+" ++ b ++ ")*" ++ c).data 0 = none := by
    apply findConsecutiveOperators_none
    rw [hdata]
    exact chain_cons_nonop _ _ (by decide)
      (chain_nonop_append _ _ (fun ch hch => (ha4 ch hch).1)
        (chain_op_before_nonop _ _ _ hb1 (fun ch hch => (hb4 ch hch).1)
          (chain_cons_nonop _ _ (by decide)
            (chain_op_before_nonop _ _ _ hc1 (fun ch hch => (hc4 ch hch).1) List.chain'_nil))))
  have hpar : countParens ("(" ++ a ++ "+" ++ b ++ ")*" ++ c).data 0 = some 0 := by
    rw [hdata, countParens]
    simp only [Char.reduceBEq, if_true]
    rw [countParens_skip _ (fun ch hch => (ha4 ch hch).2), countParens]
    simp only [Char.reduceBEq, Bool.false_eq_true, if_false]
    rw [countParens_skip _ (fun ch hch => (hb4 ch hch).2), countParens]
    simp only [Char.reduceBEq, Bool.false_eq_true, if_false, if_true]
    rw [if_neg (by decide), countParens]
    simp only [Char.reduceBEq, Bool.false_eq_true, if_false]
    rw [countParens_skip _ (fun ch hch => (hc4 ch hch).2)]
    rfl
  simp only [hlen, if_false, hcons, hpar, ne_eq, not_true_eq_false]
  exact checkOperands_literals L _ (by
    intro s hs
    simp only [List.mem_cons, List.not_mem_nil, or_false] at hs
    rcases hs with rfl | rfl | rfl
    · exact ⟨ha, x, hx⟩
    · exact ⟨hb, y, hy⟩
    · exact ⟨hc, z, hz⟩)

theorem aggregate_product_of_sum (L : Lib) (id0 id1 a b c e u0 u1 : String) (t0 t1 : Int)
    (r0 r1 x y z : L.F)
    (hid : id0 ≠ id1) (h0 : id0 ≠ "") (h1 : id1 ≠ "")
    (ha : isOperator a = false ∧ stringsHasPrefix a "task:" = false)
    (hb : isOperator b = false ∧ stringsHasPrefix b "task:" = false)
    (hc : isOperator c = false ∧ stringsHasPrefix c "task:" = false)
    (hx : L.ParseFloat a = .ok x) (hy : L.ParseFloat b = .ok y) (hz : L.ParseFloat c = .ok z) :
    AggregateResults L
      [{ ID := id0, ExpressionID := e, Arg1 := a, Arg2 := b, Operator := "+",
         OperationTime := t0, Result := r0, Completed := true, UserID := u0 },
       { ID := id1, ExpressionID := e, Arg1 := "task:" ++ id0, Arg2 := c, Operator := "*",
         OperationTime := t1, Result := r1, Completed := true, UserID := u1 }]
      = some (.ok (L.mul (L.add x y) z)) := by
  have hid' : ¬ id1 = id0 := fun h => hid h.symm
  have h0' : ¬ id0 = "" := h0
  have h1' : ¬ id1 = "" := h1
  have hmul : isOperator "*" = true := by decide
  have hadd : isOperator "+" = true := by decide
  simp [AggregateResults, collectResults, getRootNode, linkNodes, createNodes, GoMap.get,
    GoMap.set, childPtr, evaluateWithResults, deref, hid, hid', h0', h1', ha, hb, hc, hx, hy, hz,
    hasPrefix_append, trimPrefix_append, hmul, hadd]

theorem generateTaskID_ne_empty (uuid : Nat → String) (k : Nat) : generateTaskID uuid k ≠ "" := by
  intro h
  have := congrArg String.data h
  simp [generateTaskID, String.data_append] at this

theorem build_sum_product (a b c : String) :
    buildExpressionTree [⟨a, .number⟩, ⟨"+", .operator⟩, ⟨b, .number⟩, ⟨"*", .operator⟩,
      ⟨c, .number⟩]
      = .ok (.mk "+" (.mk a .nil .nil "" 0)
          (.mk "*" (.mk b .nil .nil "" 0) (.mk c .nil .nil "" 0) "" 2) "" 1) := by
  rfl

theorem build_product_sum (a b c : String) :
    buildExpressionTree [⟨"(", .leftParen⟩, ⟨a, .number⟩, ⟨"+", .operator⟩, ⟨b, .number⟩,
      ⟨")", .rightParen⟩, ⟨"*", .operator⟩, ⟨c, .number⟩]
      = .ok (.mk "*" (.mk "+" (.mk a .nil .nil "" 0) (.mk b .nil .nil "" 0) "" 1)
          (.mk c .nil .nil "" 0) "" 2) := by
  rfl

theorem evaluate_sum_product (L : Lib) (uuid : Nat → String) (exprID a b c : String)
    (x y z : L.F) (ha : isLiteral a) (hb : isLiteral b) (hc : isLiteral c)
    (hx : L.ParseFloat a = .ok x) (hy : L.ParseFloat b = .ok y) (hz : L.ParseFloat c = .ok z)
    (hdistinct : Function.Injective uuid) :
    evaluate L uuid exprID (a ++ "+" ++ b ++ "*" ++ c) = some (.ok (L.add x (L.mul y z))) := by
  have ha1 := isNumberText_not_operator L a (isLiteral_facts L a ha).2.2.1
  have hb1 := isNumberText_not_operator L b (isLiteral_facts L b hb).2.2.1
  have hc1 := isNumberText_not_operator L c (isLiteral_facts L c hc).2.2.1
  have hne : generateTaskID uuid 0 ≠ generateTaskID uuid 1 := fun h =>
    absurd (generateTaskID_injective uuid hdistinct h) (by decide)
  have hmul : isOperator "*" = true := by decide
  have hadd : isOperator "+" = true := by decide
  unfold evaluate compile
  rw [validate_sum_product L a b c x y z ha hb hc hx hy hz, tokenize_sum_product L a b c ha hb hc]
  simp only [build_sum_product]
  simp only [createTasksFromTree, ha1.1, hb1.1, hc1.1, hmul, hadd, getNodeReference,
    Bool.false_eq_true, if_false, if_true, List.nil_append, List.append_nil, List.cons_append,
    markCompleted, List.map_cons, List.map_nil]
  exact aggregate_sum_of_product L _ _ a b c exprID _ _ _ _ _ _ x y z hne
    (generateTaskID_ne_empty uuid 0) (generateTaskID_ne_empty uuid 1) ha1 hb1 hc1 hx hy hz

theorem evaluate_product_sum (L : Lib) (uuid : Nat → String) (exprID a b c : String)
    (x y z : L.F) (ha : isLiteral a) (hb : isLiteral b) (hc : isLiteral c)
    (hx : L.ParseFloat a = .ok x) (hy : L.ParseFloat b = .ok y) (hz : L.ParseFloat c = .ok z)
    (hdistinct : Function.Injective uuid) :
    evaluate L uuid exprID ("(" ++ a ++ "+" ++ b ++ ")*" ++ c)
      = some (.ok (L.mul (L.add x y) z)) := by
  have ha1 := isNumberText_not_operator L a (isLiteral_facts L a ha).2.2.1
  have hb1 := isNumberText_not_operator L b (isLiteral_facts L b hb).2.2.1
  have hc1 := isNumberText_not_operator L c (isLiteral_facts L c hc).2.2.1
  have hne : generateTaskID uuid 0 ≠ generateTaskID uuid 1 := fun h =>
    absurd (generateTaskID_injective uuid hdistinct h) (by decide)
  have hmul : isOperator "*" = true := by decide
  have hadd : isOperator "+" = true := by decide
  unfold evaluate compile
  rw [validate_product_sum L a b c x y z ha hb hc hx hy hz, tokenize_product_sum L a b c ha hb hc]
  simp only [build_product_sum]
  simp only [createTasksFromTree, ha1.1, hb1.1, hc1.1, hmul, hadd, getNodeReference,
    Bool.false_eq_true, if_false, if_true, List.nil_append, List.append_nil, List.cons_append,
    markCompleted, List.map_cons, List.map_nil]
  exact aggregate_product_of_sum L _ _ a b c exprID _ _ _ _ _ _ x y z hne
    (generateTaskID_ne_empty uuid 0) (generateTaskID_ne_empty uuid 1) ha1 hb1 hc1 hx hy hz

/-- Claim C1. For numeric literals `a`, `b`, `c` and pairwise distinct task
identifiers, the front end followed by the aggregator on the completed task
list gives `a + (b * c)` on the string `a+b*c` and `(a + b) * c` on the string
`(a+b)*c`, whatever `float64` arithmetic is; with exact arithmetic `12+3*4`
gives 24 and `(12+3)*4` gives 60. -/
theorem precedence_respected :
    (∀ (L : Lib) (uuid : Nat → String) (exprID a b c : String) (x y z : L.F),
      isLiteral a → isLiteral b → isLiteral c →
      L.ParseFloat a = .ok x → L.ParseFloat b = .ok y → L.ParseFloat c = .ok z →
      Function.Injective uuid →
      evaluate L uuid exprID (a ++ "+" ++ b ++ "*" ++ c) = some (.ok (L.add x (L.mul y z))) ∧
      evaluate L uuid exprID ("(" ++ a ++ "+" ++ b ++ ")*" ++ c)
        = some (.ok (L.mul (L.add x y) z))) ∧
    evaluate Lib.exact unaryUuid "expr-1" "12+3*4" = some (.ok 24) ∧
    evaluate Lib.exact unaryUuid "expr-1" "(12+3)*4" = some (.ok 60) := by
  refine ⟨?_, by decide!, by decide!⟩
  intro L uuid exprID a b c x y z ha hb hc hx hy hz hd
  exact ⟨evaluate_sum_product L uuid exprID a b c x y z ha hb hc hx hy hz hd,
    evaluate_product_sum L uuid exprID a b c x y z ha hb hc hx hy hz hd⟩

theorem isLiteral_of_digits (a : String) (h1 : a.data ≠ [])
    (h2 : a.data.all (fun c => decide (48 ≤ c.toNat ∧ c.toNat ≤ 57) || c == '.') = true) :
    isLiteral a := by
  refine ⟨h1, ?_⟩
  intro c hc
  have := List.all_eq_true.1 h2 c hc
  simpa using this

/-- The first part of C1 on the literals `12`, `3` and `4` with exact
arithmetic: the hypotheses hold there. -/
theorem precedence_respected_witness :
    isLiteral "12" ∧ isLiteral "3" ∧ isLiteral "4" ∧
    Lib.exact.ParseFloat "12" = .ok 12 ∧ Lib.exact.ParseFloat "3" = .ok 3 ∧
    Lib.exact.ParseFloat "4" = .ok 4 ∧ Function.Injective unaryUuid ∧
    evaluate Lib.exact unaryUuid "expr-1" ("12" ++ "+" ++ "3" ++ "*" ++ "4")
      = some (.ok (Lib.exact.add 12 (Lib.exact.mul 3 4))) ∧
    evaluate Lib.exact unaryUuid "expr-1" ("(" ++ "12" ++ "+" ++ "3" ++ ")*" ++ "4")
      = some (.ok (Lib.exact.mul (Lib.exact.add 12 3) 4)) :=
  have h12 : isLiteral "12" := isLiteral_of_digits _ (by decide) (by decide)
  have h3 : isLiteral "3" := isLiteral_of_digits _ (by decide) (by decide)
  have h4 : isLiteral "4" := isLiteral_of_digits _ (by decide) (by decide)
  have p12 : Lib.exact.ParseFloat "12" = .ok 12 := by decide!
  have p3 : Lib.exact.ParseFloat "3" = .ok 3 := by decide!
  have p4 : Lib.exact.ParseFloat "4" = .ok 4 := by decide!
  ⟨h12, h3, h4, p12, p3, p4, unaryUuid_injective,
    precedence_respected.1 Lib.exact unaryUuid "expr-1" "12" "3" "4" 12 3 4 h12 h3 h4 p12 p3 p4
      unaryUuid_injective⟩

/-! ## The task list of a well-formed tree -/

theorem tasks_operator_and_id (L : Lib) (uuid : Nat → String) (exprID : String) (n : Node) :
    ∀ k, ∀ t ∈ (createTasksFromTree L uuid exprID n k).2.1,
      isOperator t.Operator = true ∧ t.ID ≠ "" := by
  induction n with
  | nil => intro k t ht; simp [createTasksFromTree] at ht
  | mk v l r tid p ihl ihr =>
    intro k t ht
    rw [tasks_mk] at ht
    simp only [List.mem_append] at ht
    rcases ht with (ht | ht) | ht
    · exact ihl _ _ ht
    · exact ihr _ _ ht
    · split at ht
      · rename_i hv
        simp only [List.mem_singleton] at ht
        subst ht
        exact ⟨hv, generateTaskID_ne_empty uuid _⟩
      · simp at ht

/-- The reference of a well-formed tree with tasks is `task:<id>` for its last
task. -/
theorem reference_of_last (L : Lib) (uuid : Nat → String) (exprID : String) (n : Node)
    (k : Nat) (hwf : n.WellFormed L) (t : Task L)
    (ht : (createTasksFromTree L uuid exprID n k).2.1.getLast? = some t) :
    getNodeReference (createTasksFromTree L uuid exprID n k).1 = "task:" ++ t.ID := by
  cases n with
  | nil => exact absurd hwf (by simp [Node.WellFormed])
  | mk v l r tid p =>
    rw [tasks_mk] at ht
    rw [tree_mk]
    simp only [Node.WellFormed] at hwf
    rcases hwf with ⟨hv, _, _⟩ | ⟨hnum, rfl, rfl⟩
    · simp only [hv, if_true, List.getLast?_concat, Option.some.injEq] at ht
      subst ht
      simp [getNodeReference, hv]
    · have hv := (isNumberText_not_operator L v hnum).1
      simp [hv, createTasksFromTree] at ht

/-- The reference of a well-formed tree is the text of a number token or
`task:<id>` for one of its tasks. -/
theorem reference_of_wellFormed (L : Lib) (uuid : Nat → String) (exprID : String) (n : Node)
    (k : Nat) (hwf : n.WellFormed L) :
    isNumberText L (getNodeReference (createTasksFromTree L uuid exprID n k).1) ∨
      ∃ t ∈ (createTasksFromTree L uuid exprID n k).2.1,
        getNodeReference (createTasksFromTree L uuid exprID n k).1 = "task:" ++ t.ID := by
  cases n with
  | nil => exact absurd hwf (by simp [Node.WellFormed])
  | mk v l r tid p =>
    have hwf0 := hwf
    simp only [Node.WellFormed] at hwf
    rcases hwf with ⟨hv, _, _⟩ | ⟨hnum, rfl, rfl⟩
    · right
      have hlast : ∃ t, (createTasksFromTree L uuid exprID (.mk v l r tid p) k).2.1.getLast?
          = some t := by
        rw [tasks_mk]
        simp only [hv, if_true, List.getLast?_concat]
        exact ⟨_, rfl⟩
      obtain ⟨t, ht⟩ := hlast
      exact ⟨t, List.mem_of_getLast?_eq_some ht, reference_of_last L uuid exprID _ k hwf0 t ht⟩
    · left
      have hv := (isNumberText_not_operator L v hnum).1
      rw [tree_mk]
      simpa [getNodeReference, hv] using hnum

theorem ArgsOK_nil (L : Lib) (pre0 : List (Task L)) : ArgsOK L pre0 [] := by
  intro pre t post h
  simp at h

theorem ArgsOK_append (L : Lib) (pre0 a b : List (Task L))
    (ha : ArgsOK L pre0 a) (hb : ArgsOK L (pre0 ++ a) b) : ArgsOK L pre0 (a ++ b) := by
  intro pre t post h arg harg
  rcases List.append_eq_append_iff.1 h with ⟨a1, h1, h2⟩ | ⟨c1, h1, h2⟩
  · rcases hb a1 t post h2 arg harg with hn | ⟨t1, ht1, hh⟩
    · exact Or.inl hn
    · exact Or.inr ⟨t1, by rw [h1, ← List.append_assoc]; exact ht1, hh⟩
  · cases c1 with
    | nil =>
      simp only [List.nil_append] at h2
      simp only [List.append_nil] at h1
      rcases hb [] t post h2.symm arg harg with hn | ⟨t1, ht1, hh⟩
      · exact Or.inl hn
      · exact Or.inr ⟨t1, by rw [← h1]; simpa using ht1, hh⟩
    | cons c cs =>
      simp only [List.cons_append, List.cons.injEq] at h2
      obtain ⟨rfl, _⟩ := h2
      exact ha pre t cs h1 arg harg

theorem ArgsOK_mono (L : Lib) (pre0 a : List (Task L)) (ha : ArgsOK L [] a) :
    ArgsOK L pre0 a := by
  intro pre t post h arg harg
  rcases ha pre t post h arg harg with hn | ⟨t1, ht1, hh⟩
  · exact Or.inl hn
  · exact Or.inr ⟨t1, List.mem_append_right _ (by simpa using ht1), hh⟩

theorem tasks_argsOK (L : Lib) (uuid : Nat → String) (exprID : String) (n : Node) :
    n.WellFormed L → ∀ k, ArgsOK L [] (createTasksFromTree L uuid exprID n k).2.1 := by
  induction n with
  | nil => intro _ k; exact ArgsOK_nil L []
  | mk v l r tid p ihl ihr =>
    intro hwf k
    simp only [Node.WellFormed] at hwf
    rcases hwf with ⟨hv, hl, hr⟩ | ⟨hnum, rfl, rfl⟩
    · rw [tasks_mk]
      refine ArgsOK_append L [] _ _
        (ArgsOK_append L [] _ _ (ihl hl k) (ArgsOK_mono L _ _ (ihr hr _))) ?_
      simp only [hv, if_true]
      intro pre t post h arg harg
      have hpre : pre = [] := by
        cases pre with
        | nil => rfl
        | cons x xs => simp at h
      subst hpre
      simp only [List.nil_append, List.cons.injEq] at h
      obtain ⟨rfl, _⟩ := h
      simp only [List.nil_append, List.append_nil]
      rcases harg with rfl | rfl
      · rcases reference_of_wellFormed L uuid exprID l k hl with hn | ⟨t1, ht1, hh⟩
        · exact Or.inl hn
        · exact Or.inr ⟨t1, List.mem_append_left _ ht1, hh⟩
      · rcases reference_of_wellFormed L uuid exprID r _ hr with hn | ⟨t1, ht1, hh⟩
        · exact Or.inl hn
        · exact Or.inr ⟨t1, List.mem_append_right _ ht1, hh⟩
    · have hv := (isNumberText_not_operator L v hnum).1
      rw [tasks_mk]
      simp only [hv, createTasksFromTree]
      exact ArgsOK_nil L []

theorem RefdIn_nil {L : Lib} (later : List (Task L)) : RefdIn [] later := by
  intro pre t post h
  simp at h

theorem RefdIn_append {L : Lib} (a b later : List (Task L))
    (ha : RefdIn a (b ++ later)) (hb : RefdIn b later) : RefdIn (a ++ b) later := by
  intro pre t post h
  rcases List.append_eq_append_iff.1 h with ⟨a1, h1, h2⟩ | ⟨c1, h1, h2⟩
  · exact hb a1 t post h2
  · cases c1 with
    | nil =>
      simp only [List.nil_append] at h2
      exact hb [] t post h2.symm
    | cons c cs =>
      simp only [List.cons_append, List.cons.injEq] at h2
      obtain ⟨rfl, h3⟩ := h2
      obtain ⟨t2, ht2, hr⟩ := ha pre t cs h1
      refine ⟨t2, ?_, hr⟩
      rw [h3]
      simpa [List.append_assoc] using ht2

theorem tasks_refdIn (L : Lib) (uuid : Nat → String) (exprID : String) (n : Node) :
    n.WellFormed L → ∀ k (later : List (Task L)),
      (∀ t, (createTasksFromTree L uuid exprID n k).2.1.getLast? = some t →
        ∃ t2 ∈ later, Refers t2 t) →
      RefdIn (createTasksFromTree L uuid exprID n k).2.1 later := by
  induction n with
  | nil => intro _ k later _; exact RefdIn_nil later
  | mk v l r tid p ihl ihr =>
    intro hwf k later hlast
    simp only [Node.WellFormed] at hwf
    rcases hwf with ⟨hv, hl, hr⟩ | ⟨hnum, rfl, rfl⟩
    · rw [tasks_mk] at hlast ⊢
      simp only [hv, if_true] at hlast ⊢
      rw [List.append_assoc]
      refine RefdIn_append _ _ _ ?_ (RefdIn_append _ _ _ ?_ ?_)
      · apply ihl hl
        intro t ht
        refine ⟨_, List.mem_append_left _ (List.mem_append_right _ (List.mem_singleton_self _)), ?_⟩
        exact Or.inl (reference_of_last L uuid exprID l k hl t ht)
      · apply ihr hr
        intro t ht
        refine ⟨_, List.mem_append_left _ (List.mem_singleton_self _), ?_⟩
        exact Or.inr (reference_of_last L uuid exprID r _ hr t ht)
      · intro pre t post h
        have hpre : pre = [] := by
          cases pre with
          | nil => rfl
          | cons x xs => simp at h
        subst hpre
        simp only [List.nil_append, List.cons.injEq] at h
        obtain ⟨rfl, rfl⟩ := h
        obtain ⟨t2, ht2, hr2⟩ := hlast _ (List.getLast?_concat _)
        exact ⟨t2, by simpa using ht2, hr2⟩
    · have hv := (isNumberText_not_operator L v hnum).1
      rw [tasks_mk]
      simp only [hv, createTasksFromTree]
      exact RefdIn_nil later

/-! ## The graph of the aggregator -/

theorem createNodes_get_other {L : Lib} (ts : List (Task L)) :
    ∀ (m : GoMap GraphNode) (id : String), id ∉ ts.map (fun t => t.ID) →
      (createNodes ts m).get id = m.get id := by
  induction ts with
  | nil => intro m id _; rfl
  | cons t rest ih =>
    intro m id hid
    simp only [List.map_cons, List.mem_cons, not_or] at hid
    rw [createNodes, ih _ _ hid.2, GoMap.get_set]
    simp [Ne.symm hid.1]

theorem createNodes_get {L : Lib} (ts : List (Task L)) :
    ∀ (m : GoMap GraphNode), (ts.map (fun t => t.ID)).Nodup → ∀ t ∈ ts,
      (createNodes ts m).get t.ID =
        some { Value := t.Operator, TaskID := t.ID, Left := .null, Right := .null } := by
  induction ts with
  | nil => intro m _ t ht; simp at ht
  | cons t0 rest ih =>
    intro m hnd t ht
    simp only [List.map_cons, List.nodup_cons] at hnd
    simp only [List.mem_cons] at ht
    rw [createNodes]
    rcases ht with rfl | ht
    · rw [createNodes_get_other rest _ _ hnd.1, GoMap.get_set]
      simp
    · exact ih _ hnd.2 t ht

theorem createNodes_isSome {L : Lib} (ts : List (Task L)) :
    ∀ (m : GoMap GraphNode) (id : String),
      ((createNodes ts m).get id).isSome = true ↔
        id ∈ ts.map (fun t => t.ID) ∨ (m.get id).isSome = true := by
  induction ts with
  | nil => intro m id; simp [createNodes]
  | cons t rest ih =>
    intro m id
    rw [createNodes, ih, GoMap.get_set]
    by_cases h : t.ID = id
    · simp [h]
    · simp [h, Ne.symm h]

theorem childPtr_congr (m1 m2 : GoMap GraphNode) (arg : String)
    (h : ∀ id, (m1.get id).isSome = (m2.get id).isSome) : childPtr m1 arg = childPtr m2 arg := by
  unfold childPtr
  split
  · have := h (stringsTrimPrefix arg "task:")
    cases h1 : m1.get (stringsTrimPrefix arg "task:") <;>
      cases h2 : m2.get (stringsTrimPrefix arg "task:") <;> simp_all
  · rfl

theorem set_isSome (m : GoMap GraphNode) (key : String) (n0 n1 : GraphNode)
    (h : m.get key = some n0) : ∀ id, ((m.set key n1).get id).isSome = (m.get id).isSome := by
  intro id
  rw [GoMap.get_set]
  by_cases hk : key = id
  · subst hk; simp [h]
  · simp [hk]

theorem linkNodes_isSome {L : Lib} (ts : List (Task L)) :
    ∀ (m : GoMap GraphNode) (id : String),
      ((linkNodes ts m).get id).isSome = (m.get id).isSome := by
  induction ts with
  | nil => intro m id; rfl
  | cons t rest ih =>
    intro m id
    rw [linkNodes]
    split
    · exact ih m id
    · rename_i n hn
      rw [ih, set_isSome m t.ID n _ hn]

theorem linkNodes_get_other {L : Lib} (ts : List (Task L)) :
    ∀ (m : GoMap GraphNode) (id : String), id ∉ ts.map (fun t => t.ID) →
      (linkNodes ts m).get id = m.get id := by
  induction ts with
  | nil => intro m id _; rfl
  | cons t rest ih =>
    intro m id hid
    simp only [List.map_cons, List.mem_cons, not_or] at hid
    rw [linkNodes]
    split
    · exact ih m id hid.2
    · rw [ih _ _ hid.2, GoMap.get_set]
      simp [Ne.symm hid.1]

theorem linkNodes_get {L : Lib} (ts : List (Task L)) :
    ∀ (m : GoMap GraphNode), (ts.map (fun t => t.ID)).Nodup → ∀ t ∈ ts, ∀ n,
      m.get t.ID = some n →
      (linkNodes ts m).get t.ID =
        some { n with Left := childPtr m t.Arg1, Right := childPtr m t.Arg2 } := by
  induction ts with
  | nil => intro m _ t ht; simp at ht
  | cons t0 rest ih =>
    intro m hnd t ht n hn
    simp only [List.map_cons, List.nodup_cons] at hnd
    simp only [List.mem_cons] at ht
    rw [linkNodes]
    rcases ht with rfl | ht
    · rw [hn]
      simp only
      rw [linkNodes_get_other rest _ _ hnd.1, GoMap.get_set]
      simp
    · have hne : t0.ID ≠ t.ID := by
        intro he
        exact hnd.1 (he ▸ List.mem_map_of_mem (fun t => t.ID) ht)
      split
      · exact ih m hnd.2 t ht n hn
      · rename_i n0 hn0
        have hget : (m.set t0.ID
            ⟨n0.Value, n0.TaskID, childPtr m t0.Arg1, childPtr m t0.Arg2⟩).get t.ID = some n := by
          rw [GoMap.get_set]; simp [hne, hn]
        rw [ih _ hnd.2 t ht n hget]
        have hc := fun arg => childPtr_congr
          (m.set t0.ID ⟨n0.Value, n0.TaskID, childPtr m t0.Arg1, childPtr m t0.Arg2⟩) m arg
          (set_isSome m t0.ID n0 _ hn0)
        rw [hc, hc]

theorem graphOf_get {L : Lib} (ts : List (Task L)) (hnd : (ts.map (fun t => t.ID)).Nodup)
    (t : Task L) (ht : t ∈ ts) :
    (graphOf ts).get t.ID =
      some { Value := t.Operator, TaskID := t.ID,
             Left := childPtr (createNodes ts []) t.Arg1,
             Right := childPtr (createNodes ts []) t.Arg2 } := by
  unfold graphOf
  rw [linkNodes_get ts _ hnd t ht _ (createNodes_get ts [] hnd t ht)]

theorem childPtr_task {L : Lib} (ts : List (Task L)) (t1 : Task L) (h1 : t1 ∈ ts) :
    childPtr (createNodes ts []) ("task:" ++ t1.ID) = .task t1.ID := by
  have hsome : ((createNodes ts []).get t1.ID).isSome = true :=
    (createNodes_isSome ts [] t1.ID).2 (Or.inl (List.mem_map_of_mem (fun t => t.ID) h1))
  unfold childPtr
  simp only [hasPrefix_append, if_true, trimPrefix_append]
  cases h : (createNodes ts []).get t1.ID with
  | none => rw [h] at hsome; simp at hsome
  | some n => rfl

theorem childPtr_number {L0 : Lib} (L : Lib) (ts : List (Task L0)) (arg : String)
    (h : isNumberText L arg) : childPtr (createNodes ts []) arg = .leaf arg := by
  unfold childPtr
  simp [(isNumberText_not_operator L arg h).2]

/-! ## The aggregator on a well-formed task list -/

theorem decomposition_unique {L : Lib} (t : Task L) :
    ∀ (pre post pre1 post1 : List (Task L)),
      ((pre ++ t :: post).map (fun t => t.ID)).Nodup →
      pre ++ t :: post = pre1 ++ t :: post1 → pre.length = pre1.length := by
  intro pre
  induction pre with
  | nil =>
    intro post pre1 post1 hnd h
    cases pre1 with
    | nil => rfl
    | cons x p1 =>
      simp only [List.nil_append, List.cons_append, List.cons.injEq] at h
      obtain ⟨rfl, rfl⟩ := h
      simp at hnd
  | cons y p ih =>
    intro post pre1 post1 hnd h
    cases pre1 with
    | nil =>
      simp only [List.nil_append, List.cons_append, List.cons.injEq] at h
      obtain ⟨rfl, rfl⟩ := h
      simp at hnd
    | cons x p1 =>
      simp only [List.cons_append, List.cons.injEq] at h
      simp only [List.cons_append, List.map_cons, List.nodup_cons] at hnd
      simp only [List.length_cons]
      rw [ih post p1 post1 hnd.2 h.2]

theorem operand_evaluates (L : Lib) (ts pre : List (Task L)) (t : Task L) (post : List (Task L))
    (hts : ts = pre ++ t :: post) (arg : String) (l : L.F)
    (h : OperandValue L ts pre arg l) (results : GoMap L.F) (hres : results.get "" = none)
    (f : Nat) (hf : pre.length + 1 ≤ f) :
    evaluateWithResults L (graphOf ts) results f (childPtr (createNodes ts []) arg)
      = some (.ok l) := by
  rcases h with ⟨hnum, hparse⟩ | ⟨t1, ht1, harg, hev⟩
  · rw [childPtr_number L ts arg hnum]
    obtain ⟨f1, rfl⟩ : ∃ f1, f = f1 + 1 := ⟨f - 1, by omega⟩
    rw [evaluateWithResults]
    simp [deref, (isNumberText_not_operator L arg hnum).1, hres, hparse]
  · have hmem : t1 ∈ ts := by rw [hts]; exact List.mem_append_left _ ht1
    rw [harg, childPtr_task ts t1 hmem]
    obtain ⟨p1, m, hp⟩ := List.append_of_mem ht1
    apply hev p1 (m ++ t :: post) (by rw [hts, hp]; simp) results f hres
    have : pre.length = p1.length + m.length + 1 := by rw [hp]; simp; omega
    omega

theorem evaluates_step (L : Lib) (ts pre : List (Task L)) (t : Task L) (post : List (Task L))
    (hts : ts = pre ++ t :: post) (hnd : (ts.map (fun t => t.ID)).Nodup)
    (hop : isOperator t.Operator = true) (l r v : L.F)
    (h1 : OperandValue L ts pre t.Arg1 l) (h2 : OperandValue L ts pre t.Arg2 r)
    (hcalc : calculate L t.Operator l r = .ok v) : EvaluatesTo L ts t v := by
  intro pre1 post1 hts1 results fuel hres hfuel
  have hlen : pre.length = pre1.length :=
    decomposition_unique t pre post pre1 post1 (by rw [← hts]; exact hnd) (by rw [← hts, ← hts1])
  obtain ⟨f, rfl⟩ : ∃ f, fuel = f + 1 := ⟨fuel - 1, by omega⟩
  have hmem : t ∈ ts := by rw [hts]; simp
  rw [evaluateWithResults]
  simp only [deref, graphOf_get ts hnd t hmem, hop, Bool.not_true, Bool.false_eq_true, if_false]
  rw [operand_evaluates L ts pre t post hts t.Arg1 l h1 results hres f (by omega),
    operand_evaluates L ts pre t post hts t.Arg2 r h2 results hres f (by omega)]
  simp only
  unfold calculate at hcalc
  split at hcalc
  · rename_i h
    rw [if_pos h]
    simp only [Except.ok.injEq] at hcalc; rw [hcalc]
  · split at hcalc
    · rename_i h0 h
      rw [if_neg h0, if_pos h]
      simp only [Except.ok.injEq] at hcalc; rw [hcalc]
    · split at hcalc
      · rename_i h0 h1 h
        rw [if_neg h0, if_neg h1, if_pos h]
        simp only [Except.ok.injEq] at hcalc; rw [hcalc]
      · split at hcalc
        · rename_i h0 h1 h2 h
          rw [if_neg h0, if_neg h1, if_neg h2, if_pos h]
          split at hcalc
          · simp at hcalc
          · rename_i hz
            rw [if_neg hz]
            simp only [Except.ok.injEq] at hcalc; rw [hcalc]
        · simp at hcalc

theorem createNodes_map {L : Lib} (f : Task L → Task L)
    (hf : ∀ t, (f t).ID = t.ID ∧ (f t).Operator = t.Operator) (ts : List (Task L)) :
    ∀ m, createNodes (ts.map f) m = createNodes ts m := by
  induction ts with
  | nil => intro m; rfl
  | cons t rest ih =>
    intro m
    simp only [List.map_cons, createNodes, (hf t).1, (hf t).2]
    exact ih _

theorem linkNodes_map {L : Lib} (f : Task L → Task L)
    (hf : ∀ t, (f t).ID = t.ID ∧ (f t).Arg1 = t.Arg1 ∧ (f t).Arg2 = t.Arg2) (ts : List (Task L)) :
    ∀ m, linkNodes (ts.map f) m = linkNodes ts m := by
  induction ts with
  | nil => intro m; rfl
  | cons t rest ih =>
    intro m
    simp only [List.map_cons, linkNodes, (hf t).1, (hf t).2.1, (hf t).2.2]
    split
    · exact ih _
    · exact ih _

theorem collectResults_ok {L : Lib} (ts : List (Task L)) :
    ∀ (m : GoMap L.F), (∀ t ∈ ts, t.Completed = true ∧ t.ID ≠ "") → m.get "" = none →
      ∃ m1, collectResults ts m = .ok m1 ∧ m1.get "" = none := by
  induction ts with
  | nil => intro m _ hm; exact ⟨m, rfl, hm⟩
  | cons t rest ih =>
    intro m h hm
    obtain ⟨hc, hid⟩ := h t (by simp)
    rw [collectResults]
    simp only [hc, Bool.not_true, Bool.false_eq_true, if_false]
    apply ih _ (fun x hx => h x (by simp [hx]))
    rw [GoMap.get_set]
    simp [hid, hm]

theorem aggregate_of_evaluates (L : Lib) (ts : List (Task L)) (f : Task L → Task L)
    (hf : ∀ t, (f t).ID = t.ID ∧ (f t).Arg1 = t.Arg1 ∧ (f t).Arg2 = t.Arg2 ∧
      (f t).Operator = t.Operator)
    (hc : ∀ t ∈ ts, (f t).Completed = true)
    (hnd : (ts.map (fun t => t.ID)).Nodup) (hid : ∀ t ∈ ts, t.ID ≠ "")
    (pre : List (Task L)) (last : Task L) (hts : ts = pre ++ [last]) (v : L.F)
    (hev : EvaluatesTo L ts last v) :
    AggregateResults L (ts.map f) = some (.ok v) := by
  obtain ⟨m1, hm1, hget⟩ := collectResults_ok (ts.map f) []
    (by
      intro t ht
      obtain ⟨t0, ht0, rfl⟩ := List.mem_map.1 ht
      exact ⟨hc t0 ht0, by rw [(hf t0).1]; exact hid t0 ht0⟩) rfl
  have hlast : last ∈ ts := by rw [hts]; simp
  have hgraph : linkNodes (ts.map f) (createNodes (ts.map f) []) = graphOf ts := by
    rw [createNodes_map f (fun t => ⟨(hf t).1, (hf t).2.2.2⟩),
      linkNodes_map f (fun t => ⟨(hf t).1, (hf t).2.1, (hf t).2.2.1⟩)]
    rfl
  have hgl : (ts.map f).getLast? = some (f last) := by
    rw [hts]; simp
  unfold AggregateResults
  rw [hm1]
  simp only [getRootNode, hgl, hgraph, (hf last).1, graphOf_get ts hnd last hlast,
    List.length_map]
  exact hev pre [] hts m1 _ hget (by rw [hts]; simp)

/-! ## The reports of the tasks of one expression -/

theorem Sim_mem {L : Lib} (ts : List (Task L)) (exprID userID : String) (s : Store L)
    (vals : GoMap L.F) (h : Sim L ts exprID userID s vals) (t : Task L) (ht : t ∈ ts) :
    rowWith exprID userID vals t ∈ s.tasks := by
  have : rowWith exprID userID vals t ∈ s.tasks.filter (fun r => r.expression_id = exprID) := by
    rw [h.2.1]; exact List.mem_map_of_mem _ ht
  exact (List.mem_filter.1 this).1

theorem Sim_GetTask {L : Lib} (ts : List (Task L)) (exprID userID : String) (s : Store L)
    (vals : GoMap L.F) (h : Sim L ts exprID userID s vals) (t : Task L) (ht : t ∈ ts) :
    GetTask s t.ID = some (rowWith exprID userID vals t).scanNoUser := by
  have hmem := Sim_mem ts exprID userID s vals h t ht
  have := find?_of_nodup_key s.tasks (fun r => r.id) h.1.1.2 _ hmem
  unfold GetTask
  have e : (fun r : TaskRow L => decide (r.id = t.ID))
      = (fun x => decide (x.id = (rowWith exprID userID vals t).id)) := rfl
  rw [e, this]
  rfl

theorem Sim_GetTasksByExpression {L : Lib} (ts : List (Task L)) (exprID userID : String)
    (s : Store L) (vals : GoMap L.F) (h : Sim L ts exprID userID s vals) :
    GetTasksByExpression s exprID userID
      = ts.map (fun t => (rowWith exprID userID vals t).scan) := by
  unfold GetTasksByExpression
  have e : s.tasks.filter (fun r => decide (r.expression_id = exprID ∧ r.user_id = userID))
      = (s.tasks.filter (fun r => r.expression_id = exprID)).filter
          (fun r => r.user_id = userID) := by
    rw [List.filter_filter]
    congr 1
    funext r
    simp [Bool.and_comm]
  rw [e, h.2.1, List.filter_eq_self.2, List.map_map]
  · rfl
  · intro r hr
    obtain ⟨t, _, rfl⟩ := List.mem_map.1 hr
    simp [rowWith]

theorem Sim_count {L : Lib} (ts : List (Task L)) (exprID userID : String) (s : Store L)
    (vals : GoMap L.F) (h : Sim L ts exprID userID s vals) :
    CountIncompleteTasks s exprID = 0 ↔ ∀ t ∈ ts, (vals.get t.ID).isSome = true := by
  rw [CountIncompleteTasks_eq_zero]
  constructor
  · intro hall t ht
    have := hall _ (Sim_mem ts exprID userID s vals h t ht) rfl
    exact this
  · intro hall r hr hre
    have : r ∈ s.tasks.filter (fun r => r.expression_id = exprID) :=
      List.mem_filter.2 ⟨hr, by simpa using hre⟩
    rw [h.2.1] at this
    obtain ⟨t, ht, rfl⟩ := List.mem_map.1 this
    exact hall t ht

theorem CompleteTask_filter {L : Lib} (s : Store L) (tid exprID : String) (res : L.F) :
    (CompleteTask s tid res).tasks.filter (fun r => r.expression_id = exprID)
      = (s.tasks.filter (fun r => r.expression_id = exprID)).map (fun r =>
          if r.id = tid then { r with completed := true, result := some res } else r) := by
  simp only [CompleteTask, List.filter_map]
  congr 1
  apply List.filter_congr
  intro r _
  simp only [Function.comp]
  split <;> rfl

theorem Sim_report {L : Lib} (ts : List (Task L)) (exprID userID : String) (s : Store L)
    (vals : GoMap L.F) (h : Sim L ts exprID userID s vals)
    (hnd : (ts.map (fun t => t.ID)).Nodup) (t : Task L) (ht : t ∈ ts) (v : L.F)
    (hev : EvaluatesTo L ts t v) :
    Sim L ts exprID userID (handlePostTaskResult s t.ID v).1 (vals.set t.ID v) := by
  refine ⟨(Inv_handlePostTaskResult s t.ID v h.1).1, ?_, ?_⟩
  · have htasks : (handlePostTaskResult s t.ID v).1.tasks = (CompleteTask s t.ID v).tasks := by
      unfold handlePostTaskResult
      rw [Sim_GetTask ts exprID userID s vals h t ht]
      simp only
      split <;> rw [UpdateExpressionStatus_tasks]
    rw [htasks, CompleteTask_filter, h.2.1, List.map_map]
    apply List.map_congr_left
    intro t1 _
    simp only [Function.comp, rowWith, GoMap.get_set]
    by_cases hid : t1.ID = t.ID
    · simp [hid]
    · simp [hid, Ne.symm hid]
  · intro t1 ht1 v1 hv1
    rw [GoMap.get_set] at hv1
    by_cases hid : t.ID = t1.ID
    · simp only [hid, if_true, Option.some.injEq] at hv1
      have : t = t1 := List.inj_on_of_nodup_map hnd ht ht1 hid
      rw [← this, ← hv1]
      exact hev
    · simp only [hid, if_false] at hv1
      exact h.2.2 t1 ht1 v1 hv1

theorem GetExpression_updated {L : Lib} (s : Store L) (exprID st : String) (res : L.F)
    (h : ∃ e ∈ s.expressions, e.id = exprID) :
    ∃ x, GetExpression (UpdateExpressionStatus s exprID st res).2 exprID = some x ∧
      x.Status = st ∧ x.Result = res := by
  obtain ⟨e, he, hid⟩ := h
  have hfind : ∃ e0, s.expressions.find? (fun e => e.id = exprID) = some e0 := by
    cases hf : s.expressions.find? (fun e => e.id = exprID) with
    | none =>
      rw [List.find?_eq_none] at hf
      exact absurd (by simpa using hid) (hf e he)
    | some e0 => exact ⟨e0, rfl⟩
  obtain ⟨e0, he0⟩ := hfind
  have hid0 : e0.id = exprID := by simpa using List.find?_some he0
  unfold GetExpression
  rw [UpdateExpressionStatus_expressions, List.find?_map]
  have hcomp : ((fun e : ExpressionRow L => decide (e.id = exprID)) ∘
      (fun e => if e.id = exprID then { e with status := st, result := some res } else e))
      = (fun e => decide (e.id = exprID)) := by
    funext e
    simp only [Function.comp]
    split <;> rfl
  rw [hcomp, he0]
  simp only [Option.map_some', hid0, if_true]
  exact ⟨_, rfl, rfl, rfl⟩

theorem tasks_referenced (L : Lib) (uuid : Nat → String) (exprID : String) (n : Node)
    (hwf : n.WellFormed L) (k : Nat) :
    ∀ pre t post, (createTasksFromTree L uuid exprID n k).2.1 = pre ++ t :: post → post ≠ [] →
      ∃ t2 ∈ post, Refers t2 t := by
  cases n with
  | nil => exact absurd hwf (by simp [Node.WellFormed])
  | mk v l r tid p =>
    simp only [Node.WellFormed] at hwf
    rcases hwf with ⟨hv, hl, hr⟩ | ⟨hnum, rfl, rfl⟩
    · intro pre t post h hpost
      rw [tasks_mk] at h
      simp only [hv, if_true] at h
      have hlr : RefdIn ((createTasksFromTree L uuid exprID l k).2.1 ++
          (createTasksFromTree L uuid exprID r (createTasksFromTree L uuid exprID l k).2.2).2.1)
          [{ ID := generateTaskID uuid
                (createTasksFromTree L uuid exprID r
                  (createTasksFromTree L uuid exprID l k).2.2).2.2,
             ExpressionID := exprID,
             Arg1 := getNodeReference (createTasksFromTree L uuid exprID l k).1,
             Arg2 := getNodeReference
                (createTasksFromTree L uuid exprID r (createTasksFromTree L uuid exprID l k).2.2).1,
             Operator := v, OperationTime := getOperationTime L v, Result := L.zero,
             Completed := false, UserID := "" }] := by
        refine RefdIn_append _ _ _ ?_ ?_
        · apply tasks_refdIn L uuid exprID l hl
          intro t1 ht1
          refine ⟨_, List.mem_append_right _ (List.mem_singleton_self _), ?_⟩
          exact Or.inl (reference_of_last L uuid exprID l k hl t1 ht1)
        · apply tasks_refdIn L uuid exprID r hr
          intro t1 ht1
          refine ⟨_, List.mem_singleton_self _, ?_⟩
          exact Or.inr (reference_of_last L uuid exprID r _ hr t1 ht1)
      obtain ⟨post1, x, hpx⟩ : ∃ post1 x, post = post1 ++ [x] :=
        ⟨post.dropLast, post.getLast hpost, (List.dropLast_append_getLast hpost).symm⟩
      rw [hpx, ← List.cons_append, ← List.append_assoc] at h
      have h1 := List.append_inj' h rfl
      obtain ⟨t2, ht2, hr2⟩ := hlr pre t post1 h1.1
      have hx := h1.2
      simp only [List.cons.injEq, and_true] at hx
      exact ⟨t2, by rw [hpx, ← hx]; exact ht2, hr2⟩
    · intro pre t post h
      have hv := (isNumberText_not_operator L v hnum).1
      rw [tasks_mk] at h
      simp [hv, createTasksFromTree] at h

theorem resolve_operand (L : Lib) (ts : List (Task L)) (exprID userID : String) (s : Store L)
    (vals : GoMap L.F) (h : Sim L ts exprID userID s vals) (pre : List (Task L))
    (hpre : ∀ t1 ∈ pre, t1 ∈ ts) (arg : String) (l : L.F)
    (harg : isNumberText L arg ∨ ∃ t1 ∈ pre, arg = "task:" ++ t1.ID)
    (hres : resolveArgument L s arg = .ok l) : OperandValue L ts pre arg l := by
  rcases harg with hnum | ⟨t1, ht1, rfl⟩
  · left
    refine ⟨hnum, ?_⟩
    simpa [resolveArgument, (isNumberText_not_operator L arg hnum).2] using hres
  · right
    refine ⟨t1, ht1, rfl, ?_⟩
    have hg := Sim_GetTask ts exprID userID s vals h t1 (hpre t1 ht1)
    simp only [resolveArgument, hasPrefix_append, if_true, trimPrefix_append,
      HandleInternalTaskByID, hg, TaskRow.scanNoUser, rowWith] at hres
    cases hv : vals.get t1.ID with
    | none => simp [hv] at hres
    | some x =>
      simp only [hv, Option.isSome_some, if_true, coalesce, Except.ok.injEq] at hres
      subst hres
      exact h.2.2 t1 (hpre t1 ht1) x hv

theorem report_evaluates (L : Lib) (ts : List (Task L)) (exprID userID : String) (s : Store L)
    (vals : GoMap L.F) (h : Sim L ts exprID userID s vals)
    (hnd : (ts.map (fun t => t.ID)).Nodup) (hop : ∀ t ∈ ts, isOperator t.Operator = true)
    (hargs : ArgsOK L [] ts) (t : Task L) (ht : t ∈ ts) (v : L.F)
    (hproc : processTask L s (rowWith exprID userID vals t).scanNoUser = .ok v) :
    EvaluatesTo L ts t v := by
  obtain ⟨pre, post, hts⟩ := List.append_of_mem ht
  have hpre : ∀ t1 ∈ pre, t1 ∈ ts := fun t1 h1 => by rw [hts]; exact List.mem_append_left _ h1
  have ha1 := hargs pre t post hts t.Arg1 (Or.inl rfl)
  have ha2 := hargs pre t post hts t.Arg2 (Or.inr rfl)
  simp only [List.nil_append] at ha1 ha2
  unfold processTask at hproc
  simp only [TaskRow.scanNoUser, rowWith] at hproc
  split at hproc
  · simp at hproc
  · rename_i l hl
    split at hproc
    · simp at hproc
    · rename_i r hr
      exact evaluates_step L ts pre t post hts hnd (hop t ht) l r v
        (resolve_operand L ts exprID userID s vals h pre hpre t.Arg1 l ha1 hl)
        (resolve_operand L ts exprID userID s vals h pre hpre t.Arg2 r ha2 hr) hproc

theorem handlePostTaskResult_sim {L : Lib} (ts : List (Task L)) (exprID userID : String)
    (s : Store L) (vals : GoMap L.F) (h : Sim L ts exprID userID s vals) (t : Task L)
    (ht : t ∈ ts) (v : L.F) :
    (handlePostTaskResult s t.ID v).1 =
      if CountIncompleteTasks (CompleteTask s t.ID v) exprID = 0 then
        (UpdateExpressionStatus (CompleteTask s t.ID v) exprID "completed" v).2
      else (UpdateExpressionStatus (CompleteTask s t.ID v) exprID "in_progress" L.zero).2 := by
  unfold handlePostTaskResult
  rw [Sim_GetTask ts exprID userID s vals h t ht]
  simp only [TaskRow.scanNoUser, rowWith]
  split <;> rfl

theorem last_report_is_root {L : Lib} (ts : List (Task L)) (order doneL : List String)
    (t : Task L) (ht : t ∈ ts)
    (hnd : (ts.map (fun t => t.ID)).Nodup)
    (href : ∀ pre t post, ts = pre ++ t :: post → post ≠ [] → ∃ t2 ∈ post, Refers t2 t)
    (hperm : order.Perm (ts.map (fun t => t.ID)))
    (htopo : ∀ pre id post, order = pre ++ id :: post → ∀ t ∈ ts, t.ID = id →
      ∀ t1 ∈ ts, Refers t t1 → t1.ID ∈ pre)
    (horder : order = doneL ++ [t.ID]) :
    ∃ pre, ts = pre ++ [t] := by
  obtain ⟨pre, post, hts⟩ := List.append_of_mem ht
  by_cases hpost : post = []
  · exact ⟨pre, by rw [hts, hpost]⟩
  · exfalso
    obtain ⟨t2, ht2, hr2⟩ := href pre t post hts hpost
    have hnd1 : order.Nodup := hperm.nodup_iff.2 hnd
    have hnotin : t.ID ∉ doneL := by
      rw [horder] at hnd1
      have := List.disjoint_of_nodup_append hnd1
      intro hin
      exact this hin (List.mem_singleton_self _)
    have ht2ts : t2 ∈ ts := by rw [hts]; simp [ht2]
    have hne : t2.ID ≠ t.ID := by
      intro he
      rw [hts] at hnd
      simp only [List.map_append, List.map_cons] at hnd
      have h1 := (List.nodup_append.1 hnd).2.1
      simp only [List.nodup_cons] at h1
      exact h1.1 (he ▸ List.mem_map_of_mem (fun t => t.ID) ht2)
    have hin : t2.ID ∈ order := hperm.mem_iff.2 (List.mem_map_of_mem (fun t => t.ID) ht2ts)
    rw [horder] at hin
    simp only [List.mem_append, List.mem_singleton] at hin
    rcases hin with hin | hin
    · obtain ⟨p, q, hpq⟩ := List.append_of_mem hin
      have := htopo p t2.ID (q ++ [t.ID]) (by rw [horder, hpq]; simp) t2 ht2ts rfl t ht hr2
      exact hnotin (by rw [hpq]; exact List.mem_append_left _ this)
    · exact hne hin

theorem reportAll_final (L : Lib) (ts : List (Task L)) (exprID userID : String)
    (order : List String) (s2 : Store L)
    (hnd : (ts.map (fun t => t.ID)).Nodup) (hop : ∀ t ∈ ts, isOperator t.Operator = true)
    (hid : ∀ t ∈ ts, t.ID ≠ "") (hargs : ArgsOK L [] ts)
    (href : ∀ pre t post, ts = pre ++ t :: post → post ≠ [] → ∃ t2 ∈ post, Refers t2 t)
    (hperm : order.Perm (ts.map (fun t => t.ID)))
    (htopo : ∀ pre id post, order = pre ++ id :: post → ∀ t ∈ ts, t.ID = id →
      ∀ t1 ∈ ts, Refers t t1 → t1.ID ∈ pre) :
    ∀ (rest doneL : List String) (s : Store L) (vals : GoMap L.F),
      Sim L ts exprID userID s vals → (∀ id, (vals.get id).isSome = true ↔ id ∈ doneL) →
      order = doneL ++ rest → rest ≠ [] → reportAll L s rest = some s2 →
      ∃ v, (∃ x, GetExpression s2 exprID = some x ∧ x.Status = "completed" ∧ x.Result = v) ∧
        AggregateResults L (GetTasksByExpression s2 exprID userID) = some (.ok v) := by
  intro rest
  induction rest with
  | nil => intro doneL s vals _ _ _ hne; exact absurd rfl hne
  | cons id rest1 ih =>
    intro doneL s vals hsim hdone horder _ hrun
    have hidmem : id ∈ ts.map (fun t => t.ID) :=
      hperm.mem_iff.1 (by rw [horder]; simp)
    obtain ⟨t, ht, rfl⟩ := List.mem_map.1 hidmem
    rw [reportAll, Sim_GetTask ts exprID userID s vals hsim t ht] at hrun
    simp only at hrun
    split at hrun
    · simp at hrun
    · rename_i v hproc
      have hev := report_evaluates L ts exprID userID s vals hsim hnd hop hargs t ht v hproc
      have hsim1 := Sim_report ts exprID userID s vals hsim hnd t ht v hev
      have hdone1 : ∀ id, ((vals.set t.ID v).get id).isSome = true ↔ id ∈ doneL ++ [t.ID] := by
        intro id
        rw [GoMap.get_set]
        by_cases he : t.ID = id
        · simp [he]
        · simp [he, hdone id, Ne.symm he]
      cases rest1 with
      | cons id1 rest2 =>
        exact ih (doneL ++ [t.ID]) _ _ hsim1 hdone1 (by rw [horder]; simp) (by simp) hrun
      | nil =>
        simp only [reportAll, Option.some.injEq] at hrun
        subst hrun
        obtain ⟨pre, hts⟩ := last_report_is_root ts order doneL t ht hnd href hperm htopo horder
        have hall : ∀ t1 ∈ ts, ((vals.set t.ID v).get t1.ID).isSome = true := by
          intro t1 ht1
          rw [hdone1, ← horder]
          exact hperm.mem_iff.2 (List.mem_map_of_mem (fun t => t.ID) ht1)
        have hcount := (Sim_count ts exprID userID _ _ hsim1).2 hall
        have hstate := handlePostTaskResult_sim ts exprID userID s vals hsim t ht v
        have hzero : CountIncompleteTasks (CompleteTask s t.ID v) exprID = 0 := by
          by_contra hnz
          rw [hstate, if_neg hnz] at hcount
          apply hnz
          unfold CountIncompleteTasks at hcount ⊢
          rw [UpdateExpressionStatus_tasks] at hcount
          exact hcount
        rw [if_pos hzero] at hstate
        refine ⟨v, ?_, ?_⟩
        · rw [hstate]
          apply GetExpression_updated
          obtain ⟨e, he, heid⟩ :=
            hsim.1.2.1 _ (Sim_mem ts exprID userID s vals hsim t ht)
          exact ⟨e, he, heid⟩
        · rw [Sim_GetTasksByExpression ts exprID userID _ _ hsim1]
          exact aggregate_of_evaluates L ts
            (fun t1 => (rowWith exprID userID (vals.set t.ID v) t1).scan)
            (fun _ => ⟨rfl, rfl, rfl, rfl⟩) (fun t1 ht1 => hall t1 ht1) hnd hid pre t hts v hev

theorem tasks_not_completed (L : Lib) (uuid : Nat → String) (exprID : String) (n : Node) :
    ∀ k, ∀ t ∈ (createTasksFromTree L uuid exprID n k).2.1, t.Completed = false := by
  induction n with
  | nil => intro k t ht; simp [createTasksFromTree] at ht
  | mk v l r tid p ihl ihr =>
    intro k t ht
    rw [tasks_mk] at ht
    simp only [List.mem_append] at ht
    rcases ht with (ht | ht) | ht
    · exact ihl _ _ ht
    · exact ihr _ _ ht
    · split at ht
      · simp only [List.mem_singleton] at ht
        rw [ht]
      · simp at ht

theorem RegisterTasks_ok {L : Lib} (s : Store L) (exprID userID : String)
    (tasks : List (Task L)) (h : (RegisterTasks s exprID userID tasks).1 = .ok ()) :
    (RegisterTasks s exprID userID tasks).2.tasks = s.tasks ++ tasks.map (fun task =>
      { id := task.ID, expression_id := exprID, user_id := userID, arg1 := task.Arg1,
        arg2 := task.Arg2, operator := task.Operator, operation_time := task.OperationTime,
        result := none, completed := task.Completed }) := by
  unfold RegisterTasks at h ⊢
  split
  · rename_i e he
    rw [he] at h
    simp at h
  · rename_i rows hrows
    exact (insertTasks_ok exprID userID tasks _ _ hrows).1

theorem ProcessExpression_ok (L : Lib) (s : Store L) (exprStr userID : String)
    (now createdAt : Int) (uuid : Nat → String) (expr : Expression L)
    (h : (ProcessExpression L s exprStr userID now createdAt uuid).1 = .ok expr) :
    ∃ tokens tree, tokenize L (removeSpaces exprStr) = .ok tokens ∧
      buildExpressionTree tokens = .ok tree ∧
      (∀ e ∈ s.expressions, e.id ≠ expr.ID) ∧
      (ProcessExpression L s exprStr userID now createdAt uuid).2.tasks =
        s.tasks ++ (createTasksFromTree L uuid expr.ID tree 0).2.1.map (fun task =>
          { id := task.ID, expression_id := expr.ID, user_id := userID, arg1 := task.Arg1,
            arg2 := task.Arg2, operator := task.Operator,
            operation_time := task.OperationTime, result := none,
            completed := task.Completed }) := by
  unfold ProcessExpression at h ⊢
  simp only at h ⊢
  split at h
  · simp at h
  · split at h
    · simp at h
    · rename_i tokens htok
      split at h
      · simp at h
      · rename_i tree htree
        refine ⟨tokens, tree, htok, htree, ?_⟩
        rcases NewExpression_cases s (removeSpaces exprStr) userID now createdAt with
          ⟨h1, e, h2⟩ | ⟨hfresh, h1, h2⟩
        · split at h
          · simp at h
          · rename_i expr1 s1 heq
            rw [Prod.ext_iff] at heq
            simp only [h2] at heq
            exact absurd heq.1 (by simp)
        · split at h
          · simp at h
          · rename_i expr1 s1 heq
            rw [Prod.ext_iff] at heq
            simp only [h1, h2, Except.ok.injEq] at heq
            obtain ⟨hexpr, hs1⟩ := heq
            have hid1 : expr1.ID = "expr-" ++ toString now := by rw [← hexpr]
            split at h
            · simp at h
            · rename_i u s2 heq2
              simp only [Except.ok.injEq] at h
              subst h
              have hreg : (RegisterTasks s1 expr1.ID userID
                  (createTasksFromTree L uuid expr1.ID tree 0).2.1).1 = .ok () := by
                rw [heq2]
              have hs2 : s2 = (RegisterTasks s1 expr1.ID userID
                  (createTasksFromTree L uuid expr1.ID tree 0).2.1).2 := by rw [heq2]
              refine ⟨by rw [hid1]; exact hfresh, ?_⟩
              rw [hs2, RegisterTasks_ok _ _ _ _ hreg, ← hs1]

theorem Sim_initial (L : Lib) (s : Store L) (exprStr userID : String) (now createdAt : Int)
    (uuid : Nat → String) (expr : Expression L) (tree : Node) (hinv : s.Inv)
    (hfresh : ∀ e ∈ s.expressions, e.id ≠ expr.ID)
    (htasks : (ProcessExpression L s exprStr userID now createdAt uuid).2.tasks =
        s.tasks ++ (createTasksFromTree L uuid expr.ID tree 0).2.1.map (fun task =>
          { id := task.ID, expression_id := expr.ID, user_id := userID, arg1 := task.Arg1,
            arg2 := task.Arg2, operator := task.Operator,
            operation_time := task.OperationTime, result := none,
            completed := task.Completed })) :
    Sim L (createTasksFromTree L uuid expr.ID tree 0).2.1 expr.ID userID
      (ProcessExpression L s exprStr userID now createdAt uuid).2 [] := by
  refine ⟨(Inv_ProcessExpression s exprStr userID now createdAt uuid hinv).1, ?_, ?_⟩
  · rw [htasks, List.filter_append]
    have hold : s.tasks.filter (fun r => r.expression_id = expr.ID) = [] := by
      rw [List.filter_eq_nil_iff]
      intro r hr hre
      obtain ⟨e, he, heid⟩ := hinv.2.1 r hr
      exact hfresh e he (by rw [heid]; simpa using hre)
    rw [hold, List.nil_append, List.filter_eq_self.2]
    · apply List.map_congr_left
      intro t ht
      simp [rowWith, GoMap.get, tasks_not_completed L uuid expr.ID tree 0 t ht]
    · intro r hr
      obtain ⟨t, _, rfl⟩ := List.mem_map.1 hr
      simp
  · intro t _ v hv
    simp [GoMap.get] at hv

/-- Claim C10. For an expression submitted in a reachable state, with pairwise
distinct task identifiers and at least one task: when each of its tasks is
reported once through `handlePostTaskResult`, in an order in which a task comes
after every task it references, each with the value the agent's `processTask`
computes at that moment, the expression is then `completed` and its stored
result is the value `AggregateResults` returns on its completed task set. -/
theorem rollup_agrees_with_aggregator (L : Lib) (s0 : Store L) (exprStr userID : String)
    (now createdAt : Int) (uuid : Nat → String) (expr : Expression L) (order : List String)
    (s2 : Store L)
    (hreach : Reachable L s0) (hdistinct : Function.Injective uuid)
    (hsubmit : (ProcessExpression L s0 exprStr userID now createdAt uuid).1 = .ok expr)
    (hne : order ≠ [])
    (hperm : order.Perm ((GetTasksByExpression
      (ProcessExpression L s0 exprStr userID now createdAt uuid).2 expr.ID userID).map
        (fun t => t.ID)))
    (htopo : ∀ pre id post, order = pre ++ id :: post →
      ∀ t ∈ GetTasksByExpression (ProcessExpression L s0 exprStr userID now createdAt uuid).2
        expr.ID userID, t.ID = id →
      ∀ id1, (t.Arg1 = "task:" ++ id1 ∨ t.Arg2 = "task:" ++ id1) → id1 ∈ pre)
    (hrun : reportAll L (ProcessExpression L s0 exprStr userID now createdAt uuid).2 order
      = some s2) :
    ∃ v, (∃ x, GetExpression s2 expr.ID = some x ∧ x.Status = "completed" ∧ x.Result = v) ∧
      AggregateResults L (GetTasksByExpression s2 expr.ID userID) = some (.ok v) := by
  obtain ⟨tokens, tree, htok, htree, hfresh, htasks⟩ :=
    ProcessExpression_ok L s0 exprStr userID now createdAt uuid expr hsubmit
  obtain ⟨htokwf, _, hbal⟩ := tokenize_spec L _ tokens htok
  obtain ⟨hwf, _⟩ := buildExpressionTree_spec L tokens tree htokwf hbal htree
  have hsim := Sim_initial L s0 exprStr userID now createdAt uuid expr tree
    (Inv_of_reachable s0 hreach) hfresh htasks
  have hT := Sim_GetTasksByExpression _ expr.ID userID _ _ hsim
  rw [hT, List.map_map] at hperm
  rw [hT] at htopo
  refine reportAll_final L (createTasksFromTree L uuid expr.ID tree 0).2.1 expr.ID userID order
    s2 (tasks_ids_nodup L uuid expr.ID tree 0 hdistinct)
    (fun t ht => (tasks_operator_and_id L uuid expr.ID tree 0 t ht).1)
    (fun t ht => (tasks_operator_and_id L uuid expr.ID tree 0 t ht).2)
    (tasks_argsOK L uuid expr.ID tree hwf 0)
    (tasks_referenced L uuid expr.ID tree hwf 0) hperm ?_ order [] _ [] hsim ?_ rfl hne hrun
  · intro pre id post horder t ht hid t1 _ href
    exact htopo pre id post horder _ (List.mem_map_of_mem _ ht) hid t1.ID href
  · intro id
    simp [GoMap.get]

theorem Store.sample_tasks :
    GetTasksByExpression Store.sample "expr-1" "alice" =
      [{ ID := "task-", ExpressionID := "expr-1", Arg1 := "2", Arg2 := "3", Operator := "*",
         OperationTime := 200, Result := 0, Completed := false, UserID := "alice" },
       { ID := "task-u", ExpressionID := "expr-1", Arg1 := "1", Arg2 := "task:task-",
         Operator := "+", OperationTime := 100, Result := 0, Completed := false,
         UserID := "alice" }] := by
  rfl

theorem Store.sample_order :
    ∀ pre id post, ["task-", "task-u"] = pre ++ id :: post →
      ∀ t ∈ GetTasksByExpression Store.sample "expr-1" "alice", t.ID = id →
      ∀ id1, (t.Arg1 = "task:" ++ id1 ∨ t.Arg2 = "task:" ++ id1) → id1 ∈ pre := by
  intro pre id post h t ht hid id1 harg
  rw [Store.sample_tasks] at ht
  simp only [List.mem_cons, List.not_mem_nil, or_false] at ht
  rcases ht with rfl | rfl
  · exfalso
    rcases harg with harg | harg
    · have := congrArg String.data harg
      simp [String.data_append] at this
    · have := congrArg String.data harg
      simp [String.data_append] at this
  · have hid1 : id1 = "task-" := by
      rcases harg with harg | harg
      · have := congrArg String.data harg
        simp [String.data_append] at this
      · exact (string_append_left_cancel "task:" "task-" id1 harg).symm
    subst hid1
    simp only at hid
    subst hid
    cases pre with
    | nil =>
      simp only [List.nil_append, List.cons.injEq] at h
      exact absurd h.1 (by decide)
    | cons x pre1 =>
      simp only [List.cons_append, List.cons.injEq] at h
      rw [← h.1]
      exact List.mem_cons_self _ _

/-- The statement of C10 on the submission of `1+2*3` to the empty database,
the task of `*` being reported before the task of `+`: the hypotheses hold
there. -/
theorem rollup_agrees_with_aggregator_witness :
    Reachable Lib.exact (Store.empty Lib.exact) ∧ Function.Injective unaryUuid ∧
    (ProcessExpression Lib.exact (Store.empty Lib.exact) "1+2*3" "alice" 1 1 unaryUuid).1
      = .ok { ID := "expr-1", Expression := "1+2*3", Status := "pending", Result := 0,
              CreatedAt := 1 } ∧
    ["task-", "task-u"] ≠ [] ∧
    ["task-", "task-u"].Perm
      ((GetTasksByExpression Store.sample "expr-1" "alice").map (fun t => t.ID)) ∧
    (∀ pre id post, ["task-", "task-u"] = pre ++ id :: post →
      ∀ t ∈ GetTasksByExpression Store.sample "expr-1" "alice", t.ID = id →
      ∀ id1, (t.Arg1 = "task:" ++ id1 ∨ t.Arg2 = "task:" ++ id1) → id1 ∈ pre) ∧
    ∃ s2, reportAll Lib.exact Store.sample ["task-", "task-u"] = some s2 ∧
      ∃ v, (∃ x, GetExpression s2 "expr-1" = some x ∧ x.Status = "completed" ∧ x.Result = v) ∧
        AggregateResults Lib.exact (GetTasksByExpression s2 "expr-1" "alice") = some (.ok v) :=
  have hreach : Reachable Lib.exact (Store.empty Lib.exact) := ⟨[], rfl⟩
  have hsubmit : (ProcessExpression Lib.exact (Store.empty Lib.exact) "1+2*3" "alice" 1 1
      unaryUuid).1 = .ok ⟨"expr-1", "1+2*3", "pending", 0, 1⟩ := by rfl
  have hperm : ["task-", "task-u"].Perm
      ((GetTasksByExpression Store.sample "expr-1" "alice").map (fun t => t.ID)) := by
    rw [Store.sample_tasks]
    exact List.Perm.refl _
  have hsome : (reportAll Lib.exact Store.sample ["task-", "task-u"]).isSome = true := by
    decide!
  have hrun : reportAll Lib.exact Store.sample ["task-", "task-u"]
      = some ((reportAll Lib.exact Store.sample ["task-", "task-u"]).get hsome) :=
    (Option.some_get hsome).symm
  ⟨hreach, unaryUuid_injective, hsubmit, by simp, hperm, Store.sample_order, _, hrun,
    rollup_agrees_with_aggregator Lib.exact (Store.empty Lib.exact) "1+2*3" "alice" 1 1
      unaryUuid _ ["task-", "task-u"] _ hreach unaryUuid_injective hsubmit (by simp) hperm
      Store.sample_order hrun⟩

/-! ## The trees of the parser have plain leaves -/

theorem plainLeaves_of_wellFormed (L : Lib) (n : Node) (h : n.WellFormed L) :
    n.plainLeaves = true := by
  induction n with
  | nil => rfl
  | mk v l r tid p ihl ihr =>
    simp only [Node.WellFormed] at h
    rcases h with ⟨hv, hl, hr⟩ | ⟨hnum, rfl, rfl⟩
    · simp [Node.plainLeaves, hv, ihl hl, ihr hr]
    · simp [Node.plainLeaves, (isNumberText_not_operator L v hnum).2]

theorem buildExpressionTree_plainLeaves (L : Lib) (expr : String) (tokens : List token)
    (tree : Node) (htok : tokenize L expr = .ok tokens)
    (htree : buildExpressionTree tokens = .ok tree) :
    tree.WellFormed L ∧ tree.plainLeaves = true := by
  obtain ⟨h1, _, h3⟩ := tokenize_spec L expr tokens htok
  obtain ⟨hwf, _⟩ := buildExpressionTree_spec L tokens tree h1 h3 htree
  exact ⟨hwf, plainLeaves_of_wellFormed L tree hwf⟩

/-! ## Repeated completion of a task -/

theorem CompleteTask_expressions {L : Lib} (s : Store L) (taskID : String) (result : L.F) :
    (CompleteTask s taskID result).expressions = s.expressions := rfl

theorem CompleteTask_absorbs {L : Lib} (s : Store L) (taskID : String) (r1 r2 : L.F) :
    CompleteTask (CompleteTask s taskID r1) taskID r2 = CompleteTask s taskID r2 := by
  simp only [CompleteTask, List.map_map]
  congr 1
  apply List.map_congr_left
  intro r _
  by_cases h : r.id = taskID <;> simp [h]

/-- Claim C11. Completing the task `taskID` with `r1` and then with `r2` gives
the database that completing it with `r2` alone gives.  In that database the
table of expressions is the one before, the task rows are the ones before, in
the same order and with the same identifiers (none added, none twice), every
row whose identifier is not `taskID` is the row before, and every row whose
identifier is `taskID` is completed with the result `r2` and keeps all its
other columns. -/
theorem CompleteTask_last_write_wins {L : Lib} (s : Store L) (taskID : String) (r1 r2 : L.F) :
    CompleteTask (CompleteTask s taskID r1) taskID r2 = CompleteTask s taskID r2 ∧
    (CompleteTask (CompleteTask s taskID r1) taskID r2).expressions = s.expressions ∧
    (CompleteTask (CompleteTask s taskID r1) taskID r2).tasks.map (fun r => r.id)
      = s.tasks.map (fun r => r.id) ∧
    List.Forall₂
      (fun (old new : TaskRow L) =>
        (old.id ≠ taskID → new = old) ∧
        (old.id = taskID →
          new.completed = true ∧ new.result = some r2 ∧ new.id = old.id ∧
          new.expression_id = old.expression_id ∧ new.user_id = old.user_id ∧
          new.arg1 = old.arg1 ∧ new.arg2 = old.arg2 ∧ new.operator = old.operator ∧
          new.operation_time = old.operation_time))
      s.tasks (CompleteTask (CompleteTask s taskID r1) taskID r2).tasks := by
  rw [CompleteTask_absorbs]
  refine ⟨rfl, rfl, CompleteTask_ids s taskID r2, ?_⟩
  simp only [CompleteTask]
  generalize s.tasks = rows
  induction rows with
  | nil => exact List.Forall₂.nil
  | cons r rest ih =>
    rw [List.map_cons]
    refine List.Forall₂.cons ?_ ih
    by_cases h : r.id = taskID <;> simp [h]

/-! ## The rollup after a report -/

theorem GetTask_eq_none {L : Lib} (s : Store L) (ID : String) :
    GetTask s ID = none ↔ ∀ row ∈ s.tasks, row.id ≠ ID := by
  simp [GetTask, List.find?_eq_none]

theorem GetTask_eq_some {L : Lib} (s : Store L) (ID : String) (task : Task L)
    (h : GetTask s ID = some task) :
    ∃ row ∈ s.tasks, row.id = ID ∧ task = row.scanNoUser := by
  simp only [GetTask, Option.map_eq_some'] at h
  obtain ⟨row, hrow, rfl⟩ := h
  have h1 := List.find?_some hrow
  exact ⟨row, List.mem_of_find?_eq_some hrow, by simpa using h1, rfl⟩

/-- Claim C12. For a task identifier that is not in the table,
`handlePostTaskResult` leaves the database as it is.  For the identifier of a
task of the table, with `task` the task `GetTask` reads: the table of tasks
afterwards is the one `CompleteTask` gives, in which every row with that
identifier is completed with the reported result `r`; and the table of
expressions afterwards is the one before except for the row of the task's
expression, which, when no row of that expression is left with
`completed = false`, has the status `completed` and the result `r`, and
otherwise has the status `in_progress` (and the result 0). -/
theorem handlePostTaskResult_rollup {L : Lib} (s : Store L) (ID : String) (r : L.F) :
    (GetTask s ID = none → (handlePostTaskResult s ID r).1 = s) ∧
    (∀ task, GetTask s ID = some task →
      (handlePostTaskResult s ID r).1.tasks = (CompleteTask s ID r).tasks ∧
      (∀ row ∈ (handlePostTaskResult s ID r).1.tasks, row.id = ID →
        row.completed = true ∧ row.result = some r) ∧
      (handlePostTaskResult s ID r).1.expressions = s.expressions.map (fun e =>
        if e.id = task.ExpressionID then
          if ∀ row ∈ (handlePostTaskResult s ID r).1.tasks,
              row.expression_id = task.ExpressionID → row.completed = true then
            { e with status := "completed", result := some r }
          else { e with status := "in_progress", result := some L.zero }
        else e)) := by
  constructor
  · intro h
    simp [handlePostTaskResult, h]
  · intro task h
    have htasks : (handlePostTaskResult s ID r).1.tasks = (CompleteTask s ID r).tasks := by
      simp only [handlePostTaskResult, h]
      split <;> exact UpdateExpressionStatus_tasks _ _ _ _
    refine ⟨htasks, ?_, ?_⟩
    · intro row hrow hid
      rw [htasks] at hrow
      obtain ⟨r0, _, hid0, _, _, _, _, _, hcase⟩ := mem_CompleteTask s ID r row hrow
      rcases hcase with ⟨_, hc, hres⟩ | ⟨hne, _⟩
      · exact ⟨hc, hres⟩
      · exact absurd (hid0 ▸ hid) hne
    · rw [htasks]
      simp only [handlePostTaskResult, h]
      by_cases hz : CountIncompleteTasks (CompleteTask s ID r) task.ExpressionID = 0
      · have hall := (CountIncompleteTasks_eq_zero _ _).1 hz
        simp only [hz, if_true, UpdateExpressionStatus_expressions, CompleteTask_expressions]
        apply List.map_congr_left
        intro e _
        by_cases he : e.id = task.ExpressionID
        · simp only [he, if_true]
          rw [if_pos hall]
        · simp only [he, if_false]
      · have hall : ¬ ∀ row ∈ (CompleteTask s ID r).tasks,
            row.expression_id = task.ExpressionID → row.completed = true :=
          fun hall => hz ((CountIncompleteTasks_eq_zero _ _).2 hall)
        simp only [hz, if_false, UpdateExpressionStatus_expressions, CompleteTask_expressions]
        apply List.map_congr_left
        intro e _
        by_cases he : e.id = task.ExpressionID
        · simp only [he, if_true]
          rw [if_neg hall]
        · simp only [he, if_false]

/-- The statement of C12 on the database `Store.sample`: the identifier `task-x`
is not in the table, and `task-` is the identifier of the task of `*`, after
whose report the task of `+` is left and the expression is `in_progress`. -/
theorem handlePostTaskResult_rollup_witness :
    (GetTask Store.sample "task-x" = none ∧
      (handlePostTaskResult Store.sample "task-x" (6 : ℚ)).1 = Store.sample) ∧
    (GetTask Store.sample "task-"
        = some ⟨"task-", "expr-1", "2", "3", "*", 200, (0 : ℚ), false, ""⟩ ∧
      (handlePostTaskResult Store.sample "task-" (6 : ℚ)).1.expressions
        = Store.sample.expressions.map (fun e =>
          if e.id = "expr-1" then
            if ∀ row ∈ (handlePostTaskResult Store.sample "task-" (6 : ℚ)).1.tasks,
                row.expression_id = "expr-1" → row.completed = true then
              { e with status := "completed", result := some (6 : ℚ) }
            else { e with status := "in_progress", result := some (0 : ℚ) }
          else e) ∧
      (handlePostTaskResult Store.sample "task-" (6 : ℚ)).1.expressions.map (fun e => e.status)
        = ["in_progress"]) :=
  have h1 : GetTask Store.sample "task-x" = none := by rfl
  have h2 : GetTask Store.sample "task-"
      = some ⟨"task-", "expr-1", "2", "3", "*", 200, (0 : ℚ), false, ""⟩ := by rfl
  ⟨⟨h1, (handlePostTaskResult_rollup Store.sample "task-x" (6 : ℚ)).1 h1⟩,
    h2, ((handlePostTaskResult_rollup Store.sample "task-" (6 : ℚ)).2 _ h2).2.2, by decide⟩

/-! ## Parentheses -/

theorem parenDepth_nil : parenDepth [] = 0 := rfl

theorem parenDepth_cons (c : Char) (cs : List Char) :
    parenDepth (c :: cs) =
      (if c = '(' then 1 else if c = ')' then -1 else 0) + parenDepth cs := by
  unfold parenDepth
  by_cases h1 : c = '('
  · subst h1
    simp only [List.count_cons_self, if_true]
    rw [List.count_cons_of_ne (by decide)]
    push_cast
    ring
  · by_cases h2 : c = ')'
    · subst h2
      simp only [List.count_cons_self, if_true, h1, if_false]
      rw [List.count_cons_of_ne (by decide)]
      push_cast
      ring
    · rw [List.count_cons_of_ne (fun h => h1 h.symm), List.count_cons_of_ne (fun h => h2 h.symm)]
      simp [h1, h2]

theorem unbalanced_iff (cs : List Char) :
    Unbalanced cs ↔ (∃ n, parenDepth (cs.take n) < 0) ∨ parenDepth cs ≠ 0 := by
  unfold Unbalanced parenDepth
  constructor
  · rintro (⟨n, h⟩ | h)
    · exact Or.inl ⟨n, by omega⟩
    · exact Or.inr (by omega)
  · rintro (⟨n, h⟩ | h)
    · exact Or.inl ⟨n, by omega⟩
    · exact Or.inr (by omega)

/-- The depths of the prefixes of `c :: cs` are 0 and the depths of the prefixes
of `cs` shifted by the depth of `c`. -/
theorem prefix_depth_cons (c : Char) (cs : List Char) (pc : Int) :
    (∃ n, pc + parenDepth ((c :: cs).take n) < 0) ↔
      pc < 0 ∨ ∃ n, pc + parenDepth [c] + parenDepth (cs.take n) < 0 := by
  have hc : ∀ l, parenDepth (c :: l) = parenDepth [c] + parenDepth l := by
    intro l
    rw [parenDepth_cons c l, parenDepth_cons c [], parenDepth_nil]
    ring
  constructor
  · rintro ⟨n, h⟩
    cases n with
    | zero =>
      simp only [List.take_zero, parenDepth_nil, add_zero] at h
      exact Or.inl h
    | succ m =>
      rw [List.take_succ_cons, hc] at h
      exact Or.inr ⟨m, by omega⟩
  · rintro (h | ⟨n, h⟩)
    · exact ⟨0, by simpa [parenDepth_nil] using h⟩
    · refine ⟨n + 1, ?_⟩
      rw [List.take_succ_cons, hc]
      omega

theorem tokenizeLoop_open (L : Lib) (rest : List Char) (tokens : List token)
    (current : List Char) (pc : Int) :
    tokenizeLoop L ('(' :: rest) tokens current pc
      = tokenizeLoop L rest (tokens ++ [⟨"(", .leftParen⟩]) current (pc + 1) := by
  rw [tokenizeLoop]
  have h1 : (unicodeIsDigit L '(' || '(' == '.') = false := by
    simp [unicodeIsDigit]
  rw [h1]
  simp

theorem tokenizeLoop_close (L : Lib) (rest : List Char) (tokens : List token)
    (current : List Char) (pc : Int) :
    ∃ tokens1 current1, tokenizeLoop L (')' :: rest) tokens current pc
      = if pc - 1 < 0 then .error "unbalanced parentheses"
        else tokenizeLoop L rest tokens1 current1 (pc - 1) := by
  rw [tokenizeLoop]
  have h1 : (unicodeIsDigit L ')' || ')' == '.') = false := by
    simp [unicodeIsDigit]
  rw [h1]
  exact ⟨(if current.length > 0 then tokens ++ [⟨String.mk current, .number⟩] else tokens) ++
      [⟨")", .rightParen⟩], if current.length > 0 then [] else current, by simp⟩

theorem tokenizeLoop_other (L : Lib) (c : Char) (h1 : c ≠ '(') (h2 : c ≠ ')')
    (rest : List Char) (tokens : List token) (current : List Char) (pc : Int) :
    ∃ tokens1 current1, tokenizeLoop L (c :: rest) tokens current pc
      = tokenizeLoop L rest tokens1 current1 pc := by
  rw [tokenizeLoop]
  split
  · split
    · exact ⟨_, _, rfl⟩
    · exact ⟨_, _, rfl⟩
  · split
    · split
      · exact ⟨_, _, rfl⟩
      · exact ⟨_, _, rfl⟩
    · simp only [beq_iff_eq, h1, h2, if_false]
      exact ⟨_, _, rfl⟩

/-- The loop of `tokenize` fails exactly when the count of open parentheses
becomes negative after some prefix; otherwise it ends with the count of the
whole string. -/
theorem tokenizeLoop_parens (L : Lib) (cs : List Char) :
    ∀ (tokens : List token) (current : List Char) (pc : Int), 0 ≤ pc →
      ((∃ n, pc + parenDepth (cs.take n) < 0) ∧
        tokenizeLoop L cs tokens current pc = .error "unbalanced parentheses") ∨
      ((¬ ∃ n, pc + parenDepth (cs.take n) < 0) ∧
        ∃ tokens1, tokenizeLoop L cs tokens current pc = .ok (tokens1, pc + parenDepth cs)) := by
  induction cs with
  | nil =>
    intro tokens current pc hpc
    refine Or.inr ⟨?_, tokens, ?_⟩
    · rintro ⟨n, h⟩
      simp only [List.take_nil, parenDepth_nil, add_zero] at h
      omega
    · simp [tokenizeLoop, parenDepth_nil]
  | cons c rest ih =>
    intro tokens current pc hpc
    rw [prefix_depth_cons]
    have hd := parenDepth_cons c rest
    have hd1 := parenDepth_cons c []
    rw [parenDepth_nil] at hd1
    by_cases h1 : c = '('
    · subst h1
      simp only [if_true] at hd hd1
      rw [tokenizeLoop_open, hd, hd1]
      rcases ih (tokens ++ [⟨"(", .leftParen⟩]) current (pc + 1) (by omega) with
        ⟨hn, he⟩ | ⟨hn, t1, he⟩
      · exact Or.inl ⟨Or.inr (by simpa using hn), he⟩
      · refine Or.inr ⟨?_, t1, by rw [he]; congr 2; ring⟩
        rintro (h | h)
        · omega
        · exact hn (by simpa using h)
    · by_cases h2 : c = ')'
      · subst h2
        simp only [if_true, h1, if_false] at hd hd1
        obtain ⟨t0, c0, hstep⟩ := tokenizeLoop_close L rest tokens current pc
        rw [hstep, hd, hd1]
        by_cases hneg : pc - 1 < 0
        · rw [if_pos hneg]
          exact Or.inl ⟨Or.inr ⟨0, by simp [parenDepth_nil]; omega⟩, rfl⟩
        · rw [if_neg hneg]
          rcases ih t0 c0 (pc - 1) (by omega) with ⟨hn, he⟩ | ⟨hn, t1, he⟩
          · refine Or.inl ⟨Or.inr ?_, he⟩
            obtain ⟨n, hn⟩ := hn
            exact ⟨n, by omega⟩
          · refine Or.inr ⟨?_, t1, by rw [he]; congr 2; ring⟩
            rintro (h | ⟨n, h⟩)
            · omega
            · exact hn ⟨n, by omega⟩
      · simp only [h1, h2, if_false, zero_add] at hd hd1
        obtain ⟨t0, c0, hstep⟩ := tokenizeLoop_other L c h1 h2 rest tokens current pc
        rw [hstep, hd, hd1]
        rcases ih t0 c0 pc hpc with ⟨hn, he⟩ | ⟨hn, t1, he⟩
        · refine Or.inl ⟨Or.inr ?_, he⟩
          obtain ⟨n, hn⟩ := hn
          exact ⟨n, by omega⟩
        · refine Or.inr ⟨?_, t1, he⟩
          rintro (h | ⟨n, h⟩)
          · omega
          · exact hn ⟨n, by omega⟩

/-- Claim C20. For every string, `tokenize` returns the error
`unbalanced parentheses` exactly when some prefix of the string has more `)`
than `(` or the whole string has unequal numbers of `(` and `)`; in every other
case it returns a token list. -/
theorem tokenize_unbalanced_iff (L : Lib) (expr : String) :
    (tokenize L expr = .error "unbalanced parentheses" ↔ Unbalanced expr.data) ∧
    (¬ Unbalanced expr.data ↔ ∃ tokens, tokenize L expr = .ok tokens) := by
  rw [unbalanced_iff]
  unfold tokenize
  rcases tokenizeLoop_parens L expr.data [] [] 0 (le_refl 0) with ⟨hn, he⟩ | ⟨hn, t1, he⟩
  · rw [he]
    simp only [zero_add] at hn
    simp [hn]
  · rw [he]
    simp only [zero_add] at hn ⊢
    by_cases hz : parenDepth expr.data = 0
    · simp [hz, hn]
    · simp [hz]

/-! ## The tokens of a string of the expression language -/

theorem tokenize_cases (L : Lib) (expr : String) :
    (Unbalanced expr.data ∧ tokenize L expr = .error "unbalanced parentheses") ∨
    (¬ Unbalanced expr.data ∧ ∃ tokens, tokenize L expr = .ok tokens) := by
  rw [unbalanced_iff]
  unfold tokenize
  rcases tokenizeLoop_parens L expr.data [] [] 0 (le_refl 0) with ⟨hn, he⟩ | ⟨hn, t1, he⟩
  · rw [he]
    simp only [zero_add] at hn
    exact Or.inl ⟨Or.inl hn, rfl⟩
  · rw [he]
    simp only [zero_add] at hn ⊢
    by_cases hz : parenDepth expr.data = 0
    · exact Or.inr ⟨by simp [hz, hn], t1, by simp [hz]⟩
    · exact Or.inl ⟨Or.inr hz, by simp [hz]⟩

theorem takeWhile_append_dropWhile_lit (cs : List Char) (p : Char → Bool) :
    cs = cs.takeWhile p ++ cs.dropWhile p := (List.takeWhile_append_dropWhile p cs).symm

/-- The loop of `tokenize` on a string of the expression language, started
between two runs of digits and dots. -/
theorem tokenizeLoop_tokens (L : Lib) :
    ∀ (n : Nat) (cs : List Char), cs.length ≤ n →
      (∀ c ∈ cs, ((48 ≤ c.toNat ∧ c.toNat ≤ 57) ∨ c = '.') ∨ isOperatorChar c = true ∨
        c = '(' ∨ c = ')') →
      ∀ (tokens : List token) (pc : Int) (tokens1 : List token) (pc1 : Int),
        tokenizeLoop L cs tokens [] pc = .ok (tokens1, pc1) →
        ∃ new, tokens1 = tokens ++ new ∧
          (new.map (fun t => t.value.data)).flatten = cs ∧
          (∀ t ∈ new, t.Plain) ∧
          List.Chain' (fun a b => ¬ (a.type_ = .number ∧ b.type_ = .number)) new ∧
          (∀ t ∈ new.head?, t.type_ = .number →
            ∃ c ∈ cs.head?, (48 ≤ c.toNat ∧ c.toNat ≤ 57) ∨ c = '.') := by
  intro n
  induction n with
  | zero =>
    intro cs hlen _ tokens pc tokens1 pc1 h
    have : cs = [] := List.length_eq_zero.1 (by omega)
    subst this
    simp only [tokenizeLoop, Except.ok.injEq, Prod.mk.injEq] at h
    exact ⟨[], by simp [h.1], rfl, by simp, List.chain'_nil, by simp⟩
  | succ n ih =>
    intro cs hlen hchars tokens pc tokens1 pc1 h
    cases cs with
    | nil =>
      simp only [tokenizeLoop, Except.ok.injEq, Prod.mk.injEq] at h
      exact ⟨[], by simp [h.1], rfl, by simp, List.chain'_nil, by simp⟩
    | cons c rest =>
      have hrest : ∀ d ∈ rest, ((48 ≤ d.toNat ∧ d.toNat ≤ 57) ∨ d = '.') ∨
          isOperatorChar d = true ∨ d = '(' ∨ d = ')' :=
        fun d hd => hchars d (List.mem_cons_of_mem _ hd)
      have hlen1 : rest.length ≤ n := by simp only [List.length_cons] at hlen; omega
      rcases hchars c (List.mem_cons_self _ _) with hlit | hop | rfl | rfl
      · -- a run of digits and dots
        have hrun : (c :: rest) = (c :: rest).takeWhile
              (fun d => decide ((48 ≤ d.toNat ∧ d.toNat ≤ 57) ∨ d = '.')) ++
            (c :: rest).dropWhile (fun d => decide ((48 ≤ d.toNat ∧ d.toNat ≤ 57) ∨ d = '.')) :=
          takeWhile_append_dropWhile_lit _ _
        generalize ha : (c :: rest).takeWhile
          (fun d => decide ((48 ≤ d.toNat ∧ d.toNat ≤ 57) ∨ d = '.')) = a at hrun
        generalize hb : (c :: rest).dropWhile
          (fun d => decide ((48 ≤ d.toNat ∧ d.toNat ≤ 57) ∨ d = '.')) = b at hrun
        have hane : a ≠ [] := by
          rw [← ha, List.takeWhile_cons]
          simp [hlit]
        have halit : LitChars a := by
          intro d hd
          rw [← ha] at hd
          have := List.mem_takeWhile_imp hd
          simpa using this
        have hbhead : ∀ d ∈ b.head?, ¬ ((48 ≤ d.toNat ∧ d.toNat ≤ 57) ∨ d = '.') := by
          intro d hd
          rw [← hb] at hd
          have := List.head?_dropWhile_not
            (fun d => decide ((48 ≤ d.toNat ∧ d.toNat ≤ 57) ∨ d = '.')) (c :: rest)
          rw [Option.mem_def.1 hd] at this
          simpa using this
        have hblen : b.length ≤ n := by
          have h1 : (c :: rest).length = a.length + b.length := by
            rw [hrun]; simp
          have h2 : 0 < a.length := List.length_pos.2 hane
          simp only [List.length_cons] at h1 hlen
          omega
        have hbchars : ∀ d ∈ b, ((48 ≤ d.toNat ∧ d.toNat ≤ 57) ∨ d = '.') ∨
            isOperatorChar d = true ∨ d = '(' ∨ d = ')' := by
          intro d hd
          exact hchars d (by rw [hrun]; exact List.mem_append_right _ hd)
        rw [hrun, tokenizeLoop_literal L a hane halit b tokens [] pc hbhead] at h
        obtain ⟨new, hnew, hflat, hplain, hchain, hhead⟩ :=
          ih b hblen hbchars _ pc tokens1 pc1 h
        refine ⟨⟨String.mk a, .number⟩ :: new, by rw [hnew]; simp, ?_, ?_, ?_, ?_⟩
        · rw [hrun]
          simp [hflat]
        · intro t ht
          rcases List.mem_cons.1 ht with rfl | ht
          · exact ⟨hane, halit⟩
          · exact hplain t ht
        · rw [List.chain'_cons']
          refine ⟨?_, hchain⟩
          intro t ht hboth
          obtain ⟨d, hd, hdl⟩ := hhead t ht hboth.2
          exact hbhead d hd hdl
        · intro t _ _
          exact ⟨c, by simp, hlit⟩
      · -- an operator
        rw [tokenizeLoop_operator L c hop] at h
        obtain ⟨new, hnew, hflat, hplain, hchain, _⟩ :=
          ih rest hlen1 hrest _ pc tokens1 pc1 h
        refine ⟨⟨String.singleton c, .operator⟩ :: new, by rw [hnew]; simp, ?_, ?_, ?_, ?_⟩
        · simp [hflat, String.singleton]
        · intro t ht
          rcases List.mem_cons.1 ht with rfl | ht
          · exact ⟨c, hop, rfl⟩
          · exact hplain t ht
        · rw [List.chain'_cons']
          exact ⟨fun t _ hboth => by simp at hboth, hchain⟩
        · intro t ht hnum
          simp only [List.head?_cons, Option.mem_def, Option.some.injEq] at ht
          subst ht
          simp at hnum
      · -- an opening parenthesis
        rw [tokenizeLoop_leftParen] at h
        obtain ⟨new, hnew, hflat, hplain, hchain, _⟩ :=
          ih rest hlen1 hrest _ (pc + 1) tokens1 pc1 h
        refine ⟨⟨"(", .leftParen⟩ :: new, by rw [hnew]; simp, ?_, ?_, ?_, ?_⟩
        · simp [hflat]
        · intro t ht
          rcases List.mem_cons.1 ht with rfl | ht
          · exact rfl
          · exact hplain t ht
        · rw [List.chain'_cons']
          exact ⟨fun t _ hboth => by simp at hboth, hchain⟩
        · intro t ht hnum
          simp only [List.head?_cons, Option.mem_def, Option.some.injEq] at ht
          subst ht
          simp at hnum
      · -- a closing parenthesis
        have hpc : 0 ≤ pc - 1 := by
          by_contra hneg
          rw [tokenizeLoop] at h
          have : pc - 1 < 0 := by omega
          simp [unicodeIsDigit, this] at h
        rw [tokenizeLoop_rightParen L rest tokens pc hpc] at h
        obtain ⟨new, hnew, hflat, hplain, hchain, _⟩ :=
          ih rest hlen1 hrest _ (pc - 1) tokens1 pc1 h
        refine ⟨⟨")", .rightParen⟩ :: new, by rw [hnew]; simp, ?_, ?_, ?_, ?_⟩
        · simp [hflat]
        · intro t ht
          rcases List.mem_cons.1 ht with rfl | ht
          · exact rfl
          · exact hplain t ht
        · rw [List.chain'_cons']
          exact ⟨fun t _ hboth => by simp at hboth, hchain⟩
        · intro t ht hnum
          simp only [List.head?_cons, Option.mem_def, Option.some.injEq] at ht
          subst ht
          simp at hnum

/-- Claim C19. For a string made only of the characters `0-9 . + - * / ( )`
whose parentheses are balanced, `tokenize` returns a token list such that: the
texts of the tokens, concatenated in order, are the string; every number token
is a non-empty run of digits and dots, every operator token one character of
`+ - * /`, every parenthesis token its parenthesis; and no two number tokens are
adjacent, so that each number token is a maximal run of digits and dots. -/
theorem tokenize_tokens (L : Lib) (expr : String)
    (hchars : ∀ c ∈ expr.data, ((48 ≤ c.toNat ∧ c.toNat ≤ 57) ∨ c = '.') ∨
      isOperatorChar c = true ∨ c = '(' ∨ c = ')')
    (hbal : ¬ Unbalanced expr.data) :
    ∃ tokens, tokenize L expr = .ok tokens ∧
      String.join (tokens.map (fun t => t.value)) = expr ∧
      (∀ t ∈ tokens, t.Plain) ∧
      List.Chain' (fun a b => ¬ (a.type_ = .number ∧ b.type_ = .number)) tokens := by
  rcases tokenize_cases L expr with ⟨hu, _⟩ | ⟨_, tokens, hok⟩
  · exact absurd hu hbal
  · refine ⟨tokens, hok, ?_⟩
    unfold tokenize at hok
    split at hok
    · simp at hok
    · rename_i t1 pc1 hloop
      split at hok
      · simp at hok
      · simp only [Except.ok.injEq] at hok
        subst hok
        obtain ⟨new, hnew, hflat, hplain, hchain, _⟩ :=
          tokenizeLoop_tokens L expr.data.length expr.data (le_refl _) hchars [] 0 _ _ hloop
        simp only [List.nil_append] at hnew
        subst hnew
        refine ⟨?_, hplain, hchain⟩
        apply String.ext
        rw [String.data_join, List.map_map]
        exact hflat

theorem balanced_of_tokenize (L : Lib) (expr : String) (tokens : List token)
    (h : tokenize L expr = .ok tokens) : ¬ Unbalanced expr.data := by
  rcases tokenize_cases L expr with ⟨_, he⟩ | ⟨hb, _⟩
  · rw [he] at h
    simp at h
  · exact hb

/-- The statement of C19 on the string `12+3*(4.5-1)`. -/
theorem tokenize_tokens_witness :
    (∀ c ∈ "12+3*(4.5-1)".data, ((48 ≤ c.toNat ∧ c.toNat ≤ 57) ∨ c = '.') ∨
      isOperatorChar c = true ∨ c = '(' ∨ c = ')') ∧
    ¬ Unbalanced "12+3*(4.5-1)".data ∧
    ∃ tokens, tokenize Lib.exact "12+3*(4.5-1)" = .ok tokens ∧
      String.join (tokens.map (fun t => t.value)) = "12+3*(4.5-1)" ∧
      (∀ t ∈ tokens, t.Plain) ∧
      List.Chain' (fun a b => ¬ (a.type_ = .number ∧ b.type_ = .number)) tokens :=
  have h1 : ∀ c ∈ "12+3*(4.5-1)".data, ((48 ≤ c.toNat ∧ c.toNat ≤ 57) ∨ c = '.') ∨
      isOperatorChar c = true ∨ c = '(' ∨ c = ')' := by decide
  have h2 : ¬ Unbalanced "12+3*(4.5-1)".data :=
    balanced_of_tokenize Lib.exact "12+3*(4.5-1)"
      [⟨"12", .number⟩, ⟨"+", .operator⟩, ⟨"3", .number⟩, ⟨"*", .operator⟩, ⟨"(", .leftParen⟩,
       ⟨"4.5", .number⟩, ⟨"-", .operator⟩, ⟨"1", .number⟩, ⟨")", .rightParen⟩] (by decide)
  ⟨h1, h2, tokenize_tokens Lib.exact "12+3*(4.5-1)" h1 h2⟩

/-! ## The operands of a string -/

theorem fieldsLoop_eq_split (f : Char → Bool) (cs : List Char) :
    ∀ cur : List Char, fieldsLoop f cs cur =
      (((cs.splitOnP f).modifyHead (fun x => cur ++ x)).filter
        (fun x => decide (x ≠ []))).map String.mk := by
  induction cs with
  | nil =>
    intro cur
    by_cases h : cur = []
    · simp [fieldsLoop, List.splitOnP_nil, h]
    · simp [fieldsLoop, List.splitOnP_nil, h]
  | cons c rest ih =>
    intro cur
    rw [fieldsLoop, List.splitOnP_cons]
    by_cases hc : f c = true
    · simp only [hc, if_true, List.modifyHead_cons, List.append_nil]
      have hrest := ih []
      simp only [List.nil_append] at hrest
      have hid : (List.splitOnP f rest).modifyHead (fun x => x) = List.splitOnP f rest := by
        cases List.splitOnP f rest <;> rfl
      rw [hid] at hrest
      by_cases h : cur = []
      · simp [h, hrest]
      · simp [h, hrest]
    · simp only [hc, if_false, Bool.false_eq_true]
      rw [ih (cur ++ [c])]
      congr 2
      cases List.splitOnP f rest with
      | nil => rfl
      | cons x xs => simp

theorem stringsFieldsFunc_eq (expr : String) :
    stringsFieldsFunc expr
        (fun r => r == '+' || r == '-' || r == '*' || r == '/' || r == '(' || r == ')')
      = (operandsOf expr.data).map String.mk := by
  unfold stringsFieldsFunc operandsOf
  rw [fieldsLoop_eq_split]
  have hid : ∀ l : List (List Char), l.modifyHead (fun x => [] ++ x) = l := by
    intro l
    cases l <;> rfl
  rw [hid]
  rfl

theorem mem_splitOnP (p : Char → Bool) (cs : List Char) :
    ∀ f ∈ cs.splitOnP p, ∀ c ∈ f, c ∈ cs ∧ p c = false := by
  induction cs with
  | nil =>
    intro f hf c hc
    simp only [List.splitOnP_nil, List.mem_singleton] at hf
    subst hf
    simp at hc
  | cons x rest ih =>
    intro f hf c hc
    rw [List.splitOnP_cons] at hf
    by_cases hx : p x = true
    · simp only [hx, if_true, List.mem_cons] at hf
      rcases hf with rfl | hf
      · simp at hc
      · exact ⟨List.mem_cons_of_mem _ (ih f hf c hc).1, (ih f hf c hc).2⟩
    · simp only [hx, if_false, Bool.false_eq_true] at hf
      cases hs : List.splitOnP p rest with
      | nil => rw [hs] at hf; simp at hf
      | cons h t =>
        rw [hs] at hf ih
        simp only [List.modifyHead_cons, List.mem_cons] at hf
        rcases hf with rfl | hf
        · rcases List.mem_cons.1 hc with rfl | hc1
          · exact ⟨List.mem_cons_self _ _, by simpa using hx⟩
          · have := ih h (List.mem_cons_self _ _) c hc1
            exact ⟨List.mem_cons_of_mem _ this.1, this.2⟩
        · have := ih f (List.mem_cons_of_mem _ hf) c hc
          exact ⟨List.mem_cons_of_mem _ this.1, this.2⟩

theorem exists_mem_splitOnP (p : Char → Bool) (cs : List Char) :
    ∀ c ∈ cs, p c = false → ∃ f ∈ cs.splitOnP p, c ∈ f := by
  induction cs with
  | nil => intro c hc; simp at hc
  | cons x rest ih =>
    intro c hc hpc
    rw [List.splitOnP_cons]
    by_cases hx : p x = true
    · simp only [hx, if_true]
      rcases List.mem_cons.1 hc with rfl | hc1
      · rw [hx] at hpc; exact absurd hpc (by simp)
      · obtain ⟨f, hf, hcf⟩ := ih c hc1 hpc
        exact ⟨f, List.mem_cons_of_mem _ hf, hcf⟩
    · simp only [hx, if_false, Bool.false_eq_true]
      cases hs : List.splitOnP p rest with
      | nil => exact absurd hs (List.splitOnP_ne_nil p rest)
      | cons h t =>
        rw [hs] at ih
        simp only [List.modifyHead_cons]
        rcases List.mem_cons.1 hc with rfl | hc1
        · exact ⟨c :: h, List.mem_cons_self _ _, List.mem_cons_self _ _⟩
        · obtain ⟨f, hf, hcf⟩ := ih c hc1 hpc
          rcases List.mem_cons.1 hf with rfl | hf1
          · exact ⟨x :: f, List.mem_cons_self _ _, List.mem_cons_of_mem _ hcf⟩
          · exact ⟨f, List.mem_cons_of_mem _ hf1, hcf⟩

theorem mem_operandsOf (cs f : List Char) (h : f ∈ operandsOf cs) :
    f ≠ [] ∧ ∀ c ∈ f, c ∈ cs ∧ isSeparator c = false := by
  simp only [operandsOf, List.mem_filter, decide_eq_true_eq] at h
  exact ⟨h.2, mem_splitOnP isSeparator cs f h.1⟩

theorem exists_mem_operandsOf (cs : List Char) (c : Char) (hc : c ∈ cs)
    (hsep : isSeparator c = false) : ∃ f ∈ operandsOf cs, c ∈ f := by
  obtain ⟨f, hf, hcf⟩ := exists_mem_splitOnP isSeparator cs c hc hsep
  refine ⟨f, ?_, hcf⟩
  simp only [operandsOf, List.mem_filter, decide_eq_true_eq]
  exact ⟨hf, List.ne_nil_of_mem hcf⟩

/-! ## The checks of the validator -/

theorem isExpressionChar_iff (c : Char) :
    isExpressionChar c = true ↔
      (48 ≤ c.toNat ∧ c.toNat ≤ 57) ∨ c = '.' ∨ isSeparator c = true := by
  simp only [isExpressionChar, isSeparator, Bool.or_eq_true, decide_eq_true_eq, beq_iff_eq]
  tauto

theorem isSeparator_iff (c : Char) :
    isSeparator c = true ↔ isOperatorChar c = true ∨ c = '(' ∨ c = ')' := by
  simp only [isSeparator, isOperatorChar, Bool.or_eq_true, beq_iff_eq]
  tauto

theorem asciiDigit_isDigit (L : Lib) (c : Char) (h : 48 ≤ c.toNat ∧ c.toNat ≤ 57) :
    unicodeIsDigit L c = true := by
  have : c.toNat ≤ 255 := by omega
  simp only [unicodeIsDigit, this, if_true, decide_eq_true_eq]
  exact h

theorem findInvalidChar_eq_none (L : Lib) (cs : List Char) :
    ∀ i, findInvalidChar L cs i = none ↔
      ∀ c ∈ cs, unicodeIsDigit L c = true ∨ isExpressionChar c = true := by
  induction cs with
  | nil => intro i; simp [findInvalidChar]
  | cons c rest ih =>
    intro i
    rw [findInvalidChar]
    by_cases hc : unicodeIsDigit L c = true ∨ isExpressionChar c = true
    · have hgood : (!unicodeIsDigit L c && c != '+' && c != '-' && c != '*' && c != '/' &&
          c != '.' && c != '(' && c != ')') = false := by
        rcases hc with hc | hc
        · simp [hc]
        · rw [isExpressionChar_iff] at hc
          rcases hc with hc | hc | hc
          · simp [asciiDigit_isDigit L c hc]
          · simp [hc]
          · simp only [isSeparator, Bool.or_eq_true, beq_iff_eq] at hc
            rcases hc with ((((hc | hc) | hc) | hc) | hc) | hc <;> simp [hc]
      rw [hgood]
      simp only [Bool.false_eq_true, if_false, ih, List.mem_cons, forall_eq_or_imp, hc, true_and]
    · have hbad : (!unicodeIsDigit L c && c != '+' && c != '-' && c != '*' && c != '/' &&
          c != '.' && c != '(' && c != ')') = true := by
        simp only [not_or, Bool.not_eq_true] at hc
        have h2 := hc.2
        simp only [isExpressionChar, Bool.or_eq_false_iff, beq_eq_false_iff_ne] at h2
        simp [hc.1, h2]
      rw [hbad]
      simp only [if_true, List.mem_cons, forall_eq_or_imp, hc, false_and, iff_false]
      exact fun h => by simp at h

theorem findConsecutiveOperators_eq_none (cs : List Char) :
    ∀ i, findConsecutiveOperators cs i = none ↔
      ¬ ∃ pre c1 c2 post, cs = pre ++ c1 :: c2 :: post ∧
        isOperatorChar c1 = true ∧ isOperatorChar c2 = true := by
  induction cs with
  | nil =>
    intro i
    simp only [findConsecutiveOperators, true_iff]
    rintro ⟨pre, c1, c2, post, h, _⟩
    simp at h
  | cons c rest ih =>
    intro i
    cases rest with
    | nil =>
      simp only [findConsecutiveOperators, true_iff]
      rintro ⟨pre, c1, c2, post, h, _⟩
      have := congrArg List.length h
      simp at this
      omega
    | cons d rest1 =>
      rw [findConsecutiveOperators, isOperator_singleton, isOperator_singleton]
      by_cases hop : isOperatorChar c = true ∧ isOperatorChar d = true
      · simp only [hop.1, hop.2, Bool.and_self, if_true]
        simp only [reduceCtorEq, false_iff, not_not]
        exact ⟨[], c, d, rest1, rfl, hop.1, hop.2⟩
      · have hfalse : (isOperatorChar c && isOperatorChar d) = false := by
          simpa using hop
        rw [hfalse]
        simp only [Bool.false_eq_true, if_false]
        rw [ih (i + c.utf8Size)]
        constructor
        · rintro h ⟨pre, c1, c2, post, heq, h1, h2⟩
          cases pre with
          | nil =>
            simp only [List.nil_append, List.cons.injEq] at heq
            obtain ⟨rfl, rfl, _⟩ := heq
            exact hop ⟨h1, h2⟩
          | cons x pre1 =>
            simp only [List.cons_append, List.cons.injEq] at heq
            exact h ⟨pre1, c1, c2, post, heq.2, h1, h2⟩
        · rintro h ⟨pre, c1, c2, post, heq, h1, h2⟩
          exact h ⟨c :: pre, c1, c2, post, by rw [heq]; rfl, h1, h2⟩

theorem countParens_spec (cs : List Char) :
    ∀ pc : Int, 0 ≤ pc →
      ((∃ n, pc + parenDepth (cs.take n) < 0) ∧ countParens cs pc = none) ∨
      ((¬ ∃ n, pc + parenDepth (cs.take n) < 0) ∧
        countParens cs pc = some (pc + parenDepth cs)) := by
  induction cs with
  | nil =>
    intro pc hpc
    refine Or.inr ⟨?_, by simp [countParens, parenDepth_nil]⟩
    rintro ⟨n, h⟩
    simp only [List.take_nil, parenDepth_nil, add_zero] at h
    omega
  | cons c rest ih =>
    intro pc hpc
    rw [prefix_depth_cons]
    have hd := parenDepth_cons c rest
    have hd1 := parenDepth_cons c []
    rw [parenDepth_nil] at hd1
    rw [countParens]
    by_cases h1 : c = '('
    · subst h1
      simp only [if_true] at hd hd1
      simp only [beq_self_eq_true, if_true]
      rw [hd, hd1]
      rcases ih (pc + 1) (by omega) with ⟨hn, he⟩ | ⟨hn, he⟩
      · exact Or.inl ⟨Or.inr (by simpa using hn), he⟩
      · refine Or.inr ⟨?_, by rw [he]; congr 1; ring⟩
        rintro (h | h)
        · omega
        · exact hn (by simpa using h)
    · by_cases h2 : c = ')'
      · subst h2
        simp only [if_true, h1, if_false] at hd hd1
        have hne : ((')' : Char) == '(') = false := by decide
        simp only [hne, Bool.false_eq_true, if_false, beq_self_eq_true, if_true]
        rw [hd, hd1]
        by_cases hneg : pc - 1 < 0
        · rw [if_pos hneg]
          exact Or.inl ⟨Or.inr ⟨0, by simp [parenDepth_nil]; omega⟩, rfl⟩
        · rw [if_neg hneg]
          rcases ih (pc - 1) (by omega) with ⟨hn, he⟩ | ⟨hn, he⟩
          · refine Or.inl ⟨Or.inr ?_, he⟩
            obtain ⟨n, hn⟩ := hn
            exact ⟨n, by omega⟩
          · refine Or.inr ⟨?_, by rw [he]; congr 1; ring⟩
            rintro (h | ⟨n, h⟩)
            · omega
            · exact hn ⟨n, by omega⟩
      · simp only [h1, h2, if_false, zero_add] at hd hd1
        simp only [beq_iff_eq, h1, h2, if_false]
        rw [hd, hd1]
        rcases ih pc hpc with ⟨hn, he⟩ | ⟨hn, he⟩
        · refine Or.inl ⟨Or.inr ?_, he⟩
          obtain ⟨n, hn⟩ := hn
          exact ⟨n, by omega⟩
        · refine Or.inr ⟨?_, he⟩
          rintro (h | ⟨n, h⟩)
          · omega
          · exact hn ⟨n, by omega⟩

theorem countParens_balanced (cs : List Char) :
    countParens cs 0 = some 0 ↔ ¬ Unbalanced cs := by
  rw [unbalanced_iff]
  rcases countParens_spec cs 0 (le_refl 0) with ⟨hn, he⟩ | ⟨hn, he⟩
  · rw [he]
    simp only [zero_add] at hn
    simp [hn]
  · rw [he]
    simp only [zero_add] at hn ⊢
    simp only [Option.some.injEq, not_or, not_not]
    exact ⟨fun h => ⟨hn, h⟩, fun h => h.2⟩

theorem checkOperands_ok_iff (L : Lib) (toks : List String) :
    checkOperands L toks = .ok () ↔
      ∀ tok ∈ toks, stringsTrimSpace tok = "" ∨
        ∃ v, L.ParseFloat (stringsTrimSpace tok) = .ok v := by
  induction toks with
  | nil => simp [checkOperands]
  | cons tok rest ih =>
    rw [checkOperands]
    simp only [List.mem_cons, forall_eq_or_imp]
    by_cases he : stringsTrimSpace tok = ""
    · simp only [he, if_true, true_or, true_and]
      exact ih
    · simp only [he, if_false, false_or]
      cases hp : L.ParseFloat (stringsTrimSpace tok) with
      | error e => simp
      | ok v => simpa using ih

theorem trimSpace_of_no_space (cs : List Char) (h : ∀ c ∈ cs, unicodeIsSpace c = false) :
    stringsTrimSpace (String.mk cs) = String.mk cs := by
  have h1 : ∀ l : List Char, (∀ c ∈ l, unicodeIsSpace c = false) →
      l.dropWhile unicodeIsSpace = l := by
    intro l hl
    cases l with
    | nil => rfl
    | cons c rest => simp [List.dropWhile, hl c (by simp)]
  unfold stringsTrimSpace
  simp only
  rw [h1 cs h, h1 cs.reverse (fun c hc => h c (List.mem_reverse.1 hc)), List.reverse_reverse]

theorem digit_not_space (L : Lib) (hNd : ∀ c, L.isNd c = true → unicodeIsSpace c = false)
    (c : Char) (h : unicodeIsDigit L c = true ∨ c = '.') : unicodeIsSpace c = false := by
  rcases h with h | rfl
  · unfold unicodeIsDigit at h
    by_cases hle : c.toNat ≤ 255
    · simp only [hle, if_true, decide_eq_true_eq] at h
      simp only [unicodeIsSpace, decide_eq_false_iff_not]
      omega
    · simp only [hle, if_false] at h
      exact hNd c h
  · decide

/-- The last loop of `ValidateExpression` on a string that passed the check of
the characters: it fails exactly when some operand does not parse. -/
theorem checkOperands_operands (L : Lib)
    (hNd : ∀ c, L.isNd c = true → unicodeIsSpace c = false) (cs : List Char)
    (hchars : ∀ c ∈ cs, unicodeIsDigit L c = true ∨ isExpressionChar c = true) :
    checkOperands L ((operandsOf cs).map String.mk) = .ok () ↔
      ∀ f ∈ operandsOf cs, ∃ v, L.ParseFloat (String.mk f) = .ok v := by
  have htrim : ∀ f ∈ operandsOf cs, stringsTrimSpace (String.mk f) = String.mk f := by
    intro f hf
    apply trimSpace_of_no_space
    intro c hc
    obtain ⟨_, hall⟩ := mem_operandsOf cs f hf
    obtain ⟨hmem, hsep⟩ := hall c hc
    apply digit_not_space L hNd
    rcases hchars c hmem with h | h
    · exact Or.inl h
    · rw [isExpressionChar_iff] at h
      rcases h with h | h | h
      · exact Or.inl (asciiDigit_isDigit L c h)
      · exact Or.inr h
      · rw [hsep] at h; exact absurd h (by simp)
  rw [checkOperands_ok_iff]
  simp only [List.mem_map, forall_exists_index, and_imp, forall_apply_eq_imp_iff₂]
  constructor
  · intro h f hf
    rcases h f hf with h1 | h1
    · rw [htrim f hf] at h1
      have := congrArg String.data h1
      exact absurd this (mem_operandsOf cs f hf).1
    · rw [htrim f hf] at h1
      exact h1
  · intro h f hf
    rw [htrim f hf]
    exact Or.inr (h f hf)

/-- Claim C18. On a platform whose `ParseFloat` accepts ASCII strings only and
whose decimal digits are no white space, and for every string:
`ValidateExpression` returns an error exactly when the string is empty, or
contains a character outside `0-9 + - * / . ( )`, or has two adjacent operator
characters, or has unbalanced parentheses (some prefix with more `)` than `(`,
or unequal totals), or has a maximal substring between operators and
parentheses that does not parse as a floating-point number. -/
theorem ValidateExpression_error_iff (L : Lib)
    (hParse : ∀ s v, L.ParseFloat s = .ok v → ∀ c ∈ s.data, c.toNat < 128)
    (hNd : ∀ c, L.isNd c = true → unicodeIsSpace c = false) (expr : String) :
    (∃ e, ValidateExpression L expr = .error e) ↔
      (expr.data = [] ∨
       (∃ c ∈ expr.data, isExpressionChar c = false) ∨
       (∃ pre c1 c2 post, expr.data = pre ++ c1 :: c2 :: post ∧
          isOperatorChar c1 = true ∧ isOperatorChar c2 = true) ∨
       Unbalanced expr.data ∨
       (∃ f ∈ operandsOf expr.data, ∃ e, L.ParseFloat (String.mk f) = .error e)) := by
  unfold ValidateExpression
  by_cases hempty : expr.data = []
  · simp [hempty]
  have hlen : ¬ expr.data.length = 0 := fun h => hempty (List.length_eq_zero.1 h)
  simp only [hlen, if_false, hempty, false_or]
  cases hinv : findInvalidChar L expr.data 0 with
  | some p =>
    simp only [Except.error.injEq, exists_eq', true_iff]
    have hnot : ¬ ∀ c ∈ expr.data, unicodeIsDigit L c = true ∨ isExpressionChar c = true := by
      rw [← findInvalidChar_eq_none L expr.data 0, hinv]
      simp
    push_neg at hnot
    obtain ⟨c, hc, _, hc2⟩ := hnot
    exact Or.inl ⟨c, hc, by simpa using hc2⟩
  | none =>
    have hchars := (findInvalidChar_eq_none L expr.data 0).1 hinv
    simp only
    cases hcons : findConsecutiveOperators expr.data 0 with
    | some i =>
      simp only [Except.error.injEq, exists_eq', true_iff]
      have hnot := (findConsecutiveOperators_eq_none expr.data 0).not.1 (by rw [hcons]; simp)
      rw [not_not] at hnot
      exact Or.inr (Or.inl hnot)
    | none =>
      have hnocons := (findConsecutiveOperators_eq_none expr.data 0).1 hcons
      simp only [hnocons, false_or]
      have hbalanced := countParens_balanced expr.data
      have hfinish : (∃ e, checkOperands L (stringsFieldsFunc expr (fun r =>
            r == '+' || r == '-' || r == '*' || r == '/' || r == '(' || r == ')'))
              = .error e) ↔
          ((∃ c ∈ expr.data, isExpressionChar c = false) ∨
            (∃ f ∈ operandsOf expr.data, ∃ e, L.ParseFloat (String.mk f) = .error e)) := by
        rw [stringsFieldsFunc_eq]
        have hok := checkOperands_operands L hNd expr.data hchars
        constructor
        · rintro ⟨e, he⟩
          right
          by_contra hno
          push_neg at hno
          have : checkOperands L ((operandsOf expr.data).map String.mk) = .ok () := by
            rw [hok]
            intro f hf
            cases hp : L.ParseFloat (String.mk f) with
            | error e1 => exact absurd hp (hno f hf e1)
            | ok v => exact ⟨v, rfl⟩
          rw [this] at he
          simp at he
        · intro h
          have hbadOperand : ∃ f ∈ operandsOf expr.data, ∃ e,
              L.ParseFloat (String.mk f) = .error e := by
            rcases h with ⟨c, hc, hce⟩ | h
            · have hsep : isSeparator c = false := by
                by_contra hs
                rw [Bool.not_eq_false] at hs
                have : isExpressionChar c = true := (isExpressionChar_iff c).2 (Or.inr (Or.inr hs))
                rw [hce] at this
                exact absurd this (by simp)
              obtain ⟨f, hf, hcf⟩ := exists_mem_operandsOf expr.data c hc hsep
              refine ⟨f, hf, ?_⟩
              cases hp : L.ParseFloat (String.mk f) with
              | error e1 => exact ⟨e1, rfl⟩
              | ok v =>
                exfalso
                have hascii := hParse _ v hp c hcf
                have hdig : unicodeIsDigit L c = true := by
                  rcases hchars c hc with h1 | h1
                  · exact h1
                  · rw [hce] at h1; exact absurd h1 (by simp)
                have hle : c.toNat ≤ 255 := by omega
                simp only [unicodeIsDigit, hle, if_true, decide_eq_true_eq] at hdig
                have : isExpressionChar c = true := (isExpressionChar_iff c).2 (Or.inl hdig)
                rw [hce] at this
                exact absurd this (by simp)
            · exact h
          obtain ⟨f, hf, e, hfe⟩ := hbadOperand
          cases hres : checkOperands L ((operandsOf expr.data).map String.mk) with
          | error e1 => exact ⟨e1, rfl⟩
          | ok u =>
            exfalso
            obtain ⟨v, hv⟩ := (hok.1 hres) f hf
            rw [hfe] at hv
            simp at hv
      cases hcount : countParens expr.data 0 with
      | none =>
        simp only [Except.error.injEq, exists_eq', true_iff]
        have : Unbalanced expr.data := by
          by_contra hb
          rw [hbalanced.2 hb] at hcount
          simp at hcount
        exact Or.inr (Or.inl this)
      | some k =>
        simp only
        by_cases hk : k = 0
        · subst hk
          have hb : ¬ Unbalanced expr.data := hbalanced.1 hcount
          simp only [ne_eq, not_true_eq_false, if_false, hb, false_or]
          rw [hfinish]
        · have : Unbalanced expr.data := by
            by_contra hb
            rw [hbalanced.2 hb] at hcount
            simp only [Option.some.injEq] at hcount
            exact hk hcount.symm
          simp [hk, this]

theorem decimalValue_digits (cs : List Char) :
    ∀ n m, decimalValue cs n = some m → ∀ c ∈ cs, 48 ≤ c.toNat ∧ c.toNat ≤ 57 := by
  induction cs with
  | nil => intro n m _ c hc; simp at hc
  | cons d rest ih =>
    intro n m h c hc
    rw [decimalValue] at h
    by_cases hd : 48 ≤ d.toNat ∧ d.toNat ≤ 57
    · rw [if_pos hd] at h
      rcases List.mem_cons.1 hc with rfl | hc1
      · exact hd
      · exact ih _ m h c hc1
    · rw [if_neg hd] at h
      simp at h

/-- The literals that `Lib.exact` parses are ASCII strings. -/
theorem exactParseFloat_ascii (s : String) (v : ℚ) (h : exactParseFloat s = .ok v) :
    ∀ c ∈ s.data, c.toNat < 128 := by
  intro c hc
  unfold exactParseFloat at h
  simp only at h
  split at h
  · simp at h
  · split at h
    · simp at h
    · rename_i n hdec
      have hdig := decimalValue_digits _ 0 n hdec
      rw [← List.takeWhile_append_dropWhile (fun c => c != '.') s.data] at hc
      rcases List.mem_append.1 hc with hc1 | hc1
      · have := hdig c (List.mem_append_left _ hc1)
        omega
      · cases hdrop : s.data.dropWhile (fun c => c != '.') with
        | nil => rw [hdrop] at hc1; simp at hc1
        | cons d rest =>
          rw [hdrop] at hc1 hdig
          rcases List.mem_cons.1 hc1 with rfl | hc2
          · have := List.head?_dropWhile_not (fun c => c != '.') s.data
            rw [hdrop] at this
            simp only [List.head?_cons, Option.elim] at this
            have hdot : c = '.' := by simpa using this
            subst hdot
            decide
          · have := hdig c (List.mem_append_right _ (by simpa using hc2))
            omega

/-- The statement of C18 on the platform `Lib.exact` and the string `2*(3+x)`. -/
theorem ValidateExpression_error_iff_witness :
    (∀ s v, Lib.exact.ParseFloat s = .ok v → ∀ c ∈ s.data, c.toNat < 128) ∧
    (∀ c, Lib.exact.isNd c = true → unicodeIsSpace c = false) ∧
    ((∃ e, ValidateExpression Lib.exact "2*(3+x)" = .error e) ↔
      ("2*(3+x)".data = [] ∨
       (∃ c ∈ "2*(3+x)".data, isExpressionChar c = false) ∨
       (∃ pre c1 c2 post, "2*(3+x)".data = pre ++ c1 :: c2 :: post ∧
          isOperatorChar c1 = true ∧ isOperatorChar c2 = true) ∨
       Unbalanced "2*(3+x)".data ∨
       (∃ f ∈ operandsOf "2*(3+x)".data, ∃ e,
          Lib.exact.ParseFloat (String.mk f) = .error e))) :=
  have h1 : ∀ s v, Lib.exact.ParseFloat s = .ok v → ∀ c ∈ s.data, c.toNat < 128 :=
    exactParseFloat_ascii
  have h2 : ∀ c, Lib.exact.isNd c = true → unicodeIsSpace c = false :=
    fun _ h => absurd h (by simp)
  ⟨h1, h2, ValidateExpression_error_iff Lib.exact h1 h2 "2*(3+x)"⟩

/-! ## The scenario `2+3*4-5/5` -/

/-- Claim C17. On the platform `Lib.exact`, where no duration is configured, the
front end (`tokenize`, `buildExpressionTree`, `createTasksFromTree`) turns
`2+3*4-5/5` into exactly four tasks, in this order: the task of `*` with the
operands 3 and 4 and the duration 200, the task of `+` with the operands 2 and
a reference to the task of `*` and the duration 100, the task of `/` with the
operands 5 and 5 and the duration 300, and the task of `-` with references to
the tasks of `+` and `/` and the duration 100.  When the expression is
submitted and the agent's `processTask` computes the tasks one after the other,
their values are 12 for `*`, 1 for `/`, 14 for `+` and 13 for `-`; the
expression is then `completed` with the result 13, which is also the value of
`AggregateResults` on the completed tasks. -/
theorem scenario_four_tasks :
    ((tokenize Lib.exact "2+3*4-5/5").bind buildExpressionTree).map
        (fun tree => (createTasksFromTree Lib.exact unaryUuid "expr-1" tree 0).2.1)
      = .ok
        [{ ID := "task-", ExpressionID := "expr-1", Arg1 := "3", Arg2 := "4", Operator := "*",
           OperationTime := 200, Result := 0, Completed := false, UserID := "" },
         { ID := "task-u", ExpressionID := "expr-1", Arg1 := "2", Arg2 := "task:task-",
           Operator := "+", OperationTime := 100, Result := 0, Completed := false,
           UserID := "" },
         { ID := "task-uu", ExpressionID := "expr-1", Arg1 := "5", Arg2 := "5", Operator := "/",
           OperationTime := 300, Result := 0, Completed := false, UserID := "" },
         { ID := "task-uuu", ExpressionID := "expr-1", Arg1 := "task:task-u",
           Arg2 := "task:task-uu", Operator := "-", OperationTime := 100, Result := 0,
           Completed := false, UserID := "" }] ∧
    (reportAll Lib.exact
        (ProcessExpression Lib.exact (Store.empty Lib.exact) "2+3*4-5/5" "alice" 1 1
          unaryUuid).2
        ["task-", "task-uu", "task-u", "task-uuu"]).map
      (fun s => s.tasks.map (fun r => (r.id, r.operator, r.result, r.completed)))
      = some
        [("task-", "*", some (12 : ℚ), true), ("task-u", "+", some (14 : ℚ), true),
         ("task-uu", "/", some (1 : ℚ), true), ("task-uuu", "-", some (13 : ℚ), true)] ∧
    (reportAll Lib.exact
        (ProcessExpression Lib.exact (Store.empty Lib.exact) "2+3*4-5/5" "alice" 1 1
          unaryUuid).2
        ["task-", "task-uu", "task-u", "task-uuu"]).map
      (fun s => (GetExpression s "expr-1").map (fun e => (e.Status, e.Result)))
      = some (some ("completed", 13)) ∧
    (reportAll Lib.exact
        (ProcessExpression Lib.exact (Store.empty Lib.exact) "2+3*4-5/5" "alice" 1 1
          unaryUuid).2
        ["task-", "task-uu", "task-u", "task-uuu"]).bind
      (fun s => AggregateResults Lib.exact (GetTasksByExpression s "expr-1" "alice"))
      = some (.ok 13) := by
  refine ⟨?_, ?_, ?_, ?_⟩
  · rfl
  · decide!
  · decide!
  · decide!

/-! ## The aggregator returns -/

theorem evaluate_null (L : Lib) (nodes : GoMap GraphNode) (results : GoMap L.F) (fuel : Nat) :
    evaluateWithResults L nodes results (fuel + 1) .null = some (.error "empty node") := by
  rw [evaluateWithResults]
  rfl

theorem evaluate_leaf_isSome (L : Lib) (nodes : GoMap GraphNode) (results : GoMap L.F)
    (arg : String) (fuel : Nat) (hf : 2 ≤ fuel) :
    (evaluateWithResults L nodes results fuel (.leaf arg)).isSome = true := by
  obtain ⟨f, rfl⟩ : ∃ f, fuel = f + 2 := ⟨fuel - 2, by omega⟩
  rw [evaluateWithResults]
  simp only [deref]
  by_cases hop : isOperator arg = true
  · simp only [hop, Bool.not_true, Bool.false_eq_true, if_false, evaluate_null]
    rfl
  · simp only [Bool.not_eq_true] at hop
    simp only [hop, Bool.not_false, if_true]
    cases results.get "" <;> rfl

/-- The node of a task with operator `Value` gives a result as soon as its two
children do. -/
theorem evaluate_node_isSome (L : Lib) (nodes : GoMap GraphNode) (results : GoMap L.F)
    (p : Ptr) (n : GraphNode) (hn : deref nodes p = some n) (fuel : Nat)
    (hl : (evaluateWithResults L nodes results fuel n.Left).isSome = true)
    (hr : (evaluateWithResults L nodes results fuel n.Right).isSome = true) :
    (evaluateWithResults L nodes results (fuel + 1) p).isSome = true := by
  rw [evaluateWithResults]
  simp only [hn]
  obtain ⟨xl, hxl⟩ := Option.isSome_iff_exists.1 hl
  obtain ⟨xr, hxr⟩ := Option.isSome_iff_exists.1 hr
  split
  · cases results.get n.TaskID <;> rfl
  · rw [hxl, hxr]
    cases xl with
    | error e => rfl
    | ok l =>
      cases xr with
      | error e => rfl
      | ok r =>
        simp only
        split
        · rfl
        · split
          · rfl
          · split
            · rfl
            · split
              · split <;> rfl
              · rfl

theorem childPtr_cases (nodes : GoMap GraphNode) (arg : String) :
    childPtr nodes arg = .null ∨ childPtr nodes arg = .leaf arg ∨
    ∃ id, childPtr nodes arg = .task id ∧ arg = "task:" ++ id ∧ (nodes.get id).isSome = true := by
  unfold childPtr
  by_cases hp : stringsHasPrefix arg "task:" = true
  · simp only [hp, if_true]
    obtain ⟨x, rfl⟩ := (hasPrefix_iff arg "task:").1 hp
    rw [trimPrefix_append]
    cases h : nodes.get x with
    | none => exact Or.inl rfl
    | some n => exact Or.inr (Or.inr ⟨x, rfl, rfl, by rw [h]; rfl⟩)
  · rw [if_neg hp]
    exact Or.inr (Or.inl rfl)

/-- On a list of tasks with distinct identifiers and no reference to the same
or a later task, the evaluation of the node of a task ends within a number of
nested calls that is three more than the position of the task. -/
theorem evaluate_isSome (L : Lib) (tasks : List (Task L))
    (hnd : (tasks.map (fun t => t.ID)).Nodup) (hback : RefsBackward tasks)
    (results : GoMap L.F) :
    ∀ (k : Nat) (pre : List (Task L)) (t : Task L) (post : List (Task L)),
      tasks = pre ++ t :: post → pre.length < k → ∀ fuel, k + 2 ≤ fuel →
      (evaluateWithResults L (graphOf tasks) results fuel (.task t.ID)).isSome = true := by
  intro k
  induction k with
  | zero => intro pre t post _ hlen; omega
  | succ k ih =>
    intro pre t post hts hlen fuel hfuel
    obtain ⟨f, rfl⟩ : ∃ f, fuel = f + 1 := ⟨fuel - 1, by omega⟩
    have hmem : t ∈ tasks := by rw [hts]; simp
    have hchild : ∀ arg, (arg = t.Arg1 ∨ arg = t.Arg2) →
        (evaluateWithResults L (graphOf tasks) results f
          (childPtr (createNodes tasks []) arg)).isSome = true := by
      intro arg harg
      rcases childPtr_cases (createNodes tasks []) arg with h | h | ⟨id, h, heq, hsome⟩
      · rw [h]
        obtain ⟨f1, rfl⟩ : ∃ f1, f = f1 + 1 := ⟨f - 1, by omega⟩
        rw [evaluate_null]; rfl
      · rw [h]
        exact evaluate_leaf_isSome L _ results arg f (by omega)
      · have hid : id ∈ tasks.map (fun t => t.ID) := by
          rcases (createNodes_isSome tasks [] id).1 hsome with h1 | h1
          · exact h1
          · simp [GoMap.get] at h1
        obtain ⟨t1, ht1, rfl⟩ := List.mem_map.1 hid
        have hnotin : t1 ∉ t :: post := by
          intro hin
          have := hback pre t post hts t1 hin
          rcases harg with rfl | rfl
          · exact this.1 heq
          · exact this.2 heq
        have hinpre : t1 ∈ pre := by
          rw [hts] at ht1
          rcases List.mem_append.1 ht1 with h1 | h1
          · exact h1
          · exact absurd h1 hnotin
        obtain ⟨p1, m, hp⟩ := List.append_of_mem hinpre
        rw [h]
        have hlen1 : p1.length < k := by
          have : pre.length = p1.length + m.length + 1 := by rw [hp]; simp; omega
          omega
        exact ih p1 t1 (m ++ t :: post) (by rw [hts, hp]; simp) hlen1 f (by omega)
    exact evaluate_node_isSome L (graphOf tasks) results (.task t.ID) _
      (by simp only [deref]; exact graphOf_get tasks hnd t hmem) f
      (hchild _ (Or.inl rfl)) (hchild _ (Or.inr rfl))

theorem collectResults_cases {L : Lib} (ts : List (Task L)) :
    ∀ m : GoMap L.F, (∃ e, collectResults ts m = .error e) ∨ ∃ m1, collectResults ts m = .ok m1 := by
  intro m
  cases collectResults ts m with
  | error e => exact Or.inl ⟨e, rfl⟩
  | ok m1 => exact Or.inr ⟨m1, rfl⟩

/-- On a list of tasks with distinct identifiers and no reference to the same
or a later task, `AggregateResults` returns. -/
theorem AggregateResults_isSome (L : Lib) (tasks : List (Task L))
    (hnd : (tasks.map (fun t => t.ID)).Nodup) (hback : RefsBackward tasks) :
    (AggregateResults L tasks).isSome = true := by
  unfold AggregateResults
  cases collectResults tasks [] with
  | error e => rfl
  | ok results =>
    simp only
    rcases List.eq_nil_or_concat tasks with hnil | ⟨pre, last, hts⟩
    · subst hnil
      rfl
    · have hgl : tasks.getLast? = some last := by rw [hts]; simp
      have hmem : last ∈ tasks := by rw [hts]; simp
      have hget := graphOf_get tasks hnd last hmem
      unfold graphOf at hget
      simp only [getRootNode, hgl, hget]
      exact evaluate_isSome L tasks hnd hback results (pre.length + 1) pre last []
        (by rw [hts]; simp) (Nat.lt_succ_self _) (tasks.length + 2) (by rw [hts]; simp)

/-! ## The aggregator and divisions by zero -/

theorem evaluate_succ (L : Lib) (nodes : GoMap GraphNode) (results : GoMap L.F) :
    ∀ (fuel : Nat) (p : Ptr) (x : Except String L.F),
      evaluateWithResults L nodes results fuel p = some x →
      evaluateWithResults L nodes results (fuel + 1) p = some x := by
  intro fuel
  induction fuel with
  | zero => intro p x h; simp [evaluateWithResults] at h
  | succ f ih =>
    intro p x h
    rw [evaluateWithResults] at h ⊢
    cases hd : deref nodes p with
    | none => rw [hd] at h; exact h
    | some n =>
      rw [hd] at h
      simp only at h ⊢
      by_cases hop : isOperator n.Value = true
      · simp only [hop, Bool.not_true, Bool.false_eq_true, if_false] at h ⊢
        cases hl : evaluateWithResults L nodes results f n.Left with
        | none => rw [hl] at h; simp at h
        | some xl =>
          rw [hl] at h
          rw [ih n.Left xl hl]
          cases xl with
          | error e => exact h
          | ok l =>
            simp only at h ⊢
            cases hr : evaluateWithResults L nodes results f n.Right with
            | none => rw [hr] at h; simp at h
            | some xr =>
              rw [hr] at h
              rw [ih n.Right xr hr]
              exact h
      · simp only [Bool.not_eq_true] at hop
        simp only [hop, Bool.not_false, if_true] at h ⊢
        exact h

theorem evaluate_mono (L : Lib) (nodes : GoMap GraphNode) (results : GoMap L.F)
    (fuel : Nat) (p : Ptr) (x : Except String L.F)
    (h : evaluateWithResults L nodes results fuel p = some x) :
    ∀ k, evaluateWithResults L nodes results (fuel + k) p = some x := by
  intro k
  induction k with
  | zero => exact h
  | succ k ih => exact evaluate_succ L nodes results (fuel + k) p x ih

/-- Two evaluations of the same pointer that both end give the same result. -/
theorem evaluate_unique (L : Lib) (nodes : GoMap GraphNode) (results : GoMap L.F)
    (f1 f2 : Nat) (p : Ptr) (x1 x2 : Except String L.F)
    (h1 : evaluateWithResults L nodes results f1 p = some x1)
    (h2 : evaluateWithResults L nodes results f2 p = some x2) : x1 = x2 := by
  have e1 := evaluate_mono L nodes results f1 p x1 h1 f2
  have e2 := evaluate_mono L nodes results f2 p x2 h2 f1
  rw [Nat.add_comm] at e2
  rw [e1] at e2
  exact Option.some.inj e2

/-- An operator node whose evaluation gives a value has two children whose
evaluations give values, and the value of the right child of a division is
not zero. -/
theorem evaluate_ok_children (L : Lib) (nodes : GoMap GraphNode) (results : GoMap L.F)
    (fuel : Nat) (p : Ptr) (n : GraphNode) (v : L.F)
    (h : evaluateWithResults L nodes results fuel p = some (.ok v))
    (hn : deref nodes p = some n) (hop : isOperator n.Value = true) :
    ∃ f l r, evaluateWithResults L nodes results f n.Left = some (.ok l) ∧
      evaluateWithResults L nodes results f n.Right = some (.ok r) ∧
      (n.Value = "/" → L.eqZero r = false) := by
  cases fuel with
  | zero => simp [evaluateWithResults] at h
  | succ f =>
    rw [evaluateWithResults] at h
    simp only [hn, hop, Bool.not_true, Bool.false_eq_true, if_false] at h
    cases hl : evaluateWithResults L nodes results f n.Left with
    | none => rw [hl] at h; simp at h
    | some xl =>
      rw [hl] at h
      cases xl with
      | error e => simp at h
      | ok l =>
        simp only at h
        cases hr : evaluateWithResults L nodes results f n.Right with
        | none => rw [hr] at h; simp at h
        | some xr =>
          rw [hr] at h
          cases xr with
          | error e => simp at h
          | ok r =>
            refine ⟨f, l, r, hl, hr, ?_⟩
            intro hdiv
            simp only at h
            have h1 : ¬ n.Value = "+" := by rw [hdiv]; decide
            have h2 : ¬ n.Value = "-" := by rw [hdiv]; decide
            have h3 : ¬ n.Value = "*" := by rw [hdiv]; decide
            rw [if_neg h1, if_neg h2, if_neg h3, if_pos hdiv] at h
            by_cases hz : L.eqZero r = true
            · rw [if_pos hz] at h
              simp at h
            · simpa using hz

/-- When the evaluation of `root` gives a value, so does the evaluation of every
pointer of its tree. -/
theorem evaluate_ok_inTree (L : Lib) (nodes : GoMap GraphNode) (results : GoMap L.F)
    (root : Ptr) (fuel : Nat) (v : L.F)
    (h : evaluateWithResults L nodes results fuel root = some (.ok v))
    (p : Ptr) (hp : InTree nodes root p) :
    ∃ f w, evaluateWithResults L nodes results f p = some (.ok w) := by
  induction hp with
  | root => exact ⟨fuel, v, h⟩
  | left q n _ hn hop ih =>
    obtain ⟨f, w, hw⟩ := ih
    obtain ⟨f1, l, _, hl, _, _⟩ := evaluate_ok_children L nodes results f q n w hw hn hop
    exact ⟨f1, l, hl⟩
  | right q n _ hn hop ih =>
    obtain ⟨f, w, hw⟩ := ih
    obtain ⟨f1, _, r, _, hr, _⟩ := evaluate_ok_children L nodes results f q n w hw hn hop
    exact ⟨f1, r, hr⟩

/-- Claim C14. For a list of completed tasks with distinct identifiers in which
no task refers to itself or to a later task (so that the references form a tree
under the last task): when the tree of the last task contains a task of `/`
whose right operand the aggregator evaluates to a value that is zero,
`AggregateResults` returns an error and no number. -/
theorem AggregateResults_division_by_zero (L : Lib) (tasks : List (Task L)) (last : Task L)
    (hnd : (tasks.map (fun t => t.ID)).Nodup) (hback : RefsBackward tasks)
    (results : GoMap L.F) (hres : collectResults tasks [] = .ok results)
    (hlast : tasks.getLast? = some last)
    (t : Task L) (ht : t ∈ tasks) (hdiv : t.Operator = "/")
    (htree : InTree (graphOf tasks) (.task last.ID) (.task t.ID))
    (fuel : Nat) (r : L.F)
    (hr : evaluateWithResults L (graphOf tasks) results fuel
      (childPtr (createNodes tasks []) t.Arg2) = some (.ok r))
    (hzero : L.eqZero r = true) :
    ∃ e, AggregateResults L tasks = some (.error e) := by
  obtain ⟨x, hx⟩ := Option.isSome_iff_exists.1 (AggregateResults_isSome L tasks hnd hback)
  cases x with
  | error e => exact ⟨e, hx⟩
  | ok v =>
    exfalso
    have hmem : last ∈ tasks := List.mem_of_getLast?_eq_some hlast
    have hget := graphOf_get tasks hnd last hmem
    unfold AggregateResults at hx
    rw [hres] at hx
    have hget1 := hget
    unfold graphOf at hget1
    simp only [getRootNode, hlast, hget1] at hx
    obtain ⟨f, w, hw⟩ := evaluate_ok_inTree L (graphOf tasks) results (.task last.ID) _ v hx
      (.task t.ID) htree
    have hnode := graphOf_get tasks hnd t ht
    obtain ⟨f1, _, r1, _, hr1, hnz⟩ := evaluate_ok_children L (graphOf tasks) results f
      (.task t.ID) _ w hw (by simp only [deref]; exact hnode) (by simp only [hdiv]; decide)
    have heq := evaluate_unique L (graphOf tasks) results _ _ _ _ _ hr hr1
    simp only [Except.ok.injEq] at heq
    subst heq
    have := hnz hdiv
    rw [hzero] at this
    exact Bool.noConfusion this

theorem refsBackward_of_check {L : Lib} (tasks : List (Task L))
    (h : refsBackwardCheck tasks = true) : RefsBackward tasks := by
  induction tasks with
  | nil =>
    intro pre t post hts
    simp at hts
  | cons t0 rest ih =>
    simp only [refsBackwardCheck, Bool.and_eq_true, List.all_eq_true, decide_eq_true_eq] at h
    intro pre t post hts t1 ht1
    cases pre with
    | nil =>
      simp only [List.nil_append, List.cons.injEq] at hts
      obtain ⟨rfl, rfl⟩ := hts
      exact h.1 t1 ht1
    | cons x pre1 =>
      simp only [List.cons_append, List.cons.injEq] at hts
      exact ih h.2 pre1 t post hts.2 t1 ht1

/-- The statement of C14 on the completed tasks of `2+6/(1-1)`: the task of `/`
is the right child of the root, and its right operand `1-1` evaluates to 0. -/
theorem AggregateResults_division_by_zero_witness :
    (divisionTasks.map (fun t => t.ID)).Nodup ∧ RefsBackward divisionTasks ∧
    collectResults divisionTasks [] = .ok [("c", 8), ("b", 6), ("a", 0)] ∧
    InTree (graphOf divisionTasks) (.task "c") (.task "b") ∧
    evaluateWithResults Lib.exact (graphOf divisionTasks) [("c", 8), ("b", 6), ("a", 0)] 3
      (childPtr (createNodes divisionTasks []) "task:a") = some (.ok 0) ∧
    ∃ e, AggregateResults Lib.exact divisionTasks = some (.error e) :=
  have hnd : (divisionTasks.map (fun t => t.ID)).Nodup := by decide
  have hback : RefsBackward divisionTasks := refsBackward_of_check _ (by decide)
  have hres : collectResults divisionTasks [] = .ok [("c", 8), ("b", 6), ("a", 0)] := by rfl
  have htree : InTree (graphOf divisionTasks) (.task "c") (.task "b") :=
    InTree.right (.task "c") ⟨"+", "c", .leaf "2", .task "b"⟩ InTree.root (by rfl) (by decide)
  have hr : evaluateWithResults Lib.exact (graphOf divisionTasks)
      [("c", 8), ("b", 6), ("a", 0)] 3
      (childPtr (createNodes divisionTasks []) "task:a") = some (.ok 0) := by decide!
  ⟨hnd, hback, hres, htree, hr,
    AggregateResults_division_by_zero Lib.exact divisionTasks
      ⟨"c", "e", "2", "task:b", "+", 100, 8, true, "u"⟩ hnd hback _ hres (by rfl)
      ⟨"b", "e", "6", "task:a", "/", 300, 6, true, "u"⟩ (by simp [divisionTasks]) rfl htree
      3 0 hr (by decide)⟩

/-! ## The aggregator and the stored results -/

/-- Claim C15, at the failing input. After the submission of `1+2*3`, the report
of 100 for the task of `*` and the report of 101 for the root task of `+`, the
task set is fully completed, the root task has the literal operand 1 and the
operand `task:task-`, and the stored result of the task `task-` is 100; yet
`AggregateResults` returns 7, the value of `1 + 2 * 3`, and not 101, the sum of
1 and the stored result. -/
theorem aggregator_recomputes_referenced_task :
    (run Lib.exact (Store.empty Lib.exact)
        [.submit "1+2*3" "alice" 1 1 unaryUuid, .report "task-" 100, .report "task-u" 101]).map
      (fun s => (GetTasksByExpression s "expr-1" "alice").map
        (fun t => (t.ID, t.Arg1, t.Arg2, t.Operator)))
      = some [("task-", "2", "3", "*"), ("task-u", "1", "task:task-", "+")] ∧
    (run Lib.exact (Store.empty Lib.exact)
        [.submit "1+2*3" "alice" 1 1 unaryUuid, .report "task-" 100, .report "task-u" 101]).map
      (fun s => (GetTasksByExpression s "expr-1" "alice").map
        (fun t => (t.ID, t.Result, t.Completed)))
      = some [("task-", (100 : ℚ), true), ("task-u", (101 : ℚ), true)] ∧
    (run Lib.exact (Store.empty Lib.exact)
        [.submit "1+2*3" "alice" 1 1 unaryUuid, .report "task-" 100, .report "task-u" 101]).bind
      (fun s => AggregateResults Lib.exact (GetTasksByExpression s "expr-1" "alice"))
      = some (.ok 7) ∧
    Lib.exact.add 1 100 = (101 : ℚ) := by
  refine ⟨?_, ?_, ?_, ?_⟩
  · decide!
  · decide!
  · decide!
  · decide!

/-- A task list that no database of the orchestrator holds: for the single
completed task with the operator `^` and the stored result 8,
`AggregateResults` returns 8; and when the root task of `+` has the operands 1
and a reference to that task, it returns 9. -/
theorem aggregate_of_foreign_operator :
    AggregateResults Lib.exact
      [{ ID := "a", ExpressionID := "e", Arg1 := "2", Arg2 := "3", Operator := "^",
         OperationTime := 0, Result := 8, Completed := true, UserID := "u" }]
      = some (.ok 8) ∧
    AggregateResults Lib.exact
      [{ ID := "a", ExpressionID := "e", Arg1 := "2", Arg2 := "3", Operator := "^",
         OperationTime := 0, Result := 8, Completed := true, UserID := "u" },
       { ID := "b", ExpressionID := "e", Arg1 := "1", Arg2 := "task:a", Operator := "+",
         OperationTime := 100, Result := 9, Completed := true, UserID := "u" }]
      = some (.ok 9) := by
  refine ⟨?_, ?_⟩
  · decide!
  · decide!

/-! ## The periodic sweep -/

theorem sweepRow_id (L : Lib) (s : Store L) (e : ExpressionRow L) :
    (sweepRow L s e).id = e.id ∧ (sweepRow L s e).user_id = e.user_id := by
  unfold sweepRow
  split
  · exact ⟨rfl, rfl⟩
  · split
    · split
      · split <;> exact ⟨rfl, rfl⟩
      · exact ⟨rfl, rfl⟩
    · split <;> exact ⟨rfl, rfl⟩

theorem sweptStore_tasks (L : Lib) (s : Store L) (done : List String) :
    (sweptStore L s done).tasks = s.tasks := rfl

theorem sweptStore_nil (L : Lib) (s : Store L) : sweptStore L s [] = s := by
  unfold sweptStore
  simp

theorem sweptStore_congr (L : Lib) (s : Store L) (d1 d2 : List String)
    (h : ∀ e ∈ s.expressions, (e.id ∈ d1 ↔ e.id ∈ d2)) :
    sweptStore L s d1 = sweptStore L s d2 := by
  unfold sweptStore
  congr 1
  apply List.map_congr_left
  intro e he
  by_cases h1 : e.id ∈ d1
  · rw [if_pos h1, if_pos ((h e he).1 h1)]
  · rw [if_neg h1, if_neg (fun h2 => h1 ((h e he).2 h2))]

theorem expression_eq_of_id {L : Lib} (s : Store L)
    (hk : (s.expressions.map (fun e => e.id)).Nodup) (e1 e2 : ExpressionRow L)
    (h1 : e1 ∈ s.expressions) (h2 : e2 ∈ s.expressions) (h : e1.id = e2.id) : e1 = e2 :=
  List.inj_on_of_nodup_map hk h1 h2 h

/-- The update of the row of `e` in the database swept so far, when the update
writes what the sweep of `e` gives. -/
theorem update_swept (L : Lib) (s : Store L)
    (hk : (s.expressions.map (fun e => e.id)).Nodup) (done : List String)
    (e : ExpressionRow L) (he : e ∈ s.expressions) (hnot : e.id ∉ done)
    (st : String) (res : L.F)
    (hrow : sweepRow L s e = { e with status := st, result := some res }) :
    (UpdateExpressionStatus (sweptStore L s done) e.id st res).2
      = sweptStore L s (e.id :: done) := by
  have htasks := UpdateExpressionStatus_tasks (sweptStore L s done) e.id st res
  have hexprs := UpdateExpressionStatus_expressions (sweptStore L s done) e.id st res
  have hgoal : (UpdateExpressionStatus (sweptStore L s done) e.id st res).2.expressions
      = (sweptStore L s (e.id :: done)).expressions := by
    rw [hexprs]
    simp only [sweptStore, List.map_map]
    apply List.map_congr_left
    intro x hx
    simp only [Function.comp]
    by_cases hxe : x.id = e.id
    · have := expression_eq_of_id s hk x e hx he hxe
      subst this
      simp only [hnot, if_false, if_true, List.mem_cons, true_or]
      exact hrow.symm
    · have h1 : (if x.id ∈ done then sweepRow L s x else x).id = x.id := by
        split
        · exact (sweepRow_id L s x).1
        · rfl
      rw [if_neg (by rw [h1]; exact hxe)]
      simp only [List.mem_cons, hxe, false_or]
  cases hu : (UpdateExpressionStatus (sweptStore L s done) e.id st res).2 with
  | mk ex ts =>
    rw [hu] at htasks hgoal
    simp only at htasks hgoal
    subst htasks hgoal
    rfl

/-- The sweep of an expression that it leaves as it is. -/
theorem skip_swept (L : Lib) (s : Store L)
    (hk : (s.expressions.map (fun e => e.id)).Nodup) (done : List String)
    (e : ExpressionRow L) (he : e ∈ s.expressions)
    (hrow : sweepRow L s e = e) :
    sweptStore L s done = sweptStore L s (e.id :: done) := by
  unfold sweptStore
  congr 1
  apply List.map_congr_left
  intro x hx
  by_cases hxe : x.id = e.id
  · have := expression_eq_of_id s hk x e hx he hxe
    subst this
    simp only [List.mem_cons, true_or, if_true, hrow]
    split <;> rfl
  · simp only [List.mem_cons, hxe, false_or]

/-- One iteration of the loop of `ProcessUserTasks`, in the database swept so
far, for an expression not yet handled: it returns as soon as `AggregateResults`
returns on the tasks of the expression. -/
theorem processUserExpression_swept (L : Lib) (s : Store L)
    (hk : (s.expressions.map (fun e => e.id)).Nodup) (done : List String)
    (e : ExpressionRow L) (he : e ∈ s.expressions) (hnot : e.id ∉ done)
    (hterm : (AggregateResults L (GetTasksByExpression s e.id e.user_id)).isSome = true) :
    processUserExpression L (sweptStore L s done) e.user_id e.scan
      = some (sweptStore L s (e.id :: done)) := by
  have hexec : GetExecutableTasks (sweptStore L s done) e.id e.user_id
      = GetExecutableTasks s e.id e.user_id := rfl
  have hcount : CountIncompleteTasks (sweptStore L s done) e.id
      = CountIncompleteTasks s e.id := rfl
  have hget : GetTasksByExpression (sweptStore L s done) e.id e.user_id
      = GetTasksByExpression s e.id e.user_id := rfl
  unfold processUserExpression
  simp only [ExpressionRow.scan, hexec, hcount, hget]
  by_cases hst : e.status ≠ "pending" ∧ e.status ≠ "in_progress"
  · rw [if_pos hst]
    congr 1
    exact skip_swept L s hk done e he (by unfold sweepRow; rw [if_pos hst])
  · rw [if_neg hst]
    by_cases hex : (GetExecutableTasks s e.id e.user_id).length = 0
    · rw [if_pos hex]
      by_cases hinc : CountIncompleteTasks s e.id = 0
      · rw [if_pos hinc]
        obtain ⟨x, hx⟩ := Option.isSome_iff_exists.1 hterm
        rw [hx]
        cases x with
        | error err =>
          simp only
          congr 1
          exact skip_swept L s hk done e he
            (by unfold sweepRow; rw [if_neg hst, if_pos hex, if_pos hinc, hx])
        | ok result =>
          simp only
          congr 1
          exact update_swept L s hk done e he hnot "completed" result
            (by unfold sweepRow; rw [if_neg hst, if_pos hex, if_pos hinc, hx])
      · rw [if_neg hinc]
        congr 1
        exact skip_swept L s hk done e he
          (by unfold sweepRow; rw [if_neg hst, if_pos hex, if_neg hinc])
    · rw [if_neg hex]
      by_cases hp : e.status = "pending"
      · rw [if_pos hp]
        congr 1
        exact update_swept L s hk done e he hnot "in_progress" L.zero
          (by unfold sweepRow; rw [if_neg hst, if_neg hex, if_pos hp])
      · rw [if_neg hp]
        congr 1
        exact skip_swept L s hk done e he
          (by unfold sweepRow; rw [if_neg hst, if_neg hex, if_neg hp])

theorem RefsBackward_tail {L : Lib} (a : Task L) (l : List (Task L))
    (h : RefsBackward (a :: l)) : RefsBackward l := by
  intro pre t post hl t1 ht1
  exact h (a :: pre) t post (by rw [hl]; rfl) t1 ht1

theorem RefsBackward_sublist {L : Lib} (l1 l2 : List (Task L)) (hs : l1.Sublist l2)
    (h : RefsBackward l2) : RefsBackward l1 := by
  induction hs with
  | slnil => exact h
  | cons a _ ih => exact ih (RefsBackward_tail a _ h)
  | @cons₂ m1 m2 a hsub ih =>
    intro pre t post hl t1 ht1
    cases pre with
    | nil =>
      simp only [List.nil_append, List.cons.injEq] at hl
      obtain ⟨rfl, rfl⟩ := hl
      have hmem : t1 ∈ a :: m2 := by
        rcases List.mem_cons.1 ht1 with rfl | h1
        · exact List.mem_cons_self _ _
        · exact List.mem_cons_of_mem _ (hsub.subset h1)
      exact h [] a m2 rfl t1 hmem
    | cons x pre1 =>
      simp only [List.cons_append, List.cons.injEq] at hl
      exact ih (RefsBackward_tail a _ h) pre1 t post hl.2 t1 ht1

/-- In a database with unique keys in which no task refers to itself or to a
later row, `AggregateResults` returns on the tasks of every expression. -/
theorem AggregateResults_returns {L : Lib} (s : Store L) (hk : s.keysUnique)
    (hb : s.refsBackward) (exprID userID : String) :
    (AggregateResults L (GetTasksByExpression s exprID userID)).isSome = true := by
  apply AggregateResults_isSome
  · have hsub : ((GetTasksByExpression s exprID userID).map (fun t => t.ID)).Sublist
        (s.tasks.map (fun r => r.id)) := by
      unfold GetTasksByExpression
      rw [List.map_map]
      exact (List.filter_sublist _).map _
    exact hsub.nodup hk.2
  · exact RefsBackward_sublist _ _ ((List.filter_sublist _).map _) hb

theorem processUserLoop_swept (L : Lib) (s : Store L)
    (hk : (s.expressions.map (fun e => e.id)).Nodup)
    (hterm : ∀ e ∈ s.expressions,
      (AggregateResults L (GetTasksByExpression s e.id e.user_id)).isSome = true)
    (userID : String) :
    ∀ (es : List (ExpressionRow L)) (done : List String),
      (∀ e ∈ es, e ∈ s.expressions ∧ e.user_id = userID) →
      (es.map (fun e => e.id)).Nodup → (∀ e ∈ es, e.id ∉ done) →
      processUserLoop L userID (es.map ExpressionRow.scan) (sweptStore L s done)
        = some (sweptStore L s ((es.map (fun e => e.id)).reverse ++ done)) := by
  intro es
  induction es with
  | nil => intro done _ _ _; rfl
  | cons e rest ih =>
    intro done hmem hnd hnot
    obtain ⟨he, hu⟩ := hmem e (List.mem_cons_self _ _)
    simp only [List.map_cons, List.nodup_cons] at hnd
    rw [List.map_cons, processUserLoop]
    have hstep := processUserExpression_swept L s hk done e he
      (hnot e (List.mem_cons_self _ _)) (hterm e he)
    rw [hu] at hstep
    rw [hstep]
    simp only
    rw [ih (e.id :: done) (fun x hx => hmem x (List.mem_cons_of_mem _ hx)) hnd.2]
    · simp
    · intro x hx hxin
      rcases List.mem_cons.1 hxin with h1 | h1
      · exact hnd.1 (by rw [← h1]; exact List.mem_map_of_mem (fun e => e.id) hx)
      · exact hnot x (List.mem_cons_of_mem _ hx) h1

theorem filter_map_of_fixed {α : Type} (p : α → Bool) (f : α → α) (l : List α)
    (h : ∀ x ∈ l, p (f x) = p x ∧ (p x = true → f x = x)) :
    (l.map f).filter p = l.filter p := by
  induction l with
  | nil => rfl
  | cons x rest ih =>
    obtain ⟨h1, h2⟩ := h x (List.mem_cons_self _ _)
    rw [List.map_cons, List.filter_cons, List.filter_cons, h1,
      ih (fun y hy => h y (List.mem_cons_of_mem _ hy))]
    by_cases hp : p x = true
    · rw [if_pos hp, if_pos hp, h2 hp]
    · rw [if_neg hp, if_neg hp]

/-- The list that `ProcessUserTasks` reads in the database swept so far, when
no expression of the user has been handled. -/
theorem ListExpressions_swept (L : Lib) (s : Store L) (done : List String) (userID : String)
    (hnot : ∀ e ∈ s.expressions, e.user_id = userID → e.id ∉ done) :
    ListExpressions (sweptStore L s done) userID = ListExpressions s userID := by
  unfold ListExpressions sweptStore
  simp only
  rw [filter_map_of_fixed]
  intro x hx
  by_cases hd : x.id ∈ done
  · simp only [hd, if_true, (sweepRow_id L s x).2, true_and, decide_eq_true_eq]
    intro hu
    exact absurd hd (hnot x hx hu)
  · simp only [hd, if_false, true_and, implies_true]

theorem ProcessUserTasks_swept (L : Lib) (s : Store L)
    (hk : (s.expressions.map (fun e => e.id)).Nodup)
    (hterm : ∀ e ∈ s.expressions,
      (AggregateResults L (GetTasksByExpression s e.id e.user_id)).isSome = true)
    (userID : String) (done : List String)
    (hnot : ∀ e ∈ s.expressions, e.user_id = userID → e.id ∉ done) :
    ∃ done1, ProcessUserTasks L (sweptStore L s done) userID = some (sweptStore L s done1) ∧
      ∀ e ∈ s.expressions, (e.id ∈ done1 ↔ e.id ∈ done ∨ e.user_id = userID) := by
  have hperm := List.perm_insertionSort
    (fun (a b : ExpressionRow L) => a.created_at ≥ b.created_at)
    (s.expressions.filter (fun e => e.user_id = userID))
  have hmem : ∀ e, e ∈ (s.expressions.filter (fun e => e.user_id = userID)).insertionSort
      (fun a b => a.created_at ≥ b.created_at) ↔ e ∈ s.expressions ∧ e.user_id = userID := by
    intro e
    rw [hperm.mem_iff, List.mem_filter]
    simp
  refine ⟨(((s.expressions.filter (fun e => e.user_id = userID)).insertionSort
      (fun a b => a.created_at ≥ b.created_at)).map (fun e => e.id)).reverse ++ done, ?_, ?_⟩
  · unfold ProcessUserTasks
    rw [ListExpressions_swept L s done userID hnot]
    unfold ListExpressions
    exact processUserLoop_swept L s hk hterm userID _ done (fun e he => (hmem e).1 he)
      (by
        rw [(hperm.map (fun e => e.id)).nodup_iff]
        exact ((List.filter_sublist _).map _).nodup hk)
      (fun e he => hnot e ((hmem e).1 he).1 ((hmem e).1 he).2)
  · intro e he
    rw [List.mem_append, List.mem_reverse, List.mem_map]
    constructor
    · rintro (⟨x, hx, hxe⟩ | h)
      · have hx1 := (hmem x).1 hx
        have := expression_eq_of_id s hk x e hx1.1 he hxe
        subst this
        exact Or.inr hx1.2
      · exact Or.inl h
    · rintro (h | h)
      · exact Or.inr h
      · exact Or.inl ⟨e, (hmem e).2 ⟨he, h⟩, rfl⟩

theorem processPendingLoop_swept (L : Lib) (s : Store L)
    (hk : (s.expressions.map (fun e => e.id)).Nodup)
    (hterm : ∀ e ∈ s.expressions,
      (AggregateResults L (GetTasksByExpression s e.id e.user_id)).isSome = true) :
    ∀ (users : List String) (done : List String), users.Nodup →
      (∀ e ∈ s.expressions, e.user_id ∈ users → e.id ∉ done) →
      ∃ done1, processPendingLoop L users (sweptStore L s done) = some (sweptStore L s done1) ∧
        ∀ e ∈ s.expressions, (e.id ∈ done1 ↔ e.id ∈ done ∨ e.user_id ∈ users) := by
  intro users
  induction users with
  | nil =>
    intro done _ _
    exact ⟨done, rfl, fun e _ => by simp⟩
  | cons u rest ih =>
    intro done hnd hnot
    simp only [List.nodup_cons] at hnd
    obtain ⟨d1, hd1, hmem1⟩ := ProcessUserTasks_swept L s hk hterm u done
      (fun e he hu => hnot e he (by rw [hu]; exact List.mem_cons_self _ _))
    obtain ⟨d2, hd2, hmem2⟩ := ih d1 hnd.2 (by
      intro e he hu hin
      rcases (hmem1 e he).1 hin with h | h
      · exact hnot e he (List.mem_cons_of_mem _ hu) h
      · exact hnd.1 (h ▸ hu))
    refine ⟨d2, ?_, ?_⟩
    · rw [processPendingLoop, hd1]
      exact hd2
    · intro e he
      rw [hmem2 e he, hmem1 e he, List.mem_cons]
      tauto

/-- The sweep on a database with unique keys on which `AggregateResults`
returns: it handles the expressions of the users who have a pending expression,
each once, and leaves the others as they are. -/
theorem ProcessPendingTasks_swept (L : Lib) (s : Store L)
    (hk : s.keysUnique) (hb : s.refsBackward) :
    ProcessPendingTasks L s = some
      { s with expressions := s.expressions.map (fun e =>
          if e.user_id ∈ GetUsersWithPendingExpressions s then sweepRow L s e else e) } := by
  have hterm : ∀ e ∈ s.expressions,
      (AggregateResults L (GetTasksByExpression s e.id e.user_id)).isSome = true :=
    fun e _ => AggregateResults_returns s hk hb e.id e.user_id
  obtain ⟨d, hd, hmem⟩ := processPendingLoop_swept L s hk.1 hterm
    (GetUsersWithPendingExpressions s) [] (List.nodup_dedup _) (fun _ _ _ h => by simp at h)
  rw [sweptStore_nil] at hd
  unfold ProcessPendingTasks
  rw [hd]
  congr 1
  unfold sweptStore
  congr 1
  apply List.map_congr_left
  intro e he
  have := hmem e he
  simp only [List.not_mem_nil, false_or] at this
  by_cases h : e.id ∈ d
  · rw [if_pos h, if_pos (this.1 h)]
  · rw [if_neg h, if_neg (fun h2 => h (this.2 h2))]

theorem find?_map_of_nodup {L : Lib} (l : List (ExpressionRow L))
    (hnd : (l.map (fun e => e.id)).Nodup) (g : ExpressionRow L → ExpressionRow L)
    (hg : ∀ e, (g e).id = e.id) (e : ExpressionRow L) (he : e ∈ l) :
    (l.map g).find? (fun x => x.id = e.id) = some (g e) := by
  have hnd1 : ((l.map g).map (fun e => e.id)).Nodup := by
    rw [List.map_map]
    have : ((fun e => e.id) ∘ g : ExpressionRow L → String) = fun e => e.id := by
      funext x
      exact hg x
    rw [this]
    exact hnd
  have := find?_of_nodup_key (l.map g) (fun e => e.id) hnd1 (g e) (List.mem_map_of_mem g he)
  simp only [hg] at this
  exact this

theorem no_executable_of_complete {L : Lib} (s : Store L) (exprID userID : String)
    (h : CountIncompleteTasks s exprID = 0) : GetExecutableTasks s exprID userID = [] := by
  rw [List.eq_nil_iff_forall_not_mem]
  intro t ht
  obtain ⟨hmem, hc⟩ := mem_GetExecutableTasks s exprID userID t ht
  obtain ⟨r, hr, hid, _, rfl⟩ := (mem_GetTasksByExpression s exprID userID t).1 hmem
  have := (CountIncompleteTasks_eq_zero s exprID).1 h r hr hid
  simp only [TaskRow.scan] at hc
  rw [this] at hc
  exact Bool.noConfusion hc

theorem mem_pendingUsers {L : Lib} (s : Store L) (userID : String) :
    userID ∈ GetUsersWithPendingExpressions s ↔
      ∃ e ∈ s.expressions, e.user_id = userID ∧ e.status = "pending" := by
  simp only [GetUsersWithPendingExpressions, List.mem_dedup, List.mem_map, List.mem_filter,
    decide_eq_true_eq]
  constructor
  · rintro ⟨e, ⟨he, hst⟩, hu⟩
    exact ⟨e, he, hu, hst⟩
  · rintro ⟨e, he, hu, hst⟩
    exact ⟨e, ⟨he, hst⟩, hu⟩

/-- Claim C13, as amended. On a database with unique keys in which no task
refers to itself or to a later row, one run of `ProcessPendingTasks` returns,
and in the database it returns: every expression that was `pending` and had an
executable task has the status `in_progress`; and every expression that was
`pending` or `in_progress`, whose user had a pending expression, that had no
incomplete task and for whose tasks `AggregateResults` returns a value, has the
status `completed` and that value as its result. -/
theorem ProcessPendingTasks_rollup (L : Lib) (s : Store L)
    (hk : s.keysUnique) (hb : s.refsBackward) :
    ∃ s1, ProcessPendingTasks L s = some s1 ∧
      (∀ e ∈ s.expressions, e.status = "pending" →
        GetExecutableTasks s e.id e.user_id ≠ [] →
        statusOf s1 e.id = some "in_progress") ∧
      (∀ e ∈ s.expressions, (e.status = "pending" ∨ e.status = "in_progress") →
        (∃ e2 ∈ s.expressions, e2.user_id = e.user_id ∧ e2.status = "pending") →
        CountIncompleteTasks s e.id = 0 →
        ∀ v, AggregateResults L (GetTasksByExpression s e.id e.user_id) = some (.ok v) →
        ∃ x, GetExpression s1 e.id = some x ∧ x.Status = "completed" ∧ x.Result = v) := by
  refine ⟨_, ProcessPendingTasks_swept L s hk hb, ?_, ?_⟩
  · intro e he hst hex
    have huser : e.user_id ∈ GetUsersWithPendingExpressions s :=
      (mem_pendingUsers s e.user_id).2 ⟨e, he, rfl, hst⟩
    simp only [statusOf, GetExpression]
    rw [find?_map_of_nodup s.expressions hk.1 _ (fun x => by
      split
      · exact (sweepRow_id L s x).1
      · rfl) e he]
    simp only [huser, if_true, Option.map_some', ExpressionRow.scan]
    have hlen : ¬ (GetExecutableTasks s e.id e.user_id).length = 0 :=
      fun h => hex (List.length_eq_zero.1 h)
    have h1 : ¬ (e.status ≠ "pending" ∧ e.status ≠ "in_progress") := fun h => h.1 hst
    unfold sweepRow
    rw [if_neg h1, if_neg hlen, if_pos hst]
  · intro e he hst huser hcount v hv
    have huser1 : e.user_id ∈ GetUsersWithPendingExpressions s :=
      (mem_pendingUsers s e.user_id).2 huser
    simp only [GetExpression]
    rw [find?_map_of_nodup s.expressions hk.1 _ (fun x => by
      split
      · exact (sweepRow_id L s x).1
      · rfl) e he]
    simp only [huser1, if_true, Option.map_some']
    have hlen : (GetExecutableTasks s e.id e.user_id).length = 0 := by
      rw [no_executable_of_complete s e.id e.user_id hcount]
      rfl
    have h1 : ¬ (e.status ≠ "pending" ∧ e.status ≠ "in_progress") := by
      rintro ⟨h2, h3⟩
      rcases hst with h | h
      · exact h2 h
      · exact h3 h
    refine ⟨_, rfl, ?_⟩
    unfold sweepRow
    rw [if_neg h1, if_pos hlen, if_pos hcount, hv]
    exact ⟨rfl, rfl⟩

theorem Store.unrolled_keysUnique : Store.unrolled.keysUnique := by
  unfold Store.keysUnique
  decide

theorem Store.unrolled_refsBackward : Store.unrolled.refsBackward :=
  refsBackward_of_check _ (by decide)

/-- The statement of C13 on the database `Store.unrolled`, whose only
expression is `pending` with both tasks completed: the sweep completes it with
the result 7. -/
theorem ProcessPendingTasks_rollup_witness :
    Store.unrolled.keysUnique ∧ Store.unrolled.refsBackward ∧
    ∃ s1, ProcessPendingTasks Lib.exact Store.unrolled = some s1 ∧
      (∀ e ∈ Store.unrolled.expressions, e.status = "pending" →
        GetExecutableTasks Store.unrolled e.id e.user_id ≠ [] →
        statusOf s1 e.id = some "in_progress") ∧
      (∀ e ∈ Store.unrolled.expressions, (e.status = "pending" ∨ e.status = "in_progress") →
        (∃ e2 ∈ Store.unrolled.expressions, e2.user_id = e.user_id ∧ e2.status = "pending") →
        CountIncompleteTasks Store.unrolled e.id = 0 →
        ∀ v, AggregateResults Lib.exact (GetTasksByExpression Store.unrolled e.id e.user_id)
            = some (.ok v) →
        ∃ x, GetExpression s1 e.id = some x ∧ x.Status = "completed" ∧ x.Result = v) :=
  ⟨Store.unrolled_keysUnique, Store.unrolled_refsBackward,
    ProcessPendingTasks_rollup Lib.exact Store.unrolled Store.unrolled_keysUnique
      Store.unrolled_refsBackward⟩

/-- Claim C13, as stated, fails. In the database `Store.stalled` the expression
is `in_progress`, has no incomplete task, and `AggregateResults` gives 7 for its
tasks; after the sweep it is still `in_progress`, because no expression of its
user is `pending`.  In the database `Store.divided` the expression is `pending`
and has no incomplete task; `AggregateResults` returns an error for its tasks,
and after the sweep the expression is still `pending`.  In the database
`Store.cyclic`, where a completed task refers to itself, the sweep does not
return. -/
theorem sweep_leaves_unfinished :
    (Store.stalled.expressions.map (fun e => (e.id, e.user_id, e.status))
        = [("expr-1", "alice", "in_progress")] ∧
      CountIncompleteTasks Store.stalled "expr-1" = 0 ∧
      AggregateResults Lib.exact (GetTasksByExpression Store.stalled "expr-1" "alice")
        = some (.ok 7) ∧
      (ProcessPendingTasks Lib.exact Store.stalled).map (fun s => statusOf s "expr-1")
        = some (some "in_progress")) ∧
    (Store.divided.expressions.map (fun e => (e.id, e.user_id, e.status))
        = [("expr-1", "alice", "pending")] ∧
      CountIncompleteTasks Store.divided "expr-1" = 0 ∧
      AggregateResults Lib.exact (GetTasksByExpression Store.divided "expr-1" "alice")
        = some (.error "division by zero") ∧
      (ProcessPendingTasks Lib.exact Store.divided).map (fun s => statusOf s "expr-1")
        = some (some "pending")) ∧
    (Store.cyclic.expressions.map (fun e => (e.id, e.user_id, e.status))
        = [("expr-1", "alice", "pending")] ∧
      CountIncompleteTasks Store.cyclic "expr-1" = 0 ∧
      (ProcessPendingTasks Lib.exact Store.cyclic).isSome = false) := by
  refine ⟨⟨?_, ?_, ?_, ?_⟩, ⟨?_, ?_, ?_, ?_⟩, ?_, ?_, ?_⟩
  · decide
  · decide
  · decide!
  · decide!
  · decide
  · decide
  · decide!
  · decide!
  · decide
  · decide
  · decide!

/-! ## The sweep returns in every reachable state -/

theorem refsEarlier_empty (L : Lib) : (Store.empty L).refsEarlier L := by
  intro pre r post h
  simp [Store.empty] at h

theorem refsEarlier_map (L : Lib) (s s1 : Store L) (f : TaskRow L → TaskRow L)
    (hf : ∀ r, (f r).id = r.id ∧ (f r).arg1 = r.arg1 ∧ (f r).arg2 = r.arg2)
    (h1 : s1.tasks = s.tasks.map f) (h : s.refsEarlier L) : s1.refsEarlier L := by
  intro pre r post hdec arg harg
  rw [h1] at hdec
  obtain ⟨l1, l2, hl, hpre, hrest⟩ := List.map_eq_append_iff.1 hdec
  obtain ⟨r0, l3, hl2, hr0, _⟩ := List.map_eq_cons_iff.1 hrest
  subst hl2 hr0 hpre
  have harg0 : arg = r0.arg1 ∨ arg = r0.arg2 := by
    rcases harg with h2 | h2
    · exact Or.inl (by rw [h2, (hf r0).2.1])
    · exact Or.inr (by rw [h2, (hf r0).2.2])
  rcases h l1 r0 l3 hl arg harg0 with hnum | ⟨r1, hr1, heq⟩
  · exact Or.inl hnum
  · exact Or.inr ⟨f r1, List.mem_map_of_mem f hr1, by rw [heq, (hf r1).1]⟩

theorem refsEarlier_of_tasks_eq (L : Lib) (s s1 : Store L) (h1 : s1.tasks = s.tasks)
    (h : s.refsEarlier L) : s1.refsEarlier L := by
  intro pre r post hdec
  rw [h1] at hdec
  exact h pre r post hdec

theorem refsEarlier_append (L : Lib) (s s1 : Store L) (tasks : List (Task L))
    (f : Task L → TaskRow L)
    (hf : ∀ t, (f t).id = t.ID ∧ (f t).arg1 = t.Arg1 ∧ (f t).arg2 = t.Arg2)
    (h1 : s1.tasks = s.tasks ++ tasks.map f) (hargs : ArgsOK L [] tasks)
    (h : s.refsEarlier L) : s1.refsEarlier L := by
  intro pre r post hdec arg harg
  rw [h1] at hdec
  rcases List.append_eq_append_iff.1 hdec with ⟨a, hpre, hnew⟩ | ⟨c, hold, hrest⟩
  · obtain ⟨l1, l2, hl, ha, hrest⟩ := List.map_eq_append_iff.1 hnew
    obtain ⟨t, l3, hl2, ht, _⟩ := List.map_eq_cons_iff.1 hrest
    subst hl2 ht ha
    have harg0 : arg = t.Arg1 ∨ arg = t.Arg2 := by
      rcases harg with h2 | h2
      · exact Or.inl (by rw [h2, (hf t).2.1])
      · exact Or.inr (by rw [h2, (hf t).2.2])
    rcases hargs l1 t l3 hl arg harg0 with hnum | ⟨t1, ht1, heq⟩
    · exact Or.inl hnum
    · refine Or.inr ⟨f t1, ?_, by rw [heq, (hf t1).1]⟩
      rw [hpre]
      exact List.mem_append_right _ (List.mem_map_of_mem f (by simpa using ht1))
  · cases c with
    | nil =>
      simp only [List.nil_append] at hrest
      simp only [List.append_nil] at hold
      obtain ⟨t, l3, hl2, ht, _⟩ := List.map_eq_cons_iff.1 hrest.symm
      subst ht
      have harg0 : arg = t.Arg1 ∨ arg = t.Arg2 := by
        rcases harg with h2 | h2
        · exact Or.inl (by rw [h2, (hf t).2.1])
        · exact Or.inr (by rw [h2, (hf t).2.2])
      rcases hargs [] t l3 hl2 arg harg0 with hnum | ⟨t1, ht1, _⟩
      · exact Or.inl hnum
      · simp at ht1
    | cons r0 c1 =>
      simp only [List.cons_append, List.cons.injEq] at hrest
      obtain ⟨rfl, _⟩ := hrest
      exact h pre r c1 hold arg harg

/-- With the primary key, a table whose references name earlier rows has no
reference to the same or a later row. -/
theorem refsBackward_of_refsEarlier (L : Lib) (s : Store L) (hk : s.keysUnique)
    (h : s.refsEarlier L) : s.refsBackward := by
  have key : ∀ (pre : List (TaskRow L)) (r : TaskRow L) (post : List (TaskRow L)),
      s.tasks = pre ++ r :: post → ∀ r1 ∈ r :: post, ∀ arg, (arg = r.arg1 ∨ arg = r.arg2) →
      arg ≠ "task:" ++ r1.id := by
    intro pre r post hdec r1 hr1 arg harg heq
    rcases h pre r post hdec arg harg with hnum | ⟨r0, hr0, heq0⟩
    · have := (isNumberText_not_operator L arg hnum).2
      rw [heq, hasPrefix_append] at this
      exact Bool.noConfusion this
    · have hid : r0.id = r1.id := string_append_left_cancel "task:" _ _ (by rw [← heq0, ← heq])
      have hnd := hk.2
      rw [hdec, List.map_append, List.nodup_append] at hnd
      exact hnd.2.2 (List.mem_map_of_mem (fun r => r.id) hr0)
        (by rw [hid]; exact List.mem_map_of_mem (fun r => r.id) hr1)
  intro pre t post hdec t1 ht1
  obtain ⟨l1, l2, hl, hpre, hrest⟩ := List.map_eq_append_iff.1 hdec
  obtain ⟨r, l3, hl2, hr, hpost⟩ := List.map_eq_cons_iff.1 hrest
  subst hl2 hr
  have hmem : ∃ r1 ∈ r :: l3, r1.scan = t1 := by
    rcases List.mem_cons.1 ht1 with h1 | h1
    · exact ⟨r, List.mem_cons_self _ _, h1.symm⟩
    · rw [← hpost] at h1
      obtain ⟨r1, hr1, rfl⟩ := List.mem_map.1 h1
      exact ⟨r1, List.mem_cons_of_mem _ hr1, rfl⟩
  obtain ⟨r1, hr1, rfl⟩ := hmem
  exact ⟨key l1 r l3 hl r1 hr1 _ (Or.inl rfl), key l1 r l3 hl r1 hr1 _ (Or.inr rfl)⟩

theorem ProcessExpression_tasks_cases (L : Lib) (s : Store L) (exprStr userID : String)
    (now createdAt : Int) (uuid : Nat → String) :
    (ProcessExpression L s exprStr userID now createdAt uuid).2.tasks = s.tasks ∨
    ∃ expr, (ProcessExpression L s exprStr userID now createdAt uuid).1 = .ok expr := by
  unfold ProcessExpression
  simp only
  split
  · exact Or.inl rfl
  · split
    · exact Or.inl rfl
    · split
      · exact Or.inl rfl
      · rename_i tree _
        rcases NewExpression_cases s (removeSpaces exprStr) userID now createdAt with
          ⟨h1, e1, h2⟩ | ⟨_, h1, h2⟩
        · split
          · rename_i heq
            have := congrArg Prod.snd heq
            simp only at this
            left
            rw [← this, h1]
          · rename_i heq
            have := congrArg Prod.fst heq
            simp only at this
            rw [h2] at this
            simp at this
        · split
          · rename_i heq
            have := congrArg Prod.fst heq
            simp only at this
            rw [h1] at this
            simp at this
          · rename_i expr s1 heq
            have hs1 : s1.tasks = s.tasks := by
              have := congrArg Prod.snd heq
              simp only at this
              rw [← this, h2]
            split
            · rename_i e2 s2 hreg
              left
              have : s2 = s1 := by
                have h3 := congrArg Prod.snd hreg
                simp only at h3
                rw [← h3]
                unfold RegisterTasks
                split
                · rfl
                · rename_i rows hrows
                  have h4 := congrArg Prod.fst hreg
                  simp only [RegisterTasks, hrows] at h4
                  simp at h4
              rw [this]
              exact hs1
            · exact Or.inr ⟨expr, rfl⟩

theorem ProcessExpression_tasks_of_error (L : Lib) (s : Store L) (exprStr userID : String)
    (now createdAt : Int) (uuid : Nat → String) (e : String)
    (h : (ProcessExpression L s exprStr userID now createdAt uuid).1 = .error e) :
    (ProcessExpression L s exprStr userID now createdAt uuid).2.tasks = s.tasks := by
  rcases ProcessExpression_tasks_cases L s exprStr userID now createdAt uuid with h1 | ⟨x, h1⟩
  · exact h1
  · rw [h1] at h
    simp at h

/-- Every action returns on a database that satisfies the invariant and whose
references name earlier rows, and keeps both. -/
theorem step_returns (L : Lib) (s : Store L) (a : Action L) (hinv : s.Inv)
    (hre : s.refsEarlier L) :
    ∃ s1, step L s a = some s1 ∧ s1.Inv ∧ s1.refsEarlier L := by
  have hsome : ∃ s1, step L s a = some s1 ∧ s1.refsEarlier L := by
    cases a with
    | submit exprStr userID now createdAt uuid =>
      refine ⟨_, rfl, ?_⟩
      cases hres : (ProcessExpression L s exprStr userID now createdAt uuid).1 with
      | error e =>
        exact refsEarlier_of_tasks_eq L s _
          (ProcessExpression_tasks_of_error L s exprStr userID now createdAt uuid e hres) hre
      | ok expr =>
        obtain ⟨tokens, tree, htok, htree, _, htasks⟩ :=
          ProcessExpression_ok L s exprStr userID now createdAt uuid expr hres
        obtain ⟨hwf, _, hbal⟩ := tokenize_spec L _ tokens htok
        have hwft := (buildExpressionTree_spec L tokens tree hwf hbal htree).1
        exact refsEarlier_append L s _ _ _ (fun t => ⟨rfl, rfl, rfl⟩) htasks
          (tasks_argsOK L uuid expr.ID tree hwft 0) hre
    | report ID Result =>
      refine ⟨_, rfl, ?_⟩
      cases hget : GetTask s ID with
      | none =>
        have : (handlePostTaskResult s ID Result).1 = s := by
          simp [handlePostTaskResult, hget]
        rw [this]
        exact hre
      | some task =>
        have hct : (CompleteTask s ID Result).refsEarlier L :=
          refsEarlier_map L s _ _ (fun r => by by_cases h : r.id = ID <;> simp [h]) rfl hre
        have htasks : (handlePostTaskResult s ID Result).1.tasks
            = (CompleteTask s ID Result).tasks := by
          simp only [handlePostTaskResult, hget]
          split <;> exact UpdateExpressionStatus_tasks _ _ _ _
        exact refsEarlier_of_tasks_eq L _ _ htasks hct
    | sweep =>
      refine ⟨_, ProcessPendingTasks_swept L s hinv.1
        (refsBackward_of_refsEarlier L s hinv.1 hre), ?_⟩
      exact refsEarlier_of_tasks_eq L s _ rfl hre
  obtain ⟨s1, hs1, hre1⟩ := hsome
  exact ⟨s1, hs1, (Inv_step s s1 a hinv hs1).1, hre1⟩

theorem run_returns (L : Lib) (actions : List (Action L)) :
    ∀ s : Store L, s.Inv → s.refsEarlier L →
      ∃ s1, run L s actions = some s1 ∧ s1.Inv ∧ s1.refsEarlier L := by
  induction actions with
  | nil => intro s hinv hre; exact ⟨s, rfl, hinv, hre⟩
  | cons a rest ih =>
    intro s hinv hre
    obtain ⟨s1, hs1, hinv1, hre1⟩ := step_returns L s a hinv hre
    obtain ⟨s2, hs2, hinv2, hre2⟩ := ih s1 hinv1 hre1
    exact ⟨s2, by rw [run, hs1]; exact hs2, hinv2, hre2⟩

theorem refsEarlier_of_reachable (L : Lib) (s : Store L) (h : Reachable L s) :
    s.refsEarlier L := by
  obtain ⟨actions, hrun⟩ := h
  obtain ⟨s1, hs1, _, hre1⟩ := run_returns L actions (Store.empty L) (Inv_empty L)
    (refsEarlier_empty L)
  rw [hrun] at hs1
  simp only [Option.some.injEq] at hs1
  subst hs1
  exact hre1

/-- From a reachable database every sequence of submissions, reports and sweeps
returns: no sweep recurses without end. -/
theorem run_returns_of_reachable (L : Lib) (s : Store L) (h : Reachable L s)
    (actions : List (Action L)) : ∃ s1, run L s actions = some s1 := by
  obtain ⟨s1, hs1, _⟩ := run_returns L actions s (Inv_of_reachable s h)
    (refsEarlier_of_reachable L s h)
  exact ⟨s1, hs1⟩

/-- A reachable database has unique keys and no reference to the same or a
later row: the databases of the statement about the sweep. -/
theorem refsBackward_of_reachable (L : Lib) (s : Store L) (h : Reachable L s) :
    s.keysUnique ∧ s.refsBackward :=
  ⟨(Inv_of_reachable s h).1,
    refsBackward_of_refsEarlier L s (Inv_of_reachable s h).1 (refsEarlier_of_reachable L s h)⟩

/-! ## The agent's `calculate` -/

/-- Claim C25. For every operator string `op` and operands `a` and `b`,
`calculate` returns an error exactly when `op` is `/` and `b` is zero, or `op`
is none of `+ - * /`; for `+`, `-` and `*` it returns the sum, the difference
and the product, and for `/` with `b` not zero the quotient. -/
theorem calculate_spec (L : Lib) (op : String) (a b : L.F) :
    ((∃ e, calculate L op a b = .error e) ↔
      (op = "/" ∧ L.eqZero b = true) ∨ ¬ (op = "+" ∨ op = "-" ∨ op = "*" ∨ op = "/")) ∧
    (op = "+" → calculate L op a b = .ok (L.add a b)) ∧
    (op = "-" → calculate L op a b = .ok (L.sub a b)) ∧
    (op = "*" → calculate L op a b = .ok (L.mul a b)) ∧
    (op = "/" → L.eqZero b = false → calculate L op a b = .ok (L.div a b)) := by
  unfold calculate
  refine ⟨?_, ?_, ?_, ?_, ?_⟩
  · by_cases h1 : op = "+"
    · subst h1; simp
    · by_cases h2 : op = "-"
      · subst h2; simp
      · by_cases h3 : op = "*"
        · subst h3; simp
        · by_cases h4 : op = "/"
          · subst h4
            by_cases hz : L.eqZero b = true <;> simp [hz]
          · simp [h1, h2, h3, h4]
  · rintro rfl; simp
  · rintro rfl; simp
  · rintro rfl; simp
  · rintro rfl hz; simp [hz]

/-- The statement of C25 on the platform `Lib.exact`, for the four operators,
a division by zero and the operator `^`. -/
theorem calculate_spec_witness :
    calculate Lib.exact "+" 6 3 = .ok 9 ∧ calculate Lib.exact "-" 6 3 = .ok 3 ∧
    calculate Lib.exact "*" 6 3 = .ok 18 ∧
    (Lib.exact.eqZero 3 = false ∧ calculate Lib.exact "/" 6 3 = .ok (Lib.exact.div 6 3)) ∧
    (("/" = "/" ∧ Lib.exact.eqZero 0 = true) ∧ ∃ e, calculate Lib.exact "/" 6 0 = .error e) ∧
    (¬ ("^" = "+" ∨ "^" = "-" ∨ "^" = "*" ∨ "^" = "/") ∧
      ∃ e, calculate Lib.exact "^" 6 3 = .error e) :=
  have h3 : Lib.exact.eqZero 3 = false := by decide
  have h0 : "/" = "/" ∧ Lib.exact.eqZero 0 = true := ⟨rfl, by decide⟩
  have hx : ¬ ("^" = "+" ∨ "^" = "-" ∨ "^" = "*" ∨ "^" = "/") := by decide
  ⟨by decide!, by decide!, by decide!,
    ⟨h3, (calculate_spec Lib.exact "/" 6 3).2.2.2.2 rfl h3⟩,
    ⟨h0, (calculate_spec Lib.exact "/" 6 0).1.2 (Or.inl h0)⟩,
    ⟨hx, (calculate_spec Lib.exact "^" 6 3).1.2 (Or.inr hx)⟩⟩

/-! ## Rejected submissions -/

theorem validate_of_tokenize_error (L : Lib) (expr : String) (e : String)
    (h : tokenize L expr = .error e) : ∃ e1, ValidateExpression L expr = .error e1 := by
  have hunb : Unbalanced expr.data := by
    rcases tokenize_cases L expr with ⟨hu, _⟩ | ⟨_, tokens, hok⟩
    · exact hu
    · rw [hok] at h; simp at h
  have hne : ¬ countParens expr.data 0 = some 0 := fun hc =>
    (countParens_balanced expr.data).1 hc hunb
  unfold ValidateExpression
  split
  · exact ⟨_, rfl⟩
  · split
    · exact ⟨_, rfl⟩
    · split
      · exact ⟨_, rfl⟩
      · split
        · exact ⟨_, rfl⟩
        · rename_i k hk
          split
          · exact ⟨_, rfl⟩
          · rename_i hk0
            exfalso
            have : k = 0 := by
              by_contra hq
              exact hk0 hq
            subst this
            exact hne hk

/-- Claim C23. When one of `ValidateExpression`, `tokenize` and
`buildExpressionTree` fails on the string without its spaces,
`ProcessExpression` returns the error of the first of them that fails and the
database it was given: the error of `ValidateExpression` when that fails; the
error of `buildExpressionTree` when the two before it succeed; and when
`tokenize` fails, `ValidateExpression`, which tests the parentheses before it,
fails as well, and its error is returned. -/
theorem ProcessExpression_rejects (L : Lib) (s : Store L) (exprStr userID : String)
    (now createdAt : Int) (uuid : Nat → String) :
    (∀ e, ValidateExpression L (removeSpaces exprStr) = .error e →
      ProcessExpression L s exprStr userID now createdAt uuid = (.error e, s)) ∧
    (∀ e, tokenize L (removeSpaces exprStr) = .error e →
      ∃ e1, ValidateExpression L (removeSpaces exprStr) = .error e1 ∧
        ProcessExpression L s exprStr userID now createdAt uuid = (.error e1, s)) ∧
    (∀ e tokens, ValidateExpression L (removeSpaces exprStr) = .ok () →
      tokenize L (removeSpaces exprStr) = .ok tokens →
      buildExpressionTree tokens = .error e →
      ProcessExpression L s exprStr userID now createdAt uuid = (.error e, s)) := by
  have h1 : ∀ e, ValidateExpression L (removeSpaces exprStr) = .error e →
      ProcessExpression L s exprStr userID now createdAt uuid = (.error e, s) := by
    intro e h
    unfold ProcessExpression
    simp only [h]
  refine ⟨h1, ?_, ?_⟩
  · intro e h
    obtain ⟨e1, he1⟩ := validate_of_tokenize_error L _ e h
    exact ⟨e1, he1, h1 e1 he1⟩
  · intro e tokens hv ht hb
    unfold ProcessExpression
    simp only [hv, ht, hb]

/-- The statement of C23 on the empty database, for a string with an invalid
character, a string with an open parenthesis and a string with a trailing
operator. -/
theorem ProcessExpression_rejects_witness :
    (ValidateExpression Lib.exact (removeSpaces "2 * (3 + x)")
        = .error "invalid character at position 5: x" ∧
      ProcessExpression Lib.exact (Store.empty Lib.exact) "2 * (3 + x)" "alice" 1 1 unaryUuid
        = (.error "invalid character at position 5: x", Store.empty Lib.exact)) ∧
    (tokenize Lib.exact (removeSpaces "(1") = .error "unbalanced parentheses" ∧
      ∃ e1, ValidateExpression Lib.exact (removeSpaces "(1") = .error e1 ∧
        ProcessExpression Lib.exact (Store.empty Lib.exact) "(1" "alice" 1 1 unaryUuid
          = (.error e1, Store.empty Lib.exact)) ∧
    (ValidateExpression Lib.exact (removeSpaces "1 +") = .ok () ∧
      tokenize Lib.exact (removeSpaces "1 +") = .ok [⟨"1", .number⟩, ⟨"+", .operator⟩] ∧
      buildExpressionTree [⟨"1", .number⟩, ⟨"+", .operator⟩] = .error "invalid expression" ∧
      ProcessExpression Lib.exact (Store.empty Lib.exact) "1 +" "alice" 1 1 unaryUuid
        = (.error "invalid expression", Store.empty Lib.exact)) :=
  have ha : ValidateExpression Lib.exact (removeSpaces "2 * (3 + x)")
      = .error "invalid character at position 5: x" := by decide
  have hb : tokenize Lib.exact (removeSpaces "(1") = .error "unbalanced parentheses" := by
    decide
  have hc1 : ValidateExpression Lib.exact (removeSpaces "1 +") = .ok () := by decide
  have hc2 : tokenize Lib.exact (removeSpaces "1 +")
      = .ok [⟨"1", .number⟩, ⟨"+", .operator⟩] := by decide
  have hc3 : buildExpressionTree [⟨"1", .number⟩, ⟨"+", .operator⟩]
      = .error "invalid expression" := by decide
  ⟨⟨ha, (ProcessExpression_rejects Lib.exact (Store.empty Lib.exact) "2 * (3 + x)" "alice" 1 1
      unaryUuid).1 _ ha⟩,
    ⟨hb, (ProcessExpression_rejects Lib.exact (Store.empty Lib.exact) "(1" "alice" 1 1
      unaryUuid).2.1 _ hb⟩,
    ⟨hc1, hc2, hc3, (ProcessExpression_rejects Lib.exact (Store.empty Lib.exact) "1 +" "alice" 1 1
      unaryUuid).2.2 _ _ hc1 hc2 hc3⟩⟩

/-! ## The result of a task for its owner -/

/-- The task that `GetTask` reads has the empty `UserID`: its query does not
select the column `user_id`. -/
theorem GetTask_userID {L : Lib} (s : Store L) (taskID : String) (task : Task L)
    (h : GetTask s taskID = some task) : task.UserID = "" := by
  simp only [GetTask, Option.map_eq_some'] at h
  obtain ⟨r, _, rfl⟩ := h
  rfl

/-- In every database and for every user and task identifier, `HandleTaskByID`
answers with a status other than 200 and without a result. -/
theorem HandleTaskByID_never_ok {L : Lib} (s : Store L) (userID id : String) :
    (HandleTaskByID s userID id).1 ≠ 200 ∧ (HandleTaskByID s userID id).2 = none := by
  unfold HandleTaskByID
  by_cases hu : userID = ""
  · simp [hu]
  · rw [if_neg hu]
    cases hget : GetTask s id with
    | none => simp
    | some task =>
      have hid := GetTask_userID s id task hget
      have hne : task.UserID ≠ userID := by
        rw [hid]
        exact fun h => hu h.symm
      simp [hne]

/-- Claim C24, at the failing input. In the database `Store.done` the task
`task-` is a task of the user `alice`, completed with the stored result 3; the
request of `alice` for it is answered with the status 403 and no result, like
the request of the user `bob`. -/
theorem owner_request_is_refused :
    Store.done.tasks.map (fun r => (r.id, r.user_id, r.result, r.completed))
      = [("task-", "alice", some (3 : ℚ), true)] ∧
    HandleTaskByID Store.done "alice" "task-" = (403, none) ∧
    HandleTaskByID Store.done "bob" "task-" = (403, none) := by
  refine ⟨?_, ?_, ?_⟩
  · decide!
  · decide!
  · decide!

/-! ## Precedence and associativity -/

theorem isOperator_iff (s : String) :
    isOperator s = true ↔ s = "+" ∨ s = "-" ∨ s = "*" ∨ s = "/" := by
  simp only [isOperator, Bool.or_eq_true, beq_iff_eq]
  tauto

/-- Claim C21. For number tokens `a`, `b`, `c` and operator tokens `o1`, `o2` (of
`+ - * /`), `buildExpressionTree` on `[a, o1, b, o2, c]` returns the tree
`o2(o1(a, b), c)` when `precedence o1 ≥ precedence o2` and the tree
`o1(a, o2(b, c))` otherwise, where the precedence of `+` and `-` is 1 and that
of `*` and `/` is 2. -/
theorem buildExpressionTree_precedence (a b c o1 o2 : token)
    (ha : a.type_ = .number) (hb : b.type_ = .number) (hc : c.type_ = .number)
    (h1 : o1.type_ = .operator) (h2 : o2.type_ = .operator)
    (hv1 : isOperator o1.value = true) (hv2 : isOperator o2.value = true) :
    buildExpressionTree [a, o1, b, o2, c] = .ok
      (if precedence o1.value ≥ precedence o2.value then
        .mk o2.value
          (.mk o1.value (.mk a.value .nil .nil "" 0) (.mk b.value .nil .nil "" 0) ""
            (precedence o1.value))
          (.mk c.value .nil .nil "" 0) "" (precedence o2.value)
      else
        .mk o1.value (.mk a.value .nil .nil "" 0)
          (.mk o2.value (.mk b.value .nil .nil "" 0) (.mk c.value .nil .nil "" 0) ""
            (precedence o2.value))
          "" (precedence o1.value)) ∧
    precedence "+" = 1 ∧ precedence "-" = 1 ∧ precedence "*" = 2 ∧ precedence "/" = 2 := by
  refine ⟨?_, by decide, by decide, by decide, by decide⟩
  obtain ⟨av, aty⟩ := a
  obtain ⟨bv, bty⟩ := b
  obtain ⟨cv, cty⟩ := c
  obtain ⟨v1, ty1⟩ := o1
  obtain ⟨v2, ty2⟩ := o2
  simp only at ha hb hc h1 h2 hv1 hv2
  subst ha hb hc h1 h2
  rw [isOperator_iff] at hv1 hv2
  rcases hv1 with rfl | rfl | rfl | rfl <;> rcases hv2 with rfl | rfl | rfl | rfl <;> rfl

/-- The statement of C21 on the tokens of `8-4-2` and of `8-4*2`. -/
theorem buildExpressionTree_precedence_witness :
    buildExpressionTree
        [⟨"8", .number⟩, ⟨"-", .operator⟩, ⟨"4", .number⟩, ⟨"-", .operator⟩, ⟨"2", .number⟩]
      = .ok (.mk "-" (.mk "-" (.mk "8" .nil .nil "" 0) (.mk "4" .nil .nil "" 0) "" 1)
          (.mk "2" .nil .nil "" 0) "" 1) ∧
    buildExpressionTree
        [⟨"8", .number⟩, ⟨"-", .operator⟩, ⟨"4", .number⟩, ⟨"*", .operator⟩, ⟨"2", .number⟩]
      = .ok (.mk "-" (.mk "8" .nil .nil "" 0)
          (.mk "*" (.mk "4" .nil .nil "" 0) (.mk "2" .nil .nil "" 0) "" 2) "" 1) :=
  ⟨(buildExpressionTree_precedence ⟨"8", .number⟩ ⟨"4", .number⟩ ⟨"2", .number⟩
      ⟨"-", .operator⟩ ⟨"-", .operator⟩ rfl rfl rfl rfl rfl (by decide) (by decide)).1,
    (buildExpressionTree_precedence ⟨"8", .number⟩ ⟨"4", .number⟩ ⟨"2", .number⟩
      ⟨"-", .operator⟩ ⟨"*", .operator⟩ rfl rfl rfl rfl rfl (by decide) (by decide)).1⟩

/-! ## Accepted strings that are no infix expressions -/

/-- In a well-formed infix expression no opening parenthesis directly follows a
number or a closing parenthesis. -/
theorem InfixForm_chain (l : List tokenType) (h : InfixForm l) :
    List.Chain' (fun x y => ¬ ((x = .number ∨ x = .rightParen) ∧ y = .leftParen)) l := by
  induction h with
  | number => exact List.chain'_singleton _
  | binary l r _ _ ihl ihr =>
    apply List.Chain'.append ihl
    · rw [List.chain'_cons']
      refine ⟨?_, ihr⟩
      intro y _ hxy
      rcases hxy.1 with h | h <;> exact absurd h (by decide)
    · intro x _ y hy hxy
      simp only [List.head?_cons, Option.mem_def, Option.some.injEq] at hy
      subst hy
      exact absurd hxy.2 (by decide)
  | parens e _ ih =>
    rw [List.cons_append, List.chain'_cons']
    constructor
    · intro y _ hxy
      rcases hxy.1 with h | h <;> exact absurd h (by decide)
    · apply List.Chain'.append ih (List.chain'_singleton _)
      intro x _ y hy hxy
      simp only [List.head?_cons, Option.mem_def, Option.some.injEq] at hy
      subst hy
      exact absurd hxy.2 (by decide)

/-- Claim C30. The strings `1(2+)` and `(1)(2)+` are no well-formed infix
expressions, yet `ValidateExpression`, `tokenize` and `buildExpressionTree`
accept both, both give the tree of `+` with the leaves 1 and 2, and both compile
to the single task with the operands 1 and 2 and the operator `+`. -/
theorem malformed_strings_accepted :
    (ValidateExpression Lib.exact "1(2+)" = .ok () ∧
      tokenize Lib.exact "1(2+)" = .ok [⟨"1", .number⟩, ⟨"(", .leftParen⟩, ⟨"2", .number⟩,
        ⟨"+", .operator⟩, ⟨")", .rightParen⟩] ∧
      ¬ InfixForm [.number, .leftParen, .number, .operator, .rightParen] ∧
      buildExpressionTree [⟨"1", .number⟩, ⟨"(", .leftParen⟩, ⟨"2", .number⟩,
          ⟨"+", .operator⟩, ⟨")", .rightParen⟩]
        = .ok (.mk "+" (.mk "1" .nil .nil "" 0) (.mk "2" .nil .nil "" 0) "" 1) ∧
      (compile Lib.exact unaryUuid "expr-1" "1(2+)").map
          (fun tasks => tasks.map (fun t => (t.Arg1, t.Operator, t.Arg2)))
        = .ok [("1", "+", "2")]) ∧
    (ValidateExpression Lib.exact "(1)(2)+" = .ok () ∧
      tokenize Lib.exact "(1)(2)+" = .ok [⟨"(", .leftParen⟩, ⟨"1", .number⟩, ⟨")", .rightParen⟩,
        ⟨"(", .leftParen⟩, ⟨"2", .number⟩, ⟨")", .rightParen⟩, ⟨"+", .operator⟩] ∧
      ¬ InfixForm [.leftParen, .number, .rightParen, .leftParen, .number, .rightParen,
        .operator] ∧
      buildExpressionTree [⟨"(", .leftParen⟩, ⟨"1", .number⟩, ⟨")", .rightParen⟩,
          ⟨"(", .leftParen⟩, ⟨"2", .number⟩, ⟨")", .rightParen⟩, ⟨"+", .operator⟩]
        = .ok (.mk "+" (.mk "1" .nil .nil "" 0) (.mk "2" .nil .nil "" 0) "" 1) ∧
      (compile Lib.exact unaryUuid "expr-1" "(1)(2)+").map
          (fun tasks => tasks.map (fun t => (t.Arg1, t.Operator, t.Arg2)))
        = .ok [("1", "+", "2")]) := by
  refine ⟨⟨by decide, by decide, ?_, by decide, by decide⟩,
    ⟨by decide, by decide, ?_, by decide, by decide⟩⟩
  · intro h
    have := InfixForm_chain _ h
    simp at this
  · intro h
    have := InfixForm_chain _ h
    simp at this

/-! ## The leaves of the tree of the parser -/

theorem leaves_leaf (v tid : String) (p : Int) : (Node.mk v .nil .nil tid p).leaves = [v] := by
  simp [Node.leaves]

theorem wellFormed_ne_nil (L : Lib) (n : Node) (h : n.WellFormed L) : n ≠ .nil := by
  intro hn
  subst hn
  exact h

theorem leaves_node (L : Lib) (v : String) (l r : Node) (tid : String) (p : Int)
    (hl : l.WellFormed L) : (Node.mk v l r tid p).leaves = l.leaves ++ r.leaves := by
  have := wellFormed_ne_nil L l hl
  simp [Node.leaves, this]

theorem leavesIn_cons (n : Node) (out : List Node) :
    leavesIn (n :: out) = leavesIn out ++ n.leaves := by
  simp [leavesIn]

theorem reduceTop_leaves (L : Lib) (op : String) (out out1 : List Node)
    (hwf : ∀ n ∈ out, n.WellFormed L) (h : reduceTop op out = .ok out1) :
    leavesIn out1 = leavesIn out := by
  unfold reduceTop at h
  split at h
  · rename_i right left rest
    simp only [Except.ok.injEq] at h
    subst h
    rw [leavesIn_cons, leavesIn_cons, leavesIn_cons,
      leaves_node L op left right "" _ (hwf left (by simp)), List.append_assoc]
  · simp at h

theorem popOperators_leaves (L : Lib) (cond : String → Bool) (st : List String) :
    ∀ (out : List Node) (st1 : List String) (out1 : List Node),
      stackOK st → (∀ op ∈ st, cond op = true → isOperator op = true) →
      (∀ n ∈ out, n.WellFormed L) →
      popOperators cond st out = .ok (st1, out1) → leavesIn out1 = leavesIn out := by
  induction st with
  | nil =>
    intro out st1 out1 _ _ _ h
    simp only [popOperators, Except.ok.injEq, Prod.mk.injEq] at h
    rw [h.2]
  | cons op rest ih =>
    intro out st1 out1 hst hcond hwf h
    rw [popOperators] at h
    split at h
    · rename_i hc
      have hop : isOperator op = true := hcond op (by simp) hc
      split at h
      · simp at h
      · rename_i out2 hred
        obtain ⟨hwf2, _⟩ := reduceTop_spec L op out out2 hop hwf hred
        rw [ih out2 st1 out1 (fun x hx => hst x (by simp [hx]))
          (fun x hx => hcond x (by simp [hx])) hwf2 h, reduceTop_leaves L op out out2 hwf hred]
    · simp only [Except.ok.injEq, Prod.mk.injEq] at h
      rw [h.2]

theorem stack_cond_operator (st : List String) (hst : stackOK st) (cond : String → Bool)
    (hcond : ∀ op, cond op = true → op ≠ "(") :
    ∀ op ∈ st, cond op = true → isOperator op = true := by
  intro op hop hc
  rcases hst op hop with h1 | h1
  · exact h1
  · exact absurd h1 (hcond op hc)

theorem buildStep_leaves (L : Lib) (t : token) (st : List String) (out : List Node)
    (st1 : List String) (out1 : List Node)
    (hst : stackOK st) (hwf : ∀ n ∈ out, n.WellFormed L)
    (h : buildStep t st out = .ok (st1, out1)) :
    leavesIn out1 = leavesIn out ++ numberTexts [t] := by
  unfold buildStep at h
  split at h
  · rename_i hty
    simp only [Except.ok.injEq, Prod.mk.injEq] at h
    obtain ⟨rfl, rfl⟩ := h
    rw [leavesIn_cons, leaves_leaf]
    simp [numberTexts, hty]
  · rename_i hty
    split at h
    · simp at h
    · rename_i st2 out2 hpop
      simp only [Except.ok.injEq, Prod.mk.injEq] at h
      obtain ⟨rfl, rfl⟩ := h
      rw [popOperators_leaves L _ st out st2 _ hst
        (stack_cond_operator st hst _ (by
          intro op hc
          simp only [Bool.and_eq_true, bne_iff_ne, ne_eq] at hc
          exact hc.2)) hwf hpop]
      simp [numberTexts, hty]
  · rename_i hty
    simp only [Except.ok.injEq, Prod.mk.injEq] at h
    obtain ⟨rfl, rfl⟩ := h
    simp [numberTexts, hty]
  · rename_i hty
    split at h
    · simp at h
    · simp at h
    · rename_i top st2 out2 hpop
      simp only [Except.ok.injEq, Prod.mk.injEq] at h
      obtain ⟨rfl, rfl⟩ := h
      rw [popOperators_leaves L _ st out _ _ hst
        (stack_cond_operator st hst _ (by
          intro op hc
          simpa using hc)) hwf hpop]
      simp [numberTexts, hty]

theorem numberTexts_cons (t : token) (ts : List token) :
    numberTexts (t :: ts) = numberTexts [t] ++ numberTexts ts := by
  unfold numberTexts
  by_cases h : t.type_ = .number <;> simp [List.filter_cons, h]

theorem buildLoop_leaves (L : Lib) (ts : List token) :
    ∀ (st : List String) (out : List Node) (st1 : List String) (out1 : List Node),
      (∀ t ∈ ts, t.WellFormed L) → stackOK st → (∀ n ∈ out, n.WellFormed L) →
      buildLoop ts st out = .ok (st1, out1) →
      leavesIn out1 = leavesIn out ++ numberTexts ts := by
  induction ts with
  | nil =>
    intro st out st1 out1 _ _ _ h
    simp only [buildLoop, Except.ok.injEq, Prod.mk.injEq] at h
    rw [h.2]
    simp [numberTexts]
  | cons t rest ih =>
    intro st out st1 out1 hts hst hwf h
    rw [buildLoop] at h
    split at h
    · simp at h
    · rename_i st2 out2 hstep
      obtain ⟨a, b, _, _⟩ := buildStep_spec L t st out st2 out2 (hts t (by simp)) hst hwf hstep
      rw [ih st2 out2 st1 out1 (fun x hx => hts x (by simp [hx])) a b h,
        buildStep_leaves L t st out st2 out2 hst hwf hstep, numberTexts_cons t rest,
        List.append_assoc]

theorem buildExpressionTree_leaves (L : Lib) (tokens : List token) (tree : Node)
    (hts : ∀ t ∈ tokens, t.WellFormed L)
    (hbal : countType .leftParen tokens = countType .rightParen tokens)
    (h : buildExpressionTree tokens = .ok tree) : tree.leaves = numberTexts tokens := by
  unfold buildExpressionTree at h
  split at h
  · simp at h
  · rename_i st out hloop
    obtain ⟨a, b, _, d⟩ := buildLoop_spec L tokens [] [] st out hts
      (by intro x hx; simp at hx) (by intro x hx; simp at hx) hloop
    have hl := buildLoop_leaves L tokens [] [] st out hts
      (by intro x hx; simp at hx) (by intro x hx; simp at hx) hloop
    have hpar : parensIn st = 0 := by
      have : parensIn ([] : List String) = 0 := rfl
      omega
    have hops : ∀ op ∈ st, isOperator op = true := by
      intro op hop
      rcases a op hop with h1 | h1
      · exact h1
      · exfalso
        have : 0 < parensIn st := by
          unfold parensIn
          exact List.length_pos_of_mem (List.mem_filter.2 ⟨hop, by simpa using h1⟩)
        omega
    split at h
    · simp at h
    · rename_i st1 n hpop
      simp only [Except.ok.injEq] at h
      subst h
      have := popOperators_leaves L (fun _ => true) st out st1 [n] a
        (fun op hop _ => hops op hop) b hpop
      rw [hl] at this
      simpa [leavesIn] using this
    · simp at h

theorem proper_of_wellFormed (L : Lib) (n : Node) (h : n.WellFormed L) : n.Proper := by
  induction n with
  | nil => exact h
  | mk v l r tid p ihl ihr =>
    simp only [Node.WellFormed] at h
    rcases h with ⟨hv, hl, hr⟩ | ⟨_, hl, hr⟩
    · exact Or.inr ⟨hv, wellFormed_ne_nil L l hl, wellFormed_ne_nil L r hr, ihl hl, ihr hr⟩
    · exact Or.inl ⟨hl, hr⟩

/-- Claim C27. For a token list that `tokenize` returns and on which
`buildExpressionTree` succeeds: the values of the leaves of the tree, from left
to right, are the texts of the number tokens in the order of the input; every
node that is no leaf has an operator as `Value` and two children that are not
nil; and every leaf holds the text of a number token. -/
theorem buildExpressionTree_keeps_order (L : Lib) (expr : String) (tokens : List token)
    (tree : Node) (htok : tokenize L expr = .ok tokens)
    (htree : buildExpressionTree tokens = .ok tree) :
    tree.leaves = numberTexts tokens ∧ tree.Proper ∧
    (∀ v ∈ tree.leaves, ∃ t ∈ tokens, t.type_ = .number ∧ t.value = v) ∧
    tree.WellFormed L := by
  obtain ⟨hwf, _, hbal⟩ := tokenize_spec L expr tokens htok
  have hl := buildExpressionTree_leaves L tokens tree hwf hbal htree
  have hw := (buildExpressionTree_spec L tokens tree hwf hbal htree).1
  refine ⟨hl, proper_of_wellFormed L tree hw, ?_, hw⟩
  intro v hv
  rw [hl] at hv
  simp only [numberTexts, List.mem_map, List.mem_filter, decide_eq_true_eq] at hv
  obtain ⟨t, ⟨ht, hty⟩, rfl⟩ := hv
  exact ⟨t, ht, hty, rfl⟩

/-- The statement of C27 on the string `8-(4-2)*3`. -/
theorem buildExpressionTree_keeps_order_witness :
    tokenize Lib.exact "8-(4-2)*3"
      = .ok [⟨"8", .number⟩, ⟨"-", .operator⟩, ⟨"(", .leftParen⟩, ⟨"4", .number⟩,
          ⟨"-", .operator⟩, ⟨"2", .number⟩, ⟨")", .rightParen⟩, ⟨"*", .operator⟩,
          ⟨"3", .number⟩] ∧
    buildExpressionTree [⟨"8", .number⟩, ⟨"-", .operator⟩, ⟨"(", .leftParen⟩, ⟨"4", .number⟩,
          ⟨"-", .operator⟩, ⟨"2", .number⟩, ⟨")", .rightParen⟩, ⟨"*", .operator⟩,
          ⟨"3", .number⟩]
      = .ok (.mk "-" (.mk "8" .nil .nil "" 0)
          (.mk "*" (.mk "-" (.mk "4" .nil .nil "" 0) (.mk "2" .nil .nil "" 0) "" 1)
            (.mk "3" .nil .nil "" 0) "" 2) "" 1) ∧
    (Node.mk "-" (.mk "8" .nil .nil "" 0)
          (.mk "*" (.mk "-" (.mk "4" .nil .nil "" 0) (.mk "2" .nil .nil "" 0) "" 1)
            (.mk "3" .nil .nil "" 0) "" 2) "" 1).leaves = ["8", "4", "2", "3"] :=
  have h1 : tokenize Lib.exact "8-(4-2)*3"
      = .ok [⟨"8", .number⟩, ⟨"-", .operator⟩, ⟨"(", .leftParen⟩, ⟨"4", .number⟩,
          ⟨"-", .operator⟩, ⟨"2", .number⟩, ⟨")", .rightParen⟩, ⟨"*", .operator⟩,
          ⟨"3", .number⟩] := by decide
  have h2 : buildExpressionTree [⟨"8", .number⟩, ⟨"-", .operator⟩, ⟨"(", .leftParen⟩,
          ⟨"4", .number⟩, ⟨"-", .operator⟩, ⟨"2", .number⟩, ⟨")", .rightParen⟩,
          ⟨"*", .operator⟩, ⟨"3", .number⟩]
      = .ok (.mk "-" (.mk "8" .nil .nil "" 0)
          (.mk "*" (.mk "-" (.mk "4" .nil .nil "" 0) (.mk "2" .nil .nil "" 0) "" 1)
            (.mk "3" .nil .nil "" 0) "" 2) "" 1) := by decide
  ⟨h1, h2, (buildExpressionTree_keeps_order Lib.exact "8-(4-2)*3" _ _ h1 h2).1⟩

/-! ## The parser on the tokens of `tokenize` -/

theorem tokenDepth_number (v : String) (rest : List token) (d : Int) :
    tokenDepth (⟨v, .number⟩ :: rest) d = tokenDepth rest d := rfl

theorem tokenDepth_operator (v : String) (rest : List token) (d : Int) :
    tokenDepth (⟨v, .operator⟩ :: rest) d = tokenDepth rest d := rfl

theorem tokenDepth_leftParen (v : String) (rest : List token) (d : Int) :
    tokenDepth (⟨v, .leftParen⟩ :: rest) d = tokenDepth rest (d + 1) := rfl

theorem tokenDepth_rightParen (v : String) (rest : List token) (d : Int) (h : ¬ d - 1 < 0) :
    tokenDepth (⟨v, .rightParen⟩ :: rest) d = tokenDepth rest (d - 1) := by
  simp [tokenDepth, h]

/-- In the tokens that the loop of `tokenize` appends, every closing parenthesis
has an opening one before it, counted from `parenCount`. -/
theorem tokenizeLoop_depth (L : Lib) (cs : List Char) :
    ∀ (tokens : List token) (current : List Char) (pc : Int) (tokens1 : List token) (pc1 : Int),
      tokenizeLoop L cs tokens current pc = .ok (tokens1, pc1) →
      ∃ new, tokens1 = tokens ++ new ∧ tokenDepth new pc = some pc1 := by
  induction cs with
  | nil =>
    intro tokens current pc tokens1 pc1 h
    simp only [tokenizeLoop, Except.ok.injEq, Prod.mk.injEq] at h
    obtain ⟨rfl, rfl⟩ := h
    exact ⟨[], by simp, rfl⟩
  | cons ch rest ih =>
    intro tokens current pc tokens1 pc1 h
    rw [tokenizeLoop] at h
    by_cases hd : (unicodeIsDigit L ch || ch == '.') = true
    · simp only [hd, if_true] at h
      split at h
      · exact ih _ _ _ _ _ h
      · obtain ⟨new, h1, h2⟩ := ih _ _ _ _ _ h
        exact ⟨(⟨String.mk (current ++ [ch]), .number⟩ : token) :: new, by simp [h1],
          by rw [tokenDepth_number]; exact h2⟩
    · simp only [hd, if_false, Bool.false_eq_true] at h
      by_cases hop : (ch == '+' || ch == '-' || ch == '*' || ch == '/') = true
      · simp only [hop, if_true] at h
        split at h
        · obtain ⟨new, h1, h2⟩ := ih _ _ _ _ _ h
          exact ⟨(⟨String.mk current, .number⟩ : token) ::
            (⟨String.singleton ch, .operator⟩ : token) :: new, by simp [h1],
            by rw [tokenDepth_number, tokenDepth_operator]; exact h2⟩
        · obtain ⟨new, h1, h2⟩ := ih _ _ _ _ _ h
          exact ⟨(⟨String.singleton ch, .operator⟩ : token) :: new, by simp [h1],
            by rw [tokenDepth_operator]; exact h2⟩
      · simp only [hop, if_false, Bool.false_eq_true] at h
        split at h
        · obtain ⟨new, h1, h2⟩ := ih _ _ _ _ _ h
          exact ⟨(⟨"(", .leftParen⟩ : token) :: new, by simp [h1],
            by rw [tokenDepth_leftParen]; exact h2⟩
        · split at h
          · split at h
            · simp at h
            · rename_i hneg
              obtain ⟨new, h1, h2⟩ := ih _ _ _ _ _ h
              by_cases hlen : current.length > 0
              · exact ⟨(⟨String.mk current, .number⟩ : token) ::
                  (⟨")", .rightParen⟩ : token) :: new, by simp [h1, hlen],
                  by rw [tokenDepth_number, tokenDepth_rightParen _ _ _ hneg]; exact h2⟩
              · exact ⟨(⟨")", .rightParen⟩ : token) :: new, by simp [h1, hlen],
                  by rw [tokenDepth_rightParen _ _ _ hneg]; exact h2⟩
          · exact ih _ _ _ _ _ h

theorem tokenize_depth (L : Lib) (expr : String) (tokens : List token)
    (h : tokenize L expr = .ok tokens) : tokenDepth tokens 0 = some 0 := by
  unfold tokenize at h
  split at h
  · simp at h
  · rename_i tokens1 pc1 hloop
    split at h
    · simp at h
    · rename_i hpc
      simp only [Except.ok.injEq] at h
      subst h
      obtain ⟨new, h1, h2⟩ := tokenizeLoop_depth L expr.data [] [] 0 _ _ hloop
      simp only [List.nil_append] at h1
      subst h1
      have : pc1 = 0 := by
        by_contra hq
        exact hpc hq
      rw [h2, this]

theorem leaves_length (L : Lib) (n : Node) (h : n.WellFormed L) :
    n.leaves.length = n.operatorCount + 1 := by
  induction n with
  | nil => exact absurd h (by simp [Node.WellFormed])
  | mk v l r tid p ihl ihr =>
    rcases h with ⟨hop, hl, hr⟩ | ⟨hnum, rfl, rfl⟩
    · rw [leaves_node L v l r tid p hl]
      simp only [List.length_append, Node.operatorCount, hop, if_true, ihl hl, ihr hr]
      omega
    · rw [leaves_leaf]
      simp [Node.operatorCount, (isNumberText_not_operator L v hnum).1]

theorem numberTexts_length (tokens : List token) :
    (numberTexts tokens).length = countType .number tokens := by
  simp [numberTexts, countType]

theorem reduceTop_error (op : String) (out : List Node) (e : String)
    (h : reduceTop op out = .error e) : e = "invalid expression" := by
  unfold reduceTop at h
  split at h
  · simp at h
  · simpa using h.symm

theorem popOperators_error (cond : String → Bool) (st : List String) :
    ∀ (out : List Node) (e : String),
      popOperators cond st out = .error e → e = "invalid expression" := by
  induction st with
  | nil =>
    intro out e h
    simp [popOperators] at h
  | cons op rest ih =>
    intro out e h
    rw [popOperators] at h
    split at h
    · split at h
      · rename_i e1 hred
        simp only [Except.error.injEq] at h
        subst h
        exact reduceTop_error _ _ _ hred
      · exact ih _ _ h
    · simp at h

/-- The parser reports unbalanced parentheses only at a closing parenthesis
met while the operator stack holds no opening one. -/
theorem buildStep_error (L : Lib) (t : token) (st : List String) (out : List Node) (e : String)
    (hst : stackOK st) (hwf : ∀ n ∈ out, n.WellFormed L)
    (h : buildStep t st out = .error e) :
    e = "invalid expression" ∨ (t.type_ = .rightParen ∧ parensIn st = 0) := by
  unfold buildStep at h
  split at h
  · simp at h
  · split at h
    · rename_i e1 hpop
      simp only [Except.error.injEq] at h
      subst h
      exact Or.inl (popOperators_error _ _ _ _ hpop)
    · simp at h
  · simp at h
  · rename_i hty
    split at h
    · rename_i e1 hpop
      simp only [Except.error.injEq] at h
      subst h
      exact Or.inl (popOperators_error _ _ _ _ hpop)
    · rename_i out2 hpop
      obtain ⟨_, _, _, d, _⟩ := popOperators_spec L (fun top => top != "(") st out [] out2 hst
        (by
          intro op hop hc
          simp only [bne_iff_ne, ne_eq] at hc
          rcases hst op hop with h1 | h1
          · exact h1
          · exact absurd h1 hc) hwf hpop
      exact Or.inr ⟨hty, by rw [← d]; rfl⟩
    · simp at h

theorem tokenDepth_cons_some (t : token) (ts : List token) (d d1 : Int)
    (h : tokenDepth (t :: ts) d = some d1) :
    (t.type_ = .rightParen → 1 ≤ d) ∧
    tokenDepth ts (d + (if t.type_ = .leftParen then 1 else 0) -
      (if t.type_ = .rightParen then 1 else 0)) = some d1 := by
  unfold tokenDepth at h
  split at h
  · rename_i hty
    simpa [hty] using h
  · rename_i hty
    split at h
    · simp at h
    · rename_i hneg
      simp only [hty, true_implies, if_true]
      refine ⟨by omega, ?_⟩
      simpa using h
  · rename_i h1 h2
    have h3 : t.type_ ≠ .leftParen := h1
    have h4 : t.type_ ≠ .rightParen := h2
    simpa [h3, h4] using h

/-- On tokens whose closing parentheses all have an opening one before them,
the loop of the parser fails only with the invalid-expression error. -/
theorem buildLoop_error (L : Lib) (ts : List token) :
    ∀ (st : List String) (out : List Node) (d d1 : Int) (e : String),
      (∀ t ∈ ts, t.WellFormed L) → stackOK st → (∀ n ∈ out, n.WellFormed L) →
      (parensIn st : Int) = d → tokenDepth ts d = some d1 →
      buildLoop ts st out = .error e → e = "invalid expression" := by
  induction ts with
  | nil =>
    intro st out d d1 e _ _ _ _ _ h
    simp [buildLoop] at h
  | cons t rest ih =>
    intro st out d d1 e hts hst hwf hd hdepth h
    obtain ⟨hpos, hrest⟩ := tokenDepth_cons_some t rest d d1 hdepth
    rw [buildLoop] at h
    split at h
    · rename_i e1 hstep
      simp only [Except.error.injEq] at h
      subst h
      rcases buildStep_error L t st out _ hst hwf hstep with h1 | ⟨h1, h2⟩
      · exact h1
      · have := hpos h1
        omega
    · rename_i st2 out2 hstep
      obtain ⟨a, b, _, c⟩ := buildStep_spec L t st out st2 out2 (hts t (by simp)) hst hwf hstep
      refine ih st2 out2 _ d1 e (fun x hx => hts x (by simp [hx])) a b ?_ hrest h
      subst hd
      cases hty : t.type_ <;> simp [hty] at c ⊢ <;> omega

theorem buildExpressionTree_error (L : Lib) (tokens : List token) (e : String)
    (hts : ∀ t ∈ tokens, t.WellFormed L) (hdepth : tokenDepth tokens 0 = some 0)
    (h : buildExpressionTree tokens = .error e) : e = "invalid expression" := by
  unfold buildExpressionTree at h
  split at h
  · rename_i e1 hloop
    simp only [Except.error.injEq] at h
    subst h
    exact buildLoop_error L tokens [] [] 0 0 _ hts (by intro x hx; simp at hx)
      (by intro x hx; simp at hx) rfl hdepth hloop
  · split at h
    · rename_i e1 hpop
      simp only [Except.error.injEq] at h
      subst h
      exact popOperators_error _ _ _ _ hpop
    · simp at h
    · simpa using h.symm

theorem buildExpressionTree_counts (L : Lib) (tokens : List token) (tree : Node)
    (hts : ∀ t ∈ tokens, t.WellFormed L)
    (hbal : countType .leftParen tokens = countType .rightParen tokens)
    (h : buildExpressionTree tokens = .ok tree) :
    countType .number tokens = countType .operator tokens + 1 := by
  obtain ⟨hwf, hops⟩ := buildExpressionTree_spec L tokens tree hts hbal h
  rw [← numberTexts_length, ← buildExpressionTree_leaves L tokens tree hts hbal h,
    leaves_length L tree hwf, hops]

/-- Claim C22. For a token list that `tokenize` returns: `buildExpressionTree`
succeeds only if the list holds exactly one more number token than operator
tokens; every other such list is rejected with the error `invalid expression`,
and no other error is ever returned for such a list. -/
theorem buildExpressionTree_operand_count (L : Lib) (expr : String) (tokens : List token)
    (htok : tokenize L expr = .ok tokens) :
    (∀ tree, buildExpressionTree tokens = .ok tree →
      countType .number tokens = countType .operator tokens + 1) ∧
    (countType .number tokens ≠ countType .operator tokens + 1 →
      buildExpressionTree tokens = .error "invalid expression") ∧
    (∀ e, buildExpressionTree tokens = .error e → e = "invalid expression") := by
  obtain ⟨hwf, _, hbal⟩ := tokenize_spec L expr tokens htok
  have hdepth := tokenize_depth L expr tokens htok
  have herr := buildExpressionTree_error L tokens
  refine ⟨fun tree h => buildExpressionTree_counts L tokens tree hwf hbal h, ?_,
    fun e h => herr e hwf hdepth h⟩
  intro hne
  cases hb : buildExpressionTree tokens with
  | error e => rw [herr e hwf hdepth hb]
  | ok tree => exact absurd (buildExpressionTree_counts L tokens tree hwf hbal hb) hne

/-- The statement of C22 on the strings `1+`, `-5` and `()`. -/
theorem buildExpressionTree_operand_count_witness :
    (tokenize Lib.exact "1+" = .ok [⟨"1", .number⟩, ⟨"+", .operator⟩] ∧
      buildExpressionTree [⟨"1", .number⟩, ⟨"+", .operator⟩] = .error "invalid expression") ∧
    (tokenize Lib.exact "-5" = .ok [⟨"-", .operator⟩, ⟨"5", .number⟩] ∧
      buildExpressionTree [⟨"-", .operator⟩, ⟨"5", .number⟩] = .error "invalid expression") ∧
    (tokenize Lib.exact "()" = .ok [⟨"(", .leftParen⟩, ⟨")", .rightParen⟩] ∧
      buildExpressionTree [⟨"(", .leftParen⟩, ⟨")", .rightParen⟩]
        = .error "invalid expression") :=
  have h1 : tokenize Lib.exact "1+" = .ok [⟨"1", .number⟩, ⟨"+", .operator⟩] := by decide
  have h2 : tokenize Lib.exact "-5" = .ok [⟨"-", .operator⟩, ⟨"5", .number⟩] := by decide
  have h3 : tokenize Lib.exact "()" = .ok [⟨"(", .leftParen⟩, ⟨")", .rightParen⟩] := by decide
  ⟨⟨h1, (buildExpressionTree_operand_count Lib.exact "1+" _ h1).2.1 (by decide)⟩,
   ⟨h2, (buildExpressionTree_operand_count Lib.exact "-5" _ h2).2.1 (by decide)⟩,
   ⟨h3, (buildExpressionTree_operand_count Lib.exact "()" _ h3).2.1 (by decide)⟩⟩

/-! ## The aggregate and the stored results -/

theorem createNodes_congr {L : Lib} (ts1 ts2 : List (Task L))
    (h : List.Forall₂ SameWork ts1 ts2) :
    ∀ m, createNodes ts1 m = createNodes ts2 m := by
  induction h with
  | nil => intro m; rfl
  | cons hab _ ih =>
    intro m
    obtain ⟨h1, _, _, h4⟩ := hab
    simp only [createNodes, h1, h4]
    exact ih _

theorem linkNodes_congr {L : Lib} (ts1 ts2 : List (Task L))
    (h : List.Forall₂ SameWork ts1 ts2) :
    ∀ m, linkNodes ts1 m = linkNodes ts2 m := by
  induction h with
  | nil => intro m; rfl
  | cons hab _ ih =>
    intro m
    obtain ⟨h1, h2, h3, _⟩ := hab
    simp only [linkNodes, h1, h2, h3]
    cases m.get _ with
    | none => exact ih _
    | some n => exact ih _

theorem getLast_congr {L : Lib} (ts1 ts2 : List (Task L))
    (h : List.Forall₂ SameWork ts1 ts2) :
    (ts1.getLast? = none ∧ ts2.getLast? = none) ∨
    ∃ a b, ts1.getLast? = some a ∧ ts2.getLast? = some b ∧ a.ID = b.ID := by
  induction h with
  | nil => exact Or.inl ⟨rfl, rfl⟩
  | cons hab htl ih =>
    cases htl with
    | nil => exact Or.inr ⟨_, _, rfl, rfl, hab.1⟩
    | cons hab1 htl1 =>
      rw [List.getLast?_cons_cons, List.getLast?_cons_cons]
      exact ih

theorem getRootNode_congr {L : Lib} (ts1 ts2 : List (Task L))
    (h : List.Forall₂ SameWork ts1 ts2) : getRootNode ts1 = getRootNode ts2 := by
  unfold getRootNode
  rw [createNodes_congr ts1 ts2 h, linkNodes_congr ts1 ts2 h]
  rcases getLast_congr ts1 ts2 h with ⟨h1, h2⟩ | ⟨a, b, h1, h2, h3⟩
  · rw [h1, h2]
  · rw [h1, h2]
    simp only [h3]

theorem createNodes_values {L : Lib} (ts : List (Task L))
    (hop : ∀ t ∈ ts, isOperator t.Operator = true) :
    ∀ m : GoMap GraphNode, (∀ id n, m.get id = some n → isOperator n.Value = true) →
      ∀ id n, (createNodes ts m).get id = some n → isOperator n.Value = true := by
  induction ts with
  | nil => intro m hm; exact hm
  | cons t rest ih =>
    intro m hm
    rw [createNodes]
    refine ih (fun x hx => hop x (by simp [hx])) _ ?_
    intro id n hn
    simp only [GoMap.set, GoMap.get] at hn
    split at hn
    · simp only [Option.some.injEq] at hn
      subst hn
      exact hop t (by simp)
    · exact hm id n hn

theorem linkNodes_values {L : Lib} (ts : List (Task L)) :
    ∀ m : GoMap GraphNode, (∀ id n, m.get id = some n → isOperator n.Value = true) →
      ∀ id n, (linkNodes ts m).get id = some n → isOperator n.Value = true := by
  induction ts with
  | nil => intro m hm; exact hm
  | cons t rest ih =>
    intro m hm
    rw [linkNodes]
    cases hget : m.get t.ID with
    | none => exact ih m hm
    | some n0 =>
      refine ih _ ?_
      intro id n hn
      simp only [GoMap.set, GoMap.get] at hn
      split at hn
      · simp only [Option.some.injEq] at hn
        subst hn
        exact hm _ n0 hget
      · exact hm id n hn

/-- When every node of the map holds an operator, the aggregator reads the map
of results only at the leaves it makes for number operands, under the empty
key. -/
theorem evaluate_congr_results (L : Lib) (nodes : GoMap GraphNode) (r1 r2 : GoMap L.F)
    (hv : ∀ id n, nodes.get id = some n → isOperator n.Value = true)
    (h1 : r1.get "" = none) (h2 : r2.get "" = none) :
    ∀ (fuel : Nat) (p : Ptr),
      evaluateWithResults L nodes r1 fuel p = evaluateWithResults L nodes r2 fuel p := by
  intro fuel
  induction fuel with
  | zero => intro p; rfl
  | succ fuel ih =>
    intro p
    rw [evaluateWithResults, evaluateWithResults]
    cases hd : deref nodes p with
    | none => rfl
    | some n =>
      simp only
      by_cases hop : isOperator n.Value = true
      · simp only [hop, Bool.not_true, Bool.false_eq_true, if_false, ih]
      · have hid : n.TaskID = "" := by
          cases p with
          | null => simp [deref] at hd
          | leaf v =>
            simp only [deref, Option.some.injEq] at hd
            subst hd
            rfl
          | task id => exact absurd (hv id n hd) hop
        simp [hop, hid, h1, h2]

theorem graphOf_values {L : Lib} (ts : List (Task L))
    (hop : ∀ t ∈ ts, isOperator t.Operator = true) :
    ∀ id n, (linkNodes ts (createNodes ts [])).get id = some n → isOperator n.Value = true :=
  linkNodes_values ts _ (createNodes_values ts hop [] (by intro id n h; simp [GoMap.get] at h))

theorem ids_congr {L : Lib} (ts1 ts2 : List (Task L)) (h : List.Forall₂ SameWork ts1 ts2) :
    ts1.map (fun t => t.ID) = ts2.map (fun t => t.ID) := by
  induction h with
  | nil => rfl
  | cons hab _ ih => simp [hab.1, ih]

theorem getRootNode_nodes {L : Lib} (ts : List (Task L)) (nodes : GoMap GraphNode) (root : Ptr)
    (h : getRootNode ts = .ok (nodes, root)) : nodes = linkNodes ts (createNodes ts []) := by
  unfold getRootNode at h
  simp only at h
  split at h
  · simp at h
  · split at h
    · simp only [Except.ok.injEq, Prod.mk.injEq] at h
      exact h.1.symm
    · simp only [Except.ok.injEq, Prod.mk.injEq] at h
      exact h.1.symm

/-- Claim C28. For two task lists, all of whose tasks are completed, that agree
task by task on `ID`, `Arg1`, `Arg2` and `Operator`, where every operator is one
of `+ - * /` and no identifier is empty: `AggregateResults` has the same outcome
on both, whatever results the tasks hold. -/
theorem AggregateResults_ignores_results (L : Lib) (ts1 ts2 : List (Task L))
    (hsame : List.Forall₂ SameWork ts1 ts2)
    (hc1 : ∀ t ∈ ts1, t.Completed = true) (hc2 : ∀ t ∈ ts2, t.Completed = true)
    (hop : ∀ t ∈ ts1, isOperator t.Operator = true) (hid : ∀ t ∈ ts1, t.ID ≠ "") :
    AggregateResults L ts1 = AggregateResults L ts2 := by
  have hid2 : ∀ t ∈ ts2, t.ID ≠ "" := by
    intro t ht
    have hmem : t.ID ∈ ts1.map (fun t => t.ID) := by
      rw [ids_congr ts1 ts2 hsame]
      exact List.mem_map_of_mem _ ht
    obtain ⟨a, ha, hat⟩ := List.mem_map.1 hmem
    rw [← hat]
    exact hid a ha
  obtain ⟨m1, hm1, hg1⟩ := collectResults_ok ts1 [] (fun t ht => ⟨hc1 t ht, hid t ht⟩) rfl
  obtain ⟨m2, hm2, hg2⟩ := collectResults_ok ts2 [] (fun t ht => ⟨hc2 t ht, hid2 t ht⟩) rfl
  unfold AggregateResults
  rw [hm1, hm2, ← getRootNode_congr ts1 ts2 hsame, ← hsame.length_eq]
  cases hroot : getRootNode ts1 with
  | error e => rfl
  | ok pr =>
    obtain ⟨nodes, root⟩ := pr
    have hn := getRootNode_nodes ts1 nodes root hroot
    subst hn
    exact evaluate_congr_results L _ m1 m2 (graphOf_values ts1 hop) hg1 hg2 _ _

/-- The statement of C28 on the tasks of `1+2*3`, once with the results 6 and 7
and once with the results 100 and 0: the aggregate is 7 both times. -/
theorem AggregateResults_ignores_results_witness :
    AggregateResults Lib.exact
      [⟨"task-a", "expr-1", "2", "3", "*", 0, (6 : ℚ), true, "u"⟩,
       ⟨"task-b", "expr-1", "1", "task:task-a", "+", 0, (7 : ℚ), true, "u"⟩]
    = AggregateResults Lib.exact
      [⟨"task-a", "expr-1", "2", "3", "*", 0, (100 : ℚ), true, "u"⟩,
       ⟨"task-b", "expr-1", "1", "task:task-a", "+", 0, (0 : ℚ), true, "u"⟩] ∧
    AggregateResults Lib.exact
      [⟨"task-a", "expr-1", "2", "3", "*", 0, (100 : ℚ), true, "u"⟩,
       ⟨"task-b", "expr-1", "1", "task:task-a", "+", 0, (0 : ℚ), true, "u"⟩]
    = some (.ok (7 : ℚ)) :=
  ⟨AggregateResults_ignores_results Lib.exact _ _
    (.cons ⟨rfl, rfl, rfl, rfl⟩ (.cons ⟨rfl, rfl, rfl, rfl⟩ .nil))
    (by decide) (by decide) (by decide) (by decide), by decide!⟩

/-! ## The graph of the aggregator and the tree of the parser -/

theorem treeAt_null (nodes : GoMap GraphNode) (fuel : Nat) :
    treeAt nodes (fuel + 1) .null = some .nil := rfl

theorem treeAt_leaf (nodes : GoMap GraphNode) (fuel : Nat) (v : String) :
    treeAt nodes (fuel + 2) (.leaf v) = some (.mk v .nil .nil "" 0) := rfl

/-- The graph of the task list `ts` holds, at the reference of a subtree whose
tasks are in `ts`, a tree with the shape and the values of the subtree. -/
theorem treeAt_subtree (L : Lib) (uuid : Nat → String) (exprID : String) (ts : List (Task L))
    (hnd : (ts.map (fun t => t.ID)).Nodup) (n : Node) :
    ∀ k, n.WellFormed L → (∀ t ∈ (createTasksFromTree L uuid exprID n k).2.1, t ∈ ts) →
      ∀ fuel, n.height < fuel →
        (treeAt (graphOf ts) fuel (childPtr (createNodes ts [])
          (getNodeReference (createTasksFromTree L uuid exprID n k).1))).map Node.shape
          = some n.shape := by
  induction n with
  | nil => intro k hwf; exact absurd hwf (by simp [Node.WellFormed])
  | mk v l r tid p ihl ihr =>
    intro k hwf hmem fuel hfuel
    rcases hwf with ⟨hop, hl, hr⟩ | ⟨hnum, rfl, rfl⟩
    · rw [tasks_mk] at hmem
      simp only [hop, if_true, List.mem_append, List.mem_singleton] at hmem
      rw [tree_mk]
      simp only [hop, if_true, getNodeReference]
      obtain ⟨fuel, rfl⟩ : ∃ f, fuel = f + 1 := ⟨fuel - 1, by omega⟩
      simp only [Node.height] at hfuel
      have h1 := ihl k hl (fun t ht => hmem t (Or.inl (Or.inl ht))) fuel (by omega)
      have h2 := ihr _ hr (fun t ht => hmem t (Or.inl (Or.inr ht))) fuel (by omega)
      have hin := hmem _ (Or.inr rfl)
      have hptr := childPtr_task ts _ hin
      have hget := graphOf_get ts hnd _ hin
      simp only at hptr hget
      rw [hptr]
      simp only [treeAt, deref, hget]
      cases ha : treeAt (graphOf ts) fuel (childPtr (createNodes ts [])
          (getNodeReference (createTasksFromTree L uuid exprID l k).1)) with
      | none => rw [ha] at h1; simp at h1
      | some a =>
        cases hb : treeAt (graphOf ts) fuel (childPtr (createNodes ts [])
            (getNodeReference (createTasksFromTree L uuid exprID r
              (createTasksFromTree L uuid exprID l k).2.2).1)) with
        | none => rw [hb] at h2; simp at h2
        | some b =>
          rw [ha] at h1
          rw [hb] at h2
          simp only [Option.map_some', Option.some.injEq] at h1 h2
          simp [Node.shape, h1, h2]
    · have hv := (isNumberText_not_operator L v hnum).1
      rw [tree_mk]
      simp only [hv, Bool.false_eq_true, if_false, getNodeReference]
      rw [childPtr_number L ts v hnum]
      obtain ⟨fuel, rfl⟩ : ∃ f, fuel = f + 2 := ⟨fuel - 2, by simp [Node.height] at hfuel; omega⟩
      rw [treeAt_leaf]
      rfl

/-- Claim C26. For a tree whose root is an operator, whose inner nodes are
operators with two children and whose leaves are number literals, and pairwise
distinct task identifiers: `getRootNode` returns, for the task list of
`createTasksFromTree`, a graph that holds at its root a tree with the shape of
the original tree and the same `Value` at every node. -/
theorem getRootNode_rebuilds_tree (L : Lib) (uuid : Nat → String) (exprID : String)
    (v : String) (l r : Node) (tid : String) (p : Int) (k : Nat)
    (hwf : (Node.mk v l r tid p).WellFormed L) (hroot : isOperator v = true)
    (hinj : Function.Injective uuid) :
    ∃ nodes root,
      getRootNode (createTasksFromTree L uuid exprID (.mk v l r tid p) k).2.1
        = .ok (nodes, root) ∧
      ∀ fuel, (Node.mk v l r tid p).height < fuel →
        (treeAt nodes fuel root).map Node.shape = some (Node.mk v l r tid p).shape := by
  have hnd := tasks_ids_nodup L uuid exprID (.mk v l r tid p) k hinj
  obtain ⟨t, ht⟩ : ∃ t, (createTasksFromTree L uuid exprID (.mk v l r tid p) k).2.1.getLast?
      = some t := by
    rw [tasks_mk]
    simp only [hroot, if_true, List.getLast?_concat]
    exact ⟨_, rfl⟩
  have hin := List.mem_of_getLast?_eq_some ht
  have href := reference_of_last L uuid exprID _ k hwf t ht
  have hptr := childPtr_task _ t hin
  have hget := graphOf_get _ hnd t hin
  have hsub := treeAt_subtree L uuid exprID _ hnd (.mk v l r tid p) k hwf (fun _ h => h)
  rw [href, hptr] at hsub
  refine ⟨graphOf (createTasksFromTree L uuid exprID (.mk v l r tid p) k).2.1, .task t.ID,
    ?_, hsub⟩
  unfold graphOf at hget
  simp only [getRootNode, ht, hget]
  rfl

/-- The statement of C26 on the tree of `1+2*3`. -/
theorem getRootNode_rebuilds_tree_witness :
    (Node.mk "+" (.mk "1" .nil .nil "" 0)
      (.mk "*" (.mk "2" .nil .nil "" 0) (.mk "3" .nil .nil "" 0) "" 2) "" 1).WellFormed
        Lib.exact ∧
    Function.Injective unaryUuid ∧
    ∃ nodes root,
      getRootNode (createTasksFromTree Lib.exact unaryUuid "expr-1"
        (.mk "+" (.mk "1" .nil .nil "" 0)
          (.mk "*" (.mk "2" .nil .nil "" 0) (.mk "3" .nil .nil "" 0) "" 2) "" 1) 0).2.1
        = .ok (nodes, root) ∧
      ∀ fuel, (Node.mk "+" (.mk "1" .nil .nil "" 0)
          (.mk "*" (.mk "2" .nil .nil "" 0) (.mk "3" .nil .nil "" 0) "" 2) "" 1).height < fuel →
        (treeAt nodes fuel root).map Node.shape
          = some (Node.mk "+" (.mk "1" .nil .nil "" 0)
              (.mk "*" (.mk "2" .nil .nil "" 0) (.mk "3" .nil .nil "" 0) "" 2) "" 1).shape :=
  have hwf : (Node.mk "+" (.mk "1" .nil .nil "" 0)
      (.mk "*" (.mk "2" .nil .nil "" 0) (.mk "3" .nil .nil "" 0) "" 2) "" 1).WellFormed
        Lib.exact :=
    Or.inl ⟨by decide, Or.inr ⟨⟨by decide, by decide⟩, rfl, rfl⟩,
      Or.inl ⟨by decide, Or.inr ⟨⟨by decide, by decide⟩, rfl, rfl⟩,
        Or.inr ⟨⟨by decide, by decide⟩, rfl, rfl⟩⟩⟩
  ⟨hwf, unaryUuid_injective,
    getRootNode_rebuilds_tree Lib.exact unaryUuid "expr-1" "+" _ _ "" 1 0 hwf (by decide)
      unaryUuid_injective⟩

/-! ## Expressions that are a single number -/

theorem removeSpaces_of_no_space (cs : List Char) (h : ∀ c ∈ cs, c ≠ ' ') :
    removeSpaces (String.mk cs) = String.mk cs := by
  unfold removeSpaces
  congr 1
  rw [List.filter_eq_self]
  intro c hc
  simpa using h c hc

theorem literal_no_space (L : Lib) (a : String) (ha : isLiteral a) : ∀ c ∈ a.data, c ≠ ' ' := by
  intro c hc
  exact (numChar_not_special L c ((isLiteral_facts L a ha).2.2.1.2 c hc)).2.2.2.2

theorem removeSpaces_literal (L : Lib) (a : String) (ha : isLiteral a) :
    removeSpaces a = a :=
  removeSpaces_of_no_space a.data (literal_no_space L a ha)

theorem removeSpaces_paren_literal (L : Lib) (a : String) (ha : isLiteral a) :
    removeSpaces ("(" ++ a ++ ")") = "(" ++ a ++ ")" := by
  apply removeSpaces_of_no_space ("(" ++ a ++ ")").data
  intro c hc
  simp only [String.data_append, List.mem_append] at hc
  rcases hc with (hc | hc) | hc
  · have : c = '(' := by simpa using hc
    rw [this]; decide
  · exact literal_no_space L a ha c hc
  · have : c = ')' := by simpa using hc
    rw [this]; decide

theorem tokenize_literal (L : Lib) (a : String) (ha : isLiteral a) :
    tokenize L a = .ok [⟨a, .number⟩] := by
  obtain ⟨ha1, ha2, _, _⟩ := isLiteral_facts L a ha
  have hdata : a.data = a.data ++ [] := by simp
  unfold tokenize
  rw [hdata, tokenizeLoop_literal L a.data ha1 ha2 _ _ _ _ (by simp)]
  simp [tokenizeLoop]

theorem tokenize_paren_literal (L : Lib) (a : String) (ha : isLiteral a) :
    tokenize L ("(" ++ a ++ ")") = .ok [⟨"(", .leftParen⟩, ⟨a, .number⟩, ⟨")", .rightParen⟩] := by
  obtain ⟨ha1, ha2, _, _⟩ := isLiteral_facts L a ha
  have hdata : ("(" ++ a ++ ")").data = '(' :: (a.data ++ (')' :: [])) := by
    simp [String.data_append]
  unfold tokenize
  rw [hdata, tokenizeLoop_leftParen,
    tokenizeLoop_literal L a.data ha1 ha2 _ _ _ _ (literal_head_not_lit _ _ (by decide)),
    tokenizeLoop_rightParen L _ _ _ (by decide)]
  simp [tokenizeLoop]

theorem validate_literal (L : Lib) (a : String) (x : L.F) (ha : isLiteral a)
    (hx : L.ParseFloat a = .ok x) : ValidateExpression L a = .ok () := by
  obtain ⟨ha1, ha2, ha3, ha4⟩ := isLiteral_facts L a ha
  have hfields : stringsFieldsFunc a (fun r =>
      r == '+' || r == '-' || r == '*' || r == '/' || r == '(' || r == ')') = [a] := by
    have hsep : ∀ ch ∈ a.data,
        (ch == '+' || ch == '-' || ch == '*' || ch == '/' || ch == '(' || ch == ')') = false := by
      intro ch hch
      obtain ⟨h1, h2, h3⟩ := ha4 ch hch
      simp only [isOperatorChar] at h1
      simp [h1, h2, h3]
    unfold stringsFieldsFunc
    have hdata : a.data = a.data ++ [] := by simp
    rw [hdata, fieldsLoop_skip _ a.data hsep, fieldsLoop]
    simp [ha1]
  unfold ValidateExpression
  rw [hfields, findInvalidChar_none L _ 0 (fun ch hch => Or.inl (ha3.2 ch hch))]
  have hlen : a.data.length ≠ 0 := by
    intro h
    exact ha1 (List.length_eq_zero.1 h)
  have hcons : findConsecutiveOperators a.data 0 = none := by
    apply findConsecutiveOperators_none
    have := chain_nonop_append a.data [] (fun ch hch => (ha4 ch hch).1) List.chain'_nil
    simpa using this
  have hpar : countParens a.data 0 = some 0 := by
    have := countParens_skip a.data (fun ch hch => (ha4 ch hch).2) [] 0
    simpa [countParens] using this
  simp only [hlen, if_false, hcons, hpar, ne_eq, not_true_eq_false]
  exact checkOperands_literals L _ (by
    intro s hs
    simp only [List.mem_cons, List.not_mem_nil, or_false] at hs
    subst hs
    exact ⟨ha, x, hx⟩)

theorem validate_paren_literal (L : Lib) (a : String) (x : L.F) (ha : isLiteral a)
    (hx : L.ParseFloat a = .ok x) : ValidateExpression L ("(" ++ a ++ ")") = .ok () := by
  obtain ⟨ha1, ha2, ha3, ha4⟩ := isLiteral_facts L a ha
  have hdata : ("(" ++ a ++ ")").data = '(' :: (a.data ++ (')' :: [])) := by
    simp [String.data_append]
  have hvalidchars : ∀ ch ∈ ("(" ++ a ++ ")").data,
      (unicodeIsDigit L ch = true ∨ ch = '.') ∨ isOperatorChar ch = true ∨
        ch = '(' ∨ ch = ')' := by
    intro ch hch
    rw [hdata] at hch
    simp only [List.mem_append, List.mem_cons, List.not_mem_nil, or_false] at hch
    rcases hch with rfl | hch | rfl
    · exact Or.inr (Or.inr (Or.inl rfl))
    · exact Or.inl (ha3.2 ch hch)
    · exact Or.inr (Or.inr (Or.inr rfl))
  have hfields : stringsFieldsFunc ("(" ++ a ++ ")") (fun r =>
      r == '+' || r == '-' || r == '*' || r == '/' || r == '(' || r == ')') = [a] := by
    have hsep : ∀ ch ∈ a.data,
        (ch == '+' || ch == '-' || ch == '*' || ch == '/' || ch == '(' || ch == ')') = false := by
      intro ch hch
      obtain ⟨h1, h2, h3⟩ := ha4 ch hch
      simp only [isOperatorChar] at h1
      simp [h1, h2, h3]
    unfold stringsFieldsFunc
    rw [hdata, fieldsLoop]
    simp only [Char.reduceBEq, Bool.or_true, Bool.or_false, if_true]
    rw [fieldsLoop_skip _ a.data hsep, fieldsLoop]
    simp [ha1, fieldsLoop]
  unfold ValidateExpression
  rw [hfields, findInvalidChar_none L _ 0 hvalidchars]
  have hlen : ("(" ++ a ++ ")").data.length ≠ 0 := by
    rw [hdata]; simp
  have hcons : findConsecutiveOperators ("(" ++ a ++ ")").data 0 = none := by
    apply findConsecutiveOperators_none
    rw [hdata]
    exact chain_cons_nonop _ _ (by decide)
      (chain_nonop_append _ _ (fun ch hch => (ha4 ch hch).1)
        (chain_cons_nonop _ _ (by decide) List.chain'_nil))
  have hpar : countParens ("(" ++ a ++ ")").data 0 = some 0 := by
    rw [hdata, countParens]
    simp only [Char.reduceBEq, if_true]
    rw [countParens_skip _ (fun ch hch => (ha4 ch hch).2), countParens]
    simp only [Char.reduceBEq, Bool.false_eq_true, if_false, if_true]
    rw [if_neg (by decide)]
    rfl
  simp only [hlen, if_false, hcons, hpar, ne_eq, not_true_eq_false]
  exact checkOperands_literals L _ (by
    intro s hs
    simp only [List.mem_cons, List.not_mem_nil, or_false] at hs
    subst hs
    exact ⟨ha, x, hx⟩)

/-- The front end on a single number, bare or in parentheses: the string holds
no space, passes the validator, and the parser gives a leaf. -/
theorem frontEnd_literal (L : Lib) (a exprStr : String) (x : L.F) (ha : isLiteral a)
    (hx : L.ParseFloat a = .ok x) (hexpr : exprStr = a ∨ exprStr = "(" ++ a ++ ")") :
    removeSpaces exprStr = exprStr ∧ ValidateExpression L exprStr = .ok () ∧
    ∃ tokens, tokenize L exprStr = .ok tokens ∧
      buildExpressionTree tokens = .ok (.mk a .nil .nil "" 0) := by
  rcases hexpr with rfl | rfl
  · exact ⟨removeSpaces_literal L _ ha, validate_literal L _ x ha hx, _,
      tokenize_literal L _ ha, rfl⟩
  · exact ⟨removeSpaces_paren_literal L a ha, validate_paren_literal L a x ha hx, _,
      tokenize_paren_literal L a ha, rfl⟩

theorem RegisterTasks_expressions {L : Lib} (s : Store L) (exprID userID : String)
    (tasks : List (Task L)) :
    (RegisterTasks s exprID userID tasks).2.expressions = s.expressions := by
  unfold RegisterTasks
  split <;> rfl

theorem NewExpression_expressions {L : Lib} (s : Store L) (exprText userID : String)
    (now createdAt : Int) :
    ∃ extra, (NewExpression s exprText userID now createdAt).2.expressions
      = s.expressions ++ extra := by
  unfold NewExpression
  simp only
  split
  · exact ⟨[], by simp⟩
  · exact ⟨_, rfl⟩

theorem ProcessExpression_expressions (L : Lib) (s : Store L) (exprStr userID : String)
    (now createdAt : Int) (uuid : Nat → String) :
    ∃ extra, (ProcessExpression L s exprStr userID now createdAt uuid).2.expressions
      = s.expressions ++ extra := by
  obtain ⟨extra, hextra⟩ := NewExpression_expressions s (removeSpaces exprStr) userID now createdAt
  unfold ProcessExpression
  simp only
  split
  · exact ⟨[], by simp⟩
  · split
    · exact ⟨[], by simp⟩
    · split
      · exact ⟨[], by simp⟩
      · split
        · rename_i e1 s1 heq
          have : s1 = (NewExpression s (removeSpaces exprStr) userID now createdAt).2 := by
            rw [heq]
          exact ⟨extra, by rw [this, hextra]⟩
        · rename_i expr s1 heq
          have h1 : s1 = (NewExpression s (removeSpaces exprStr) userID now createdAt).2 := by
            rw [heq]
          split
          · rename_i e2 s2 heq2
            have h2 := congrArg Prod.snd heq2
            simp only at h2
            exact ⟨extra, by rw [← h2, RegisterTasks_expressions, h1, hextra]⟩
          · rename_i u2 s2 heq2
            have h2 := congrArg Prod.snd heq2
            simp only at h2
            exact ⟨extra, by rw [← h2, RegisterTasks_expressions, h1, hextra]⟩

theorem idle_submit (L : Lib) (s : Store L) (id exprStr userID : String)
    (now createdAt : Int) (uuid : Nat → String) (h : s.idle id) :
    (ProcessExpression L s exprStr userID now createdAt uuid).2.idle id := by
  obtain ⟨⟨e, he, hid, hst⟩, hno⟩ := h
  obtain ⟨extra, hextra⟩ := ProcessExpression_expressions L s exprStr userID now createdAt uuid
  refine ⟨⟨e, by rw [hextra]; exact List.mem_append_left _ he, hid, hst⟩, ?_⟩
  rcases ProcessExpression_tasks_cases L s exprStr userID now createdAt uuid with h1 | ⟨expr, h1⟩
  · rw [h1]
    exact hno
  · obtain ⟨_, _, _, _, hfresh, htasks⟩ :=
      ProcessExpression_ok L s exprStr userID now createdAt uuid expr h1
    rw [htasks]
    intro r hr
    simp only [List.mem_append, List.mem_map] at hr
    rcases hr with hr | ⟨t, _, rfl⟩
    · exact hno r hr
    · intro hc
      exact hfresh e he (hid.trans hc.symm)

theorem idle_report {L : Lib} (s : Store L) (id ID : String) (res : L.F) (h : s.idle id) :
    (handlePostTaskResult s ID res).1.idle id := by
  obtain ⟨⟨e, he, hid, hst⟩, hno⟩ := h
  have htasks : ∀ r ∈ (CompleteTask s ID res).tasks, r.expression_id ≠ id := by
    intro r hr
    simp only [CompleteTask, List.mem_map] at hr
    obtain ⟨r0, hr0, rfl⟩ := hr
    split
    · exact hno r0 hr0
    · exact hno r0 hr0
  cases hget : GetTask s ID with
  | none =>
    simp only [handlePostTaskResult, hget]
    exact ⟨⟨e, he, hid, hst⟩, hno⟩
  | some task =>
    obtain ⟨row, hrow, _, htask⟩ := GetTask_eq_some s ID task hget
    have hne : e.id ≠ task.ExpressionID := by
      rw [htask, hid]
      exact fun hc => hno row hrow hc.symm
    have hmem : ∀ st (v : L.F), e ∈ (UpdateExpressionStatus (CompleteTask s ID res)
        task.ExpressionID st v).2.expressions := by
      intro st v
      rw [UpdateExpressionStatus_expressions]
      exact List.mem_map.2 ⟨e, he, by simp [hne]⟩
    simp only [handlePostTaskResult, hget]
    split
    · exact ⟨⟨e, hmem _ _, hid, hst⟩, by rw [UpdateExpressionStatus_tasks]; exact htasks⟩
    · exact ⟨⟨e, hmem _ _, hid, hst⟩, by rw [UpdateExpressionStatus_tasks]; exact htasks⟩

theorem sweepRow_idle (L : Lib) (s : Store L) (e : ExpressionRow L)
    (hno : ∀ r ∈ s.tasks, r.expression_id ≠ e.id) : sweepRow L s e = e := by
  have hcount : CountIncompleteTasks s e.id = 0 := by
    unfold CountIncompleteTasks
    rw [List.length_eq_zero, List.filter_eq_nil_iff]
    intro r hr
    simp [hno r hr]
  have hnone : GetTasksByExpression s e.id e.user_id = [] := by
    unfold GetTasksByExpression
    rw [List.map_eq_nil_iff, List.filter_eq_nil_iff]
    intro r hr
    simp [hno r hr]
  unfold sweepRow
  rw [no_executable_of_complete s e.id e.user_id hcount, hcount, hnone]
  split
  · rfl
  · rfl

theorem idle_sweep (L : Lib) (s s1 : Store L) (id : String) (hk : s.keysUnique)
    (hb : s.refsBackward) (h : s.idle id) (hs : ProcessPendingTasks L s = some s1) :
    s1.idle id := by
  obtain ⟨⟨e, he, hid, hst⟩, hno⟩ := h
  rw [ProcessPendingTasks_swept L s hk hb] at hs
  simp only [Option.some.injEq] at hs
  subst hs
  refine ⟨⟨e, ?_, hid, hst⟩, hno⟩
  refine List.mem_map.2 ⟨e, he, ?_⟩
  rw [sweepRow_idle L s e (by rw [hid]; exact hno)]
  simp

theorem idle_run (L : Lib) (id : String) (actions : List (Action L)) :
    ∀ s : Store L, s.Inv → s.refsEarlier L → s.idle id →
      ∃ s1, run L s actions = some s1 ∧ s1.Inv ∧ s1.idle id := by
  induction actions with
  | nil =>
    intro s hinv _ hidle
    exact ⟨s, rfl, hinv, hidle⟩
  | cons a rest ih =>
    intro s hinv hre hidle
    obtain ⟨s1, hs1, hinv1, hre1⟩ := step_returns L s a hinv hre
    have hidle1 : s1.idle id := by
      cases a with
      | submit exprStr userID now createdAt uuid =>
        simp only [step, Option.some.injEq] at hs1
        rw [← hs1]
        exact idle_submit L s id exprStr userID now createdAt uuid hidle
      | report ID res =>
        simp only [step, Option.some.injEq] at hs1
        rw [← hs1]
        exact idle_report s id ID res hidle
      | sweep =>
        exact idle_sweep L s s1 id hinv.1 (refsBackward_of_refsEarlier L s hinv.1 hre) hidle hs1
    obtain ⟨s2, hs2, hinv2, hidle2⟩ := ih s1 hinv1 hre1 hidle1
    exact ⟨s2, by rw [run, hs1]; exact hs2, hinv2, hidle2⟩

theorem statusOf_idle {L : Lib} (s : Store L) (id : String) (hk : s.keysUnique)
    (h : s.idle id) : statusOf s id = some "pending" := by
  obtain ⟨⟨e, he, hid, hst⟩, _⟩ := h
  rw [← hid, statusOf_of_mem s hk e he, hst]

/-- Claim C29. For a number literal `a` that `ParseFloat` accepts, submitted as
`a` or as `(a)` to a reachable database by a clock reading whose identifier is
not yet in the table: `ProcessExpression` succeeds, the expression is created
with the status `pending`, and no task is registered; and after every further
sequence of submissions, result reports and sweeps, every one of which
returns, the status of the expression is still `pending`, no task row belongs
to it, and `AggregateResults` fails on its empty task list. -/
theorem single_number_stays_pending (L : Lib) (s : Store L) (a exprStr userID : String)
    (now createdAt : Int) (uuid : Nat → String) (x : L.F)
    (hreach : Reachable L s) (ha : isLiteral a) (hx : L.ParseFloat a = .ok x)
    (hexpr : exprStr = a ∨ exprStr = "(" ++ a ++ ")")
    (hfresh : ∀ e ∈ s.expressions, e.id ≠ "expr-" ++ toString now) :
    (ProcessExpression L s exprStr userID now createdAt uuid).1
      = .ok { ID := "expr-" ++ toString now, Expression := exprStr, Status := "pending",
              Result := L.zero, CreatedAt := createdAt } ∧
    (ProcessExpression L s exprStr userID now createdAt uuid).2.tasks = s.tasks ∧
    statusOf (ProcessExpression L s exprStr userID now createdAt uuid).2
      ("expr-" ++ toString now) = some "pending" ∧
    ∀ actions : List (Action L), ∃ s1,
      run L (ProcessExpression L s exprStr userID now createdAt uuid).2 actions = some s1 ∧
      statusOf s1 ("expr-" ++ toString now) = some "pending" ∧
      (∀ r ∈ s1.tasks, r.expression_id ≠ "expr-" ++ toString now) ∧
      AggregateResults L (GetTasksByExpression s1 ("expr-" ++ toString now) userID)
        = some (.error "no tasks to aggregate") := by
  obtain ⟨hrm, hval, tokens, htok, hbuild⟩ := frontEnd_literal L a exprStr x ha hx hexpr
  have hinv := Inv_of_reachable s hreach
  have hre := refsEarlier_of_reachable L s hreach
  have hnotasks : ∀ r ∈ s.tasks, r.expression_id ≠ "expr-" ++ toString now := by
    intro r hr hc
    obtain ⟨e, he, heid⟩ := hinv.2.1 r hr
    exact hfresh e he (heid.trans hc)
  have hany : s.expressions.any (fun e => decide (e.id = "expr-" ++ toString now)) = false := by
    rw [List.any_eq_false]
    intro e he
    simpa using hfresh e he
  have hnop : isOperator a = false :=
    (isNumberText_not_operator L a (isLiteral_facts L a ha).2.2.1).1
  have hP : ProcessExpression L s exprStr userID now createdAt uuid
      = (.ok { ID := "expr-" ++ toString now, Expression := exprStr, Status := "pending",
               Result := L.zero, CreatedAt := createdAt },
         { s with expressions := s.expressions ++
            [{ id := "expr-" ++ toString now, user_id := userID, expression := exprStr,
               status := "pending", result := none, created_at := createdAt }] }) := by
    unfold ProcessExpression
    simp only [hrm, hval, htok, hbuild, NewExpression, hany, Bool.false_eq_true, if_false,
      createTasksFromTree, hnop, RegisterTasks, insertTasks, List.append_nil]
  have hstep := step_returns L s (.submit exprStr userID now createdAt uuid) hinv hre
  obtain ⟨s0, hs0, hinv0, hre0⟩ := hstep
  simp only [step, Option.some.injEq] at hs0
  have hidle : (ProcessExpression L s exprStr userID now createdAt uuid).2.idle
      ("expr-" ++ toString now) := by
    rw [hP]
    exact ⟨⟨_, List.mem_append_right _ (List.mem_singleton_self _), rfl, rfl⟩, hnotasks⟩
  rw [← hs0] at hinv0 hre0
  refine ⟨by rw [hP], by rw [hP], statusOf_idle _ _ hinv0.1 hidle, ?_⟩
  intro actions
  obtain ⟨s1, hs1, hinv1, hidle1⟩ := idle_run L _ actions _ hinv0 hre0 hidle
  refine ⟨s1, hs1, statusOf_idle _ _ hinv1.1 hidle1, hidle1.2, ?_⟩
  have hnone : GetTasksByExpression s1 ("expr-" ++ toString now) userID = [] := by
    unfold GetTasksByExpression
    rw [List.map_eq_nil_iff, List.filter_eq_nil_iff]
    intro r hr
    simp [hidle1.2 r hr]
  rw [hnone]
  rfl

/-- The statement of C29 on the string `(42)` submitted to the empty
database, with a report and a sweep as further steps. -/
theorem single_number_stays_pending_witness :
    Reachable Lib.exact (Store.empty Lib.exact) ∧ isLiteral "42" ∧
    Lib.exact.ParseFloat "42" = .ok 42 ∧
    (ProcessExpression Lib.exact (Store.empty Lib.exact) "(42)" "alice" 1 1 unaryUuid).2.tasks
      = [] ∧
    ∃ s1, run Lib.exact
        (ProcessExpression Lib.exact (Store.empty Lib.exact) "(42)" "alice" 1 1 unaryUuid).2
        [.report "task-" 42, .sweep] = some s1 ∧
      statusOf s1 "expr-1" = some "pending" :=
  have h1 : Reachable Lib.exact (Store.empty Lib.exact) := ⟨[], rfl⟩
  have h2 : isLiteral "42" := isLiteral_of_digits _ (by decide) (by decide)
  have h3 : Lib.exact.ParseFloat "42" = .ok 42 := by decide!
  have h := single_number_stays_pending Lib.exact (Store.empty Lib.exact) "42" "(42)" "alice"
    1 1 unaryUuid 42 h1 h2 h3 (Or.inr rfl) (by intro e he; simp [Store.empty] at he)
  ⟨h1, h2, h3, h.2.1,
    (h.2.2.2 [.report "task-" 42, .sweep]).elim (fun s1 hs1 => ⟨s1, hs1.1, hs1.2.1⟩)⟩

/-! ## The task of the root -/

theorem reference_of_child (L : Lib) (uuid : Nat → String) (exprID : String) (child : Node)
    (k : Nat) :
    IsReference L uuid exprID child k
      (getNodeReference (createTasksFromTree L uuid exprID child k).1) := by
  cases child with
  | nil => rfl
  | mk v l r tid p =>
    unfold IsReference
    by_cases hv : isOperator v = true
    · simp only [hv, if_true]
      rw [tasks_mk, tree_mk]
      simp only [hv, if_true, getNodeReference]
      exact ⟨_, List.getLast?_concat _, rfl, rfl⟩
    · simp only [hv, if_false]
      rw [tree_mk]
      simp [hv, getNodeReference]

/-- Claim C4. For a tree whose root is an operator, `createTasksFromTree` returns
a non-empty list whose last element is the task of the root: its `Operator` is
the root's operator, its `ID` is the identifier drawn for the root, which is
written into the root node, and its operands are the references of the two
children: the `Value` of a child that is no operator, and `task:<id>` with the
identifier of the task of a child that is an operator. -/
theorem createTasksFromTree_last_is_root (L : Lib) (uuid : Nat → String) (exprID : String)
    (Value : String) (Left Right : Node) (TaskID : String) (Priority : Int) (k : Nat)
    (hop : isOperator Value = true) :
    ∃ t : Task L,
      (createTasksFromTree L uuid exprID (.mk Value Left Right TaskID Priority) k).2.1 ≠ [] ∧
      (createTasksFromTree L uuid exprID (.mk Value Left Right TaskID Priority) k).2.1.getLast?
        = some t ∧
      t.Operator = Value ∧ t.ExpressionID = exprID ∧
      t.ID = generateTaskID uuid (k + Left.operatorCount + Right.operatorCount) ∧
      (∃ Left1 Right1,
        (createTasksFromTree L uuid exprID (.mk Value Left Right TaskID Priority) k).1
          = .mk Value Left1 Right1 t.ID Priority) ∧
      IsReference L uuid exprID Left k t.Arg1 ∧
      IsReference L uuid exprID Right (k + Left.operatorCount) t.Arg2 := by
  have hl := reference_of_child L uuid exprID Left k
  have hr := reference_of_child L uuid exprID Right (createTasksFromTree L uuid exprID Left k).2.2
  have hk1 := next_eq L uuid exprID Left k
  have hk2 := next_eq L uuid exprID Right (k + Left.operatorCount)
  rw [hk1] at hr
  rw [tasks_mk, tree_mk]
  simp only [hop, if_true, hk1, hk2]
  exact ⟨_, by simp, List.getLast?_concat _, rfl, rfl, rfl, ⟨_, _, rfl⟩, hl, hr⟩

/-- The statement of C4 on the tree of `1+2*3`: the last task is the task of
`+` with the operands `1` and `task:task-`, the reference of the task of `*`. -/
theorem createTasksFromTree_last_is_root_witness :
    isOperator "+" = true ∧
    (createTasksFromTree Lib.exact unaryUuid "expr-1"
      (.mk "+" (.mk "1" .nil .nil "" 0)
        (.mk "*" (.mk "2" .nil .nil "" 0) (.mk "3" .nil .nil "" 0) "" 2) "" 1) 0).2.1.map
        (fun t => (t.ID, t.Arg1, t.Operator, t.Arg2))
      = [("task-", "2", "*", "3"), ("task-u", "1", "+", "task:task-")] ∧
    ∃ t : Task Lib.exact,
      (createTasksFromTree Lib.exact unaryUuid "expr-1"
        (.mk "+" (.mk "1" .nil .nil "" 0)
          (.mk "*" (.mk "2" .nil .nil "" 0) (.mk "3" .nil .nil "" 0) "" 2) "" 1) 0).2.1.getLast?
        = some t ∧
      t.Operator = "+" ∧
      IsReference Lib.exact unaryUuid "expr-1" (.mk "1" .nil .nil "" 0) 0 t.Arg1 ∧
      IsReference Lib.exact unaryUuid "expr-1"
        (.mk "*" (.mk "2" .nil .nil "" 0) (.mk "3" .nil .nil "" 0) "" 2) 0 t.Arg2 :=
  ⟨by decide, by decide,
    (createTasksFromTree_last_is_root Lib.exact unaryUuid "expr-1" "+" (.mk "1" .nil .nil "" 0)
      (.mk "*" (.mk "2" .nil .nil "" 0) (.mk "3" .nil .nil "" 0) "" 2) "" 1 0 (by decide)).elim
      (fun t h => ⟨t, h.2.1, h.2.2.1, h.2.2.2.2.2.2.1, h.2.2.2.2.2.2.2⟩)⟩

/-! ## The references of a compiled task list -/

/-- Claim C3. For the tree that `buildExpressionTree` returns on the tokens of
`tokenize`, which is the tree `ProcessExpression` passes to
`createTasksFromTree`, every expression identifier, and identifiers drawn from
`uuid.New()` that are pairwise distinct: the tasks returned have pairwise
distinct identifiers, every task carries the expression identifier, and every
operand `task:<id>` names the `ID` of a task that stands strictly earlier in the
list and carries the same expression identifier; no task refers to itself or to
a later task. -/
theorem createTasksFromTree_references_earlier (L : Lib) (uuid : Nat → String)
    (exprID expr : String) (tokens : List token) (tree : Node) (k : Nat)
    (htok : tokenize L expr = .ok tokens) (htree : buildExpressionTree tokens = .ok tree)
    (hdistinct : Function.Injective uuid) :
    ((createTasksFromTree L uuid exprID tree k).2.1.map (fun t => t.ID)).Nodup ∧
    ∀ pre t post, (createTasksFromTree L uuid exprID tree k).2.1 = pre ++ t :: post →
      t.ExpressionID = exprID ∧
      (∀ id, (t.Arg1 = "task:" ++ id ∨ t.Arg2 = "task:" ++ id) →
        ∃ t1 ∈ pre, t1.ID = id ∧ t1.ExpressionID = exprID) ∧
      (∀ t2 ∈ t :: post, t.Arg1 ≠ "task:" ++ t2.ID ∧ t.Arg2 ≠ "task:" ++ t2.ID) := by
  have hplain := (buildExpressionTree_plainLeaves L expr tokens tree htok htree).2
  obtain ⟨hnd, hrefs⟩ := references_earlier_of_plainLeaves L uuid exprID tree k hplain hdistinct
  refine ⟨hnd, ?_⟩
  intro pre t post h
  obtain ⟨hexp, hres⟩ := hrefs pre t post h
  refine ⟨hexp, hres, ?_⟩
  have key : ∀ t2 ∈ t :: post, ∀ arg, (arg = t.Arg1 ∨ arg = t.Arg2) → arg ≠ "task:" ++ t2.ID := by
    intro t2 ht2 arg harg hc
    have hid : t.Arg1 = "task:" ++ t2.ID ∨ t.Arg2 = "task:" ++ t2.ID := by
      rcases harg with rfl | rfl
      · exact Or.inl hc
      · exact Or.inr hc
    obtain ⟨t1, ht1, hid1, _⟩ := hres t2.ID hid
    rw [h, List.map_append, List.nodup_append] at hnd
    exact hnd.2.2 (List.mem_map_of_mem _ ht1) (by rw [hid1]; exact List.mem_map_of_mem _ ht2)
  intro t2 ht2
  exact ⟨key t2 ht2 _ (Or.inl rfl), key t2 ht2 _ (Or.inr rfl)⟩

/-- The statement of C3 on the string `1+2*3`: the hypotheses hold there. -/
theorem createTasksFromTree_references_earlier_witness :
    tokenize Lib.exact "1+2*3"
      = .ok [⟨"1", .number⟩, ⟨"+", .operator⟩, ⟨"2", .number⟩, ⟨"*", .operator⟩,
          ⟨"3", .number⟩] ∧
    buildExpressionTree [⟨"1", .number⟩, ⟨"+", .operator⟩, ⟨"2", .number⟩, ⟨"*", .operator⟩,
          ⟨"3", .number⟩]
      = .ok (.mk "+" (.mk "1" .nil .nil "" 0)
          (.mk "*" (.mk "2" .nil .nil "" 0) (.mk "3" .nil .nil "" 0) "" 2) "" 1) ∧
    Function.Injective unaryUuid ∧
    ((createTasksFromTree Lib.exact unaryUuid "expr-1"
      (.mk "+" (.mk "1" .nil .nil "" 0)
        (.mk "*" (.mk "2" .nil .nil "" 0) (.mk "3" .nil .nil "" 0) "" 2) "" 1) 0).2.1.map
        (fun t => t.ID)).Nodup ∧
    ∀ pre t post, (createTasksFromTree Lib.exact unaryUuid "expr-1"
      (.mk "+" (.mk "1" .nil .nil "" 0)
        (.mk "*" (.mk "2" .nil .nil "" 0) (.mk "3" .nil .nil "" 0) "" 2) "" 1) 0).2.1
        = pre ++ t :: post →
      t.ExpressionID = "expr-1" ∧
      (∀ id, (t.Arg1 = "task:" ++ id ∨ t.Arg2 = "task:" ++ id) →
        ∃ t1 ∈ pre, t1.ID = id ∧ t1.ExpressionID = "expr-1") ∧
      (∀ t2 ∈ t :: post, t.Arg1 ≠ "task:" ++ t2.ID ∧ t.Arg2 ≠ "task:" ++ t2.ID) :=
  have h1 : tokenize Lib.exact "1+2*3"
      = .ok [⟨"1", .number⟩, ⟨"+", .operator⟩, ⟨"2", .number⟩, ⟨"*", .operator⟩,
          ⟨"3", .number⟩] := by decide
  have h2 : buildExpressionTree [⟨"1", .number⟩, ⟨"+", .operator⟩, ⟨"2", .number⟩,
        ⟨"*", .operator⟩, ⟨"3", .number⟩]
      = .ok (.mk "+" (.mk "1" .nil .nil "" 0)
          (.mk "*" (.mk "2" .nil .nil "" 0) (.mk "3" .nil .nil "" 0) "" 2) "" 1) := by decide
  ⟨h1, h2, unaryUuid_injective,
    createTasksFromTree_references_earlier Lib.exact unaryUuid "expr-1" "1+2*3" _ _ 0 h1 h2
      unaryUuid_injective⟩

/-! ## Executable tasks -/

theorem byteLen_pos (cs : List Char) (h : cs ≠ []) : 0 < byteLen cs := by
  obtain ⟨c, rest, rfl⟩ := List.exists_cons_of_ne_nil h
  have := Char.utf8Size_pos c
  simp only [byteLen, List.map_cons, List.sum_cons]
  omega

/-- The function `isTaskReference` accepts exactly the strings `task:<id>` with
a non-empty `id`. -/
theorem isTaskReference_iff (arg : String) :
    isTaskReference arg = true ↔ ∃ id, id ≠ "" ∧ arg = "task:" ++ id := by
  have h5 : byteLen "task:".data = 5 := by decide
  have happ : ∀ a b : List Char, byteLen (a ++ b) = byteLen a + byteLen b := by
    intro a b
    simp [byteLen]
  constructor
  · intro h
    refine ⟨dropFive arg, ?_, isTaskReference_eq arg h⟩
    intro hempty
    have heq := isTaskReference_eq arg h
    rw [hempty] at heq
    simp only [isTaskReference, Bool.and_eq_true, decide_eq_true_eq] at h
    have hlen := h.1
    rw [heq, String.data_append, happ, h5] at hlen
    have h0 : byteLen "".data = 0 := by decide
    omega
  · rintro ⟨id, hid, rfl⟩
    have hne : id.data ≠ [] := by
      intro hc
      exact hid (String.ext hc)
    have hpos := byteLen_pos id.data hne
    simp only [isTaskReference, Bool.and_eq_true, decide_eq_true_eq, beq_iff_eq,
      String.data_append]
    refine ⟨?_, by simp⟩
    rw [happ, h5]
    omega

theorem not_isTaskReference_iff (arg : String) :
    isTaskReference arg = false ↔ ∀ id, id ≠ "" → arg ≠ "task:" ++ id := by
  rw [← Bool.not_eq_true, isTaskReference_iff]
  constructor
  · intro h id hid hc
    exact h ⟨id, hid, hc⟩
  · rintro h ⟨id, hid, hc⟩
    exact h id hid hc

/-- The rows of a reachable database: every task holds one of the operators
`+ - * /` and a non-empty identifier, as `createTasksFromTree` made it. -/
theorem rows_of_run (L : Lib) (actions : List (Action L)) :
    ∀ s : Store L, s.Inv → s.refsEarlier L →
      (∀ r ∈ s.tasks, isOperator r.operator = true ∧ r.id ≠ "") →
      ∃ s1, run L s actions = some s1 ∧
        ∀ r ∈ s1.tasks, isOperator r.operator = true ∧ r.id ≠ "" := by
  induction actions with
  | nil => intro s _ _ h; exact ⟨s, rfl, h⟩
  | cons a rest ih =>
    intro s hinv hre hrows
    obtain ⟨s1, hs1, hinv1, hre1⟩ := step_returns L s a hinv hre
    have hrows1 : ∀ r ∈ s1.tasks, isOperator r.operator = true ∧ r.id ≠ "" := by
      cases a with
      | submit exprStr userID now createdAt uuid =>
        simp only [step, Option.some.injEq] at hs1
        subst hs1
        rcases ProcessExpression_tasks_cases L s exprStr userID now createdAt uuid with
          h1 | ⟨expr, h1⟩
        · rw [h1]
          exact hrows
        · obtain ⟨_, tree, _, _, _, htasks⟩ :=
            ProcessExpression_ok L s exprStr userID now createdAt uuid expr h1
          rw [htasks]
          intro r hr
          simp only [List.mem_append, List.mem_map] at hr
          rcases hr with hr | ⟨t, ht, rfl⟩
          · exact hrows r hr
          · exact tasks_operator_and_id L uuid expr.ID tree 0 t ht
      | report ID res =>
        simp only [step, Option.some.injEq] at hs1
        subst hs1
        have hct : ∀ r ∈ (CompleteTask s ID res).tasks,
            isOperator r.operator = true ∧ r.id ≠ "" := by
          intro r hr
          simp only [CompleteTask, List.mem_map] at hr
          obtain ⟨r0, hr0, rfl⟩ := hr
          split
          · exact hrows r0 hr0
          · exact hrows r0 hr0
        cases hget : GetTask s ID with
        | none =>
          simp only [handlePostTaskResult, hget]
          exact hrows
        | some task =>
          simp only [handlePostTaskResult, hget]
          split
          · rw [UpdateExpressionStatus_tasks]; exact hct
          · rw [UpdateExpressionStatus_tasks]; exact hct
      | sweep =>
        simp only [step] at hs1
        rw [ProcessPendingTasks_swept L s hinv.1
          (refsBackward_of_refsEarlier L s hinv.1 hre)] at hs1
        simp only [Option.some.injEq] at hs1
        subst hs1
        exact hrows
    obtain ⟨s2, hs2, hrows2⟩ := ih s1 hinv1 hre1 hrows1
    exact ⟨s2, by rw [run, hs1]; exact hs2, hrows2⟩

theorem rows_of_reachable (L : Lib) (s : Store L) (h : Reachable L s) :
    ∀ r ∈ s.tasks, isOperator r.operator = true ∧ r.id ≠ "" := by
  obtain ⟨actions, hrun⟩ := h
  obtain ⟨s1, hs1, hrows⟩ := rows_of_run L actions (Store.empty L) (Inv_empty L)
    (refsEarlier_empty L) (by intro r hr; simp [Store.empty] at hr)
  rw [hrun] at hs1
  simp only [Option.some.injEq] at hs1
  subst hs1
  exact hrows

/-- Claim C5. `GetExecutableTasks` returns, in the order of the table, exactly the
tasks of the expression and owner that are not completed and whose two operands
are each either no dependency reference (no string `task:<id>` with a non-empty
`id`) or `task:<id>` for a completed task of the same expression and owner.
With the primary key on `tasks.id`, a task with an operand `task:<id>` for a
task with the non-empty identifier `id` that is not completed is never
returned.  In a reachable database, where every identifier is non-empty, no
returned task has an operand `task:<id>` for a task that is not completed, and
the returned tasks are exactly the tasks of the expression and owner that are
not completed and whose every operand `task:<id>` names a completed task of the
same expression and owner. -/
theorem GetExecutableTasks_spec {L : Lib} (s : Store L) (exprID userID : String) :
    (GetExecutableTasks s exprID userID).Sublist (GetTasksByExpression s exprID userID) ∧
    (∀ t, t ∈ GetTasksByExpression s exprID userID ↔
      ∃ r ∈ s.tasks, r.expression_id = exprID ∧ r.user_id = userID ∧ t = r.scan) ∧
    (∀ t, t ∈ GetExecutableTasks s exprID userID ↔
      t ∈ GetTasksByExpression s exprID userID ∧ t.Completed = false ∧
      ((∀ id, id ≠ "" → t.Arg1 ≠ "task:" ++ id) ∨
        ∃ t2 ∈ GetTasksByExpression s exprID userID,
          t2.Completed = true ∧ t.Arg1 = "task:" ++ t2.ID) ∧
      ((∀ id, id ≠ "" → t.Arg2 ≠ "task:" ++ id) ∨
        ∃ t2 ∈ GetTasksByExpression s exprID userID,
          t2.Completed = true ∧ t.Arg2 = "task:" ++ t2.ID)) ∧
    (s.keysUnique → ∀ t ∈ GetExecutableTasks s exprID userID, ∀ r ∈ s.tasks,
      r.completed = false → r.id ≠ "" →
        t.Arg1 ≠ "task:" ++ r.id ∧ t.Arg2 ≠ "task:" ++ r.id) ∧
    (Reachable L s → ∀ t ∈ GetExecutableTasks s exprID userID, ∀ r ∈ s.tasks,
      r.completed = false → t.Arg1 ≠ "task:" ++ r.id ∧ t.Arg2 ≠ "task:" ++ r.id) ∧
    (Reachable L s → ∀ t, t ∈ GetExecutableTasks s exprID userID ↔
      t ∈ GetTasksByExpression s exprID userID ∧ t.Completed = false ∧
      ∀ id, (t.Arg1 = "task:" ++ id ∨ t.Arg2 = "task:" ++ id) →
        ∃ t2 ∈ GetTasksByExpression s exprID userID, t2.Completed = true ∧ t2.ID = id) := by
  have hiff : ∀ t, t ∈ GetExecutableTasks s exprID userID ↔
      t ∈ GetTasksByExpression s exprID userID ∧ t.Completed = false ∧
      ((∀ id, id ≠ "" → t.Arg1 ≠ "task:" ++ id) ∨
        ∃ t2 ∈ GetTasksByExpression s exprID userID,
          t2.Completed = true ∧ t.Arg1 = "task:" ++ t2.ID) ∧
      ((∀ id, id ≠ "" → t.Arg2 ≠ "task:" ++ id) ∨
        ∃ t2 ∈ GetTasksByExpression s exprID userID,
          t2.Completed = true ∧ t.Arg2 = "task:" ++ t2.ID) := by
    intro t
    simp only [GetExecutableTasks, List.mem_filter, Bool.and_eq_true, operand_ready_iff,
      Bool.not_eq_true', not_isTaskReference_iff]
  have key : s.keysUnique → ∀ arg : String,
      ((∀ id, id ≠ "" → arg ≠ "task:" ++ id) ∨
        ∃ t2 ∈ GetTasksByExpression s exprID userID,
          t2.Completed = true ∧ arg = "task:" ++ t2.ID) →
      ∀ r ∈ s.tasks, r.completed = false → r.id ≠ "" → arg ≠ "task:" ++ r.id := by
    intro hk arg h r hr hrc hrid harg
    rcases h with h | ⟨t2, ht2, hc, hid⟩
    · exact h r.id hrid harg
    · obtain ⟨r2, hr2, _, _, rfl⟩ := (mem_GetTasksByExpression s exprID userID t2).1 ht2
      have hid2 : r.id = r2.id :=
        string_append_left_cancel "task:" r.id r2.scan.ID (by rw [← harg, ← hid])
      have := row_eq_of_id s hk r r2 hr hr2 hid2
      subst this
      simp only [TaskRow.scan] at hc
      rw [hrc] at hc
      exact Bool.false_ne_true hc
  refine ⟨List.filter_sublist _, mem_GetTasksByExpression s exprID userID, hiff, ?_, ?_, ?_⟩
  · intro hk t ht r hr hrc hrid
    obtain ⟨_, _, h1, h2⟩ := (hiff t).1 ht
    exact ⟨key hk _ h1 r hr hrc hrid, key hk _ h2 r hr hrc hrid⟩
  · intro hreach t ht r hr hrc
    have hk := (Inv_of_reachable s hreach).1
    have hrid := (rows_of_reachable L s hreach r hr).2
    obtain ⟨_, _, h1, h2⟩ := (hiff t).1 ht
    exact ⟨key hk _ h1 r hr hrc hrid, key hk _ h2 r hr hrc hrid⟩
  · intro hreach t
    have hre := refsEarlier_of_reachable L s hreach
    have hrows := rows_of_reachable L s hreach
    have hready : ∀ arg, (arg = t.Arg1 ∨ arg = t.Arg2) →
        t ∈ GetTasksByExpression s exprID userID →
        (((∀ id, id ≠ "" → arg ≠ "task:" ++ id) ∨
          ∃ t2 ∈ GetTasksByExpression s exprID userID,
            t2.Completed = true ∧ arg = "task:" ++ t2.ID) ↔
        ∀ id, arg = "task:" ++ id →
          ∃ t2 ∈ GetTasksByExpression s exprID userID, t2.Completed = true ∧ t2.ID = id) := by
      intro arg harg hmem
      obtain ⟨r, hr, _, _, hscan⟩ := (mem_GetTasksByExpression s exprID userID t).1 hmem
      have hargr : arg = r.arg1 ∨ arg = r.arg2 := by
        rw [hscan] at harg
        exact harg
      obtain ⟨pre, post, hsplit⟩ := List.append_of_mem hr
      constructor
      · rintro (h | ⟨t2, ht2, hc, hid⟩) id hid1
        · rcases hre pre r post hsplit arg hargr with hnum | ⟨r1, hr1, hr1id⟩
          · have hpre := (isNumberText_not_operator L arg hnum).2
            rw [hid1, hasPrefix_append] at hpre
            exact absurd hpre (by decide)
          · exact absurd hr1id (h r1.id (hrows r1 (by rw [hsplit]; simp [hr1])).2)
        · exact ⟨t2, ht2, hc, string_append_left_cancel "task:" _ _ (by rw [← hid, ← hid1])⟩
      · intro h
        by_cases hex : ∃ id, id ≠ "" ∧ arg = "task:" ++ id
        · obtain ⟨id, _, hid⟩ := hex
          obtain ⟨t2, ht2, hc, hid2⟩ := h id hid
          exact Or.inr ⟨t2, ht2, hc, by rw [hid2]; exact hid⟩
        · exact Or.inl (fun id hid hc => hex ⟨id, hid, hc⟩)
    rw [hiff]
    constructor
    · rintro ⟨hmem, hc, h1, h2⟩
      refine ⟨hmem, hc, ?_⟩
      rintro id (hid | hid)
      · exact (hready _ (Or.inl rfl) hmem).1 h1 id hid
      · exact (hready _ (Or.inr rfl) hmem).1 h2 id hid
    · rintro ⟨hmem, hc, h⟩
      exact ⟨hmem, hc, (hready _ (Or.inl rfl) hmem).2 (fun id hid => h id (Or.inl hid)),
        (hready _ (Or.inr rfl) hmem).2 (fun id hid => h id (Or.inr hid))⟩

/-- The statement of C5 on the database `Store.sample`, which is reachable and
holds the tasks of `1+2*3`, none completed: the task of `*` is returned, and the
task of `+`, whose second operand refers to the task of `*`, is not. -/
theorem GetExecutableTasks_spec_witness :
    Store.sample.keysUnique ∧ Reachable Lib.exact Store.sample ∧
    (GetTasksByExpression Store.sample "expr-1" "alice").map
        (fun t => (t.ID, t.Arg1, t.Operator, t.Arg2))
      = [("task-", "2", "*", "3"), ("task-u", "1", "+", "task:task-")] ∧
    (GetExecutableTasks Store.sample "expr-1" "alice").map
        (fun t => (t.ID, t.Arg1, t.Operator, t.Arg2))
      = [("task-", "2", "*", "3")] ∧
    ∀ t ∈ GetExecutableTasks Store.sample "expr-1" "alice", ∀ r ∈ Store.sample.tasks,
      r.completed = false → t.Arg1 ≠ "task:" ++ r.id ∧ t.Arg2 ≠ "task:" ++ r.id :=
  have hreach : Reachable Lib.exact Store.sample :=
    ⟨[.submit "1+2*3" "alice" 1 1 unaryUuid], rfl⟩
  ⟨Store.sample_keysUnique, hreach, by decide, by decide,
    (GetExecutableTasks_spec Store.sample "expr-1" "alice").2.2.2.2.1 hreach⟩

/-! ## Operators of the stored tasks -/

/-- Claim C16. In a reachable database every task holds one of the operators
`+ - * /`, because `createTasksFromTree` makes a task only for a node whose
`Value` is one of them and no handler writes the column; so the task sets that
`AggregateResults` is given hold no task with another operator, and on each of
them the statement that a task with another operator makes `AggregateResults`
return an error holds, its case never arising. -/
theorem AggregateResults_unknown_operator (L : Lib) (s : Store L) (exprID userID : String)
    (hreach : Reachable L s) :
    (∀ r ∈ s.tasks, isOperator r.operator = true) ∧
    (∀ t ∈ GetTasksByExpression s exprID userID, isOperator t.Operator = true) ∧
    ((∃ t ∈ GetTasksByExpression s exprID userID, isOperator t.Operator = false) →
      ∃ e, AggregateResults L (GetTasksByExpression s exprID userID) = some (.error e)) := by
  have hrows := rows_of_reachable L s hreach
  have htasks : ∀ t ∈ GetTasksByExpression s exprID userID, isOperator t.Operator = true := by
    intro t ht
    obtain ⟨r, hr, _, _, rfl⟩ := (mem_GetTasksByExpression s exprID userID t).1 ht
    exact (hrows r hr).1
  refine ⟨fun r hr => (hrows r hr).1, htasks, ?_⟩
  rintro ⟨t, ht, hbad⟩
  rw [htasks t ht] at hbad
  exact absurd hbad (by decide)

/-- The statement of C16 on the database `Store.done`, reached by the
submission of `1+2` and the report of 3 for its task. -/
theorem AggregateResults_unknown_operator_witness :
    Reachable Lib.exact Store.done ∧
    (GetTasksByExpression Store.done "expr-1" "alice").map
        (fun t => (t.ID, t.Arg1, t.Operator, t.Arg2, t.Completed))
      = [("task-", "1", "+", "2", true)] ∧
    (∀ t ∈ GetTasksByExpression Store.done "expr-1" "alice", isOperator t.Operator = true) :=
  have h1 : Reachable Lib.exact Store.done :=
    ⟨[.submit "1+2" "alice" 1 1 unaryUuid, .report "task-" 3], rfl⟩
  ⟨h1, by decide,
    (AggregateResults_unknown_operator Lib.exact Store.done "expr-1" "alice" h1).2.1⟩

end Calc
